import Mathlib

/-!
# esmodels: the search query object model (`search.go`)

A shallow embedding of package `search` and of the part of Go's `encoding/json`
that the package relies on, followed by theorems about them.

Conventions of the embedding

* A Go `string` is a finite sequence of bytes (`GoString`); nothing forces it to
  be valid UTF-8, exactly as in Go.
* A Go pointer `*T` is an `Option T` (`none` is `nil`); a setter with a pointer
  receiver is a function from the record before the call to the record after
  it.  Sharing between two pointers to the same record is not represented: a
  query tree is a tree of values.
* A Go `map[string]V` that is not `nil` is a `GoMap V`: its entries, one per
  key, kept in ascending byte order of the keys, which is the order in which
  `encoding/json` emits them.  A `nil` map is `none`.
* The mutex of `Query` only serialises concurrent callers; a sequential call of
  `SetTerm`/`SetMatch` is the body between `Lock` and `Unlock`.  Concurrent
  callers of `SetTerm` are modelled apart, as interleavings of the statements
  of the method (`stepSetTerm`, `run`).
* The Go struct `Bool` is called `BoolQuery` and the Go struct `Sort` is called
  `SortSpec` here (`Bool` and `Sort` are taken in Lean); the fields `Type` of
  `Sort` and `Sort` of `Search` are `Type_` and `Sort_` for the same reason.
-/

namespace ES

/-! ## Strings -/

/-- One byte. -/
abbrev Byte := Fin 256

/-- A Go `string`: a sequence of bytes. -/
abbrev GoString := List Byte

/-- The UTF-8 encoding of a rune, `utf8.AppendRune`; surrogates and values
above U+10FFFF are encoded as U+FFFD. -/
def encodeRune (r : Nat) : List Byte :=
  if r < 0x80 then [⟨r % 256, by omega⟩]
  else if r < 0x800 then
    [⟨(0xC0 + r / 64) % 256, by omega⟩, ⟨(0x80 + r % 64) % 256, by omega⟩]
  else if 0xD800 ≤ r ∧ r < 0xE000 then [0xEF, 0xBF, 0xBD]
  else if r < 0x10000 then
    [⟨(0xE0 + r / 4096) % 256, by omega⟩, ⟨(0x80 + r / 64 % 64) % 256, by omega⟩,
     ⟨(0x80 + r % 64) % 256, by omega⟩]
  else if r < 0x110000 then
    [⟨(0xF0 + r / 262144) % 256, by omega⟩, ⟨(0x80 + r / 4096 % 64) % 256, by omega⟩,
     ⟨(0x80 + r / 64 % 64) % 256, by omega⟩, ⟨(0x80 + r % 64) % 256, by omega⟩]
  else [0xEF, 0xBF, 0xBD]

/-- The Go string that a source literal denotes (its UTF-8 bytes). -/
def GoString.lit (s : String) : GoString :=
  s.toList.flatMap (fun c => encodeRune c.toNat)

/-! ## Maps -/

/-- Insert or overwrite the entry for `k` in a key-ordered entry list. -/
def insertEntry {V : Type} (k : GoString) (v : V) :
    List (GoString × V) → List (GoString × V)
  | [] => [(k, v)]
  | (k', v') :: rest =>
    if k = k' then (k, v) :: rest
    else if k < k' then (k, v) :: (k', v') :: rest
    else (k', v') :: insertEntry k v rest

/-- The value stored under `k` in an entry list, if any. -/
def lookupEntry {V : Type} (k : GoString) : List (GoString × V) → Option V
  | [] => none
  | (k', v') :: rest => if k = k' then some v' else lookupEntry k rest

/-- The keys of an entry list, in order. -/
def entryKeys {V : Type} (l : List (GoString × V)) : List GoString :=
  l.map Prod.fst

/-- A key bounds every key of an entry list from below. -/
def KeyBelow {V : Type} (k : GoString) (l : List (GoString × V)) : Prop :=
  ∀ e ∈ l, k < e.1

/-- Keys strictly ascending: one entry per key, in emission order. -/
def KeysAscending {V : Type} : List (GoString × V) → Prop
  | [] => True
  | e :: rest => KeyBelow e.1 rest ∧ KeysAscending rest

theorem keyBelow_insertEntry {V : Type} (k0 k : GoString) (v : V)
    (l : List (GoString × V)) (h0 : k0 < k) (hl : KeyBelow k0 l) :
    KeyBelow k0 (insertEntry k v l) := by
  induction l with
  | nil =>
    intro e he
    simp [insertEntry] at he
    subst he
    exact h0
  | cons hd tl ih =>
    obtain ⟨k', v'⟩ := hd
    have hhd : k0 < k' := hl (k', v') (List.mem_cons_self _ _)
    have htl : KeyBelow k0 tl := fun e he => hl e (List.mem_cons_of_mem _ he)
    unfold insertEntry
    split_ifs with h1 h2
    · intro e he
      rcases List.mem_cons.1 he with rfl | he
      · exact h0
      · exact htl e he
    · intro e he
      rcases List.mem_cons.1 he with rfl | he
      · exact h0
      · exact hl e he
    · intro e he
      rcases List.mem_cons.1 he with rfl | he
      · exact hhd
      · exact ih htl e he

theorem keysAscending_insertEntry {V : Type} (k : GoString) (v : V)
    (l : List (GoString × V)) (hl : KeysAscending l) :
    KeysAscending (insertEntry k v l) := by
  induction l with
  | nil => exact ⟨fun e he => by simp at he, trivial⟩
  | cons hd tl ih =>
    obtain ⟨k', v'⟩ := hd
    obtain ⟨hb, ht⟩ := hl
    unfold insertEntry
    split_ifs with h1 h2
    · subst h1
      exact ⟨hb, ht⟩
    · refine ⟨?_, hb, ht⟩
      intro e he
      rcases List.mem_cons.1 he with rfl | he
      · exact h2
      · exact lt_trans h2 (hb e he)
    · refine ⟨?_, ih ht⟩
      have hlt : k' < k := by
        rcases lt_trichotomy k k' with h | h | h
        · exact absurd h h2
        · exact absurd h h1
        · exact h
      exact keyBelow_insertEntry k' k v tl hlt hb

/-- A non-nil Go `map[string]V`. -/
structure GoMap (V : Type) where
  /-- The entries, in ascending key order. -/
  entries : List (GoString × V)
  /-- A map holds one entry per key. -/
  ascending : KeysAscending entries

/-- The map `make(map[string]V)`. -/
def GoMap.empty {V : Type} : GoMap V := ⟨[], trivial⟩

/-- The assignment `m[k] = v`. -/
def GoMap.set {V : Type} (m : GoMap V) (k : GoString) (v : V) : GoMap V :=
  ⟨insertEntry k v m.entries, keysAscending_insertEntry k v m.entries m.ascending⟩

/-- The lookup `m[k]`, `none` when `k` is absent. -/
def GoMap.get? {V : Type} (m : GoMap V) (k : GoString) : Option V :=
  lookupEntry k m.entries

/-- The number of entries, `len(m)`. -/
def GoMap.len {V : Type} (m : GoMap V) : Nat := m.entries.length

/-- How many entries of the map have key `k`. -/
def GoMap.countKey {V : Type} (m : GoMap V) (k : GoString) : Nat :=
  (entryKeys m.entries).count k

/-! ## Numbers -/

/-- A Go `float64`: a finite value `(-1)^neg * mant * 2^exp`, an infinity or a
NaN. -/
inductive Float64 where
  | finite (neg : Bool) (mant : Nat) (exp : Int)
  | inf (neg : Bool)
  | nan

/-- The float64 `0` (the zero value of the type). -/
def Float64.zero : Float64 := .finite false 0 0

/-- The comparison `f == 0`; true of both zeros. -/
def Float64.isZero : Float64 → Bool
  | .finite _ mant _ => mant == 0
  | _ => false

/-- Whether the value is neither an infinity nor a NaN. -/
def Float64.isFinite : Float64 → Bool
  | .finite _ _ _ => true
  | _ => false

/-! ## Enumerated wire values -/

/-- Go `type RangeRelation string`. -/
structure RangeRelation where
  val : GoString
deriving DecidableEq

/-- Go `type MatchOperator string`. -/
structure MatchOperator where
  val : GoString
deriving DecidableEq

/-- Go `type ZeroTermsQuery string`. -/
structure ZeroTermsQuery where
  val : GoString
deriving DecidableEq

/-- Go `type SortOrder string`. -/
structure SortOrder where
  val : GoString
deriving DecidableEq

/-- Go `type SortMode string`. -/
structure SortMode where
  val : GoString
deriving DecidableEq

def RangeRelationIntersects : RangeRelation := ⟨GoString.lit "INTERSECTS"⟩
def RangeRelationContains : RangeRelation := ⟨GoString.lit "CONTAINS"⟩
def RangeRelationWithin : RangeRelation := ⟨GoString.lit "WITHIN"⟩

def MatchOperatorOr : MatchOperator := ⟨GoString.lit "OR"⟩
def MatchOperatorAnd : MatchOperator := ⟨GoString.lit "AND"⟩

def ZeroTermsQueryAll : ZeroTermsQuery := ⟨GoString.lit "all"⟩
def ZeroTermsQueryNone : ZeroTermsQuery := ⟨GoString.lit "None"⟩

def SortOrderAsc : SortOrder := ⟨GoString.lit "asc"⟩
def SortOrderDesc : SortOrder := ⟨GoString.lit "desc"⟩

def SortModeMin : SortMode := ⟨GoString.lit "min"⟩
def SortModeMax : SortMode := ⟨GoString.lit "max"⟩
def SortModeSum : SortMode := ⟨GoString.lit "sum"⟩
def SortModeAvg : SortMode := ⟨GoString.lit "avg"⟩
def SortModeMedian : SortMode := ⟨GoString.lit "median"⟩

/-! ## Records -/

/-- Go `type Sort struct` (lines 427-432). -/
structure SortSpec where
  Order : SortOrder
  Type_ : GoString
  Format : GoString
  Mode : SortMode

/-- The record `new(Sort)` points to. -/
def SortSpec.zero : SortSpec := ⟨⟨[]⟩, [], [], ⟨[]⟩⟩

/-- A value of the Go interface type `any`, as far as the package and its
callers put one into a request: `nil`, a `bool`, an `int`, a `float64`, a
`string`, a non-nil slice (`[]any`, or a `[]string` given by its elements), a
non-nil `map[string]any` given by its entries in ascending key order, or a
`Sort` held by value or through a non-nil pointer. -/
inductive Any where
  | nil
  | bool (b : Bool)
  | int (i : Int)
  | float (f : Float64)
  | str (s : GoString)
  | slice (l : List Any)
  | map (m : List (GoString × Any))
  | sort (s : SortSpec)

/-- Go `type Term struct` (lines 159-163); `CaseSensitive *bool`. -/
structure Term where
  Value : GoString
  Boost : Float64
  CaseSensitive : Option Bool

/-- The record `new(Term)` points to. -/
def Term.zero : Term := ⟨[], Float64.zero, none⟩

/-- Go `type Range struct` (lines 191-200). -/
structure Range where
  GT : Any
  GTE : Any
  LT : Any
  LTE : Any
  Boost : Float64
  Format : GoString
  Relation : RangeRelation
  TimeZone : GoString

/-- The record `new(Range)` points to. -/
def Range.zero : Range := ⟨.nil, .nil, .nil, .nil, Float64.zero, [], ⟨[]⟩, []⟩

/-- Go `type MatchAll struct` (lines 252-254). -/
structure MatchAll where
  Boost : Float64

/-- The record `new(MatchAll)` points to. -/
def MatchAll.zero : MatchAll := ⟨Float64.zero⟩

/-- Go `type MatchNone struct{}` (line 271). -/
structure MatchNone where
deriving DecidableEq

/-- The record `new(MatchNone)` points to. -/
def MatchNone.zero : MatchNone := ⟨⟩

/-- Go `type Match struct` (lines 283-304); `FuzzyTranspositions` and `Lenient`
are `*bool`, `MaxExpansions` and `PrefixLength` are `int`. -/
structure Match where
  Query : Any
  Operator : MatchOperator
  Boost : Float64
  FuzzyTranspositions : Option Bool
  FuzzyRewrite : GoString
  MaxExpansions : Int
  Lenient : Option Bool
  ZeroTermsQuery : ES.ZeroTermsQuery
  Fuzziness : GoString
  PrefixLength : Int
  MinimumShouldMatch : GoString

/-- The record `new(Match)` points to. -/
def Match.zero : Match :=
  ⟨.nil, ⟨[]⟩, Float64.zero, none, [], 0, none, ⟨[]⟩, [], 0, []⟩

mutual
/-- Go `type Query struct` (lines 373-382), without the mutex. -/
inductive Query where
  | mk (matchAll : Option MatchAll) (matchNone : Option MatchNone)
      (bool : Option BoolQuery) (term : Option (GoMap Term))
      (match_ : Option (GoMap Match))
/-- Go `type Bool struct` (lines 122-127).  A slice is the list of its
elements; a nil slice and an empty one are both `[]` (under `omitempty` they
encode alike and the package never tells them apart). -/
inductive BoolQuery where
  | mk (must : List (Option Query)) (mustNot : List (Option Query))
      (should : List (Option Query)) (filter : Option Query)
end

def Query.MatchAll : Query → Option ES.MatchAll
  | .mk ma _ _ _ _ => ma

def Query.MatchNone : Query → Option ES.MatchNone
  | .mk _ mn _ _ _ => mn

def Query.Bool : Query → Option BoolQuery
  | .mk _ _ b _ _ => b

def Query.Term : Query → Option (GoMap ES.Term)
  | .mk _ _ _ t _ => t

def Query.Match : Query → Option (GoMap ES.Match)
  | .mk _ _ _ _ m => m

def BoolQuery.Must : BoolQuery → List (Option Query)
  | .mk m _ _ _ => m

def BoolQuery.MustNot : BoolQuery → List (Option Query)
  | .mk _ mn _ _ => mn

def BoolQuery.Should : BoolQuery → List (Option Query)
  | .mk _ _ s _ => s

def BoolQuery.Filter : BoolQuery → Option Query
  | .mk _ _ _ f => f

/-- The record `new(Query)` points to. -/
def Query.zero : Query := .mk none none none none none

/-- The record `new(Bool)` points to. -/
def BoolQuery.zero : BoolQuery := .mk [] [] [] none

/-- Go `type Search struct` (lines 464-476).  `Sort []map[string]any`: each
element is a map given by its entries in ascending key order, or a nil map. -/
structure Search where
  Size : Int
  Sort_ : List (Option (List (GoString × Any)))
  Query : Option Query
  Source : Any

/-- The record `new(Search)` points to. -/
def Search.zero : Search := ⟨0, [], none, .nil⟩

/-! ## Builders and setters -/

/-- The shared body of the builders: `x := new(T); for _, fn := range opts
{ fn(x) }; return x`.  A configuration function `func(*T)` is the function
from the record it is handed to the record it leaves. -/
def applyOpts {T : Type} (zero : T) (opts : List (T → T)) : T :=
  opts.foldl (fun x fn => fn x) zero

def NewBool (opts : List (BoolQuery → BoolQuery)) : BoolQuery :=
  applyOpts BoolQuery.zero opts

def BoolQuery.AddMust (b : BoolQuery) (m : Option Query) : BoolQuery :=
  .mk (b.Must ++ [m]) b.MustNot b.Should b.Filter

def BoolQuery.AddMustNot (b : BoolQuery) (mn : Option Query) : BoolQuery :=
  .mk b.Must (b.MustNot ++ [mn]) b.Should b.Filter

def BoolQuery.AddShould (b : BoolQuery) (s : Option Query) : BoolQuery :=
  .mk b.Must b.MustNot (b.Should ++ [s]) b.Filter

def BoolQuery.SetFilter (b : BoolQuery) (q : Option Query) : BoolQuery :=
  .mk b.Must b.MustNot b.Should q

def NewTerm (opts : List (Term → Term)) : Term :=
  applyOpts Term.zero opts

def Term.SetValue (t : Term) (v : GoString) : Term :=
  { t with Value := v }

def Term.SetBoost (t : Term) (b : Float64) : Term :=
  { t with Boost := b }

def Term.SetCaseSensitivity (t : Term) (b : Bool) : Term :=
  { t with CaseSensitive := some b }

def NewRange (opts : List (Range → Range)) : Range :=
  applyOpts Range.zero opts

def Range.SetGT (r : Range) (gt : Any) : Range :=
  { r with GT := gt }

def Range.SetGTE (r : Range) (gte : Any) : Range :=
  { r with GTE := gte }

def Range.SetLT (r : Range) (lt : Any) : Range :=
  { r with LT := lt }

def Range.SetLTE (r : Range) (lte : Any) : Range :=
  { r with LTE := lte }

def Range.SetBoost (r : Range) (b : Float64) : Range :=
  { r with Boost := b }

def Range.SetFormat (r : Range) (f : GoString) : Range :=
  { r with Format := f }

def Range.SetRelation (r : Range) (rr : RangeRelation) : Range :=
  { r with Relation := rr }

def Range.SetTimeZone (r : Range) (tz : GoString) : Range :=
  { r with TimeZone := tz }

def NewMatchAll (opts : List (MatchAll → MatchAll)) : MatchAll :=
  applyOpts MatchAll.zero opts

def MatchAll.SetBoost (_ma : MatchAll) (b : Float64) : MatchAll :=
  { Boost := b }

def NewMatchNone (opts : List (MatchNone → MatchNone)) : MatchNone :=
  applyOpts MatchNone.zero opts

def NewMatch (opts : List (Match → Match)) : Match :=
  applyOpts Match.zero opts

def Match.SetQuery (m : Match) (q : Any) : Match :=
  { m with Query := q }

def Match.SetOperator (m : Match) (mo : MatchOperator) : Match :=
  { m with Operator := mo }

def Match.SetBoost (m : Match) (b : Float64) : Match :=
  { m with Boost := b }

def Match.SetFuzzyTransposition (m : Match) (b : Bool) : Match :=
  { m with FuzzyTranspositions := some b }

def Match.SetFuzzyRewrite (m : Match) (fr : GoString) : Match :=
  { m with FuzzyRewrite := fr }

def Match.SetMaxExpansions (m : Match) (me : Int) : Match :=
  { m with MaxExpansions := me }

def Match.SetLenient (m : Match) (l : Bool) : Match :=
  { m with Lenient := some l }

def Match.SetZeroTermsQuery (m : Match) (ztq : ES.ZeroTermsQuery) : Match :=
  { m with ZeroTermsQuery := ztq }

def Match.SetFuzziness (m : Match) (f : GoString) : Match :=
  { m with Fuzziness := f }

def Match.SetPrefixLength (m : Match) (n : Int) : Match :=
  { m with PrefixLength := n }

def Match.SetMinimumShouldMatch (m : Match) (msm : GoString) : Match :=
  { m with MinimumShouldMatch := msm }

def NewQuery (opts : List (Query → Query)) : Query :=
  applyOpts Query.zero opts

def Query.SetMatchAll (q : Query) (maq : Option ES.MatchAll) : Query :=
  .mk maq q.MatchNone q.Bool q.Term q.Match

def Query.SetMatchNone (q : Query) (mnq : Option ES.MatchNone) : Query :=
  .mk q.MatchAll mnq q.Bool q.Term q.Match

def Query.SetBool (q : Query) (b : Option BoolQuery) : Query :=
  .mk q.MatchAll q.MatchNone b q.Term q.Match

/-- The map a keyed setter writes to: `if m == nil { m = make(map[string]V) }`. -/
def allocated {V : Type} : Option (GoMap V) → GoMap V
  | none => GoMap.empty
  | some m => m

def Query.SetTerm (q : Query) (field : GoString) (t : ES.Term) : Query :=
  .mk q.MatchAll q.MatchNone q.Bool (some ((allocated q.Term).set field t)) q.Match

def Query.SetMatch (q : Query) (field : GoString) (m : ES.Match) : Query :=
  .mk q.MatchAll q.MatchNone q.Bool q.Term (some ((allocated q.Match).set field m))

def NewsSort (opts : List (SortSpec → SortSpec)) : SortSpec :=
  applyOpts SortSpec.zero opts

def SortSpec.SetOrder (s : SortSpec) (o : SortOrder) : SortSpec :=
  { s with Order := o }

def SortSpec.SetType (s : SortSpec) (t : GoString) : SortSpec :=
  { s with Type_ := t }

def SortSpec.SetFormat (s : SortSpec) (f : GoString) : SortSpec :=
  { s with Format := f }

def SortSpec.SetMode (s : SortSpec) (m : SortMode) : SortSpec :=
  { s with Mode := m }

def NewSearch (opts : List (Search → Search)) : Search :=
  applyOpts Search.zero opts

def Search.SetSize (s : Search) (sz : Int) : Search :=
  { s with Size := sz }

def Search.SetQuery (s : Search) (q : Option ES.Query) : Search :=
  { s with Query := q }

def Search.SetSource (s : Search) (sc : Any) : Search :=
  { s with Source := sc }

def Search.AddSort (s : Search) (st : Option (List (GoString × Any))) : Search :=
  { s with Sort_ := s.Sort_ ++ [st] }

/-! ## JSON documents

`json.Marshal` is modelled in two steps: `encode*` builds the document as a
tree, `JSON.render` writes the tree as the bytes of Go's compact output.  The
tree keeps the members of an object in the order in which they are written. -/

/-- A JSON number token as Go writes it: the decimal digits of an integer, or
the text `strconv` prints for a float64 that is not a small integer. -/
inductive Number where
  | int (i : Int)
  | float (f : Float64)

/-- A JSON document.  `str s` is the string token that the encoder writes for
the Go string `s`; the keys of an object are such tokens too. -/
inductive JSON where
  | null
  | bool (b : Bool)
  | num (n : Number)
  | str (s : GoString)
  | arr (elems : List JSON)
  | obj (members : List (GoString × JSON))

/-- The value of the first member named `key` of an object. -/
def JSON.get? (j : JSON) (key : GoString) : Option JSON :=
  match j with
  | .obj members => lookupEntry key members
  | _ => none

/-- The keys of an object, in document order. -/
def JSON.keys : JSON → List GoString
  | .obj members => entryKeys members
  | _ => []

/-- Whether an object has a member named `key`. -/
def JSON.hasKey (j : JSON) (key : GoString) : Prop := key ∈ j.keys

instance (j : JSON) (key : GoString) : Decidable (j.hasKey key) :=
  inferInstanceAs (Decidable (key ∈ j.keys))

/-- The failure of `json.Marshal`: `UnsupportedValueError`, raised for a
float64 that is an infinity or a NaN. -/
inductive MarshalError where
  | unsupportedValue

/-- The integer a float64 equals, when it is one of the integers of magnitude
at most `2^53` (negative zero is not: Go prints it as `-0`). -/
def Float64.toExactInt? : Float64 → Option Int
  | .finite neg mant exp =>
    if mant = 0 then (if neg then none else some 0)
    else
      let v? : Option Nat :=
        if 0 ≤ exp then some (mant * 2 ^ exp.toNat)
        else if mant % 2 ^ (-exp).toNat = 0 then some (mant / 2 ^ (-exp).toNat)
        else none
      match v? with
      | some v => if v ≤ 2 ^ 53 then some (if neg then -(v : Int) else (v : Int)) else none
      | none => none
  | _ => none

/-- The number token of a finite float64.  Go uses the shortest decimal that
reads back as the same float64; for an integer of magnitude at most `2^53`
that is the plain decimal integer. -/
def numOfFloat (f : Float64) : Number :=
  match f.toExactInt? with
  | some i => .int i
  | none => .float f

/-- The float64 encoder: an infinity or a NaN is an error. -/
def encodeFloat (f : Float64) : Except MarshalError JSON :=
  if f.isFinite then .ok (.num (numOfFloat f)) else .error .unsupportedValue

/-! ### Struct fields

Each function gives the members (none or one) that one struct field
contributes, following its tag. -/

/-- A `string` field tagged `omitempty`. -/
def fieldString (key : String) (s : GoString) : List (GoString × JSON) :=
  if s = [] then [] else [(GoString.lit key, .str s)]

/-- An `int` field tagged `omitempty`. -/
def fieldInt (key : String) (i : Int) : List (GoString × JSON) :=
  if i = 0 then [] else [(GoString.lit key, .num (.int i))]

/-- A `float64` field tagged `omitempty`. -/
def fieldFloat (key : String) (f : Float64) :
    Except MarshalError (List (GoString × JSON)) :=
  if f.isZero then .ok []
  else match encodeFloat f with
    | .ok j => .ok [(GoString.lit key, j)]
    | .error e => .error e

/-- A `*bool` field tagged `omitempty`. -/
def fieldBoolPtr (key : String) (b : Option Bool) : List (GoString × JSON) :=
  match b with
  | none => []
  | some v => [(GoString.lit key, .bool v)]

def RangeRelation.MarshalTree (rr : RangeRelation) : JSON := .str rr.val
def MatchOperator.MarshalTree (mo : MatchOperator) : JSON := .str mo.val
def ZeroTermsQuery.MarshalTree (ztq : ZeroTermsQuery) : JSON := .str ztq.val
def SortOrder.MarshalTree (so : SortOrder) : JSON := .str so.val
def SortMode.MarshalTree (sm : SortMode) : JSON := .str sm.val

/-- The encoding of `Sort`. -/
def encodeSort (s : SortSpec) : JSON :=
  .obj ((if s.Order.val = [] then [] else [(GoString.lit "order", s.Order.MarshalTree)])
    ++ fieldString "type" s.Type_
    ++ fieldString "format" s.Format
    ++ (if s.Mode.val = [] then [] else [(GoString.lit "mode", s.Mode.MarshalTree)]))

mutual
/-- The encoding of a value held in an `any`. -/
def encodeAny : Any → Except MarshalError JSON
  | .nil => .ok .null
  | .bool b => .ok (.bool b)
  | .int i => .ok (.num (.int i))
  | .float f => encodeFloat f
  | .str s => .ok (.str s)
  | .slice l =>
    match encodeAnyList l with
    | .ok js => .ok (.arr js)
    | .error e => .error e
  | .map m =>
    match encodeAnyEntries m with
    | .ok ms => .ok (.obj ms)
    | .error e => .error e
  | .sort s => .ok (encodeSort s)
/-- The encodings of the elements of a slice, in order. -/
def encodeAnyList : List Any → Except MarshalError (List JSON)
  | [] => .ok []
  | a :: rest =>
    match encodeAny a with
    | .ok j =>
      match encodeAnyList rest with
      | .ok js => .ok (j :: js)
      | .error e => .error e
    | .error e => .error e
/-- The members for the entries of a map, in key order. -/
def encodeAnyEntries : List (GoString × Any) → Except MarshalError (List (GoString × JSON))
  | [] => .ok []
  | (k, a) :: rest =>
    match encodeAny a with
    | .ok j =>
      match encodeAnyEntries rest with
      | .ok ms => .ok ((k, j) :: ms)
      | .error e => .error e
    | .error e => .error e
end

/-- A field of type `any` tagged `omitempty`: left out when the interface is
nil. -/
def fieldAny (key : String) (a : Any) : Except MarshalError (List (GoString × JSON)) :=
  match a with
  | .nil => .ok []
  | a =>
    match encodeAny a with
    | .ok j => .ok [(GoString.lit key, j)]
    | .error e => .error e

/-- The encoding of `Term`; `value` has no `omitempty`. -/
def encodeTerm (t : Term) : Except MarshalError JSON := do
  let boost ← fieldFloat "boost" t.Boost
  pure (.obj ([(GoString.lit "value", .str t.Value)]
    ++ boost
    ++ fieldBoolPtr "case_sensitive" t.CaseSensitive))

/-- The encoding of `Range`. -/
def encodeRange (r : Range) : Except MarshalError JSON := do
  let gt ← fieldAny "gt" r.GT
  let gte ← fieldAny "gte" r.GTE
  let lt ← fieldAny "lt" r.LT
  let lte ← fieldAny "lte" r.LTE
  let boost ← fieldFloat "boost" r.Boost
  pure (.obj (gt ++ gte ++ lt ++ lte ++ boost
    ++ fieldString "format" r.Format
    ++ (if r.Relation.val = [] then [] else [(GoString.lit "relation", r.Relation.MarshalTree)])
    ++ fieldString "time_zone" r.TimeZone))

/-- The encoding of `MatchAll`. -/
def encodeMatchAll (ma : MatchAll) : Except MarshalError JSON := do
  let boost ← fieldFloat "boost" ma.Boost
  pure (.obj boost)

/-- The encoding of `MatchNone`. -/
def encodeMatchNone (_mn : MatchNone) : JSON := .obj []

/-- The encoding of `Match`. -/
def encodeMatch (m : Match) : Except MarshalError JSON := do
  let query ← fieldAny "query" m.Query
  let boost ← fieldFloat "boost" m.Boost
  pure (.obj (query
    ++ (if m.Operator.val = [] then [] else [(GoString.lit "operator", m.Operator.MarshalTree)])
    ++ boost
    ++ fieldBoolPtr "fuzzy_transpositions" m.FuzzyTranspositions
    ++ fieldString "fuzzy_rewrite" m.FuzzyRewrite
    ++ fieldInt "max_expansions" m.MaxExpansions
    ++ fieldBoolPtr "lenient" m.Lenient
    ++ (if m.ZeroTermsQuery.val = [] then []
        else [(GoString.lit "zero_terms_query", m.ZeroTermsQuery.MarshalTree)])
    ++ fieldString "fuzziness" m.Fuzziness
    ++ fieldInt "prefix_length" m.PrefixLength
    ++ fieldString "minimum_should_match" m.MinimumShouldMatch))

/-- The members for the entries of a `map[string]V`, in key order, given the
encoder of `V`. -/
def encodeEntries {V : Type} (enc : V → Except MarshalError JSON) :
    List (GoString × V) → Except MarshalError (List (GoString × JSON))
  | [] => .ok []
  | (k, x) :: rest =>
    match enc x with
    | .error e => .error e
    | .ok j =>
      match encodeEntries enc rest with
      | .ok ms => .ok ((k, j) :: ms)
      | .error e => .error e

/-- A `map[string]V` field tagged `omitempty`: left out when nil or empty. -/
def fieldMap {V : Type} (enc : V → Except MarshalError JSON) (key : String)
    (m : Option (GoMap V)) : Except MarshalError (List (GoString × JSON)) :=
  match m with
  | none => .ok []
  | some m =>
    if m.len = 0 then .ok []
    else match encodeEntries enc m.entries with
      | .ok ms => .ok [(GoString.lit key, .obj ms)]
      | .error e => .error e

/-- A `*MatchAll` field tagged `omitempty`. -/
def fieldMatchAll (key : String) (ma : Option MatchAll) :
    Except MarshalError (List (GoString × JSON)) :=
  match ma with
  | none => .ok []
  | some ma =>
    match encodeMatchAll ma with
    | .ok j => .ok [(GoString.lit key, j)]
    | .error e => .error e

/-- A `*MatchNone` field tagged `omitempty`. -/
def fieldMatchNone (key : String) (mn : Option MatchNone) : List (GoString × JSON) :=
  match mn with
  | none => []
  | some mn => [(GoString.lit key, encodeMatchNone mn)]

/-- A sequence field tagged `omitempty`, given its length and the encodings of
its elements: left out when the length is zero. -/
def fieldArray (key : String) (len : Nat) (js : List JSON) : List (GoString × JSON) :=
  if len = 0 then [] else [(GoString.lit key, .arr js)]

mutual
/-- The encoding of `Query`; the unexported mutex is not a JSON field. -/
def encodeQuery : Query → Except MarshalError JSON
  | .mk ma mn b t m =>
    match fieldMatchAll "match_all" ma with
    | .error e => .error e
    | .ok jma =>
      match encodeBoolPtr b with
      | .error e => .error e
      | .ok jb =>
        match fieldMap encodeTerm "term" t with
        | .error e => .error e
        | .ok jt =>
          match fieldMap encodeMatch "match" m with
          | .error e => .error e
          | .ok jm => .ok (.obj (jma ++ fieldMatchNone "match_none" mn ++ jb ++ jt ++ jm))
/-- The `bool` member of a `Query`: a `*Bool` field tagged `omitempty`. -/
def encodeBoolPtr : Option BoolQuery → Except MarshalError (List (GoString × JSON))
  | none => .ok []
  | some b =>
    match encodeBool b with
    | .ok j => .ok [(GoString.lit "bool", j)]
    | .error e => .error e
/-- The encoding of `Bool`. -/
def encodeBool : BoolQuery → Except MarshalError JSON
  | .mk must mustNot should filter =>
    match encodeQueryList must with
    | .error e => .error e
    | .ok jmust =>
      match encodeQueryList mustNot with
      | .error e => .error e
      | .ok jmustNot =>
        match encodeQueryList should with
        | .error e => .error e
        | .ok jshould =>
          match encodeFilter filter with
          | .error e => .error e
          | .ok jfilter =>
            .ok (.obj (fieldArray "must" must.length jmust
              ++ fieldArray "must_not" mustNot.length jmustNot
              ++ fieldArray "should" should.length jshould ++ jfilter))
/-- The `filter` member of a `Bool`: a `*Query` field tagged `omitempty`. -/
def encodeFilter : Option Query → Except MarshalError (List (GoString × JSON))
  | none => .ok []
  | some q =>
    match encodeQuery q with
    | .ok j => .ok [(GoString.lit "filter", j)]
    | .error e => .error e
/-- The encodings of the elements of a `[]*Query`, in order; a nil pointer
encodes as `null`. -/
def encodeQueryList : List (Option Query) → Except MarshalError (List JSON)
  | [] => .ok []
  | none :: rest =>
    match encodeQueryList rest with
    | .ok js => .ok (.null :: js)
    | .error e => .error e
  | some q :: rest =>
    match encodeQuery q with
    | .error e => .error e
    | .ok j =>
      match encodeQueryList rest with
      | .ok js => .ok (j :: js)
      | .error e => .error e
end

/-- The encoding of a `*Query`: `null` for a nil pointer. -/
def encodeQueryPtr : Option Query → Except MarshalError JSON
  | none => .ok .null
  | some q => encodeQuery q

/-- The encoding of one element of `Search.Sort`: a `map[string]any`, `null`
when the map is nil. -/
def encodeSortEntry : Option (List (GoString × Any)) → Except MarshalError JSON
  | none => .ok .null
  | some m =>
    match encodeAnyEntries m with
    | .ok ms => .ok (.obj ms)
    | .error e => .error e

/-- The encodings of the elements of `Search.Sort`, in order. -/
def encodeSortList : List (Option (List (GoString × Any))) → Except MarshalError (List JSON)
  | [] => .ok []
  | st :: rest => do
    let j ← encodeSortEntry st
    let js ← encodeSortList rest
    pure (j :: js)

/-- A `*Query` field tagged `omitempty`. -/
def fieldQuery (key : String) (q : Option Query) :
    Except MarshalError (List (GoString × JSON)) :=
  match q with
  | none => .ok []
  | some q =>
    match encodeQuery q with
    | .ok j => .ok [(GoString.lit key, j)]
    | .error e => .error e

/-- The encoding of `Search`. -/
def encodeSearch (s : Search) : Except MarshalError JSON := do
  let sort ← encodeSortList s.Sort_
  let query ← fieldQuery "query" s.Query
  let source ← fieldAny "_source" s.Source
  pure (.obj (fieldInt "size" s.Size ++ fieldArray "sort" s.Sort_.length sort ++ query ++ source))

/-! ## JSON text

The bytes of a document: Go's string quoting (`appendString` with HTML
escaping, as `json.Marshal` uses it), its inverse (`unquoteBytes`), the
validating scanner (`checkValid`) and `json.Unmarshal` into a `string`. -/

/-- The rune and width `utf8.DecodeRune` reads at the head of a byte sequence;
`(0xFFFD, 1)` for a byte that starts no valid encoding, `(0xFFFD, 0)` for the
empty sequence. -/
def decodeRune : List Byte → Nat × Nat
  | [] => (0xFFFD, 0)
  | p0 :: rest =>
    if p0.val < 0x80 then (p0.val, 1)
    else if p0.val < 0xC2 ∨ 0xF4 < p0.val then (0xFFFD, 1)
    else
      let lo : Nat := if p0.val = 0xE0 then 0xA0 else if p0.val = 0xF0 then 0x90 else 0x80
      let hi : Nat := if p0.val = 0xED then 0x9F else if p0.val = 0xF4 then 0x8F else 0xBF
      match rest with
      | [] => (0xFFFD, 1)
      | b1 :: rest1 =>
        if b1.val < lo ∨ hi < b1.val then (0xFFFD, 1)
        else if p0.val < 0xE0 then ((p0.val % 32) * 64 + b1.val % 64, 2)
        else
          match rest1 with
          | [] => (0xFFFD, 1)
          | b2 :: rest2 =>
            if b2.val < 0x80 ∨ 0xBF < b2.val then (0xFFFD, 1)
            else if p0.val < 0xF0 then
              ((p0.val % 16) * 4096 + (b1.val % 64) * 64 + b2.val % 64, 3)
            else
              match rest2 with
              | [] => (0xFFFD, 1)
              | b3 :: _ =>
                if b3.val < 0x80 ∨ 0xBF < b3.val then (0xFFFD, 1)
                else ((p0.val % 8) * 262144 + (b1.val % 64) * 4096
                  + (b2.val % 64) * 64 + b3.val % 64, 4)

/-- The lower-case hexadecimal digit of a value below 16. -/
def hexDigit (n : Nat) : Byte :=
  if n < 10 then ⟨(0x30 + n) % 256, by omega⟩ else ⟨(0x57 + n) % 256, by omega⟩

/-- What `appendString` writes for one byte below 0x80: the byte itself when
it is in `htmlSafeSet`, a two-byte escape for the quote, the backslash and the
five named control characters, and `\u00XX` for the other control characters
and for `<`, `>` and `&`. -/
def escapeASCII (b : Byte) : List Byte :=
  if b = 0x22 then [0x5C, 0x22]
  else if b = 0x5C then [0x5C, 0x5C]
  else if b = 0x08 then [0x5C, 0x62]
  else if b = 0x0C then [0x5C, 0x66]
  else if b = 0x0A then [0x5C, 0x6E]
  else if b = 0x0D then [0x5C, 0x72]
  else if b = 0x09 then [0x5C, 0x74]
  else if b.val < 0x20 ∨ b = 0x3C ∨ b = 0x3E ∨ b = 0x26 then
    [0x5C, 0x75, 0x30, 0x30, hexDigit (b.val / 16), hexDigit (b.val % 16)]
  else [b]

/-- The loop of `appendString` over the bytes that are left; `fuel` bounds the
number of iterations (one per rune). -/
def appendStringLoop : Nat → List Byte → List Byte
  | 0, _ => []
  | _ + 1, [] => []
  | fuel + 1, b :: rest =>
    if b.val < 0x80 then escapeASCII b ++ appendStringLoop fuel rest
    else
      let (c, size) := decodeRune (b :: rest)
      if c = 0xFFFD ∧ size = 1 then
        [0x5C, 0x75, 0x66, 0x66, 0x66, 0x64] ++ appendStringLoop fuel rest
      else if c = 0x2028 ∨ c = 0x2029 then
        [0x5C, 0x75, 0x32, 0x30, 0x32, hexDigit (c % 16)]
          ++ appendStringLoop fuel (rest.drop (size - 1))
      else (b :: rest).take size ++ appendStringLoop fuel (rest.drop (size - 1))

/-- The JSON string token for a Go string: `appendString(nil, s, true)`. -/
def appendString (s : GoString) : List Byte :=
  [0x22] ++ appendStringLoop s.length s ++ [0x22]

/-- The value of a hexadecimal digit, upper or lower case. -/
def hexVal? (b : Byte) : Option Nat :=
  if 0x30 ≤ b.val ∧ b.val ≤ 0x39 then some (b.val - 0x30)
  else if 0x61 ≤ b.val ∧ b.val ≤ 0x66 then some (b.val - 0x61 + 10)
  else if 0x41 ≤ b.val ∧ b.val ≤ 0x46 then some (b.val - 0x41 + 10)
  else none

/-- Go `getu4`: the code unit of a `\uXXXX` escape at the head of the input. -/
def getu4 : List Byte → Option Nat
  | b0 :: b1 :: h0 :: h1 :: h2 :: h3 :: _ =>
    if b0 = 0x5C ∧ b1 = 0x75 then
      match hexVal? h0, hexVal? h1, hexVal? h2, hexVal? h3 with
      | some a, some b, some c, some d => some (a * 4096 + b * 256 + c * 16 + d)
      | _, _, _, _ => none
    else none
  | _ => none

/-- Go `utf16.DecodeRune`: the code point of a surrogate pair, U+FFFD when the
two units are no pair. -/
def utf16DecodeRune (r1 : Nat) (r2 : Option Nat) : Nat :=
  match r2 with
  | some r2 =>
    if 0xD800 ≤ r1 ∧ r1 < 0xDC00 ∧ 0xDC00 ≤ r2 ∧ r2 < 0xE000 then
      (r1 - 0xD800) * 1024 + (r2 - 0xDC00) + 0x10000
    else 0xFFFD
  | none => 0xFFFD

/-- The loop of `unquoteBytes` over the bytes between the quotes: escapes are
resolved, other bytes are copied, invalid UTF-8 becomes U+FFFD.  `none` is
Go's `ok == false`. -/
def unquoteLoop : Nat → List Byte → Option GoString
  | 0, [] => some []
  | 0, _ :: _ => none
  | _ + 1, [] => some []
  | fuel + 1, c :: rest =>
    if c = 0x5C then
      match rest with
      | [] => none
      | e :: rest1 =>
        if e = 0x22 ∨ e = 0x5C ∨ e = 0x2F ∨ e = 0x27 then
          (unquoteLoop fuel rest1).map (fun t => e :: t)
        else if e = 0x62 then (unquoteLoop fuel rest1).map (fun t => 0x08 :: t)
        else if e = 0x66 then (unquoteLoop fuel rest1).map (fun t => 0x0C :: t)
        else if e = 0x6E then (unquoteLoop fuel rest1).map (fun t => 0x0A :: t)
        else if e = 0x72 then (unquoteLoop fuel rest1).map (fun t => 0x0D :: t)
        else if e = 0x74 then (unquoteLoop fuel rest1).map (fun t => 0x09 :: t)
        else if e = 0x75 then
          match getu4 (c :: rest) with
          | none => none
          | some rr =>
            let after := rest.drop 5
            if 0xD800 ≤ rr ∧ rr < 0xE000 then
              let dec := utf16DecodeRune rr (getu4 after)
              if dec ≠ 0xFFFD then
                (unquoteLoop fuel (after.drop 6)).map (fun t => encodeRune dec ++ t)
              else (unquoteLoop fuel after).map (fun t => encodeRune 0xFFFD ++ t)
            else (unquoteLoop fuel after).map (fun t => encodeRune rr ++ t)
        else none
    else if c = 0x22 ∨ c.val < 0x20 then none
    else if c.val < 0x80 then (unquoteLoop fuel rest).map (fun t => c :: t)
    else
      let (rr, size) := decodeRune (c :: rest)
      (unquoteLoop fuel (rest.drop (size - 1))).map (fun t => encodeRune rr ++ t)

/-- Go `unquoteBytes`: the string a quoted token denotes. -/
def unquoteBytes (s : List Byte) : Option GoString :=
  match s with
  | [] => none
  | q :: rest =>
    if q = 0x22 ∧ rest.getLast? = some 0x22 then
      unquoteLoop rest.dropLast.length rest.dropLast
    else none
/-- The step functions of Go's JSON scanner (`scanner.go`), by name. -/
inductive ScanStep where
  | beginValue | beginValueOrEmpty | beginStringOrEmpty | beginString
  | endValue | endTop
  | inString | inStringEsc | inStringEscU | inStringEscU1 | inStringEscU12 | inStringEscU123
  | neg | s1 | s0 | dot | dot0 | e | eSign | e0
  | t | tr | tru | f | fa | fal | fals | n | nu | nul
  | error
deriving DecidableEq

/-- The entries of the scanner's parse stack. -/
inductive ParseState where
  | objectKey | objectValue | arrayValue
deriving DecidableEq

/-- The state of Go's `scanner`: the next step function, the `endTop` flag and
the parse stack (innermost first).  An error is the step `error`. -/
structure Scanner where
  step : ScanStep
  endTop : Bool
  parseState : List ParseState
deriving DecidableEq

/-- Go `scanner.reset`. -/
def Scanner.reset : Scanner := ⟨.beginValue, false, []⟩

/-- Go `isSpace`. -/
def isSpace (c : Byte) : Bool :=
  c = 0x20 || c = 0x09 || c = 0x0D || c = 0x0A

/-- A decimal digit. -/
def isDigit (c : Byte) : Bool := 0x30 ≤ c.val && c.val ≤ 0x39

/-- A hexadecimal digit, upper or lower case. -/
def isHex (c : Byte) : Bool :=
  isDigit c || (0x61 ≤ c.val && c.val ≤ 0x66) || (0x41 ≤ c.val && c.val ≤ 0x46)

/-- Go `scanner.error`. -/
def Scanner.fail (s : Scanner) : Scanner := { s with step := .error }

/-- Go `pushParseState`, with `maxNestingDepth = 10000`. -/
def Scanner.push (s : Scanner) (p : ParseState) (next : ScanStep) : Scanner :=
  if s.parseState.length + 1 ≤ 10000 then
    { s with step := next, parseState := p :: s.parseState }
  else { step := .error, endTop := s.endTop, parseState := p :: s.parseState }

/-- Go `popParseState`. -/
def Scanner.pop (s : Scanner) : Scanner :=
  match s.parseState.tail with
  | [] => { step := .endTop, endTop := true, parseState := [] }
  | rest => { s with step := .endValue, parseState := rest }

/-- Go `stateEndTop`. -/
def Scanner.stateEndTop (s : Scanner) (c : Byte) : Scanner :=
  if isSpace c then s else s.fail

/-- Go `stateEndValue`. -/
def Scanner.stateEndValue (s : Scanner) (c : Byte) : Scanner :=
  match s.parseState with
  | [] => Scanner.stateEndTop { s with step := .endTop, endTop := true } c
  | ps :: rest =>
    if isSpace c then { s with step := .endValue }
    else
      match ps with
      | .objectKey =>
        if c = 0x3A then { s with step := .beginValue, parseState := .objectValue :: rest }
        else s.fail
      | .objectValue =>
        if c = 0x2C then { s with step := .beginString, parseState := .objectKey :: rest }
        else if c = 0x7D then s.pop
        else s.fail
      | .arrayValue =>
        if c = 0x2C then { s with step := .beginValue }
        else if c = 0x5D then s.pop
        else s.fail

/-- Go `stateBeginValue`. -/
def Scanner.stateBeginValue (s : Scanner) (c : Byte) : Scanner :=
  if isSpace c then s
  else if c = 0x7B then s.push .objectKey .beginStringOrEmpty
  else if c = 0x5B then s.push .arrayValue .beginValueOrEmpty
  else if c = 0x22 then { s with step := .inString }
  else if c = 0x2D then { s with step := .neg }
  else if c = 0x30 then { s with step := .s0 }
  else if c = 0x74 then { s with step := .t }
  else if c = 0x66 then { s with step := .f }
  else if c = 0x6E then { s with step := .n }
  else if 0x31 ≤ c.val ∧ c.val ≤ 0x39 then { s with step := .s1 }
  else s.fail

/-- Go `stateBeginString`. -/
def Scanner.stateBeginString (s : Scanner) (c : Byte) : Scanner :=
  if isSpace c then s
  else if c = 0x22 then { s with step := .inString }
  else s.fail

/-- Go `state0`. -/
def Scanner.state0 (s : Scanner) (c : Byte) : Scanner :=
  if c = 0x2E then { s with step := .dot }
  else if c = 0x65 ∨ c = 0x45 then { s with step := .e }
  else s.stateEndValue c

/-- Go `stateESign`. -/
def Scanner.stateESign (s : Scanner) (c : Byte) : Scanner :=
  if isDigit c then { s with step := .e0 } else s.fail

/-- The step on literal text: the next state when `c` is `want`. -/
def Scanner.expect (s : Scanner) (c want : Byte) (next : ScanStep) : Scanner :=
  if c = want then { s with step := next } else s.fail

/-- One call `s.step(s, c)` of the scanner. -/
def Scanner.next (s : Scanner) (c : Byte) : Scanner :=
  match s.step with
  | .beginValue => s.stateBeginValue c
  | .beginValueOrEmpty =>
    if isSpace c then s
    else if c = 0x5D then s.stateEndValue c
    else s.stateBeginValue c
  | .beginStringOrEmpty =>
    if isSpace c then s
    else if c = 0x7D then
      Scanner.stateEndValue { s with parseState := .objectValue :: s.parseState.tail } c
    else s.stateBeginString c
  | .beginString => s.stateBeginString c
  | .endValue => s.stateEndValue c
  | .endTop => s.stateEndTop c
  | .inString =>
    if c = 0x22 then { s with step := .endValue }
    else if c = 0x5C then { s with step := .inStringEsc }
    else if c.val < 0x20 then s.fail
    else s
  | .inStringEsc =>
    if c = 0x62 ∨ c = 0x66 ∨ c = 0x6E ∨ c = 0x72 ∨ c = 0x74 ∨ c = 0x5C ∨ c = 0x2F ∨ c = 0x22
    then { s with step := .inString }
    else if c = 0x75 then { s with step := .inStringEscU }
    else s.fail
  | .inStringEscU => if isHex c then { s with step := .inStringEscU1 } else s.fail
  | .inStringEscU1 => if isHex c then { s with step := .inStringEscU12 } else s.fail
  | .inStringEscU12 => if isHex c then { s with step := .inStringEscU123 } else s.fail
  | .inStringEscU123 => if isHex c then { s with step := .inString } else s.fail
  | .neg =>
    if c = 0x30 then { s with step := .s0 }
    else if 0x31 ≤ c.val ∧ c.val ≤ 0x39 then { s with step := .s1 }
    else s.fail
  | .s1 => if isDigit c then s else s.state0 c
  | .s0 => s.state0 c
  | .dot => if isDigit c then { s with step := .dot0 } else s.fail
  | .dot0 =>
    if isDigit c then s
    else if c = 0x65 ∨ c = 0x45 then { s with step := .e }
    else s.stateEndValue c
  | .e =>
    if c = 0x2B ∨ c = 0x2D then { s with step := .eSign } else s.stateESign c
  | .eSign => s.stateESign c
  | .e0 => if isDigit c then s else s.stateEndValue c
  | .t => s.expect c 0x72 .tr
  | .tr => s.expect c 0x75 .tru
  | .tru => s.expect c 0x65 .endValue
  | .f => s.expect c 0x61 .fa
  | .fa => s.expect c 0x6C .fal
  | .fal => s.expect c 0x73 .fals
  | .fals => s.expect c 0x65 .endValue
  | .n => s.expect c 0x75 .nu
  | .nu => s.expect c 0x6C .nul
  | .nul => s.expect c 0x6C .endValue
  | .error => s

/-- Go `scanner.eof`: whether the input may end in this state. -/
def Scanner.eof (s : Scanner) : Bool :=
  if s.step = .error then false
  else if s.endTop then true
  else (s.next 0x20).endTop

/-- Go `checkValid`: whether the bytes are one JSON value, white space around
it allowed. -/
def checkValid (data : List Byte) : Bool :=
  (data.foldl Scanner.next Scanner.reset).eof

/-- The errors of `json.Unmarshal`. -/
inductive UnmarshalError where
  /-- Go `*json.SyntaxError`: the bytes are not a JSON value. -/
  | syntaxError
  /-- Go `*json.UnmarshalTypeError`: the JSON value does not fit the Go type. -/
  | typeError
deriving DecidableEq

/-- The bytes without leading white space (`scanWhile(scanSkipSpace)`). -/
def skipSpace : List Byte → List Byte
  | [] => []
  | c :: rest => if isSpace c then skipSpace rest else c :: rest

/-- The bytes of the string literal at the head of the input, both quotes
included (`rescanLiteral`); `afterEsc` says the previous byte was an
unescaped backslash. -/
def stringLiteral : Bool → List Byte → List Byte
  | _, [] => []
  | true, c :: rest => c :: stringLiteral false rest
  | false, c :: rest =>
    if c = 0x22 then [c]
    else if c = 0x5C then c :: stringLiteral true rest
    else c :: stringLiteral false rest

/-- The call `json.Unmarshal(data, &tmp)` for a `tmp` of type `string` that
holds `tmp` before the call: the error, or the string `tmp` holds afterwards.
The value must be valid JSON; a string stores its content, `null` leaves
`tmp` as it is, and an object, an array, a number, `true` or `false` is a type
error. -/
def unmarshalString (data : List Byte) (tmp : GoString) : Except UnmarshalError GoString :=
  if checkValid data then
    match skipSpace data with
    | [] => .error .syntaxError
    | c :: rest =>
      if c = 0x22 then
        match unquoteBytes (c :: stringLiteral false rest) with
        | some s => .ok s
        | none => .error .syntaxError
      else if c = 0x6E then .ok tmp
      else .error .typeError
  else .error .syntaxError
/-- The call `json.Marshal(s)` for a Go string `s`: the quoted token; it never
fails. -/
def marshalString (s : GoString) : Except MarshalError (List Byte) :=
  .ok (appendString s)

/-- The shared body of the five `UnmarshalJSON` methods: `var tmp string; if
err := json.Unmarshal(b, &tmp); err != nil { return err }; *x = T(tmp); return
nil`, as the string the receiver holds afterwards and the error returned. -/
def unmarshalInto (receiver : GoString) (b : List Byte) : GoString × Option UnmarshalError :=
  match unmarshalString b [] with
  | .error err => (receiver, some err)
  | .ok tmp => (tmp, none)

def RangeRelation.MarshalJSON (rr : RangeRelation) : Except MarshalError (List Byte) :=
  marshalString rr.val

/-- The receiver after the call, and the error returned. -/
def RangeRelation.UnmarshalJSON (rr : RangeRelation) (b : List Byte) :
    RangeRelation × Option UnmarshalError :=
  ((⟨(unmarshalInto rr.val b).1⟩ : RangeRelation), (unmarshalInto rr.val b).2)

def MatchOperator.MarshalJSON (mo : MatchOperator) : Except MarshalError (List Byte) :=
  marshalString mo.val

/-- The receiver after the call, and the error returned. -/
def MatchOperator.UnmarshalJSON (mo : MatchOperator) (b : List Byte) :
    MatchOperator × Option UnmarshalError :=
  ((⟨(unmarshalInto mo.val b).1⟩ : MatchOperator), (unmarshalInto mo.val b).2)

def ZeroTermsQuery.MarshalJSON (ztq : ZeroTermsQuery) : Except MarshalError (List Byte) :=
  marshalString ztq.val

/-- The receiver after the call, and the error returned. -/
def ZeroTermsQuery.UnmarshalJSON (ztq : ZeroTermsQuery) (b : List Byte) :
    ZeroTermsQuery × Option UnmarshalError :=
  ((⟨(unmarshalInto ztq.val b).1⟩ : ZeroTermsQuery), (unmarshalInto ztq.val b).2)

def SortOrder.MarshalJSON (so : SortOrder) : Except MarshalError (List Byte) :=
  marshalString so.val

/-- The receiver after the call, and the error returned. -/
def SortOrder.UnmarshalJSON (so : SortOrder) (b : List Byte) :
    SortOrder × Option UnmarshalError :=
  ((⟨(unmarshalInto so.val b).1⟩ : SortOrder), (unmarshalInto so.val b).2)

def SortMode.MarshalJSON (sm : SortMode) : Except MarshalError (List Byte) :=
  marshalString sm.val

/-- The receiver after the call, and the error returned. -/
def SortMode.UnmarshalJSON (sm : SortMode) (b : List Byte) :
    SortMode × Option UnmarshalError :=
  ((⟨(unmarshalInto sm.val b).1⟩ : SortMode), (unmarshalInto sm.val b).2)

/-- The decimal digits of a natural number. -/
def natDigits (n : Nat) : List Byte :=
  (Nat.toDigits 10 n).map (fun c => ⟨c.toNat % 256, Nat.mod_lt _ (by decide)⟩)

/-- The text of an integer, `strconv.AppendInt(_, i, 10)`. -/
def intText (i : Int) : List Byte :=
  if i < 0 then 0x2D :: natDigits (-i).toNat else natDigits i.toNat

mutual
/-- The bytes of a document in Go's compact form.  `floatText` is the text
`strconv.AppendFloat` gives a float64 that is not a small integer (the shortest
decimal that reads back as the same value); it is a parameter of the
rendering. -/
def JSON.render (floatText : Float64 → List Byte) : JSON → List Byte
  | .null => [0x6E, 0x75, 0x6C, 0x6C]
  | .bool true => [0x74, 0x72, 0x75, 0x65]
  | .bool false => [0x66, 0x61, 0x6C, 0x73, 0x65]
  | .num (.int i) => intText i
  | .num (.float f) => floatText f
  | .str s => appendString s
  | .arr elems => [0x5B] ++ JSON.renderElems floatText elems ++ [0x5D]
  | .obj members => [0x7B] ++ JSON.renderMembers floatText members ++ [0x7D]
/-- The elements of an array, separated by commas. -/
def JSON.renderElems (floatText : Float64 → List Byte) : List JSON → List Byte
  | [] => []
  | [j] => JSON.render floatText j
  | j :: k :: rest =>
    JSON.render floatText j ++ [0x2C] ++ JSON.renderElems floatText (k :: rest)
/-- The members of an object, `"key":value`, separated by commas. -/
def JSON.renderMembers (floatText : Float64 → List Byte) : List (GoString × JSON) → List Byte
  | [] => []
  | [(k, j)] => appendString k ++ [0x3A] ++ JSON.render floatText j
  | (k, j) :: m :: rest =>
    appendString k ++ [0x3A] ++ JSON.render floatText j ++ [0x2C]
      ++ JSON.renderMembers floatText (m :: rest)
end

/-- The loop of `utf8.Valid` over the bytes that are left. -/
def validUTF8Loop : Nat → List Byte → Bool
  | 0, s => s.isEmpty
  | _ + 1, [] => true
  | fuel + 1, b :: rest =>
    let (c, size) := decodeRune (b :: rest)
    if c = 0xFFFD ∧ size = 1 then false
    else validUTF8Loop fuel (rest.drop (size - 1))

/-- Go `utf8.Valid`: the bytes are a sequence of well-formed UTF-8 encodings. -/
def validUTF8 (s : GoString) : Bool := validUTF8Loop s.length s

/-- A scanner inside a string literal. -/
def inStr (endTop : Bool) (ps : List ParseState) : Scanner := ⟨.inString, endTop, ps⟩

/-! ## The JSON texts of a string and of `null`

What "a JSON string" and "the JSON literal null" mean as bytes, written down
from the JSON grammar (RFC 8259) and independent of the scanner.  A string
token is the shape of a string (quotes, unescaped bytes, escapes); a JSON
string is a string token that is well-formed UTF-8, as RFC 8259 requires of a
JSON text. -/

/-- JSON white space only. -/
def AllSpace (ws : List Byte) : Prop := ∀ c ∈ ws, isSpace c = true

/-- The bytes between the quotes of a string token: unescaped bytes from 0x20
on other than the quote and the backslash (any such byte, whether or not the
bytes are well-formed UTF-8), two-byte escapes, and `\u` followed by four
hexadecimal digits. -/
inductive StringBody : List Byte → Prop where
  | nil : StringBody []
  | plain (c : Byte) (rest : List Byte) : 0x20 ≤ c.val → c ≠ 0x22 → c ≠ 0x5C →
      StringBody rest → StringBody (c :: rest)
  | esc (e : Byte) (rest : List Byte) :
      (e = 0x22 ∨ e = 0x5C ∨ e = 0x2F ∨ e = 0x62 ∨ e = 0x66 ∨ e = 0x6E ∨ e = 0x72
        ∨ e = 0x74) →
      StringBody rest → StringBody (0x5C :: e :: rest)
  | uni (h0 h1 h2 h3 : Byte) (rest : List Byte) :
      isHex h0 = true → isHex h1 = true → isHex h2 = true → isHex h3 = true →
      StringBody rest → StringBody (0x5C :: 0x75 :: h0 :: h1 :: h2 :: h3 :: rest)

/-- The bytes are a string token, white space around it allowed; the bytes
between the quotes need not be well-formed UTF-8. -/
def IsStringToken (b : List Byte) : Prop :=
  ∃ ws1 body ws2, AllSpace ws1 ∧ AllSpace ws2 ∧ StringBody body
    ∧ b = ws1 ++ 0x22 :: (body ++ 0x22 :: ws2)

/-- The bytes are a JSON string, white space around it allowed: a string token
that is well-formed UTF-8. -/
def IsJSONString (b : List Byte) : Prop :=
  IsStringToken b ∧ validUTF8 b = true

/-- The bytes are the JSON literal `null`, white space around it allowed. -/
def IsJSONNull (b : List Byte) : Prop :=
  ∃ ws1 ws2, AllSpace ws1 ∧ AllSpace ws2 ∧ b = ws1 ++ 0x6E :: 0x75 :: 0x6C :: 0x6C :: ws2

/-- The value reached from a document by following member names. -/
def JSON.path (j : JSON) : List GoString → Option JSON
  | [] => some j
  | key :: rest =>
    match j.get? key with
    | some v => v.path rest
    | none => none

/-- The request of the scenario in the specification: `Search{Size: 10}` with
the query `NewQuery().SetBool(NewBool().AddMust(NewQuery().SetTerm("status",
Term{Value: "active"})).SetFilter(NewQuery().SetMatchAll(&MatchAll{})))`. -/
def scenarioSearch : Search :=
  { Size := 10
    Sort_ := []
    Query := some ((NewQuery []).SetBool (some (((NewBool []).AddMust
      (some ((NewQuery []).SetTerm (GoString.lit "status")
        { Value := GoString.lit "active", Boost := Float64.zero, CaseSensitive := none }))).SetFilter
      (some ((NewQuery []).SetMatchAll (some { Boost := Float64.zero }))))))
    Source := .nil }

/-- The rule of a field tagged `omitempty`, read off a document: when the
field is at its zero value the document has no member named `key`, and
otherwise the member named `key` is `v`. -/
def ZeroOmitted (j : JSON) (key : String) (zero : Prop) (v : JSON) : Prop :=
  (zero → j.get? (GoString.lit key) = none)
  ∧ (¬ zero → j.get? (GoString.lit key) = some v)

/-- The members one optional struct field contributes: the member `key: v`
when the field is present, nothing otherwise. -/
def optMember (key : String) (present : Bool) (v : JSON) : List (GoString × JSON) :=
  if present then [(GoString.lit key, v)] else []

/-! ## Decoding

The decoding stage of `json.Unmarshal` for a document that `json.Marshal`
wrote, modelled on the tree of the document: each `decode*` takes the value of
the target before the call and gives the value after it, or the error.  Go
goes on decoding after a type error and reports the first one at the end; here
the error is the result.  The capacity of slices is not represented.

`json.Unmarshal` scans the whole input with `checkValid` before this stage and
stops with a syntax error when the scan fails, which it does for a document
nested deeper than 10000.  The `decode*` functions are the stage after the
scan and have no such limit of their own; the whole call, scan included, is
`Unmarshal` below. -/

/-- The string a token written for the Go string `s` reads back as: the token
is what `appendString` wrote, and `unquoteBytes` reads it. -/
def tokenString (s : GoString) : Except UnmarshalError GoString :=
  match unquoteBytes (appendString s) with
  | some t => .ok t
  | none => .error .syntaxError

/-- Decoding into a `string`: a string token stores its content, `null` has no
effect, anything else is a type error. -/
def decodeString (j : JSON) (old : GoString) : Except UnmarshalError GoString :=
  match j with
  | .str s => tokenString s
  | .null => .ok old
  | _ => .error .typeError

/-- Decoding into one of the enumerated types, which implement
`json.Unmarshaler`: `UnmarshalJSON` is called with the bytes of the value, also
for `null`; for a value that is neither a string nor `null` it returns the type
error of `json.Unmarshal` into a string. -/
def decodeEnum (j : JSON) (old : GoString) : Except UnmarshalError GoString :=
  match j with
  | .str s =>
    match unmarshalInto old (appendString s) with
    | (v, none) => .ok v
    | (_, some err) => .error err
  | .null =>
    match unmarshalInto old [0x6E, 0x75, 0x6C, 0x6C] with
    | (v, none) => .ok v
    | (_, some err) => .error err
  | _ => .error .typeError

/-- The float64 nearest to an integer (ties to even), `none` when the integer
is too large for a float64. -/
def Float64.ofInt? (i : Int) : Option Float64 :=
  let n := i.natAbs
  if n ≤ 2 ^ 53 then some (.finite (decide (i < 0)) n 0)
  else
    let k := Nat.log2 n + 1 - 53
    let q := n / 2 ^ k
    let r := n % 2 ^ k
    let q' := if 2 ^ (k - 1) < r ∨ (r = 2 ^ (k - 1) ∧ q % 2 = 1) then q + 1 else q
    if q' * 2 ^ k < 2 ^ 1024 then some (.finite (decide (i < 0)) q' (k : Int)) else none

/-- Decoding a number token into a `float64`. -/
def decodeNumber : Number → Except UnmarshalError Float64
  | .int i =>
    match Float64.ofInt? i with
    | some f => .ok f
    | none => .error .typeError
  | .float f => .ok f

/-- Decoding into a `float64`. -/
def decodeFloat (j : JSON) (old : Float64) : Except UnmarshalError Float64 :=
  match j with
  | .num n => decodeNumber n
  | .null => .ok old
  | _ => .error .typeError

/-- Decoding into an `int` (64 bits): the digits of an integer in range; a
token written for a float64 that is not a small integer is a type error (it
has a fraction or an exponent; the digit strings Go prints for integral
float64 values above `2^53` are not represented). -/
def decodeInt (j : JSON) (old : Int) : Except UnmarshalError Int :=
  match j with
  | .num (.int i) =>
    if -(2 : Int) ^ 63 ≤ i ∧ i < (2 : Int) ^ 63 then .ok i else .error .typeError
  | .null => .ok old
  | _ => .error .typeError

/-- Decoding into a `*bool`: `null` sets the pointer to nil. -/
def decodeBoolPtr (j : JSON) (_old : Option Bool) : Except UnmarshalError (Option Bool) :=
  match j with
  | .bool b => .ok (some b)
  | .null => .ok none
  | _ => .error .typeError

mutual
/-- Decoding into an `any`: `nil`, `bool`, `float64`, `string`, `[]any` or
`map[string]any`, by the kind of the JSON value. -/
def decodeAny : JSON → Except UnmarshalError Any
  | .null => .ok .nil
  | .bool b => .ok (.bool b)
  | .num n =>
    match decodeNumber n with
    | .ok f => .ok (.float f)
    | .error e => .error e
  | .str s =>
    match tokenString s with
    | .ok t => .ok (.str t)
    | .error e => .error e
  | .arr elems =>
    match decodeAnyList elems with
    | .ok l => .ok (.slice l)
    | .error e => .error e
  | .obj members =>
    match decodeAnyMembers members [] with
    | .ok m => .ok (.map m)
    | .error e => .error e
/-- The elements of an array, each decoded into an `any`. -/
def decodeAnyList : List JSON → Except UnmarshalError (List Any)
  | [] => .ok []
  | j :: rest =>
    match decodeAny j with
    | .error e => .error e
    | .ok a =>
      match decodeAnyList rest with
      | .ok l => .ok (a :: l)
      | .error e => .error e
/-- The members of an object stored one after the other into a
`map[string]any` (`m[key] = value`). -/
def decodeAnyMembers : List (GoString × JSON) → List (GoString × Any) →
    Except UnmarshalError (List (GoString × Any))
  | [], acc => .ok acc
  | (k, v) :: rest, acc =>
    match tokenString k with
    | .error e => .error e
    | .ok key =>
      match decodeAny v with
      | .error e => .error e
      | .ok a => decodeAnyMembers rest (insertEntry key a acc)
end

/-- Decoding into a field of type `any`; what the field held is replaced. -/
def decodeAnyField (j : JSON) (_old : Any) : Except UnmarshalError Any :=
  decodeAny j

/-- Go `foldName`, as far as it can make a key equal to an ASCII field name:
ASCII letters are upper-cased, U+017F folds to `S` and U+212A to `K`. -/
def foldName : List Byte → List Byte
  | 0xC5 :: 0xBF :: rest => 0x53 :: foldName rest
  | 0xE2 :: 0x84 :: 0xAA :: rest => 0x4B :: foldName rest
  | b :: rest =>
    (if 0x61 ≤ b.val ∧ b.val ≤ 0x7A then ⟨(b.val - 0x20) % 256, Nat.mod_lt _ (by decide)⟩ else b)
      :: foldName rest
  | [] => []

/-- The index of the first element satisfying a test. -/
def firstIndex (p : GoString → Bool) : List GoString → Option Nat
  | [] => none
  | n :: rest => if p n then some 0 else (firstIndex p rest).map (fun i => i + 1)

/-- The struct field a key selects: the field with exactly that name, else the
first field whose name equals the key up to case folding. -/
def matchField (names : List String) (key : GoString) : Option Nat :=
  match firstIndex (fun n => decide (n = key)) (names.map GoString.lit) with
  | some i => some i
  | none => firstIndex (fun n => decide (foldName n = foldName key)) (names.map GoString.lit)

/-- The field that a key token of the document selects. -/
def fieldIndex (names : List String) (key : GoString) : Except UnmarshalError (Option Nat) :=
  match tokenString key with
  | .ok k => .ok (matchField names k)
  | .error e => .error e

/-- The members of an object decoded one after the other into a struct. -/
def decodeMembers {T : Type} (step : T → GoString → JSON → Except UnmarshalError T) :
    List (GoString × JSON) → T → Except UnmarshalError T
  | [], t => .ok t
  | (k, v) :: rest, t =>
    match step t k v with
    | .ok t' => decodeMembers step rest t'
    | .error e => .error e

/-- Decoding into a struct: an object sets the fields its members name, `null`
has no effect, anything else is a type error. -/
def decodeStruct {T : Type} (step : T → GoString → JSON → Except UnmarshalError T)
    (j : JSON) (t : T) : Except UnmarshalError T :=
  match j with
  | .obj members => decodeMembers step members t
  | .null => .ok t
  | _ => .error .typeError

/-- Decoding into a pointer to a struct: `null` sets the pointer to nil,
anything else is decoded into the record it points to, allocated first when
the pointer is nil. -/
def decodePtr {T : Type} (dec : JSON → T → Except UnmarshalError T) (zero : T)
    (j : JSON) (old : Option T) : Except UnmarshalError (Option T) :=
  match j with
  | .null => .ok none
  | j =>
    match dec j (old.getD zero) with
    | .ok t => .ok (some t)
    | .error e => .error e
/-- One member decoded into a `Sort`. -/
def decodeSortMember (s : SortSpec) (key : GoString) (v : JSON) :
    Except UnmarshalError SortSpec :=
  match fieldIndex ["order", "type", "format", "mode"] key with
  | .error e => .error e
  | .ok (some 0) => (decodeEnum v s.Order.val).map (fun x => { s with Order := ⟨x⟩ })
  | .ok (some 1) => (decodeString v s.Type_).map (fun x => { s with Type_ := x })
  | .ok (some 2) => (decodeString v s.Format).map (fun x => { s with Format := x })
  | .ok (some 3) => (decodeEnum v s.Mode.val).map (fun x => { s with Mode := ⟨x⟩ })
  | .ok _ => .ok s

/-- Decoding into a `Sort`. -/
def decodeSort (j : JSON) (s : SortSpec) : Except UnmarshalError SortSpec :=
  decodeStruct decodeSortMember j s

/-- One member decoded into a `Term`. -/
def decodeTermMember (t : Term) (key : GoString) (v : JSON) : Except UnmarshalError Term :=
  match fieldIndex ["value", "boost", "case_sensitive"] key with
  | .error e => .error e
  | .ok (some 0) => (decodeString v t.Value).map (fun x => { t with Value := x })
  | .ok (some 1) => (decodeFloat v t.Boost).map (fun x => { t with Boost := x })
  | .ok (some 2) =>
    (decodeBoolPtr v t.CaseSensitive).map (fun x => { t with CaseSensitive := x })
  | .ok _ => .ok t

/-- Decoding into a `Term`. -/
def decodeTerm (j : JSON) (t : Term) : Except UnmarshalError Term :=
  decodeStruct decodeTermMember j t

/-- One member decoded into a `Range`. -/
def decodeRangeMember (r : Range) (key : GoString) (v : JSON) : Except UnmarshalError Range :=
  match fieldIndex ["gt", "gte", "lt", "lte", "boost", "format", "relation", "time_zone"]
      key with
  | .error e => .error e
  | .ok (some 0) => (decodeAnyField v r.GT).map (fun x => { r with GT := x })
  | .ok (some 1) => (decodeAnyField v r.GTE).map (fun x => { r with GTE := x })
  | .ok (some 2) => (decodeAnyField v r.LT).map (fun x => { r with LT := x })
  | .ok (some 3) => (decodeAnyField v r.LTE).map (fun x => { r with LTE := x })
  | .ok (some 4) => (decodeFloat v r.Boost).map (fun x => { r with Boost := x })
  | .ok (some 5) => (decodeString v r.Format).map (fun x => { r with Format := x })
  | .ok (some 6) => (decodeEnum v r.Relation.val).map (fun x => { r with Relation := ⟨x⟩ })
  | .ok (some 7) => (decodeString v r.TimeZone).map (fun x => { r with TimeZone := x })
  | .ok _ => .ok r

/-- Decoding into a `Range`. -/
def decodeRange (j : JSON) (r : Range) : Except UnmarshalError Range :=
  decodeStruct decodeRangeMember j r

/-- One member decoded into a `MatchAll`. -/
def decodeMatchAllMember (ma : MatchAll) (key : GoString) (v : JSON) :
    Except UnmarshalError MatchAll :=
  match fieldIndex ["boost"] key with
  | .error e => .error e
  | .ok (some 0) => (decodeFloat v ma.Boost).map (fun x => { Boost := x })
  | .ok _ => .ok ma

/-- Decoding into a `MatchAll`. -/
def decodeMatchAll (j : JSON) (ma : MatchAll) : Except UnmarshalError MatchAll :=
  decodeStruct decodeMatchAllMember j ma

/-- One member decoded into a `MatchNone`: the struct has no field, every
member is skipped once its key is read. -/
def decodeMatchNoneMember (mn : MatchNone) (key : GoString) (_v : JSON) :
    Except UnmarshalError MatchNone :=
  match fieldIndex [] key with
  | .error e => .error e
  | .ok _ => .ok mn

/-- Decoding into a `MatchNone`. -/
def decodeMatchNone (j : JSON) (mn : MatchNone) : Except UnmarshalError MatchNone :=
  decodeStruct decodeMatchNoneMember j mn

/-- One member decoded into a `Match`. -/
def decodeMatchMember (m : Match) (key : GoString) (v : JSON) : Except UnmarshalError Match :=
  match fieldIndex ["query", "operator", "boost", "fuzzy_transpositions", "fuzzy_rewrite",
      "max_expansions", "lenient", "zero_terms_query", "fuzziness", "prefix_length",
      "minimum_should_match"] key with
  | .error e => .error e
  | .ok (some 0) => (decodeAnyField v m.Query).map (fun x => { m with Query := x })
  | .ok (some 1) => (decodeEnum v m.Operator.val).map (fun x => { m with Operator := ⟨x⟩ })
  | .ok (some 2) => (decodeFloat v m.Boost).map (fun x => { m with Boost := x })
  | .ok (some 3) =>
    (decodeBoolPtr v m.FuzzyTranspositions).map (fun x => { m with FuzzyTranspositions := x })
  | .ok (some 4) => (decodeString v m.FuzzyRewrite).map (fun x => { m with FuzzyRewrite := x })
  | .ok (some 5) => (decodeInt v m.MaxExpansions).map (fun x => { m with MaxExpansions := x })
  | .ok (some 6) => (decodeBoolPtr v m.Lenient).map (fun x => { m with Lenient := x })
  | .ok (some 7) =>
    (decodeEnum v m.ZeroTermsQuery.val).map (fun x => { m with ZeroTermsQuery := ⟨x⟩ })
  | .ok (some 8) => (decodeString v m.Fuzziness).map (fun x => { m with Fuzziness := x })
  | .ok (some 9) => (decodeInt v m.PrefixLength).map (fun x => { m with PrefixLength := x })
  | .ok (some 10) =>
    (decodeString v m.MinimumShouldMatch).map (fun x => { m with MinimumShouldMatch := x })
  | .ok _ => .ok m

/-- Decoding into a `Match`. -/
def decodeMatch (j : JSON) (m : Match) : Except UnmarshalError Match :=
  decodeStruct decodeMatchMember j m

/-- The members of an object stored one after the other into a
`map[string]V`: each value is decoded into a fresh zero element, then
`m[key] = element`. -/
def decodeMapMembers {V : Type} (dec : JSON → V → Except UnmarshalError V) (zero : V) :
    List (GoString × JSON) → GoMap V → Except UnmarshalError (GoMap V)
  | [], m => .ok m
  | (k, v) :: rest, m =>
    match tokenString k with
    | .error e => .error e
    | .ok key =>
      match dec v zero with
      | .error e => .error e
      | .ok x => decodeMapMembers dec zero rest (m.set key x)

/-- Decoding into a `map[string]V`: `null` sets the map to nil, an object
stores its members into the map, allocated first when it is nil. -/
def decodeMap {V : Type} (dec : JSON → V → Except UnmarshalError V) (zero : V)
    (j : JSON) (old : Option (GoMap V)) : Except UnmarshalError (Option (GoMap V)) :=
  match j with
  | .null => .ok none
  | .obj members =>
    match decodeMapMembers dec zero members (allocated old) with
    | .ok m => .ok (some m)
    | .error e => .error e
  | _ => .error .typeError

mutual
/-- Decoding into a `Query`. -/
def decodeQuery : JSON → Query → Except UnmarshalError Query
  | .obj members, q => decodeQueryMembers members q
  | .null, q => .ok q
  | _, _ => .error .typeError
/-- The members of an object decoded one after the other into a `Query`. -/
def decodeQueryMembers : List (GoString × JSON) → Query → Except UnmarshalError Query
  | [], q => .ok q
  | (k, v) :: rest, q =>
    match fieldIndex ["match_all", "match_none", "bool", "term", "match"] k with
    | .error e => .error e
    | .ok (some 0) =>
      match decodePtr decodeMatchAll MatchAll.zero v q.MatchAll with
      | .ok x => decodeQueryMembers rest (q.SetMatchAll x)
      | .error e => .error e
    | .ok (some 1) =>
      match decodePtr decodeMatchNone MatchNone.zero v q.MatchNone with
      | .ok x => decodeQueryMembers rest (q.SetMatchNone x)
      | .error e => .error e
    | .ok (some 2) =>
      match decodeBoolPtrQuery v q.Bool with
      | .ok x => decodeQueryMembers rest (q.SetBool x)
      | .error e => .error e
    | .ok (some 3) =>
      match decodeMap decodeTerm Term.zero v q.Term with
      | .ok x => decodeQueryMembers rest (.mk q.MatchAll q.MatchNone q.Bool x q.Match)
      | .error e => .error e
    | .ok (some 4) =>
      match decodeMap decodeMatch Match.zero v q.Match with
      | .ok x => decodeQueryMembers rest (.mk q.MatchAll q.MatchNone q.Bool q.Term x)
      | .error e => .error e
    | .ok _ => decodeQueryMembers rest q
/-- Decoding into a `*Bool`. -/
def decodeBoolPtrQuery : JSON → Option BoolQuery → Except UnmarshalError (Option BoolQuery)
  | .null, _ => .ok none
  | .obj members, old =>
    match decodeBoolMembers members (old.getD BoolQuery.zero) with
    | .ok b => .ok (some b)
    | .error e => .error e
  | _, _ => .error .typeError
/-- The members of an object decoded one after the other into a `Bool`. -/
def decodeBoolMembers : List (GoString × JSON) → BoolQuery → Except UnmarshalError BoolQuery
  | [], b => .ok b
  | (k, v) :: rest, b =>
    match fieldIndex ["must", "must_not", "should", "filter"] k with
    | .error e => .error e
    | .ok (some 0) =>
      match decodeQuerySlice v b.Must with
      | .ok x => decodeBoolMembers rest (.mk x b.MustNot b.Should b.Filter)
      | .error e => .error e
    | .ok (some 1) =>
      match decodeQuerySlice v b.MustNot with
      | .ok x => decodeBoolMembers rest (.mk b.Must x b.Should b.Filter)
      | .error e => .error e
    | .ok (some 2) =>
      match decodeQuerySlice v b.Should with
      | .ok x => decodeBoolMembers rest (.mk b.Must b.MustNot x b.Filter)
      | .error e => .error e
    | .ok (some 3) =>
      match decodeQueryPtr v b.Filter with
      | .ok x => decodeBoolMembers rest (b.SetFilter x)
      | .error e => .error e
    | .ok _ => decodeBoolMembers rest b
/-- Decoding into a `*Query`. -/
def decodeQueryPtr : JSON → Option Query → Except UnmarshalError (Option Query)
  | .null, _ => .ok none
  | .obj members, old =>
    match decodeQueryMembers members (old.getD Query.zero) with
    | .ok q => .ok (some q)
    | .error e => .error e
  | _, _ => .error .typeError
/-- Decoding into a `[]*Query`: `null` sets the slice to nil, an array gives
the slice of its elements. -/
def decodeQuerySlice : JSON → List (Option Query) → Except UnmarshalError (List (Option Query))
  | .null, _ => .ok []
  | .arr elems, old => decodeQueryElems elems old
  | _, _ => .error .typeError
/-- The elements of an array decoded into the elements of a `[]*Query`: into
the element the slice holds at that index, or into a nil pointer past its
end. -/
def decodeQueryElems : List JSON → List (Option Query) →
    Except UnmarshalError (List (Option Query))
  | [], _ => .ok []
  | j :: rest, old =>
    match decodeQueryPtr j old.head?.join with
    | .error e => .error e
    | .ok q =>
      match decodeQueryElems rest old.tail with
      | .ok l => .ok (q :: l)
      | .error e => .error e
end

/-- Decoding into a `Bool`. -/
def decodeBool (j : JSON) (b : BoolQuery) : Except UnmarshalError BoolQuery :=
  match j with
  | .obj members => decodeBoolMembers members b
  | .null => .ok b
  | _ => .error .typeError

/-- Decoding into a `map[string]any`, an element of `Search.Sort`. -/
def decodeSortEntry (j : JSON) (old : Option (List (GoString × Any))) :
    Except UnmarshalError (Option (List (GoString × Any))) :=
  match j with
  | .null => .ok none
  | .obj members =>
    match decodeAnyMembers members (old.getD []) with
    | .ok m => .ok (some m)
    | .error e => .error e
  | _ => .error .typeError

/-- The elements of an array decoded into the elements of `Search.Sort`. -/
def decodeSortElems : List JSON → List (Option (List (GoString × Any))) →
    Except UnmarshalError (List (Option (List (GoString × Any))))
  | [], _ => .ok []
  | j :: rest, old =>
    match decodeSortEntry j old.head?.join with
    | .error e => .error e
    | .ok m =>
      match decodeSortElems rest old.tail with
      | .ok l => .ok (m :: l)
      | .error e => .error e

/-- Decoding into `Search.Sort`. -/
def decodeSortSlice (j : JSON) (old : List (Option (List (GoString × Any)))) :
    Except UnmarshalError (List (Option (List (GoString × Any)))) :=
  match j with
  | .null => .ok []
  | .arr elems => decodeSortElems elems old
  | _ => .error .typeError

/-- One member decoded into a `Search`. -/
def decodeSearchMember (s : Search) (key : GoString) (v : JSON) :
    Except UnmarshalError Search :=
  match fieldIndex ["size", "sort", "query", "_source"] key with
  | .error e => .error e
  | .ok (some 0) => (decodeInt v s.Size).map (fun x => { s with Size := x })
  | .ok (some 1) => (decodeSortSlice v s.Sort_).map (fun x => { s with Sort_ := x })
  | .ok (some 2) => (decodeQueryPtr v s.Query).map (fun x => { s with Query := x })
  | .ok (some 3) => (decodeAnyField v s.Source).map (fun x => { s with Source := x })
  | .ok _ => .ok s

/-- Decoding into a `Search`. -/
def decodeSearch (j : JSON) (s : Search) : Except UnmarshalError Search :=
  decodeStruct decodeSearchMember j s

/-- The search of the counterexample to the round trip: one sort map whose
field `date` holds a `Sort` with order `asc` and mode `min`. -/
def sortedSearch : Search :=
  (NewSearch []).AddSort (some [(GoString.lit "date",
    .sort (((NewsSort []).SetOrder SortOrderAsc).SetMode SortModeMin))])

/-- A search that survives the round trip: a size, one sort map holding a
string, a `match` clause whose untyped query is an integer, and a source
filter. -/
def plainSearch : Search :=
  (((NewSearch []).SetSize 5).AddSort (some [(GoString.lit "date",
      .str (GoString.lit "asc"))])).SetQuery
    (some ((NewQuery []).SetMatch (GoString.lit "title")
      (((NewMatch []).SetQuery (.int 7)).SetOperator MatchOperatorAnd)))

/-! ## Values that survive a round trip

The conditions under which a value comes back from its own encoding: its
strings are well-formed UTF-8, its Go `int` fields are 64-bit integers, and
its untyped fields hold only what `json.Unmarshal` itself puts into an `any`
or what encodes like it (a `Sort` encodes like the map of its set fields when
those are written in ascending key order). -/

/-- A Go `int`: a 64-bit integer. -/
def IsInt64 (i : Int) : Prop := -(2 : Int) ^ 63 ≤ i ∧ i < (2 : Int) ^ 63

/-- The strings of a `Sort` are well-formed UTF-8. -/
def SortSpec.WF (s : SortSpec) : Prop :=
  validUTF8 s.Order.val = true ∧ validUTF8 s.Type_ = true ∧ validUTF8 s.Format = true
    ∧ validUTF8 s.Mode.val = true

/-- The fields of a `Sort` that are set are written in ascending key order.
`json.Marshal` writes the fields of the struct in declaration order (`order`,
`type`, `format`, `mode`) and the keys of a map in ascending order (`format`,
`mode`, `order`, `type`): the two orders agree on the fields that are set
exactly when `order` and `type` are both unset or `format` and `mode` are. -/
def SortSpec.KeysInOrder (s : SortSpec) : Prop :=
  (s.Order.val = [] ∧ s.Type_ = []) ∨ (s.Format = [] ∧ s.Mode.val = [])

mutual
/-- A value of type `any` that is `nil`, a `bool`, an `int` of magnitude at
most `2^53`, a `float64`, a well-formed string, a slice or map of such values
with well-formed keys in ascending order, or a `Sort` with well-formed strings
whose set fields are written in ascending key order. -/
def Any.Plain : Any → Prop
  | .nil => True
  | .bool _ => True
  | .int i => i.natAbs ≤ 2 ^ 53
  | .float _ => True
  | .str s => validUTF8 s = true
  | .slice l => Any.PlainList l
  | .map m => KeysAscending m ∧ Any.PlainEntries m
  | .sort s => s.WF ∧ s.KeysInOrder
/-- Every element is plain. -/
def Any.PlainList : List Any → Prop
  | [] => True
  | a :: rest => a.Plain ∧ Any.PlainList rest
/-- Every key is well-formed and every value is plain. -/
def Any.PlainEntries : List (GoString × Any) → Prop
  | [] => True
  | (k, a) :: rest => validUTF8 k = true ∧ a.Plain ∧ Any.PlainEntries rest
end

/-- The value of a `Term` is well-formed UTF-8. -/
def Term.WF (t : Term) : Prop := validUTF8 t.Value = true

/-- The bounds of a `Range` are plain and its strings well-formed UTF-8. -/
def Range.WF (r : Range) : Prop :=
  r.GT.Plain ∧ r.GTE.Plain ∧ r.LT.Plain ∧ r.LTE.Plain ∧ validUTF8 r.Format = true
    ∧ validUTF8 r.Relation.val = true ∧ validUTF8 r.TimeZone = true

/-- The query of a `Match` is plain, its strings are well-formed UTF-8 and its
`int` fields are 64-bit integers. -/
def Match.WF (m : Match) : Prop :=
  m.Query.Plain ∧ validUTF8 m.Operator.val = true ∧ validUTF8 m.FuzzyRewrite = true
    ∧ IsInt64 m.MaxExpansions ∧ validUTF8 m.ZeroTermsQuery.val = true
    ∧ validUTF8 m.Fuzziness = true ∧ IsInt64 m.PrefixLength
    ∧ validUTF8 m.MinimumShouldMatch = true

/-- Every key of the entries is well-formed UTF-8 and every value satisfies
`P`. -/
def EntriesWF {V : Type} (P : V → Prop) : List (GoString × V) → Prop
  | [] => True
  | (k, v) :: rest => validUTF8 k = true ∧ P v ∧ EntriesWF P rest

/-- The condition `EntriesWF` on a map that may be nil. -/
def MapWF {V : Type} (P : V → Prop) : Option (GoMap V) → Prop
  | none => True
  | some m => EntriesWF P m.entries

mutual
/-- The keyed clauses of a `Query` and, through its `Bool`, of every query
below it are well-formed. -/
def Query.WF : Query → Prop
  | .mk _ _ b t m => BoolQuery.WFOpt b ∧ MapWF Term.WF t ∧ MapWF Match.WF m
/-- The condition `BoolQuery.WF` on a pointer that may be nil. -/
def BoolQuery.WFOpt : Option BoolQuery → Prop
  | none => True
  | some b => b.WF
/-- Every query of a `Bool` is well-formed. -/
def BoolQuery.WF : BoolQuery → Prop
  | .mk must mustNot should filter =>
    Query.WFList must ∧ Query.WFList mustNot ∧ Query.WFList should ∧ Query.WFOpt filter
/-- The condition `Query.WF` on a pointer that may be nil. -/
def Query.WFOpt : Option Query → Prop
  | none => True
  | some q => q.WF
/-- The condition `Query.WFOpt` on every element. -/
def Query.WFList : List (Option Query) → Prop
  | [] => True
  | q :: rest => Query.WFOpt q ∧ Query.WFList rest
end

/-- One element of `Search.Sort` is a nil map or a map with well-formed keys
in ascending order and plain values. -/
def SortEntryWF : Option (List (GoString × Any)) → Prop
  | none => True
  | some m => KeysAscending m ∧ Any.PlainEntries m

/-- The condition `SortEntryWF` on every element. -/
def SortListWF : List (Option (List (GoString × Any))) → Prop
  | [] => True
  | m :: rest => SortEntryWF m ∧ SortListWF rest

/-- The size of a `Search` is a 64-bit integer, its sort maps and its source
are plain and its query is well-formed. -/
def Search.WF (s : Search) : Prop :=
  IsInt64 s.Size ∧ SortListWF s.Sort_ ∧ Query.WFOpt s.Query ∧ s.Source.Plain

/-- A query with two Term entries, set for `b` first and for `a` second. -/
def twoTermQuery : Query :=
  ((NewQuery []).SetTerm (GoString.lit "b") (Term.zero.SetValue (GoString.lit "y"))).SetTerm
    (GoString.lit "a") (Term.zero.SetValue (GoString.lit "x"))

/-! ## Sequences of calls and concurrent callers of `SetTerm`

The calls of a list made one after the other, and the interleavings of the
statements of goroutines that call `SetTerm` on one Query: a goroutine is at
one of the statements of the method, the mutex is a lock bit, and a schedule
names the goroutine that executes its next statement.  Accesses to `q.Term`
all happen inside the mutex, so the program has no data race and its
executions are these interleavings. -/

/-- The assignments `m[k] = v` of a list of calls, in order. -/
def GoMap.setAll {V : Type} (m : GoMap V) (calls : List (GoString × V)) : GoMap V :=
  calls.foldl (fun m c => m.set c.1 c.2) m

/-- The calls `q.SetTerm(f1, t1)`, ..., `q.SetTerm(fn, tn)` made one after the
other on the same Query. -/
def Query.SetTerms (q : Query) (calls : List (GoString × ES.Term)) : Query :=
  calls.foldl (fun q c => q.SetTerm c.1 c.2) q

/-- Three calls, the field `a` named by the first and by the last. -/
def threeCalls : List (GoString × Term) :=
  [(GoString.lit "a", Term.zero.SetValue (GoString.lit "x")),
   (GoString.lit "b", Term.zero.SetValue (GoString.lit "y")),
   (GoString.lit "a", Term.zero.SetValue (GoString.lit "z"))]

/-- Where a goroutine inside `q.SetTerm(field, t)` stands: before
`q.mu.Lock()`; before the test `q.Term == nil`; before the allocation the
test guards, with the outcome of the test; before the assignment
`q.Term[field] = t`; before the deferred `q.mu.Unlock()`; returned. -/
inductive Pc where
  | atLock
  | atTest
  | atAlloc (sawNil : Bool)
  | atStore
  | atUnlock
  | returned
deriving DecidableEq

/-- The goroutine holds the mutex. -/
def Pc.inside : Pc → Bool
  | .atLock => false
  | .returned => false
  | _ => true

/-- The goroutine has made its assignment. -/
def Pc.stored : Pc → Bool
  | .atUnlock => true
  | .returned => true
  | _ => false

/-- The statements a goroutine has still to execute. -/
def Pc.remaining : Pc → Nat
  | .atLock => 5
  | .atTest => 4
  | .atAlloc _ => 3
  | .atStore => 2
  | .atUnlock => 1
  | .returned => 0

/-- What the goroutines share: the mutex `q.mu` (`true` when locked), the
record `*q`, and whether the program has panicked. -/
structure Shared where
  locked : Bool
  query : Query
  panicked : Bool

/-- The record with its field `Term` replaced. -/
def Query.withTerm (q : Query) (t : Option (GoMap ES.Term)) : Query :=
  .mk q.MatchAll q.MatchNone q.Bool t q.Match

/-- One statement of `q.SetTerm(field, t)` executed by a goroutine at `pc`.
`Lock` blocks while the mutex is locked: the goroutine stays where it is.  An
assignment to an entry of a nil map panics. -/
def stepSetTerm (field : GoString) (t : Term) (pc : Pc) (s : Shared) : Pc × Shared :=
  match pc with
  | .atLock => if s.locked then (.atLock, s) else (.atTest, { s with locked := true })
  | .atTest => (.atAlloc s.query.Term.isNone, s)
  | .atAlloc sawNil =>
    (.atStore, if sawNil then { s with query := s.query.withTerm (some GoMap.empty) } else s)
  | .atStore =>
    match s.query.Term with
    | none => (.atStore, { s with panicked := true })
    | some m => (.atUnlock, { s with query := s.query.withTerm (some (m.set field t)) })
  | .atUnlock => (.returned, { s with locked := false })
  | .returned => (.returned, s)

/-- A moment of the execution: what is shared, and where each goroutine
stands. -/
structure Run where
  shared : Shared
  pcs : List Pc

/-- The goroutine `i` executes its next statement; nothing happens when there
is no goroutine `i` or the program has panicked. -/
def step (calls : List (GoString × Term)) (i : Nat) (r : Run) : Run :=
  if r.shared.panicked then r
  else
    match calls[i]?, r.pcs[i]? with
    | some c, some pc =>
      ⟨(stepSetTerm c.1 c.2 pc r.shared).2, r.pcs.set i (stepSetTerm c.1 c.2 pc r.shared).1⟩
    | _, _ => r

/-- An interleaving: the goroutines named by the schedule execute one
statement each, in that order. -/
def run (calls : List (GoString × Term)) (sched : List Nat) (r : Run) : Run :=
  sched.foldl (fun r i => step calls i r) r

/-- The moment at which `n` goroutines have been started on the Query `q` and
none has executed a statement. -/
def start (q : Query) (n : Nat) : Run :=
  ⟨⟨false, q, false⟩, List.replicate n .atLock⟩

/-- Every goroutine has returned. -/
def Run.finished (r : Run) : Prop := ∀ pc ∈ r.pcs, pc = Pc.returned

instance (r : Run) : Decidable r.finished :=
  inferInstanceAs (Decidable (∀ pc ∈ r.pcs, pc = Pc.returned))

/-- What holds at every moment of an execution started on the Query `q`. -/
structure Inv (q : Query) (calls : List (GoString × Term)) (r : Run) : Prop where
  len : r.pcs.length = calls.length
  noPanic : r.shared.panicked = false
  slots : r.shared.query.MatchAll = q.MatchAll ∧ r.shared.query.MatchNone = q.MatchNone
    ∧ r.shared.query.Bool = q.Bool ∧ r.shared.query.Match = q.Match
  excl : ∀ (i j : Nat) (pi pj : Pc), r.pcs[i]? = some pi → r.pcs[j]? = some pj →
    pi.inside = true → pj.inside = true → i = j
  held : r.shared.locked = true ↔ ∃ (i : Nat) (pc : Pc), r.pcs[i]? = some pc ∧ pc.inside = true
  sawNil : ∀ i : Nat, r.pcs[i]? = some (Pc.atAlloc true) → r.shared.query.Term = none
  alloc : ∀ (i : Nat) (pc : Pc), r.pcs[i]? = some pc →
    (pc = Pc.atAlloc false ∨ pc = Pc.atStore ∨ pc.stored = true) → r.shared.query.Term ≠ none
  kept : ∀ (i : Nat) (pc : Pc) (c : GoString × Term), r.pcs[i]? = some pc →
    calls[i]? = some c → pc.stored = true →
    (allocated r.shared.query.Term).get? c.1 = some c.2
  fresh : ∀ k : GoString, (∀ (i : Nat) (pc : Pc) (c : GoString × Term),
      r.pcs[i]? = some pc → calls[i]? = some c → c.1 = k → pc.stored = false) →
    (allocated r.shared.query.Term).get? k = (allocated q.Term).get? k

/-- The statements all goroutines together have still to execute. -/
def Run.remaining (r : Run) : Nat := (r.pcs.map Pc.remaining).sum

/-- Two callers, for the fields `a` and `b`, on a fresh Query. -/
def twoCallers : List (GoString × Term) :=
  [(GoString.lit "a", Term.zero.SetValue (GoString.lit "x")),
   (GoString.lit "b", Term.zero.SetValue (GoString.lit "y"))]

/-- A query with Terms for two field names that are not well-formed UTF-8:
the one byte `0xFE` and the one byte `0xFF`. -/
def clashQuery : Query :=
  ((NewQuery []).SetTerm [0xFE] (Term.zero.SetValue (GoString.lit "x"))).SetTerm [0xFF]
    (Term.zero.SetValue (GoString.lit "y"))

/-! ## The validity scan of `json.Unmarshal`

`json.Unmarshal` runs `checkValid` over the whole input before it decodes
anything, and the scanner refuses a document nested deeper than 10000.  What
follows states the call with that scan, the depth of a document, the JSON
number grammar that the text of a float64 has to follow, and the values used
to show where the round trip ends. -/

mutual
/-- How deep the arrays and objects of a document nest: `0` for a scalar. -/
def JSON.depth : JSON → Nat
  | .arr elems => JSON.depthElems elems + 1
  | .obj members => JSON.depthMembers members + 1
  | _ => 0
/-- The deepest of the elements. -/
def JSON.depthElems : List JSON → Nat
  | [] => 0
  | j :: rest => max j.depth (JSON.depthElems rest)
/-- The deepest of the member values. -/
def JSON.depthMembers : List (GoString × JSON) → Nat
  | [] => 0
  | (_, j) :: rest => max j.depth (JSON.depthMembers rest)
end

mutual
/-- Every float64 of the document is finite. -/
def JSON.Finite : JSON → Prop
  | .num (.float f) => f.isFinite = true
  | .arr elems => JSON.FiniteElems elems
  | .obj members => JSON.FiniteMembers members
  | _ => True
/-- Every float64 of the elements is finite. -/
def JSON.FiniteElems : List JSON → Prop
  | [] => True
  | j :: rest => j.Finite ∧ JSON.FiniteElems rest
/-- Every float64 of the member values is finite. -/
def JSON.FiniteMembers : List (GoString × JSON) → Prop
  | [] => True
  | (_, j) :: rest => j.Finite ∧ JSON.FiniteMembers rest
end

/-- The places of the JSON number grammar (RFC 8259, section 6):
`[ minus ] int [ frac ] [ exp ]`. -/
inductive NumState where
  | start | minus | zero | int | point | frac | expMark | expSign | exp
deriving DecidableEq

/-- One byte of a number. -/
def NumState.next : NumState → Byte → Option NumState
  | .start, c =>
    if c = 0x2D then some .minus else if c = 0x30 then some .zero
    else if 0x31 ≤ c.val ∧ c.val ≤ 0x39 then some .int else none
  | .minus, c =>
    if c = 0x30 then some .zero
    else if 0x31 ≤ c.val ∧ c.val ≤ 0x39 then some .int else none
  | .zero, c =>
    if c = 0x2E then some .point else if c = 0x65 ∨ c = 0x45 then some .expMark else none
  | .int, c =>
    if isDigit c then some .int else if c = 0x2E then some .point
    else if c = 0x65 ∨ c = 0x45 then some .expMark else none
  | .point, c => if isDigit c then some .frac else none
  | .frac, c =>
    if isDigit c then some .frac else if c = 0x65 ∨ c = 0x45 then some .expMark else none
  | .expMark, c =>
    if c = 0x2B ∨ c = 0x2D then some .expSign else if isDigit c then some .exp else none
  | .expSign, c => if isDigit c then some .exp else none
  | .exp, c => if isDigit c then some .exp else none

/-- The place reached after the bytes, if they fit the grammar so far. -/
def NumState.run : NumState → List Byte → Option NumState
  | st, [] => some st
  | st, c :: rest =>
    match st.next c with
    | some st' => NumState.run st' rest
    | none => none

/-- A place at which a number may end. -/
def NumState.final : NumState → Bool
  | .zero => true
  | .int => true
  | .frac => true
  | .exp => true
  | _ => false

/-- The bytes are a JSON number. -/
def isNumberText (bs : List Byte) : Bool :=
  match NumState.run .start bs with
  | some st => st.final
  | none => false

/-- The text of every finite float64 is a JSON number. -/
def NumberTexts (floatText : Float64 → List Byte) : Prop :=
  ∀ f, f.isFinite = true → isNumberText (floatText f) = true

/-- The scanner after the bytes. -/
def Scanner.run (s : Scanner) (bs : List Byte) : Scanner := bs.foldl Scanner.next s

/-- The scanner states in which a value has been read to its end: after a
string, a literal or a closing bracket, or inside a number at a place where it
may end. -/
def ScanStep.ended : ScanStep → Bool
  | .endValue => true
  | .s0 => true
  | .s1 => true
  | .dot0 => true
  | .e0 => true
  | _ => false

/-- The scanner state in which a value may start. -/
def ScanStep.starts : ScanStep → Bool
  | .beginValue => true
  | .beginValueOrEmpty => true
  | _ => false

/-- The call `json.Unmarshal(data, &v)` for the bytes `data` of the document
`j`: `checkValid` scans the whole input first (it is there that a document
nested deeper than 10000 is refused), then the document is decoded into `v`
by `dec`. -/
def Unmarshal {T : Type} (floatText : Float64 → List Byte)
    (dec : JSON → T → Except UnmarshalError T) (j : JSON) (v : T) : Except UnmarshalError T :=
  if checkValid (j.render floatText) then dec j v else .error .syntaxError

/-- The scanner state that stands for a place of the number grammar. -/
def NumState.step : NumState → ScanStep
  | .start => .beginValue
  | .minus => .neg
  | .zero => .s0
  | .int => .s1
  | .point => .dot
  | .frac => .dot0
  | .expMark => .e
  | .expSign => .eSign
  | .exp => .e0

/-- The byte of a decimal digit character. -/
def digitByte (c : Char) : Byte := ⟨c.toNat % 256, Nat.mod_lt _ (by decide)⟩

/-- The scanner after the closing bracket of a value begun with parse stack
`ps`: at the end of the text when the stack is empty, after a value
otherwise. -/
def Scanner.closed (e : Bool) (ps : List ParseState) : Scanner :=
  match ps with
  | [] => ⟨.endTop, true, []⟩
  | p :: rest => ⟨.endValue, e, p :: rest⟩

/-- The scanner `s` has read one whole value that began with parse stack `ps`
and flag `e`. -/
def Scanner.AfterValue (e : Bool) (ps : List ParseState) (s : Scanner) : Prop :=
  (∃ st, st.ended = true ∧ s = ⟨st, e, ps⟩) ∨ (ps = [] ∧ s = ⟨.endTop, true, []⟩)

/-- Slices nested `n + 1` deep: `[]any{}` inside `n` slices of one element. -/
def deepSlice : Nat → Any
  | 0 => .slice []
  | n + 1 => .slice [deepSlice n]

/-- The document of `deepSlice n`: `n + 1` nested arrays. -/
def deepArr : Nat → JSON
  | 0 => .arr []
  | n + 1 => .arr [deepArr n]

/-- A Match whose query is 10000 nested slices; its document nests 10001
deep. -/
def deepMatch : Match := (NewMatch []).SetQuery (deepSlice 9999)

/-- A Match whose query is the integer `2^53 + 1`. -/
def bigIntMatch : Match := (NewMatch []).SetQuery (.int 9007199254740993)

/-! # Theorems -/

/-! ## Maps -/

theorem lookupEntry_insertEntry_same {V : Type} (k : GoString) (v : V)
    (l : List (GoString × V)) : lookupEntry k (insertEntry k v l) = some v := by
  induction l with
  | nil => simp [insertEntry, lookupEntry]
  | cons hd tl ih =>
    obtain ⟨k', v'⟩ := hd
    unfold insertEntry
    split_ifs with h1 h2
    · simp [lookupEntry]
    · simp [lookupEntry]
    · simp [lookupEntry, h1, ih]

theorem lookupEntry_insertEntry_other {V : Type} (k k0 : GoString) (v : V)
    (l : List (GoString × V)) (h : k0 ≠ k) :
    lookupEntry k0 (insertEntry k v l) = lookupEntry k0 l := by
  induction l with
  | nil => simp [insertEntry, lookupEntry, h]
  | cons hd tl ih =>
    obtain ⟨k', v'⟩ := hd
    unfold insertEntry
    split_ifs with h1 h2
    · subst h1
      simp [lookupEntry, h]
    · simp [lookupEntry, h]
    · simp [lookupEntry, ih]

theorem insertEntry_insertEntry_same {V : Type} (k : GoString) (a b : V)
    (l : List (GoString × V)) :
    insertEntry k b (insertEntry k a l) = insertEntry k b l := by
  induction l with
  | nil => simp [insertEntry]
  | cons hd tl ih =>
    obtain ⟨k', v'⟩ := hd
    by_cases h1 : k = k'
    · simp [insertEntry, h1]
    · by_cases h2 : k < k'
      · simp [insertEntry, h1, h2]
      · simp [insertEntry, h1, h2, ih]

theorem count_eq_zero_of_keyBelow {V : Type} (k : GoString)
    (l : List (GoString × V)) (h : KeyBelow k l) : (entryKeys l).count k = 0 := by
  apply List.count_eq_zero.2
  intro hmem
  obtain ⟨e, he, hk⟩ := List.mem_map.1 hmem
  have := h e he
  rw [hk] at this
  exact lt_irrefl _ this

theorem count_insertEntry_same {V : Type} (k : GoString) (v : V)
    (l : List (GoString × V)) (hl : KeysAscending l) :
    (entryKeys (insertEntry k v l)).count k = 1 := by
  induction l with
  | nil => simp [insertEntry, entryKeys]
  | cons hd tl ih =>
    obtain ⟨k', v'⟩ := hd
    obtain ⟨hb, ht⟩ := hl
    unfold insertEntry
    split_ifs with h1 h2
    · subst h1
      have h0 := count_eq_zero_of_keyBelow k tl hb
      simp only [entryKeys] at h0
      simp [entryKeys, h0]
    · have hk : KeyBelow k ((k', v') :: tl) := by
        intro e he
        rcases List.mem_cons.1 he with rfl | he
        · exact h2
        · exact lt_trans h2 (hb e he)
      have h0 := count_eq_zero_of_keyBelow k _ hk
      simp only [entryKeys, List.map_cons] at h0
      simp only [entryKeys, List.map_cons, List.count_cons_self, h0]
    · have ih' := ih ht
      simp only [entryKeys] at ih'
      have hne : ¬ (k' = k) := fun h => h1 h.symm
      simp [entryKeys, List.count_cons, ih', hne]

theorem GoMap.ext_entries {V : Type} (m1 m2 : GoMap V)
    (h : m1.entries = m2.entries) : m1 = m2 := by
  cases m1
  cases m2
  cases h
  rfl

theorem GoMap.get?_set_same {V : Type} (m : GoMap V) (k : GoString) (v : V) :
    (m.set k v).get? k = some v :=
  lookupEntry_insertEntry_same k v m.entries

theorem GoMap.get?_set_other {V : Type} (m : GoMap V) (k k0 : GoString) (v : V)
    (h : k0 ≠ k) : (m.set k v).get? k0 = m.get? k0 :=
  lookupEntry_insertEntry_other k k0 v m.entries h

theorem GoMap.countKey_set_same {V : Type} (m : GoMap V) (k : GoString) (v : V) :
    (m.set k v).countKey k = 1 :=
  count_insertEntry_same k v m.entries m.ascending

theorem GoMap.set_set_same {V : Type} (m : GoMap V) (k : GoString) (a b : V) :
    (m.set k a).set k b = m.set k b :=
  GoMap.ext_entries _ _ (insertEntry_insertEntry_same k a b m.entries)

/-! ## C1: the keyed collections overwrite per field -/

/-- C1. For every Query `q`, field names `f`, `f1 ≠ f2`, Term values `a`, `b`
and Match values `ma`, `mb`: after `SetTerm(f, a)` then `SetTerm(f, b)` the
Term collection is allocated, maps `f` to `b`, holds exactly one entry for `f`
and is the query that `SetTerm(f, b)` alone gives (nothing of `a` is left);
after `SetTerm(f1, a)` then `SetTerm(f2, b)` it maps `f1` to `a` and `f2` to
`b`.  The same holds for `SetMatch`. -/
theorem keyed_setters_overwrite (q : Query) (f f1 f2 : GoString) (a b : Term)
    (ma mb : Match) (hne : f1 ≠ f2) :
    (∃ m, ((q.SetTerm f a).SetTerm f b).Term = some m ∧ m.get? f = some b
        ∧ m.countKey f = 1)
    ∧ (q.SetTerm f a).SetTerm f b = q.SetTerm f b
    ∧ (∃ m, ((q.SetTerm f1 a).SetTerm f2 b).Term = some m ∧ m.get? f1 = some a
        ∧ m.get? f2 = some b)
    ∧ (∃ m, ((q.SetMatch f ma).SetMatch f mb).Match = some m ∧ m.get? f = some mb
        ∧ m.countKey f = 1)
    ∧ (q.SetMatch f ma).SetMatch f mb = q.SetMatch f mb
    ∧ (∃ m, ((q.SetMatch f1 ma).SetMatch f2 mb).Match = some m ∧ m.get? f1 = some ma
        ∧ m.get? f2 = some mb) := by
  obtain ⟨qa, qn, qb, qt, qm⟩ := q
  refine ⟨⟨_, rfl, GoMap.get?_set_same _ _ _, GoMap.countKey_set_same _ _ _⟩, ?_,
    ⟨_, rfl, ?_, GoMap.get?_set_same _ _ _⟩,
    ⟨_, rfl, GoMap.get?_set_same _ _ _, GoMap.countKey_set_same _ _ _⟩, ?_,
    ⟨_, rfl, ?_, GoMap.get?_set_same _ _ _⟩⟩
  · simp only [Query.SetTerm, Query.Term, Query.MatchAll, Query.MatchNone, Query.Bool,
      Query.Match, allocated, GoMap.set_set_same]
  · simp only [Query.SetTerm, Query.Term, allocated]
    rw [GoMap.get?_set_other _ _ _ _ hne, GoMap.get?_set_same]
  · simp only [Query.SetMatch, Query.Term, Query.MatchAll, Query.MatchNone, Query.Bool,
      Query.Match, allocated, GoMap.set_set_same]
  · simp only [Query.SetMatch, Query.Match, allocated]
    rw [GoMap.get?_set_other _ _ _ _ hne, GoMap.get?_set_same]

/-- C1 at a concrete input: an empty query, the fields `a` and `b`. -/
theorem keyed_setters_overwrite_witness :
    GoString.lit "a" ≠ GoString.lit "b"
    ∧ (∃ m, (((NewQuery []).SetTerm (GoString.lit "f") Term.zero).SetTerm (GoString.lit "f")
          (Term.zero.SetValue (GoString.lit "x"))).Term = some m
        ∧ m.get? (GoString.lit "f") = some (Term.zero.SetValue (GoString.lit "x"))
        ∧ m.countKey (GoString.lit "f") = 1) :=
  ⟨by decide,
   (keyed_setters_overwrite (NewQuery []) (GoString.lit "f") (GoString.lit "a")
      (GoString.lit "b") Term.zero (Term.zero.SetValue (GoString.lit "x"))
      Match.zero Match.zero (by decide)).1⟩

/-! ## C3: the filter slot -/

/-- C3. For every Bool `b` and queries `q1`, `q2`: after `SetFilter(q1)` then
`SetFilter(q2)` the filter slot holds `q2`, the record equals the one that
`SetFilter(q2)` alone gives, and Must, MustNot and Should are what they were
before. -/
theorem setFilter_twice (b : BoolQuery) (q1 q2 : Option Query) :
    ((b.SetFilter q1).SetFilter q2).Filter = q2
    ∧ (b.SetFilter q1).SetFilter q2 = b.SetFilter q2
    ∧ ((b.SetFilter q1).SetFilter q2).Must = b.Must
    ∧ ((b.SetFilter q1).SetFilter q2).MustNot = b.MustNot
    ∧ ((b.SetFilter q1).SetFilter q2).Should = b.Should := by
  cases b
  exact ⟨rfl, rfl, rfl, rfl, rfl⟩

/-! ## C2: the order of must, must_not and should -/

theorem encodeQueryList_cons_ok (q : Option Query) (rest : List (Option Query))
    (js : List JSON) (h : encodeQueryList (q :: rest) = .ok js) :
    ∃ j jr, encodeQueryPtr q = .ok j ∧ encodeQueryList rest = .ok jr ∧ js = j :: jr := by
  cases q with
  | none =>
    rw [encodeQueryList] at h
    cases hr : encodeQueryList rest with
    | error e => rw [hr] at h; cases h
    | ok jr =>
      rw [hr] at h
      cases h
      exact ⟨_, _, rfl, rfl, rfl⟩
  | some q =>
    rw [encodeQueryList] at h
    cases hq : encodeQuery q with
    | error e => rw [hq] at h; cases h
    | ok j =>
      rw [hq] at h
      cases hr : encodeQueryList rest with
      | error e => rw [hr] at h; cases h
      | ok jr =>
        rw [hr] at h
        cases h
        exact ⟨_, _, hq, rfl, rfl⟩

theorem encodeQueryList_append_ok (l1 l2 : List (Option Query)) (js : List JSON)
    (h : encodeQueryList (l1 ++ l2) = .ok js) :
    ∃ j1 j2, encodeQueryList l1 = .ok j1 ∧ encodeQueryList l2 = .ok j2 ∧ js = j1 ++ j2 := by
  induction l1 generalizing js with
  | nil => exact ⟨[], js, by rw [encodeQueryList], h, rfl⟩
  | cons q rest ih =>
    obtain ⟨j, jr, hq, hr, rfl⟩ := encodeQueryList_cons_ok q (rest ++ l2) js h
    obtain ⟨j1, j2, h1, h2, rfl⟩ := ih jr hr
    refine ⟨j :: j1, j2, ?_, h2, rfl⟩
    cases q with
    | none =>
      cases hq
      rw [encodeQueryList, h1]
    | some q =>
      simp only [encodeQueryPtr] at hq
      rw [encodeQueryList, hq, h1]

theorem encodeQueryList_forall₂ (l : List (Option Query)) (js : List JSON)
    (h : encodeQueryList l = .ok js) :
    List.Forall₂ (fun q j => encodeQueryPtr q = .ok j) l js := by
  induction l generalizing js with
  | nil =>
    rw [encodeQueryList] at h
    cases h
    exact List.Forall₂.nil
  | cons q rest ih =>
    obtain ⟨j, jr, hq, hr, rfl⟩ := encodeQueryList_cons_ok q rest js h
    exact List.Forall₂.cons hq (ih jr hr)

theorem encodeBool_ok (must mustNot should : List (Option Query)) (filter : Option Query)
    (j : JSON) (h : encodeBool (.mk must mustNot should filter) = .ok j) :
    ∃ jm jn js jf, encodeQueryList must = .ok jm ∧ encodeQueryList mustNot = .ok jn
      ∧ encodeQueryList should = .ok js ∧ encodeFilter filter = .ok jf
      ∧ j = .obj (fieldArray "must" must.length jm ++ fieldArray "must_not" mustNot.length jn
            ++ fieldArray "should" should.length js ++ jf) := by
  rw [encodeBool] at h
  cases h1 : encodeQueryList must with
  | error e => rw [h1] at h; cases h
  | ok jm =>
    rw [h1] at h
    cases h2 : encodeQueryList mustNot with
    | error e => rw [h2] at h; cases h
    | ok jn =>
      rw [h2] at h
      cases h3 : encodeQueryList should with
      | error e => rw [h3] at h; cases h
      | ok js =>
        rw [h3] at h
        cases h4 : encodeFilter filter with
        | error e => rw [h4] at h; cases h
        | ok jf =>
          rw [h4] at h
          cases h
          exact ⟨_, _, _, _, rfl, rfl, rfl, rfl, rfl⟩

theorem lookupEntry_fieldArray_same (key : String) (n : Nat) (js : List JSON)
    (rest : List (GoString × JSON)) (hn : n ≠ 0) :
    lookupEntry (GoString.lit key) (fieldArray key n js ++ rest) = some (.arr js) := by
  simp [fieldArray, hn, lookupEntry]

theorem lookupEntry_fieldArray_other (k : GoString) (key : String) (n : Nat)
    (js : List JSON) (rest : List (GoString × JSON)) (hk : k ≠ GoString.lit key) :
    lookupEntry k (fieldArray key n js ++ rest) = lookupEntry k rest := by
  unfold fieldArray
  split_ifs
  · rfl
  · simp [lookupEntry, hk]

/-- The decomposition of the encodings of a sequence extended by three
elements. -/
theorem encodeQueryList_append3 (m : List (Option Query)) (A B C : Option Query)
    (js : List JSON) (h : encodeQueryList (((m ++ [A]) ++ [B]) ++ [C]) = .ok js) :
    ∃ jm jA jB jC, List.Forall₂ (fun q j => encodeQueryPtr q = .ok j) m jm
      ∧ encodeQueryPtr A = .ok jA ∧ encodeQueryPtr B = .ok jB ∧ encodeQueryPtr C = .ok jC
      ∧ js = jm ++ [jA, jB, jC] := by
  obtain ⟨j1, jc, h1, hc, rfl⟩ := encodeQueryList_append_ok _ _ _ h
  obtain ⟨j2, jb, h2, hb, rfl⟩ := encodeQueryList_append_ok _ _ _ h1
  obtain ⟨jm, ja, hm, ha, rfl⟩ := encodeQueryList_append_ok _ _ _ h2
  obtain ⟨jA, ra, hA, hra, rfl⟩ := encodeQueryList_cons_ok _ _ _ ha
  obtain ⟨jB, rb, hB, hrb, rfl⟩ := encodeQueryList_cons_ok _ _ _ hb
  obtain ⟨jC, rc, hC, hrc, rfl⟩ := encodeQueryList_cons_ok _ _ _ hc
  rw [encodeQueryList] at hra hrb hrc
  cases hra
  cases hrb
  cases hrc
  exact ⟨jm, jA, jB, jC, encodeQueryList_forall₂ _ _ hm, hA, hB, hC, by simp⟩

/-- C2. For every Bool `b` and queries `A`, `B`, `C`: three `AddMust` calls
leave Must equal to the previous Must followed by `A`, `B`, `C`, and whenever
the Bool encodes, its `must` member is the array of the encodings of those
elements in that order; likewise `AddMustNot` with `must_not` and `AddShould`
with `should`. -/
theorem add_calls_keep_order (b : BoolQuery) (A B C : Option Query) :
    (((b.AddMust A).AddMust B).AddMust C).Must = b.Must ++ [A, B, C]
    ∧ (∀ j, encodeBool (((b.AddMust A).AddMust B).AddMust C) = .ok j →
        ∃ jm jA jB jC, List.Forall₂ (fun q j => encodeQueryPtr q = .ok j) b.Must jm
          ∧ encodeQueryPtr A = .ok jA ∧ encodeQueryPtr B = .ok jB
          ∧ encodeQueryPtr C = .ok jC
          ∧ j.get? (GoString.lit "must") = some (.arr (jm ++ [jA, jB, jC])))
    ∧ (((b.AddMustNot A).AddMustNot B).AddMustNot C).MustNot = b.MustNot ++ [A, B, C]
    ∧ (∀ j, encodeBool (((b.AddMustNot A).AddMustNot B).AddMustNot C) = .ok j →
        ∃ jm jA jB jC, List.Forall₂ (fun q j => encodeQueryPtr q = .ok j) b.MustNot jm
          ∧ encodeQueryPtr A = .ok jA ∧ encodeQueryPtr B = .ok jB
          ∧ encodeQueryPtr C = .ok jC
          ∧ j.get? (GoString.lit "must_not") = some (.arr (jm ++ [jA, jB, jC])))
    ∧ (((b.AddShould A).AddShould B).AddShould C).Should = b.Should ++ [A, B, C]
    ∧ (∀ j, encodeBool (((b.AddShould A).AddShould B).AddShould C) = .ok j →
        ∃ jm jA jB jC, List.Forall₂ (fun q j => encodeQueryPtr q = .ok j) b.Should jm
          ∧ encodeQueryPtr A = .ok jA ∧ encodeQueryPtr B = .ok jB
          ∧ encodeQueryPtr C = .ok jC
          ∧ j.get? (GoString.lit "should") = some (.arr (jm ++ [jA, jB, jC]))) := by
  obtain ⟨must, mustNot, should, filter⟩ := b
  refine ⟨by simp [BoolQuery.AddMust, BoolQuery.Must], ?_,
    by simp [BoolQuery.AddMustNot, BoolQuery.MustNot], ?_,
    by simp [BoolQuery.AddShould, BoolQuery.Should], ?_⟩
  · intro j hj
    simp only [BoolQuery.AddMust, BoolQuery.Must, BoolQuery.MustNot, BoolQuery.Should,
      BoolQuery.Filter] at hj
    obtain ⟨jm, jn, js, jf, h1, -, -, -, rfl⟩ := encodeBool_ok _ _ _ _ _ hj
    obtain ⟨km, jA, jB, jC, hm, hA, hB, hC, rfl⟩ := encodeQueryList_append3 _ _ _ _ _ h1
    refine ⟨km, jA, jB, jC, hm, hA, hB, hC, ?_⟩
    simp only [JSON.get?, List.append_assoc]
    exact lookupEntry_fieldArray_same _ _ _ _ (by simp)
  · intro j hj
    simp only [BoolQuery.AddMustNot, BoolQuery.Must, BoolQuery.MustNot, BoolQuery.Should,
      BoolQuery.Filter] at hj
    obtain ⟨jm, jn, js, jf, -, h1, -, -, rfl⟩ := encodeBool_ok _ _ _ _ _ hj
    obtain ⟨km, jA, jB, jC, hm, hA, hB, hC, rfl⟩ := encodeQueryList_append3 _ _ _ _ _ h1
    refine ⟨km, jA, jB, jC, hm, hA, hB, hC, ?_⟩
    simp only [JSON.get?, List.append_assoc]
    rw [lookupEntry_fieldArray_other _ _ _ _ _ (by decide)]
    exact lookupEntry_fieldArray_same _ _ _ _ (by simp)
  · intro j hj
    simp only [BoolQuery.AddShould, BoolQuery.Must, BoolQuery.MustNot, BoolQuery.Should,
      BoolQuery.Filter] at hj
    obtain ⟨jm, jn, js, jf, -, -, h1, -, rfl⟩ := encodeBool_ok _ _ _ _ _ hj
    obtain ⟨km, jA, jB, jC, hm, hA, hB, hC, rfl⟩ := encodeQueryList_append3 _ _ _ _ _ h1
    refine ⟨km, jA, jB, jC, hm, hA, hB, hC, ?_⟩
    simp only [JSON.get?, List.append_assoc]
    rw [lookupEntry_fieldArray_other _ _ _ _ _ (by decide),
      lookupEntry_fieldArray_other _ _ _ _ _ (by decide)]
    exact lookupEntry_fieldArray_same _ _ _ _ (by simp)

/-- C2 at a concrete input: a nil pointer, a match-all query and a match-none
query added to an empty Bool. -/
theorem add_calls_keep_order_witness :
    encodeBool (((BoolQuery.zero.AddMust none).AddMust
        (some (Query.zero.SetMatchAll (some MatchAll.zero)))).AddMust
        (some (Query.zero.SetMatchNone (some MatchNone.zero))))
      = .ok (.obj [(GoString.lit "must", .arr [.null,
          .obj [(GoString.lit "match_all", .obj [])],
          .obj [(GoString.lit "match_none", .obj [])]])])
    ∧ ∃ jm jA jB jC,
        List.Forall₂ (fun q j => encodeQueryPtr q = .ok j) BoolQuery.zero.Must jm
        ∧ encodeQueryPtr none = .ok jA
        ∧ encodeQueryPtr (some (Query.zero.SetMatchAll (some MatchAll.zero))) = .ok jB
        ∧ encodeQueryPtr (some (Query.zero.SetMatchNone (some MatchNone.zero))) = .ok jC
        ∧ JSON.get? (.obj [(GoString.lit "must", .arr [.null,
            .obj [(GoString.lit "match_all", .obj [])],
            .obj [(GoString.lit "match_none", .obj [])]])]) (GoString.lit "must")
          = some (.arr (jm ++ [jA, jB, jC])) :=
  ⟨rfl, (add_calls_keep_order BoolQuery.zero none
      (some (Query.zero.SetMatchAll (some MatchAll.zero)))
      (some (Query.zero.SetMatchNone (some MatchNone.zero)))).2.1 _ rfl⟩

/-! ## UTF-8 and string tokens -/

theorem decodeRune_high (p0 : Byte) (rest : List Byte) (h : 0x80 ≤ p0.val)
    (hv : ¬ ((decodeRune (p0 :: rest)).1 = 0xFFFD ∧ (decodeRune (p0 :: rest)).2 = 1)) :
    ∃ tail more, rest = tail ++ more
      ∧ (decodeRune (p0 :: rest)).2 = tail.length + 1
      ∧ (∀ b ∈ tail, 0x80 ≤ b.val)
      ∧ encodeRune (decodeRune (p0 :: rest)).1 = p0 :: tail
      ∧ (∀ Y, decodeRune (p0 :: (tail ++ Y)) = decodeRune (p0 :: rest)) := by
  have hp0 := p0.isLt
  have e1 : ¬ p0.val < 0x80 := by omega
  by_cases hx : p0.val < 0xC2 ∨ 0xF4 < p0.val
  · exact absurd (by simp [decodeRune, e1, hx]) hv
  rcases rest with _ | ⟨b1, r1⟩
  · exact absurd (by simp [decodeRune, e1, hx]) hv
  have hb1 := b1.isLt
  by_cases hb : b1.val < (if p0.val = 0xE0 then 0xA0 else if p0.val = 0xF0 then 0x90 else 0x80)
      ∨ (if p0.val = 0xED then 0x9F else if p0.val = 0xF4 then 0x8F else 0xBF) < b1.val
  · exact absurd (by simp [decodeRune, e1, hx, hb]) hv
  have hb1' : 0x80 ≤ b1.val ∧ b1.val ≤ 0xBF := by
    split_ifs at hb <;> omega
  by_cases h2 : p0.val < 0xE0
  · have hd : decodeRune (p0 :: b1 :: r1) = ((p0.val % 32) * 64 + b1.val % 64, 2) := by
      simp [decodeRune, e1, hx, hb, h2]
    have hd' : ∀ Y, decodeRune (p0 :: b1 :: Y) = ((p0.val % 32) * 64 + b1.val % 64, 2) := by
      intro Y
      simp [decodeRune, e1, hx, hb, h2]
    refine ⟨[b1], r1, rfl, by rw [hd]; rfl, ?_, ?_, ?_⟩
    · intro b hbm
      simp at hbm
      subst hbm
      exact hb1'.1
    · rw [hd]
      have c1 : ¬ (p0.val % 32 * 64 + b1.val % 64 < 0x80) := by omega
      have c2 : p0.val % 32 * 64 + b1.val % 64 < 0x800 := by omega
      simp only [encodeRune, c1, c2, if_true, if_false]
      congr 1
      · apply Fin.ext; simp only []; omega
      · congr 1
        apply Fin.ext; simp only []; omega
    · intro Y
      rw [hd]
      exact hd' Y
  rcases r1 with _ | ⟨b2, r2⟩
  · exact absurd (by simp [decodeRune, e1, hx, hb, h2]) hv
  have hb2 := b2.isLt
  by_cases hc : b2.val < 0x80 ∨ 0xBF < b2.val
  · exact absurd (by simp [decodeRune, e1, hx, hb, h2, hc]) hv
  by_cases h3 : p0.val < 0xF0
  · have hd' : ∀ Y, decodeRune (p0 :: b1 :: b2 :: Y)
        = ((p0.val % 16) * 4096 + (b1.val % 64) * 64 + b2.val % 64, 3) := by
      intro Y
      simp [decodeRune, e1, hx, hb, h2, hc, h3]
    refine ⟨[b1, b2], r2, rfl, by rw [hd']; rfl, ?_, ?_, ?_⟩
    · intro b hbm
      simp at hbm
      rcases hbm with rfl | rfl
      · exact hb1'.1
      · omega
    · rw [hd']
      have c1 : ¬ (p0.val % 16 * 4096 + b1.val % 64 * 64 + b2.val % 64 < 0x80) := by
        split_ifs at hb <;> omega
      have c2 : ¬ (p0.val % 16 * 4096 + b1.val % 64 * 64 + b2.val % 64 < 0x800) := by
        split_ifs at hb <;> omega
      have c3 : ¬ (0xD800 ≤ p0.val % 16 * 4096 + b1.val % 64 * 64 + b2.val % 64
          ∧ p0.val % 16 * 4096 + b1.val % 64 * 64 + b2.val % 64 < 0xE000) := by
        split_ifs at hb <;> omega
      have c4 : p0.val % 16 * 4096 + b1.val % 64 * 64 + b2.val % 64 < 0x10000 := by omega
      simp only [encodeRune, c1, c2, c3, c4, if_true, if_false]
      congr 1
      · apply Fin.ext; simp only []; omega
      · congr 1
        · apply Fin.ext; simp only []; omega
        · congr 1
          apply Fin.ext; simp only []; omega
    · intro Y
      rw [hd']
      exact hd' Y
  rcases r2 with _ | ⟨b3, r3⟩
  · exact absurd (by simp [decodeRune, e1, hx, hb, h2, hc, h3]) hv
  have hb3 := b3.isLt
  by_cases hd : b3.val < 0x80 ∨ 0xBF < b3.val
  · exact absurd (by simp [decodeRune, e1, hx, hb, h2, hc, h3, hd]) hv
  have hd' : ∀ Y, decodeRune (p0 :: b1 :: b2 :: b3 :: Y)
      = ((p0.val % 8) * 262144 + (b1.val % 64) * 4096 + (b2.val % 64) * 64 + b3.val % 64, 4) := by
    intro Y
    simp [decodeRune, e1, hx, hb, h2, hc, h3, hd]
  refine ⟨[b1, b2, b3], r3, rfl, by rw [hd']; rfl, ?_, ?_, ?_⟩
  · intro b hbm
    simp at hbm
    rcases hbm with rfl | rfl | rfl
    · exact hb1'.1
    · omega
    · omega
  · rw [hd']
    have c1 : ¬ (p0.val % 8 * 262144 + b1.val % 64 * 4096 + b2.val % 64 * 64 + b3.val % 64 < 0x80) := by
      split_ifs at hb <;> omega
    have c2 : ¬ (p0.val % 8 * 262144 + b1.val % 64 * 4096 + b2.val % 64 * 64 + b3.val % 64 < 0x800) := by
      split_ifs at hb <;> omega
    have c3 : ¬ (0xD800 ≤ p0.val % 8 * 262144 + b1.val % 64 * 4096 + b2.val % 64 * 64 + b3.val % 64
        ∧ p0.val % 8 * 262144 + b1.val % 64 * 4096 + b2.val % 64 * 64 + b3.val % 64 < 0xE000) := by
      split_ifs at hb <;> omega
    have c4 : ¬ (p0.val % 8 * 262144 + b1.val % 64 * 4096 + b2.val % 64 * 64 + b3.val % 64 < 0x10000) := by
      split_ifs at hb <;> omega
    have c5 : p0.val % 8 * 262144 + b1.val % 64 * 4096 + b2.val % 64 * 64 + b3.val % 64 < 0x110000 := by
      split_ifs at hb <;> omega
    simp only [encodeRune, c1, c2, c3, c4, c5, if_true, if_false]
    congr 1
    · apply Fin.ext; simp only []; omega
    · congr 1
      · apply Fin.ext; simp only []; omega
      · congr 1
        · apply Fin.ext; simp only []; omega
        · congr 1
          apply Fin.ext; simp only []; omega
  · intro Y
    rw [hd']
    exact hd' Y

/-- Induction over the pieces that `appendString` writes: an escaped or plain
ASCII byte, the replacement escape for an invalid byte, the escape of U+2028
or U+2029, or the bytes of a well-formed multi-byte encoding. -/
theorem appendStringLoop_ind (P : List Byte → List Byte → Prop)
    (hnil : P [] [])
    (hascii : ∀ b rest out, b.val < 0x80 → P rest out →
      P (b :: rest) (escapeASCII b ++ out))
    (hbad : ∀ b rest out, 0x80 ≤ b.val → decodeRune (b :: rest) = (0xFFFD, 1) →
      P rest out → P (b :: rest) ([0x5C, 0x75, 0x66, 0x66, 0x66, 0x64] ++ out))
    (hsep : ∀ b tail more out c, 0x80 ≤ b.val →
      (∀ Y, decodeRune (b :: (tail ++ Y)) = (c, tail.length + 1)) →
      (∀ t ∈ tail, 0x80 ≤ t.val) → encodeRune c = b :: tail →
      (c = 0x2028 ∨ c = 0x2029) → P more out →
      P (b :: (tail ++ more)) ([0x5C, 0x75, 0x32, 0x30, 0x32, hexDigit (c % 16)] ++ out))
    (hraw : ∀ b tail more out c, 0x80 ≤ b.val →
      (∀ Y, decodeRune (b :: (tail ++ Y)) = (c, tail.length + 1)) →
      (∀ t ∈ tail, 0x80 ≤ t.val) → encodeRune c = b :: tail →
      ¬ (c = 0xFFFD ∧ tail.length + 1 = 1) →
      P more out → P (b :: (tail ++ more)) ((b :: tail) ++ out)) :
    ∀ fuel s, s.length ≤ fuel → P s (appendStringLoop fuel s) := by
  intro fuel
  induction fuel using Nat.strong_induction_on with
  | _ fuel ih =>
    intro s hs
    rcases s with _ | ⟨b, rest⟩
    · cases fuel <;> exact hnil
    · rcases fuel with _ | fuel
      · simp at hs
      · simp only [List.length_cons, Nat.add_le_add_iff_right] at hs
        by_cases hb : b.val < 0x80
        · have : appendStringLoop (fuel + 1) (b :: rest)
              = escapeASCII b ++ appendStringLoop fuel rest := by
            simp [appendStringLoop, hb]
          rw [this]
          exact hascii b rest _ hb (ih fuel (Nat.lt_succ_self _) rest hs)
        · by_cases hv : (decodeRune (b :: rest)).1 = 0xFFFD ∧ (decodeRune (b :: rest)).2 = 1
          · have : appendStringLoop (fuel + 1) (b :: rest)
                = [0x5C, 0x75, 0x66, 0x66, 0x66, 0x64] ++ appendStringLoop fuel rest := by
              simp [appendStringLoop, hb, hv]
            rw [this]
            exact hbad b rest _ (by omega) (Prod.ext hv.1 hv.2)
              (ih fuel (Nat.lt_succ_self _) rest hs)
          · obtain ⟨tail, more, rfl, hsz, hhi, henc, hpre⟩ :=
              decodeRune_high b rest (by omega) hv
            have hdec : ∀ Y, decodeRune (b :: (tail ++ Y))
                = ((decodeRune (b :: (tail ++ more))).1, tail.length + 1) := by
              intro Y
              rw [hpre Y]
              exact Prod.ext rfl hsz
            have hmore : more.length ≤ fuel := by
              simp only [List.length_append] at hs
              omega
            have hdrop : (tail ++ more).drop ((decodeRune (b :: (tail ++ more))).2 - 1) = more := by
              rw [hsz]
              simp
            have htake : (b :: (tail ++ more)).take ((decodeRune (b :: (tail ++ more))).2)
                = b :: tail := by
              rw [hsz]
              simp
            have hv' : ¬ ((decodeRune (b :: (tail ++ more))).1 = 0xFFFD ∧ tail.length + 1 = 1) := by
              rw [← hsz]
              exact hv
            by_cases hc : (decodeRune (b :: (tail ++ more))).1 = 0x2028
                ∨ (decodeRune (b :: (tail ++ more))).1 = 0x2029
            · have : appendStringLoop (fuel + 1) (b :: (tail ++ more))
                  = [0x5C, 0x75, 0x32, 0x30, 0x32,
                      hexDigit ((decodeRune (b :: (tail ++ more))).1 % 16)]
                    ++ appendStringLoop fuel more := by
                simp only [appendStringLoop, hb, if_false, hv, hc, if_true, hdrop]
              rw [this]
              exact hsep b tail more _ _ (by omega) hdec hhi henc hc
                (ih fuel (Nat.lt_succ_self _) more hmore)
            · have : appendStringLoop (fuel + 1) (b :: (tail ++ more))
                  = (b :: tail) ++ appendStringLoop fuel more := by
                simp only [appendStringLoop, hb, if_false, hv, hc, hdrop, htake]
              rw [this]
              exact hraw b tail more _ _ (by omega) hdec hhi henc hv'
                (ih fuel (Nat.lt_succ_self _) more hmore)

theorem isHex_hexDigit (n : Nat) (h : n < 16) : isHex (hexDigit n) = true := by
  interval_cases n <;> decide

theorem scan_plain (e : Bool) (ps : List ParseState) (b : Byte)
    (h1 : b ≠ 0x22) (h2 : b ≠ 0x5C) (h3 : ¬ b.val < 0x20) :
    Scanner.next (inStr e ps) b = inStr e ps := by
  simp [Scanner.next, inStr, h1, h2, h3]

theorem scan_high (e : Bool) (ps : List ParseState) (l : List Byte)
    (h : ∀ t ∈ l, 0x80 ≤ t.val) : l.foldl Scanner.next (inStr e ps) = inStr e ps := by
  induction l with
  | nil => rfl
  | cons b tl ih =>
    have hb : 0x80 ≤ b.val := h b (List.mem_cons_self _ _)
    have h1 : b ≠ 0x22 := by
      intro hh; rw [hh] at hb; exact absurd hb (by decide)
    have h2 : b ≠ 0x5C := by
      intro hh; rw [hh] at hb; exact absurd hb (by decide)
    rw [List.foldl_cons, scan_plain e ps b h1 h2 (by omega)]
    exact ih (fun t ht => h t (List.mem_cons_of_mem _ ht))

theorem scan_escapeASCII (e : Bool) (ps : List ParseState) (b : Byte) (hb : b.val < 0x80) :
    (escapeASCII b).foldl Scanner.next (inStr e ps) = inStr e ps := by
  unfold escapeASCII
  split_ifs with c1 c2 c3 c4 c5 c6 c7 c8
  · rfl
  · rfl
  · rfl
  · rfl
  · rfl
  · rfl
  · rfl
  · have hx1 := isHex_hexDigit (b.val / 16) (by omega)
    have hx2 := isHex_hexDigit (b.val % 16) (by omega)
    have h4 : List.foldl Scanner.next (inStr e ps) [0x5C, 0x75, 0x30, 0x30]
        = ⟨.inStringEscU12, e, ps⟩ := rfl
    have h5 : ∀ x y : Byte, [0x5C, 0x75, 0x30, 0x30, x, y]
        = [0x5C, 0x75, 0x30, 0x30] ++ [x, y] := fun _ _ => rfl
    rw [h5, List.foldl_append, h4]
    simp only [List.foldl_cons, List.foldl_nil, Scanner.next, hx1, hx2, if_true]
    rfl
  · have h3 : ¬ b.val < 0x20 := fun h => c8 (Or.inl h)
    simp [scan_plain e ps b c1 c2 h3]

theorem scan_appendStringLoop (e : Bool) (ps : List ParseState) :
    ∀ fuel s, s.length ≤ fuel →
      (appendStringLoop fuel s).foldl Scanner.next (inStr e ps) = inStr e ps := by
  apply appendStringLoop_ind
    (fun _ out => out.foldl Scanner.next (inStr e ps) = inStr e ps)
  · rfl
  · intro b rest out hb ih
    rw [List.foldl_append, scan_escapeASCII e ps b hb, ih]
  · intro b rest out _ _ ih
    rw [List.foldl_append]
    exact ih
  · intro b tail more out c _ _ _ _ hc ih
    rw [List.foldl_append]
    rcases hc with rfl | rfl
    · exact ih
    · exact ih
  · intro b tail more out c hb _ hhi _ _ ih
    rw [List.foldl_append, scan_high e ps (b :: tail)]
    · exact ih
    · intro t ht
      rcases List.mem_cons.1 ht with rfl | ht
      · exact hb
      · exact hhi t ht

/-- Every token `appendString` writes is valid JSON. -/
theorem checkValid_appendString (s : GoString) : checkValid (appendString s) = true := by
  unfold checkValid appendString
  rw [List.foldl_append, List.foldl_append]
  have h0 : List.foldl Scanner.next Scanner.reset [0x22] = inStr false [] := rfl
  rw [h0, scan_appendStringLoop false [] s.length s (le_refl _)]
  rfl

theorem hexDigit_plain (n : Nat) (h : n < 16) :
    hexDigit n ≠ 0x22 ∧ hexDigit n ≠ 0x5C := by
  interval_cases n <;> decide

theorem lit_plain (b : Byte) (Z : List Byte) (h1 : b ≠ 0x22) (h2 : b ≠ 0x5C) :
    stringLiteral false (b :: Z) = b :: stringLiteral false Z := by
  simp [stringLiteral, h1, h2]

theorem lit_esc (x : Byte) (Z : List Byte) :
    stringLiteral false (0x5C :: x :: Z) = 0x5C :: x :: stringLiteral false Z := by
  simp [stringLiteral]

theorem lit_high (l Z : List Byte) (h : ∀ t ∈ l, 0x80 ≤ t.val) :
    stringLiteral false (l ++ Z) = l ++ stringLiteral false Z := by
  induction l with
  | nil => rfl
  | cons b tl ih =>
    have hb : 0x80 ≤ b.val := h b (List.mem_cons_self _ _)
    have h1 : b ≠ 0x22 := by
      intro hh; rw [hh] at hb; exact absurd hb (by decide)
    have h2 : b ≠ 0x5C := by
      intro hh; rw [hh] at hb; exact absurd hb (by decide)
    rw [List.cons_append, lit_plain b _ h1 h2, ih (fun t ht => h t (List.mem_cons_of_mem _ ht))]
    rfl

theorem lit_escapeASCII (b : Byte) (Z : List Byte) (hb : b.val < 0x80) :
    stringLiteral false (escapeASCII b ++ Z) = escapeASCII b ++ stringLiteral false Z := by
  unfold escapeASCII
  split_ifs with c1 c2 c3 c4 c5 c6 c7 c8
  · exact lit_esc _ _
  · exact lit_esc _ _
  · exact lit_esc _ _
  · exact lit_esc _ _
  · exact lit_esc _ _
  · exact lit_esc _ _
  · exact lit_esc _ _
  · obtain ⟨p1, p2⟩ := hexDigit_plain (b.val / 16) (by omega)
    obtain ⟨q1, q2⟩ := hexDigit_plain (b.val % 16) (by omega)
    simp only [List.cons_append, List.nil_append]
    rw [lit_esc, lit_plain _ _ (by decide) (by decide), lit_plain _ _ (by decide) (by decide),
      lit_plain _ _ p1 p2, lit_plain _ _ q1 q2]
  · simp only [List.cons_append, List.nil_append]
    exact lit_plain b Z c1 c2

theorem lit_appendStringLoop (Y : List Byte) :
    ∀ fuel s, s.length ≤ fuel →
      stringLiteral false (appendStringLoop fuel s ++ 0x22 :: Y)
        = appendStringLoop fuel s ++ [0x22] := by
  apply appendStringLoop_ind
    (fun _ out => stringLiteral false (out ++ 0x22 :: Y) = out ++ [0x22])
  · simp [stringLiteral]
  · intro b rest out hb ih
    rw [List.append_assoc, lit_escapeASCII b _ hb, ih, List.append_assoc]
  · intro b rest out _ _ ih
    simp only [List.cons_append, List.nil_append]
    rw [lit_esc, lit_plain _ _ (by decide) (by decide), lit_plain _ _ (by decide) (by decide),
      lit_plain _ _ (by decide) (by decide), lit_plain _ _ (by decide) (by decide), ih]
  · intro b tail more out c _ _ _ _ hc ih
    obtain ⟨p1, p2⟩ := hexDigit_plain (c % 16) (Nat.mod_lt _ (by decide))
    simp only [List.cons_append, List.nil_append]
    rw [lit_esc, lit_plain _ _ (by decide) (by decide), lit_plain _ _ (by decide) (by decide),
      lit_plain _ _ (by decide) (by decide), lit_plain _ _ p1 p2, ih]
  · intro b tail more out c hb _ hhi _ _ ih
    rw [List.append_assoc, lit_high (b :: tail) _, ih, List.append_assoc]
    intro t ht
    rcases List.mem_cons.1 ht with rfl | ht
    · exact hb
    · exact hhi t ht

theorem hexVal?_hexDigit (n : Nat) (h : n < 16) : hexVal? (hexDigit n) = some n := by
  interval_cases n <;> decide

theorem validUTF8Loop_eq : ∀ fuel s, s.length ≤ fuel →
    validUTF8Loop fuel s = validUTF8 s := by
  intro fuel
  induction fuel using Nat.strong_induction_on with
  | _ fuel ih =>
    intro s hs
    rcases s with _ | ⟨b, rest⟩
    · cases fuel <;> rfl
    · rcases fuel with _ | fuel
      · simp at hs
      · simp only [List.length_cons, Nat.add_le_add_iff_right] at hs
        have hd : (rest.drop ((decodeRune (b :: rest)).2 - 1)).length ≤ rest.length := by
          simp
        simp only [validUTF8, validUTF8Loop, List.length_cons]
        split_ifs
        · rfl
        · rw [ih fuel (Nat.lt_succ_self _) _ (le_trans hd hs)]
          rcases Nat.lt_or_ge rest.length (fuel + 1) with h | h
          · rw [ih rest.length h _ hd]
          · omega

theorem validUTF8_cons_ascii (b : Byte) (rest : List Byte) (hb : b.val < 0x80) :
    validUTF8 (b :: rest) = validUTF8 rest := by
  have hd : decodeRune (b :: rest) = (b.val, 1) := by simp [decodeRune, hb]
  have hne : ¬ (b.val = 0xFFFD) := by
    have := b.isLt
    omega
  simp [validUTF8, validUTF8Loop, hd, hne]

theorem validUTF8_bad (b : Byte) (rest : List Byte)
    (hd : decodeRune (b :: rest) = (0xFFFD, 1)) : validUTF8 (b :: rest) = false := by
  simp [validUTF8, validUTF8Loop, hd]

theorem validUTF8_multi (b : Byte) (tail more : List Byte) (c : Nat)
    (hd : ∀ Y, decodeRune (b :: (tail ++ Y)) = (c, tail.length + 1))
    (hne : ¬ (c = 0xFFFD ∧ tail.length + 1 = 1)) :
    validUTF8 (b :: (tail ++ more)) = validUTF8 more := by
  simp only [validUTF8, validUTF8Loop, List.length_cons, hd more, hne, if_false]
  have : List.drop (tail.length + 1 - 1) (tail ++ more) = more := by simp
  rw [this]
  exact validUTF8Loop_eq _ _ (by simp)

theorem encodeRune_ascii (b : Byte) (hb : b.val < 0x80) : encodeRune b.val = [b] := by
  have h := b.isLt
  simp only [encodeRune, hb, if_true]
  congr 1
  apply Fin.ext
  simp only []
  omega

theorem unq_plain (fuel : Nat) (b : Byte) (Z : List Byte) (h1 : b ≠ 0x22) (h2 : b ≠ 0x5C)
    (h3 : ¬ b.val < 0x20) (h4 : b.val < 0x80) :
    unquoteLoop (fuel + 1) (b :: Z) = (unquoteLoop fuel Z).map (fun t => b :: t) := by
  simp [unquoteLoop, h1, h2, h3, h4]

theorem unq_u (fuel : Nat) (h0 h1 h2 h3 : Byte) (Z : List Byte) (rr : Nat)
    (hg : getu4 (0x5C :: 0x75 :: h0 :: h1 :: h2 :: h3 :: Z) = some rr)
    (hs : ¬ (0xD800 ≤ rr ∧ rr < 0xE000)) :
    unquoteLoop (fuel + 1) (0x5C :: 0x75 :: h0 :: h1 :: h2 :: h3 :: Z)
      = (unquoteLoop fuel Z).map (fun t => encodeRune rr ++ t) := by
  rw [unquoteLoop]
  simp only [if_true]
  have d1 : ¬ ((0x75 : Byte) = 0x22 ∨ (0x75 : Byte) = 0x5C ∨ (0x75 : Byte) = 0x2F
      ∨ (0x75 : Byte) = 0x27) := by decide
  have d2 : ¬ ((0x75 : Byte) = 0x62) := by decide
  have d3 : ¬ ((0x75 : Byte) = 0x66) := by decide
  have d4 : ¬ ((0x75 : Byte) = 0x6E) := by decide
  have d5 : ¬ ((0x75 : Byte) = 0x72) := by decide
  have d6 : ¬ ((0x75 : Byte) = 0x74) := by decide
  simp only [d1, d2, d3, d4, d5, d6, if_false, if_true, hg, hs, List.drop]

theorem unq_u00 (fuel : Nat) (b : Byte) (Z : List Byte) (hb : b.val < 0x80) :
    unquoteLoop (fuel + 1)
        ([0x5C, 0x75, 0x30, 0x30, hexDigit (b.val / 16), hexDigit (b.val % 16)] ++ Z)
      = (unquoteLoop fuel Z).map (fun t => b :: t) := by
  have hx1 := hexVal?_hexDigit (b.val / 16) (by omega)
  have hx2 := hexVal?_hexDigit (b.val % 16) (by omega)
  have h0 : hexVal? 0x30 = some 0 := by decide
  have hg : getu4 (0x5C :: 0x75 :: 0x30 :: 0x30 :: hexDigit (b.val / 16)
      :: hexDigit (b.val % 16) :: Z) = some b.val := by
    simp only [getu4, h0, hx1, hx2, and_self, if_true]
    congr 1
    omega
  have hs : ¬ (0xD800 ≤ b.val ∧ b.val < 0xE000) := by omega
  have he := encodeRune_ascii b hb
  show unquoteLoop (fuel + 1) (0x5C :: 0x75 :: 0x30 :: 0x30 :: hexDigit (b.val / 16)
      :: hexDigit (b.val % 16) :: Z) = _
  rw [unq_u fuel _ _ _ _ Z b.val hg hs, he]
  rfl

theorem unq_escapeASCII (fuel : Nat) (b : Byte) (Z : List Byte) (hb : b.val < 0x80) :
    unquoteLoop (fuel + 1) (escapeASCII b ++ Z)
      = (unquoteLoop fuel Z).map (fun t => b :: t) := by
  unfold escapeASCII
  split_ifs with c1 c2 c3 c4 c5 c6 c7 c8
  · subst c1; simp [unquoteLoop]
  · subst c2; simp [unquoteLoop]
  · subst c3; simp [unquoteLoop]
  · subst c4; simp [unquoteLoop]
  · subst c5; simp [unquoteLoop]
  · subst c6; simp [unquoteLoop]
  · subst c7; simp [unquoteLoop]
  · exact unq_u00 fuel b Z hb
  · exact unq_plain fuel b Z c1 c2 (fun h => c8 (Or.inl h)) hb

theorem unq_sep (fuel : Nat) (c : Nat) (Z : List Byte) (hc : c = 0x2028 ∨ c = 0x2029) :
    unquoteLoop (fuel + 1) ([0x5C, 0x75, 0x32, 0x30, 0x32, hexDigit (c % 16)] ++ Z)
      = (unquoteLoop fuel Z).map (fun t => encodeRune c ++ t) := by
  have hg : getu4 (0x5C :: 0x75 :: 0x32 :: 0x30 :: 0x32 :: hexDigit (c % 16) :: Z)
      = some c := by
    rcases hc with rfl | rfl
    · simp [getu4, (by decide : hexVal? 0x32 = some 2), (by decide : hexVal? 0x30 = some 0),
        (by decide : hexVal? (hexDigit (0x2028 % 16)) = some 8)]
    · simp [getu4, (by decide : hexVal? 0x32 = some 2), (by decide : hexVal? 0x30 = some 0),
        (by decide : hexVal? (hexDigit (0x2029 % 16)) = some 9)]
  have hs : ¬ (0xD800 ≤ c ∧ c < 0xE000) := by
    rcases hc with rfl | rfl <;> omega
  exact unq_u fuel _ _ _ _ Z c hg hs

theorem unq_raw (fuel : Nat) (b : Byte) (tail Z : List Byte) (c : Nat) (hb : 0x80 ≤ b.val)
    (hd : ∀ Y, decodeRune (b :: (tail ++ Y)) = (c, tail.length + 1))
    (henc : encodeRune c = b :: tail) :
    unquoteLoop (fuel + 1) ((b :: tail) ++ Z)
      = (unquoteLoop fuel Z).map (fun t => (b :: tail) ++ t) := by
  have h1 : b ≠ 0x22 := by
    intro hh; rw [hh] at hb; exact absurd hb (by decide)
  have h2 : b ≠ 0x5C := by
    intro hh; rw [hh] at hb; exact absurd hb (by decide)
  have h3 : ¬ b.val < 0x20 := by omega
  have h4 : ¬ b.val < 0x80 := by omega
  have hd' : decodeRune (b :: tail.append Z) = (c, tail.length + 1) := hd Z
  simp only [List.cons_append, unquoteLoop, h1, h2, h3, h4, if_false, false_or]
  rw [hd']
  have hdrop : List.drop (tail.length + 1 - 1) (tail.append Z) = Z := by
    show List.drop (tail.length + 1 - 1) (tail ++ Z) = Z
    simp
  simp only [hdrop, henc]
  rfl

theorem unq_bad (fuel : Nat) (Z : List Byte) :
    unquoteLoop (fuel + 1) ([0x5C, 0x75, 0x66, 0x66, 0x66, 0x64] ++ Z)
      = (unquoteLoop fuel Z).map (fun t => encodeRune 0xFFFD ++ t) := by
  have hg : getu4 (0x5C :: 0x75 :: 0x66 :: 0x66 :: 0x66 :: 0x64 :: Z) = some 0xFFFD := by
    simp [getu4, (by decide : hexVal? 0x66 = some 15), (by decide : hexVal? 0x64 = some 13)]
  exact unq_u fuel _ _ _ _ Z 0xFFFD hg (by omega)

/-- Unquoting what `appendString` wrote always succeeds, and for a well-formed
string it gives the string back. -/
theorem unquoteLoop_appendStringLoop :
    ∀ fuel s, s.length ≤ fuel →
      ∀ fuel2, (appendStringLoop fuel s).length ≤ fuel2 →
        ∃ t, unquoteLoop fuel2 (appendStringLoop fuel s) = some t
          ∧ (validUTF8 s = true → t = s) := by
  apply appendStringLoop_ind
    (fun s out => ∀ fuel2, out.length ≤ fuel2 →
      ∃ t, unquoteLoop fuel2 out = some t ∧ (validUTF8 s = true → t = s))
  · intro fuel2 _
    exact ⟨[], by cases fuel2 <;> rfl, fun _ => rfl⟩
  · intro b rest out hb ih fuel2 hf
    have hl : 1 ≤ (escapeASCII b).length := by
      unfold escapeASCII
      split_ifs <;> simp
    rcases fuel2 with _ | fuel2
    · simp only [List.length_append] at hf
      omega
    · obtain ⟨t, ht, hv⟩ := ih fuel2 (by
        simp only [List.length_append] at hf
        omega)
      refine ⟨b :: t, by rw [unq_escapeASCII fuel2 b out hb, ht]; rfl, ?_⟩
      intro hval
      rw [validUTF8_cons_ascii b rest hb] at hval
      rw [hv hval]
  · intro b rest out _ hd ih fuel2 hf
    rcases fuel2 with _ | fuel2
    · simp at hf
    · obtain ⟨t, ht, _⟩ := ih fuel2 (by
        simp only [List.length_append, List.length_cons] at hf
        omega)
      refine ⟨encodeRune 0xFFFD ++ t, by rw [unq_bad fuel2 out, ht]; rfl, ?_⟩
      intro hval
      rw [validUTF8_bad b rest hd] at hval
      cases hval
  · intro b tail more out c hb hd _ henc hc ih fuel2 hf
    have hne : ¬ (c = 0xFFFD ∧ tail.length + 1 = 1) := by
      rcases hc with rfl | rfl <;> simp
    rcases fuel2 with _ | fuel2
    · simp at hf
    · obtain ⟨t, ht, hv⟩ := ih fuel2 (by
        simp only [List.length_append, List.length_cons] at hf
        omega)
      refine ⟨(b :: tail) ++ t, by rw [unq_sep fuel2 c out hc, ht, henc]; rfl, ?_⟩
      intro hval
      rw [validUTF8_multi b tail more c hd hne] at hval
      rw [hv hval]
      rfl
  · intro b tail more out c hb hd _ henc hne ih fuel2 hf
    rcases fuel2 with _ | fuel2
    · simp at hf
    · obtain ⟨t, ht, hv⟩ := ih fuel2 (by
        simp only [List.length_append, List.length_cons] at hf
        omega)
      refine ⟨(b :: tail) ++ t, by rw [unq_raw fuel2 b tail out c hb hd henc, ht]; rfl, ?_⟩
      intro hval
      rw [validUTF8_multi b tail more c hd hne] at hval
      rw [hv hval]
      rfl

/-! ## C6: the enumerated values round-trip through their JSON text -/

theorem skipSpace_quote (rest : List Byte) : skipSpace (0x22 :: rest) = 0x22 :: rest := by
  simp [skipSpace, isSpace]

theorem unquoteBytes_quoted (body : List Byte) :
    unquoteBytes (0x22 :: (body ++ [0x22])) = unquoteLoop body.length body := by
  simp [unquoteBytes]

/-- Reading back a token that `appendString` wrote: `json.Unmarshal` succeeds,
and stores the string itself when the string is well-formed UTF-8. -/
theorem unmarshalString_appendString (s tmp : GoString) :
    ∃ t, unmarshalString (appendString s) tmp = .ok t ∧ (validUTF8 s = true → t = s) := by
  obtain ⟨t, ht, hv⟩ := unquoteLoop_appendStringLoop s.length s (le_refl _)
    (appendStringLoop s.length s).length (le_refl _)
  refine ⟨t, ?_, hv⟩
  have hlit := lit_appendStringLoop [] s.length s (le_refl _)
  have happ : appendString s = 0x22 :: (appendStringLoop s.length s ++ [0x22]) := by
    simp [appendString]
  unfold unmarshalString
  rw [checkValid_appendString s, happ, skipSpace_quote]
  simp only [if_true, hlit, unquoteBytes_quoted, ht]

theorem unmarshalInto_appendString (s receiver : GoString) (hs : validUTF8 s = true) :
    unmarshalInto receiver (appendString s) = (s, none) := by
  obtain ⟨t, ht, hv⟩ := unmarshalString_appendString s []
  rw [hv hs] at ht
  simp [unmarshalInto, ht]

/-- C6 (amended). For each of the five enumerated types, every string `s` that
is well-formed UTF-8, whether or not it is one of the declared constants, and
every receiver: `MarshalJSON` on the value `s` succeeds, and `UnmarshalJSON`
applied to its output returns no error and sets the receiver to exactly `s`,
whatever the receiver held before. -/
theorem enum_roundtrip (s : GoString) (hs : validUTF8 s = true)
    (rr : RangeRelation) (mo : MatchOperator) (ztq : ZeroTermsQuery)
    (so : SortOrder) (sm : SortMode) :
    (∃ b, (RangeRelation.mk s).MarshalJSON = .ok b ∧ rr.UnmarshalJSON b = (⟨s⟩, none))
    ∧ (∃ b, (MatchOperator.mk s).MarshalJSON = .ok b ∧ mo.UnmarshalJSON b = (⟨s⟩, none))
    ∧ (∃ b, (ZeroTermsQuery.mk s).MarshalJSON = .ok b ∧ ztq.UnmarshalJSON b = (⟨s⟩, none))
    ∧ (∃ b, (SortOrder.mk s).MarshalJSON = .ok b ∧ so.UnmarshalJSON b = (⟨s⟩, none))
    ∧ (∃ b, (SortMode.mk s).MarshalJSON = .ok b ∧ sm.UnmarshalJSON b = (⟨s⟩, none)) := by
  refine ⟨⟨_, rfl, ?_⟩, ⟨_, rfl, ?_⟩, ⟨_, rfl, ?_⟩, ⟨_, rfl, ?_⟩, ⟨_, rfl, ?_⟩⟩
  · simp [RangeRelation.UnmarshalJSON, unmarshalInto_appendString s _ hs]
  · simp [MatchOperator.UnmarshalJSON, unmarshalInto_appendString s _ hs]
  · simp [ZeroTermsQuery.UnmarshalJSON, unmarshalInto_appendString s _ hs]
  · simp [SortOrder.UnmarshalJSON, unmarshalInto_appendString s _ hs]
  · simp [SortMode.UnmarshalJSON, unmarshalInto_appendString s _ hs]

/-- C6 at a concrete input: the string `median` (the constant `SortModeMedian`)
over receivers that hold other values. -/
theorem enum_roundtrip_witness :
    validUTF8 (GoString.lit "median") = true
    ∧ ∃ b, SortModeMedian.MarshalJSON = .ok b
        ∧ SortModeMin.UnmarshalJSON b = (SortModeMedian, none) :=
  ⟨by decide,
   (enum_roundtrip (GoString.lit "median") (by decide) RangeRelationWithin MatchOperatorOr
      ZeroTermsQueryAll SortOrderAsc SortModeMin).2.2.2.2⟩

/-- C6 as stated fails: the Go string of the single byte `0xFF` is not valid
UTF-8; `MarshalJSON` writes it as the escape of U+FFFD, and `UnmarshalJSON`
sets the receiver to the three bytes of U+FFFD, not to the string. -/
theorem enum_roundtrip_counterexample :
    (RangeRelation.mk [0xFF]).MarshalJSON = .ok (GoString.lit "\"\\ufffd\"")
    ∧ RangeRelationWithin.UnmarshalJSON (GoString.lit "\"\\ufffd\"")
        = (⟨[0xEF, 0xBF, 0xBD]⟩, none)
    ∧ (RangeRelationWithin.UnmarshalJSON (GoString.lit "\"\\ufffd\"")).1
        ≠ RangeRelation.mk [0xFF] := by
  refine ⟨rfl, by decide, by decide⟩

/-! ## C7: which inputs `UnmarshalJSON` accepts -/

theorem scan_error (e : Bool) (ps : List ParseState) (l : List Byte) :
    l.foldl Scanner.next ⟨.error, e, ps⟩ = ⟨.error, e, ps⟩ := by
  induction l with
  | nil => rfl
  | cons c tl ih => exact ih

theorem eof_error (e : Bool) (ps : List ParseState) (l : List Byte) :
    (l.foldl Scanner.next ⟨.error, e, ps⟩).eof = false := by
  rw [scan_error]
  rfl

theorem allSpace_nil : AllSpace [] := fun _ h => by simp at h

theorem allSpace_cons (c : Byte) (ws : List Byte) :
    AllSpace (c :: ws) ↔ isSpace c = true ∧ AllSpace ws := by
  constructor
  · intro h
    exact ⟨h c (List.mem_cons_self _ _), fun x hx => h x (List.mem_cons_of_mem _ hx)⟩
  · rintro ⟨h1, h2⟩ x hx
    rcases List.mem_cons.1 hx with rfl | hx
    · exact h1
    · exact h2 x hx

/-- After the top-level value, only white space may follow. -/
theorem eof_endTop (ws : List Byte) :
    (ws.foldl Scanner.next ⟨.endTop, true, []⟩).eof = true ↔ AllSpace ws := by
  induction ws with
  | nil => exact ⟨fun _ => allSpace_nil, fun _ => rfl⟩
  | cons c tl ih =>
    rw [allSpace_cons, List.foldl_cons]
    by_cases hc : isSpace c = true
    · have : Scanner.next ⟨.endTop, true, []⟩ c = ⟨.endTop, true, []⟩ := by
        simp [Scanner.next, Scanner.stateEndTop, hc]
      rw [this, ih]
      simp [hc]
    · have : Scanner.next ⟨.endTop, true, []⟩ c = ⟨.error, true, []⟩ := by
        simp [Scanner.next, Scanner.stateEndTop, hc, Scanner.fail]
      rw [this, eof_error]
      simp [hc]

theorem eof_endValue (ws : List Byte) :
    (ws.foldl Scanner.next ⟨.endValue, false, []⟩).eof = true ↔ AllSpace ws := by
  rcases ws with _ | ⟨c, tl⟩
  · exact ⟨fun _ => allSpace_nil, fun _ => rfl⟩
  · rw [allSpace_cons, List.foldl_cons]
    by_cases hc : isSpace c = true
    · have : Scanner.next ⟨.endValue, false, []⟩ c = ⟨.endTop, true, []⟩ := by
        simp [Scanner.next, Scanner.stateEndValue, Scanner.stateEndTop, hc]
      rw [this, eof_endTop]
      simp [hc]
    · have : Scanner.next ⟨.endValue, false, []⟩ c = ⟨.error, true, []⟩ := by
        simp [Scanner.next, Scanner.stateEndValue, Scanner.stateEndTop, hc, Scanner.fail]
      rw [this, eof_error]
      simp [hc]

theorem scan_leading (ws X : List Byte) (h : AllSpace ws) :
    (ws ++ X).foldl Scanner.next Scanner.reset = X.foldl Scanner.next Scanner.reset := by
  induction ws with
  | nil => rfl
  | cons c tl ih =>
    rw [allSpace_cons] at h
    have : Scanner.next Scanner.reset c = Scanner.reset := by
      simp [Scanner.next, Scanner.reset, Scanner.stateBeginValue, h.1]
    rw [List.cons_append, List.foldl_cons, this]
    exact ih h.2

theorem skipSpace_spec (b : List Byte) :
    ∃ ws, AllSpace ws ∧ b = ws ++ skipSpace b := by
  induction b with
  | nil => exact ⟨[], allSpace_nil, rfl⟩
  | cons c tl ih =>
    by_cases hc : isSpace c = true
    · obtain ⟨ws, hws, heq⟩ := ih
      refine ⟨c :: ws, (allSpace_cons c ws).2 ⟨hc, hws⟩, ?_⟩
      simp only [skipSpace, hc, if_true, List.cons_append]
      rw [← heq]
    · exact ⟨[], allSpace_nil, by simp [skipSpace, hc]⟩

theorem skipSpace_leading (ws X : List Byte) (h : AllSpace ws) :
    skipSpace (ws ++ X) = skipSpace X := by
  induction ws with
  | nil => rfl
  | cons c tl ih =>
    rw [allSpace_cons] at h
    simp only [List.cons_append, skipSpace, h.1, if_true]
    exact ih h.2

theorem scan_body (e : Bool) (ps : List ParseState) (body : List Byte) (h : StringBody body) :
    body.foldl Scanner.next (inStr e ps) = inStr e ps := by
  induction h with
  | nil => rfl
  | plain c rest h1 h2 h3 _ ih =>
    rw [List.foldl_cons, scan_plain e ps c h2 h3 (by omega)]
    exact ih
  | esc x rest hx _ ih =>
    have : List.foldl Scanner.next (inStr e ps) [0x5C, x] = inStr e ps := by
      rcases hx with rfl | rfl | rfl | rfl | rfl | rfl | rfl | rfl <;> rfl
    have h2 : (0x5C :: x :: rest) = [0x5C, x] ++ rest := rfl
    rw [h2, List.foldl_append, this]
    exact ih
  | uni h0 h1 h2 h3 rest x0 x1 x2 x3 _ ih =>
    have : List.foldl Scanner.next (inStr e ps) [0x5C, 0x75, h0, h1, h2, h3] = inStr e ps := by
      have h4 : List.foldl Scanner.next (inStr e ps) [0x5C, 0x75] = ⟨.inStringEscU, e, ps⟩ := rfl
      have h5 : [0x5C, 0x75, h0, h1, h2, h3] = [0x5C, 0x75] ++ [h0, h1, h2, h3] := rfl
      rw [h5, List.foldl_append, h4]
      simp only [List.foldl_cons, List.foldl_nil, Scanner.next, x0, x1, x2, x3, if_true]
      rfl
    have h6 : (0x5C :: 0x75 :: h0 :: h1 :: h2 :: h3 :: rest)
        = [0x5C, 0x75, h0, h1, h2, h3] ++ rest := rfl
    rw [h6, List.foldl_append, this]
    exact ih

theorem eof_hex (st st' : ScanStep) (l : List Byte)
    (hstep : ∀ c, Scanner.next ⟨st, false, []⟩ c
      = if isHex c = true then ⟨st', false, []⟩ else ⟨.error, false, []⟩)
    (heof : Scanner.eof ⟨st, false, []⟩ = false)
    (h : (l.foldl Scanner.next ⟨st, false, []⟩).eof = true) :
    ∃ c r, l = c :: r ∧ isHex c = true ∧ (r.foldl Scanner.next ⟨st', false, []⟩).eof = true := by
  rcases l with _ | ⟨c, r⟩
  · rw [List.foldl_nil, heof] at h
    cases h
  · rw [List.foldl_cons, hstep c] at h
    by_cases hc : isHex c = true
    · rw [if_pos hc] at h
      exact ⟨c, r, rfl, hc, h⟩
    · rw [if_neg hc, eof_error] at h
      cases h

/-- Inside a string literal the scanner accepts exactly a string body, the
closing quote and white space. -/
theorem eof_inString : ∀ (n : Nat) (rest : List Byte), rest.length ≤ n →
    (rest.foldl Scanner.next (inStr false [])).eof = true →
    ∃ body ws2, StringBody body ∧ AllSpace ws2 ∧ rest = body ++ 0x22 :: ws2 := by
  intro n
  induction n using Nat.strong_induction_on with
  | _ n ih =>
    intro rest hn h
    rcases rest with _ | ⟨c, r⟩
    · exact absurd h (by decide)
    · rw [List.foldl_cons] at h
      simp only [List.length_cons] at hn
      by_cases c1 : c = 0x22
      · subst c1
        have : Scanner.next (inStr false []) 0x22 = ⟨.endValue, false, []⟩ := rfl
        rw [this, eof_endValue] at h
        exact ⟨[], r, StringBody.nil, h, rfl⟩
      · by_cases c2 : c = 0x5C
        · subst c2
          have : Scanner.next (inStr false []) 0x5C = ⟨.inStringEsc, false, []⟩ := rfl
          rw [this] at h
          rcases r with _ | ⟨x, r'⟩
          · exact absurd h (by decide)
          · rw [List.foldl_cons] at h
            simp only [List.length_cons] at hn
            by_cases hx : x = 0x62 ∨ x = 0x66 ∨ x = 0x6E ∨ x = 0x72 ∨ x = 0x74 ∨ x = 0x5C
                ∨ x = 0x2F ∨ x = 0x22
            · have : Scanner.next ⟨.inStringEsc, false, []⟩ x = inStr false [] := by
                simp only [Scanner.next, hx, if_true]
                rfl
              rw [this] at h
              obtain ⟨body, ws2, hb, hw, rfl⟩ := ih (r'.length) (by omega) r' (le_refl _) h
              refine ⟨0x5C :: x :: body, ws2, StringBody.esc x body ?_ hb, hw, rfl⟩
              rcases hx with h | h | h | h | h | h | h | h <;> simp [h]
            · by_cases hu : x = 0x75
              · subst hu
                have : Scanner.next ⟨.inStringEsc, false, []⟩ 0x75
                    = ⟨.inStringEscU, false, []⟩ := rfl
                rw [this] at h
                obtain ⟨h0, r0, rfl, x0, h⟩ := eof_hex .inStringEscU .inStringEscU1 r'
                  (fun c => by simp only [Scanner.next, Scanner.fail])
                  (by decide) h
                obtain ⟨h1, r1, rfl, x1, h⟩ := eof_hex .inStringEscU1 .inStringEscU12 r0
                  (fun c => by simp only [Scanner.next, Scanner.fail])
                  (by decide) h
                obtain ⟨h2, r2, rfl, x2, h⟩ := eof_hex .inStringEscU12 .inStringEscU123 r1
                  (fun c => by simp only [Scanner.next, Scanner.fail])
                  (by decide) h
                obtain ⟨h3, r3, rfl, x3, h⟩ := eof_hex .inStringEscU123 .inString r2
                  (fun c => by simp only [Scanner.next, Scanner.fail])
                  (by decide) h
                simp only [List.length_cons] at hn
                obtain ⟨body, ws2, hb, hw, rfl⟩ := ih (r3.length) (by omega) r3 (le_refl _) h
                exact ⟨0x5C :: 0x75 :: h0 :: h1 :: h2 :: h3 :: body, ws2,
                  StringBody.uni h0 h1 h2 h3 body x0 x1 x2 x3 hb, hw, rfl⟩
              · have : Scanner.next ⟨.inStringEsc, false, []⟩ x = ⟨.error, false, []⟩ := by
                  simp only [Scanner.next, hx, hu, if_false]
                  rfl
                rw [this, eof_error] at h
                cases h
        · by_cases c3 : c.val < 0x20
          · have : Scanner.next (inStr false []) c = ⟨.error, false, []⟩ := by
              simp only [Scanner.next, inStr, c1, c2, c3, if_false, if_true]
              rfl
            rw [this, eof_error] at h
            cases h
          · rw [scan_plain false [] c c1 c2 c3] at h
            obtain ⟨body, ws2, hb, hw, rfl⟩ := ih (r.length) (by omega) r (le_refl _) h
            exact ⟨c :: body, ws2, StringBody.plain c body (by omega) c1 c2 hb, hw, rfl⟩

theorem eof_expect (st st' : ScanStep) (want : Byte) (l : List Byte)
    (hstep : ∀ c, Scanner.next ⟨st, false, []⟩ c
      = if c = want then ⟨st', false, []⟩ else ⟨.error, false, []⟩)
    (heof : Scanner.eof ⟨st, false, []⟩ = false)
    (h : (l.foldl Scanner.next ⟨st, false, []⟩).eof = true) :
    ∃ r, l = want :: r ∧ (r.foldl Scanner.next ⟨st', false, []⟩).eof = true := by
  rcases l with _ | ⟨c, r⟩
  · rw [List.foldl_nil, heof] at h
    cases h
  · rw [List.foldl_cons, hstep c] at h
    by_cases hc : c = want
    · rw [if_pos hc] at h
      exact ⟨r, by rw [hc], h⟩
    · rw [if_neg hc, eof_error] at h
      cases h

/-- After the byte `n` the scanner accepts exactly `ull` and white space. -/
theorem eof_null (rest : List Byte)
    (h : (rest.foldl Scanner.next ⟨.n, false, []⟩).eof = true) :
    ∃ ws2, AllSpace ws2 ∧ rest = 0x75 :: 0x6C :: 0x6C :: ws2 := by
  obtain ⟨r1, rfl, h⟩ := eof_expect .n .nu 0x75 rest
    (fun c => by simp only [Scanner.next, Scanner.expect, Scanner.fail]) (by decide) h
  obtain ⟨r2, rfl, h⟩ := eof_expect .nu .nul 0x6C r1
    (fun c => by simp only [Scanner.next, Scanner.expect, Scanner.fail]) (by decide) h
  obtain ⟨r3, rfl, h⟩ := eof_expect .nul .endValue 0x6C r2
    (fun c => by simp only [Scanner.next, Scanner.expect, Scanner.fail]) (by decide) h
  exact ⟨r3, (eof_endValue r3).1 h, rfl⟩

theorem isHex_plain (h : Byte) (hx : isHex h = true) : h ≠ 0x22 ∧ h ≠ 0x5C := by
  constructor
  · intro heq
    rw [heq] at hx
    exact absurd hx (by decide)
  · intro heq
    rw [heq] at hx
    exact absurd hx (by decide)

theorem lit_body (body Y : List Byte) (h : StringBody body) :
    stringLiteral false (body ++ 0x22 :: Y) = body ++ [0x22] := by
  induction h with
  | nil => simp [stringLiteral]
  | plain c rest _ h2 h3 _ ih =>
    rw [List.cons_append, lit_plain c _ h2 h3, ih]
    rfl
  | esc x rest _ _ ih =>
    simp only [List.cons_append]
    rw [lit_esc, ih]
  | uni h0 h1 h2 h3 rest x0 x1 x2 x3 _ ih =>
    obtain ⟨a0, b0⟩ := isHex_plain h0 x0
    obtain ⟨a1, b1⟩ := isHex_plain h1 x1
    obtain ⟨a2, b2⟩ := isHex_plain h2 x2
    obtain ⟨a3, b3⟩ := isHex_plain h3 x3
    simp only [List.cons_append]
    rw [lit_esc, lit_plain _ _ a0 b0, lit_plain _ _ a1 b1, lit_plain _ _ a2 b2,
      lit_plain _ _ a3 b3, ih]

theorem hexVal?_of_isHex (h : Byte) (hx : isHex h = true) : ∃ v, hexVal? h = some v := by
  unfold hexVal?
  simp only [isHex, isDigit, Bool.or_eq_true, Bool.and_eq_true, decide_eq_true_eq] at hx
  split_ifs with c1 c2 c3
  · exact ⟨_, rfl⟩
  · exact ⟨_, rfl⟩
  · exact ⟨_, rfl⟩
  · omega

theorem getu4_shape (l : List Byte) (v : Nat) (h : getu4 l = some v) :
    ∃ a b c d r, l = 0x5C :: 0x75 :: a :: b :: c :: d :: r := by
  rcases l with _ | ⟨b0, _ | ⟨b1, _ | ⟨a, _ | ⟨b, _ | ⟨c, _ | ⟨d, r⟩⟩⟩⟩⟩⟩
  all_goals try (simp [getu4] at h)
  obtain ⟨⟨rfl, rfl⟩, _⟩ := h
  exact ⟨a, b, c, d, r, rfl⟩

theorem stringBody_after_escape (a b c d : Byte) (r : List Byte)
    (h : StringBody (0x5C :: 0x75 :: a :: b :: c :: d :: r)) : StringBody r := by
  cases h with
  | plain _ _ _ _ h3 _ => exact absurd rfl h3
  | esc _ _ hx _ => exact absurd hx (by decide)
  | uni _ _ _ _ _ _ _ _ _ hr => exact hr

theorem stringBody_tail_of_high (t : Byte) (X : List Byte) (ht : 0x80 ≤ t.val)
    (h : StringBody (t :: X)) : StringBody X := by
  cases h with
  | plain _ _ _ _ _ hr => exact hr
  | esc _ _ _ _ => exact absurd ht (by decide)
  | uni _ _ _ _ _ _ _ _ _ _ => exact absurd ht (by decide)

theorem stringBody_after_high (tail more : List Byte) (hhi : ∀ t ∈ tail, 0x80 ≤ t.val)
    (h : StringBody (tail ++ more)) : StringBody more := by
  induction tail with
  | nil => exact h
  | cons t tl ih =>
    exact ih (fun x hx => hhi x (List.mem_cons_of_mem _ hx))
      (stringBody_tail_of_high t _ (hhi t (List.mem_cons_self _ _)) h)

theorem unq_high (fuel : Nat) (c : Byte) (rest : List Byte) (hc : 0x80 ≤ c.val) :
    unquoteLoop (fuel + 1) (c :: rest)
      = (unquoteLoop fuel (rest.drop ((decodeRune (c :: rest)).2 - 1))).map
          (fun t => encodeRune (decodeRune (c :: rest)).1 ++ t) := by
  have h1 : c ≠ 0x22 := by
    intro hh; rw [hh] at hc; exact absurd hc (by decide)
  have h2 : c ≠ 0x5C := by
    intro hh; rw [hh] at hc; exact absurd hc (by decide)
  have h3 : ¬ c.val < 0x20 := by omega
  have h4 : ¬ c.val < 0x80 := by omega
  simp only [unquoteLoop, h1, h2, h3, h4, if_false, false_or]

theorem unq_esc (fuel : Nat) (e : Byte) (rest : List Byte)
    (he : e = 0x22 ∨ e = 0x5C ∨ e = 0x2F ∨ e = 0x62 ∨ e = 0x66 ∨ e = 0x6E ∨ e = 0x72
      ∨ e = 0x74) :
    ∃ x : Byte, unquoteLoop (fuel + 1) (0x5C :: e :: rest)
      = (unquoteLoop fuel rest).map (fun t => x :: t) := by
  rcases he with rfl | rfl | rfl | rfl | rfl | rfl | rfl | rfl
  · exact ⟨0x22, by simp [unquoteLoop]⟩
  · exact ⟨0x5C, by simp [unquoteLoop]⟩
  · exact ⟨0x2F, by simp [unquoteLoop]⟩
  · exact ⟨0x08, by simp [unquoteLoop]⟩
  · exact ⟨0x0C, by simp [unquoteLoop]⟩
  · exact ⟨0x0A, by simp [unquoteLoop]⟩
  · exact ⟨0x0D, by simp [unquoteLoop]⟩
  · exact ⟨0x09, by simp [unquoteLoop]⟩

theorem unq_uni (fuel : Nat) (h0 h1 h2 h3 : Byte) (Z : List Byte) (rr : Nat)
    (hg : getu4 (0x5C :: 0x75 :: h0 :: h1 :: h2 :: h3 :: Z) = some rr) :
    unquoteLoop (fuel + 1) (0x5C :: 0x75 :: h0 :: h1 :: h2 :: h3 :: Z)
      = if 0xD800 ≤ rr ∧ rr < 0xE000 then
          if utf16DecodeRune rr (getu4 Z) ≠ 0xFFFD then
            (unquoteLoop fuel (Z.drop 6)).map
              (fun t => encodeRune (utf16DecodeRune rr (getu4 Z)) ++ t)
          else (unquoteLoop fuel Z).map (fun t => encodeRune 0xFFFD ++ t)
        else (unquoteLoop fuel Z).map (fun t => encodeRune rr ++ t) := by
  rw [unquoteLoop]
  simp only [if_true]
  have d1 : ¬ ((0x75 : Byte) = 0x22 ∨ (0x75 : Byte) = 0x5C ∨ (0x75 : Byte) = 0x2F
      ∨ (0x75 : Byte) = 0x27) := by decide
  have d2 : ¬ ((0x75 : Byte) = 0x62) := by decide
  have d3 : ¬ ((0x75 : Byte) = 0x66) := by decide
  have d4 : ¬ ((0x75 : Byte) = 0x6E) := by decide
  have d5 : ¬ ((0x75 : Byte) = 0x72) := by decide
  have d6 : ¬ ((0x75 : Byte) = 0x74) := by decide
  simp only [d1, d2, d3, d4, d5, d6, if_false, if_true, hg, List.drop]

theorem getu4_of_isHex (h0 h1 h2 h3 : Byte) (Z : List Byte) (x0 : isHex h0 = true)
    (x1 : isHex h1 = true) (x2 : isHex h2 = true) (x3 : isHex h3 = true) :
    ∃ rr, getu4 (0x5C :: 0x75 :: h0 :: h1 :: h2 :: h3 :: Z) = some rr := by
  obtain ⟨v0, e0⟩ := hexVal?_of_isHex h0 x0
  obtain ⟨v1, e1⟩ := hexVal?_of_isHex h1 x1
  obtain ⟨v2, e2⟩ := hexVal?_of_isHex h2 x2
  obtain ⟨v3, e3⟩ := hexVal?_of_isHex h3 x3
  exact ⟨v0 * 4096 + v1 * 256 + v2 * 16 + v3, by simp [getu4, e0, e1, e2, e3]⟩

/-- Go's `unquoteBytes` succeeds on every string body. -/
theorem unquoteLoop_body : ∀ (n : Nat) (body : List Byte), body.length ≤ n →
    StringBody body → ∀ fuel, body.length ≤ fuel → ∃ t, unquoteLoop fuel body = some t := by
  intro n
  induction n using Nat.strong_induction_on with
  | _ n ih =>
    intro body hn hb fuel hf
    cases hb with
    | nil => exact ⟨[], by cases fuel <;> rfl⟩
    | plain c rest h1 h2 h3 hr =>
      simp only [List.length_cons] at hn hf
      rcases fuel with _ | fuel
      · omega
      · by_cases hc : c.val < 0x80
        · obtain ⟨t, ht⟩ := ih rest.length (by omega) rest (le_refl _) hr fuel (by omega)
          exact ⟨c :: t, by rw [unq_plain fuel c rest h2 h3 (by omega) hc, ht]; rfl⟩
        · rw [unq_high fuel c rest (by omega)]
          by_cases hv : (decodeRune (c :: rest)).1 = 0xFFFD ∧ (decodeRune (c :: rest)).2 = 1
          · rw [hv.2]
            obtain ⟨t, ht⟩ := ih rest.length (by omega) rest (le_refl _) hr fuel (by omega)
            exact ⟨_, by simp only [Nat.sub_self, List.drop_zero, ht]; rfl⟩
          · obtain ⟨tail, more, rfl, hsz, hhi, _, _⟩ := decodeRune_high c rest (by omega) hv
            have hdrop : (tail ++ more).drop ((decodeRune (c :: (tail ++ more))).2 - 1)
                = more := by
              rw [hsz]
              simp
            rw [hdrop]
            simp only [List.length_append] at hn hf
            obtain ⟨t, ht⟩ := ih more.length (by omega) more (le_refl _)
              (stringBody_after_high tail more hhi hr) fuel (by omega)
            exact ⟨_, by rw [ht]; rfl⟩
    | esc e rest he hr =>
      simp only [List.length_cons] at hn hf
      rcases fuel with _ | fuel
      · omega
      · obtain ⟨x, hx⟩ := unq_esc fuel e rest he
        obtain ⟨t, ht⟩ := ih rest.length (by omega) rest (le_refl _) hr fuel (by omega)
        exact ⟨x :: t, by rw [hx, ht]; rfl⟩
    | uni h0 h1 h2 h3 rest x0 x1 x2 x3 hr =>
      simp only [List.length_cons] at hn hf
      rcases fuel with _ | fuel
      · omega
      · obtain ⟨rr, hg⟩ := getu4_of_isHex h0 h1 h2 h3 rest x0 x1 x2 x3
        obtain ⟨t, ht⟩ := ih rest.length (by omega) rest (le_refl _) hr fuel (by omega)
        rw [unq_uni fuel h0 h1 h2 h3 rest rr hg]
        split_ifs with c1 c2
        · cases hg2 : getu4 rest with
          | none =>
            rw [hg2] at c2
            exact absurd rfl c2
          | some r2 =>
            obtain ⟨a, b, c, d, r, rfl⟩ := getu4_shape rest r2 hg2
            simp only [List.length_cons] at hn hf
            obtain ⟨t2, ht2⟩ := ih r.length (by omega) r (le_refl _)
              (stringBody_after_escape a b c d r hr) fuel (by omega)
            exact ⟨_, by simp only [List.drop_succ_cons, List.drop_zero, ht2]; rfl⟩
        · exact ⟨_, by rw [ht]; rfl⟩
        · exact ⟨_, by rw [ht]; rfl⟩

theorem checkValid_string (ws1 body ws2 : List Byte) (h1 : AllSpace ws1) (h2 : AllSpace ws2)
    (hb : StringBody body) : checkValid (ws1 ++ 0x22 :: (body ++ 0x22 :: ws2)) = true := by
  unfold checkValid
  rw [scan_leading ws1 _ h1, List.foldl_cons]
  have h0 : Scanner.next Scanner.reset 0x22 = inStr false [] := rfl
  rw [h0, List.foldl_append, scan_body false [] body hb, List.foldl_cons]
  have h3 : Scanner.next (inStr false []) 0x22 = ⟨.endValue, false, []⟩ := rfl
  rw [h3]
  exact (eof_endValue ws2).2 h2

theorem checkValid_null (ws1 ws2 : List Byte) (h1 : AllSpace ws1) (h2 : AllSpace ws2) :
    checkValid (ws1 ++ 0x6E :: 0x75 :: 0x6C :: 0x6C :: ws2) = true := by
  unfold checkValid
  rw [scan_leading ws1 _ h1]
  have h0 : List.foldl Scanner.next Scanner.reset (0x6E :: 0x75 :: 0x6C :: 0x6C :: ws2)
      = List.foldl Scanner.next ⟨.endValue, false, []⟩ ws2 := rfl
  rw [h0]
  exact (eof_endValue ws2).2 h2

/-- `json.Unmarshal` into a string succeeds exactly on a string token and on
`null`. -/
theorem unmarshalString_ok_iff (b tmp : GoString) :
    (∃ t, unmarshalString b tmp = .ok t) ↔ IsStringToken b ∨ IsJSONNull b := by
  constructor
  · rintro ⟨t, ht⟩
    unfold unmarshalString at ht
    by_cases hv : checkValid b = true
    · rw [if_pos hv] at ht
      obtain ⟨ws1, hws1, hb⟩ := skipSpace_spec b
      rcases hs : skipSpace b with _ | ⟨c, rest⟩
      · rw [hs] at ht
        cases ht
      · rw [hs] at ht hb
        have hscan : (rest.foldl Scanner.next (Scanner.next Scanner.reset c)).eof = true := by
          have := hv
          unfold checkValid at this
          rw [hb, scan_leading ws1 _ hws1, List.foldl_cons] at this
          exact this
        by_cases c1 : c = 0x22
        · subst c1
          left
          obtain ⟨body, ws2, hbody, hws2, rfl⟩ := eof_inString rest.length rest (le_refl _) hscan
          exact ⟨ws1, body, ws2, hws1, hws2, hbody, hb⟩
        · by_cases c2 : c = 0x6E
          · subst c2
            right
            obtain ⟨ws2, hws2, rfl⟩ := eof_null rest hscan
            exact ⟨ws1, ws2, hws1, hws2, hb⟩
          · simp only [c1, c2, if_false] at ht
            cases ht
    · rw [if_neg hv] at ht
      cases ht
  · rintro (⟨ws1, body, ws2, h1, h2, hbody, rfl⟩ | ⟨ws1, ws2, h1, h2, rfl⟩)
    · obtain ⟨t, ht⟩ := unquoteLoop_body body.length body (le_refl _) hbody body.length (le_refl _)
      refine ⟨t, ?_⟩
      unfold unmarshalString
      rw [checkValid_string ws1 body ws2 h1 h2 hbody, skipSpace_leading ws1 _ h1,
        skipSpace_quote]
      simp only [if_true, lit_body body ws2 hbody, unquoteBytes_quoted, ht]
    · refine ⟨tmp, ?_⟩
      unfold unmarshalString
      rw [checkValid_null ws1 ws2 h1 h2, skipSpace_leading ws1 _ h1]
      have : skipSpace (0x6E :: 0x75 :: 0x6C :: 0x6C :: ws2)
          = 0x6E :: 0x75 :: 0x6C :: 0x6C :: ws2 := by
        simp [skipSpace, isSpace]
      rw [this]
      rfl

theorem unmarshalInto_ok_iff (receiver : GoString) (b : List Byte) :
    (unmarshalInto receiver b).2 = none ↔ IsStringToken b ∨ IsJSONNull b := by
  rw [← unmarshalString_ok_iff b []]
  unfold unmarshalInto
  cases h : unmarshalString b [] with
  | error e => simp
  | ok t => simp

theorem accepted_iff (b : List Byte) :
    IsStringToken b ∨ IsJSONNull b
      ↔ IsJSONString b ∨ IsJSONNull b ∨ (IsStringToken b ∧ validUTF8 b = false) := by
  constructor
  · rintro (h | h)
    · cases hv : validUTF8 b with
      | true => exact Or.inl ⟨h, hv⟩
      | false => exact Or.inr (Or.inr ⟨h, rfl⟩)
    · exact Or.inr (Or.inl h)
  · rintro (h | h | h)
    · exact Or.inl h.1
    · exact Or.inr h
    · exact Or.inl h.1

/-- C7 (amended). For each of the five enumerated types and every input:
`UnmarshalJSON` returns no error if and only if the input is, white space
around it allowed, a JSON string, or the JSON literal `null`, or a string
token whose bytes are not well-formed UTF-8 (a quote, unescaped bytes from 0x20
on and escapes, a quote).  So every JSON string, in or out of the declared
constant set, is accepted; `null` and quoted ill-formed UTF-8 are accepted too;
and every other input (a number, `true`, `false`, an object, an array, bytes
that are no JSON value) is rejected with an error. -/
theorem unmarshalJSON_accepts_iff (b : List Byte) (rr : RangeRelation) (mo : MatchOperator)
    (ztq : ZeroTermsQuery) (so : SortOrder) (sm : SortMode) :
    ((rr.UnmarshalJSON b).2 = none
        ↔ IsJSONString b ∨ IsJSONNull b ∨ (IsStringToken b ∧ validUTF8 b = false))
    ∧ ((mo.UnmarshalJSON b).2 = none
        ↔ IsJSONString b ∨ IsJSONNull b ∨ (IsStringToken b ∧ validUTF8 b = false))
    ∧ ((ztq.UnmarshalJSON b).2 = none
        ↔ IsJSONString b ∨ IsJSONNull b ∨ (IsStringToken b ∧ validUTF8 b = false))
    ∧ ((so.UnmarshalJSON b).2 = none
        ↔ IsJSONString b ∨ IsJSONNull b ∨ (IsStringToken b ∧ validUTF8 b = false))
    ∧ ((sm.UnmarshalJSON b).2 = none
        ↔ IsJSONString b ∨ IsJSONNull b ∨ (IsStringToken b ∧ validUTF8 b = false)) :=
  ⟨(unmarshalInto_ok_iff rr.val b).trans (accepted_iff b),
   (unmarshalInto_ok_iff mo.val b).trans (accepted_iff b),
   (unmarshalInto_ok_iff ztq.val b).trans (accepted_iff b),
   (unmarshalInto_ok_iff so.val b).trans (accepted_iff b),
   (unmarshalInto_ok_iff sm.val b).trans (accepted_iff b)⟩

/-- C7 as stated fails, twice.  The input `null` is not a JSON string, yet
`UnmarshalJSON` returns no error on it and leaves the empty string in the
receiver.  The three bytes `"`, `0xFF`, `"` are not a JSON string either (the
byte `0xFF` occurs in no UTF-8 encoding), yet `UnmarshalJSON` returns no error
on them and leaves U+FFFD in the receiver. -/
theorem unmarshalJSON_accepts_counterexample :
    ¬ IsJSONString (GoString.lit "null")
    ∧ RangeRelationWithin.UnmarshalJSON (GoString.lit "null") = (⟨[]⟩, none)
    ∧ ¬ IsJSONString [0x22, 0xFF, 0x22]
    ∧ RangeRelationWithin.UnmarshalJSON [0x22, 0xFF, 0x22] = (⟨[0xEF, 0xBF, 0xBD]⟩, none) := by
  refine ⟨?_, by decide, ?_, by decide⟩
  · rintro ⟨⟨ws1, body, ws2, _, _, _, h⟩, _⟩
    have hmem : (0x22 : Byte) ∈ GoString.lit "null" := by
      rw [h]
      simp
    exact absurd hmem (by decide)
  · rintro ⟨_, hv⟩
    exact absurd hv (by decide)

/-- C8. For each of the five enumerated types, every receiver and every
input: when `UnmarshalJSON` returns an error the receiver holds the value it
had before the call, and when it returns no error the receiver holds the
string that `json.Unmarshal` decoded. -/
theorem unmarshalJSON_atomic (b : List Byte) (rr : RangeRelation) (mo : MatchOperator)
    (ztq : ZeroTermsQuery) (so : SortOrder) (sm : SortMode) :
    (((rr.UnmarshalJSON b).2 ≠ none → (rr.UnmarshalJSON b).1 = rr)
      ∧ ((rr.UnmarshalJSON b).2 = none →
          unmarshalString b [] = .ok (rr.UnmarshalJSON b).1.val))
    ∧ (((mo.UnmarshalJSON b).2 ≠ none → (mo.UnmarshalJSON b).1 = mo)
      ∧ ((mo.UnmarshalJSON b).2 = none →
          unmarshalString b [] = .ok (mo.UnmarshalJSON b).1.val))
    ∧ (((ztq.UnmarshalJSON b).2 ≠ none → (ztq.UnmarshalJSON b).1 = ztq)
      ∧ ((ztq.UnmarshalJSON b).2 = none →
          unmarshalString b [] = .ok (ztq.UnmarshalJSON b).1.val))
    ∧ (((so.UnmarshalJSON b).2 ≠ none → (so.UnmarshalJSON b).1 = so)
      ∧ ((so.UnmarshalJSON b).2 = none →
          unmarshalString b [] = .ok (so.UnmarshalJSON b).1.val))
    ∧ (((sm.UnmarshalJSON b).2 ≠ none → (sm.UnmarshalJSON b).1 = sm)
      ∧ ((sm.UnmarshalJSON b).2 = none →
          unmarshalString b [] = .ok (sm.UnmarshalJSON b).1.val)) := by
  refine ⟨?_, ?_, ?_, ?_, ?_⟩
  · simp only [RangeRelation.UnmarshalJSON, unmarshalInto]
    cases h : unmarshalString b [] <;> simp
  · simp only [MatchOperator.UnmarshalJSON, unmarshalInto]
    cases h : unmarshalString b [] <;> simp
  · simp only [ZeroTermsQuery.UnmarshalJSON, unmarshalInto]
    cases h : unmarshalString b [] <;> simp
  · simp only [SortOrder.UnmarshalJSON, unmarshalInto]
    cases h : unmarshalString b [] <;> simp
  · simp only [SortMode.UnmarshalJSON, unmarshalInto]
    cases h : unmarshalString b [] <;> simp

/-- C8 at concrete inputs: the number `12` is rejected and leaves the receiver
`WITHIN` as it was; the string token `"asc"` is accepted. -/
theorem unmarshalJSON_atomic_witness :
    ((RangeRelationWithin.UnmarshalJSON (GoString.lit "12")).2 ≠ none
      ∧ (RangeRelationWithin.UnmarshalJSON (GoString.lit "12")).1 = RangeRelationWithin)
    ∧ ((SortOrderDesc.UnmarshalJSON (GoString.lit "\"asc\"")).2 = none
      ∧ unmarshalString (GoString.lit "\"asc\"") []
          = .ok (SortOrderDesc.UnmarshalJSON (GoString.lit "\"asc\"")).1.val) :=
  ⟨⟨by decide, (unmarshalJSON_atomic (GoString.lit "12") RangeRelationWithin MatchOperatorOr
      ZeroTermsQueryAll SortOrderDesc SortModeMin).1.1 (by decide)⟩,
   ⟨by decide, (unmarshalJSON_atomic (GoString.lit "\"asc\"") RangeRelationWithin
      MatchOperatorOr ZeroTermsQueryAll SortOrderDesc SortModeMin).2.2.2.1.2 (by decide)⟩⟩

/-! ## C4: the scenario request -/

/-- C4. The scenario request encodes, and in its document `query.bool.must` is
the one-element array holding exactly `{"term":{"status":{"value":"active"}}}`,
`query.bool.filter` is exactly `{"match_all":{}}`, `size` is `10`, there is
neither a `sort` nor a `_source` key, and the bytes written are the compact
text of that document. -/
theorem scenario_document :
    ∃ doc, encodeSearch scenarioSearch = .ok doc
      ∧ doc.path [GoString.lit "query", GoString.lit "bool", GoString.lit "must"]
          = some (.arr [.obj [(GoString.lit "term",
              .obj [(GoString.lit "status",
                .obj [(GoString.lit "value", .str (GoString.lit "active"))])])]])
      ∧ doc.path [GoString.lit "query", GoString.lit "bool", GoString.lit "filter"]
          = some (.obj [(GoString.lit "match_all", .obj [])])
      ∧ doc.get? (GoString.lit "size") = some (.num (.int 10))
      ∧ ¬ doc.hasKey (GoString.lit "sort")
      ∧ ¬ doc.hasKey (GoString.lit "_source")
      ∧ ∀ floatText, doc.render floatText = GoString.lit
          "\x7b\"size\":10,\"query\":\x7b\"bool\":\x7b\"must\":[\x7b\"term\":\x7b\"status\":\x7b\"value\":\"active\"\x7d\x7d\x7d],\"filter\":\x7b\"match_all\":\x7b\x7d\x7d\x7d\x7d\x7d" := by
  refine ⟨.obj [(GoString.lit "size", .num (.int 10)),
      (GoString.lit "query", .obj [(GoString.lit "bool", .obj [
        (GoString.lit "must", .arr [.obj [(GoString.lit "term",
          .obj [(GoString.lit "status",
            .obj [(GoString.lit "value", .str (GoString.lit "active"))])])]]),
        (GoString.lit "filter", .obj [(GoString.lit "match_all", .obj [])])])])],
    rfl, rfl, rfl, rfl, by decide, by decide, ?_⟩
  intro floatText
  set_option maxRecDepth 100000 in
  rfl

/-! ## C9 and C10: which members a record contributes -/

theorem lookupEntry_append {V : Type} (k : GoString) (a b : List (GoString × V)) :
    lookupEntry k (a ++ b) = (lookupEntry k a).orElse (fun _ => lookupEntry k b) := by
  induction a with
  | nil => rfl
  | cons hd tl ih =>
    obtain ⟨k', v'⟩ := hd
    by_cases h : k = k'
    · simp [lookupEntry, h]
    · simp [lookupEntry, h, ih]

theorem lookupEntry_optMember (k : GoString) (key : String) (p : Bool) (v : JSON)
    (rest : List (GoString × JSON)) :
    lookupEntry k (optMember key p v ++ rest)
      = if k = GoString.lit key ∧ p = true then some v else lookupEntry k rest := by
  cases p
  · simp [optMember]
  · by_cases h : k = GoString.lit key
    · simp [optMember, lookupEntry, h]
    · simp [optMember, lookupEntry, h]

theorem lookupEntry_optMember_last (k : GoString) (key : String) (p : Bool) (v : JSON) :
    lookupEntry k (optMember key p v)
      = if k = GoString.lit key ∧ p = true then some v else none := by
  have := lookupEntry_optMember k key p v []
  simpa [lookupEntry] using this

theorem fieldString_eq (key : String) (s : GoString) :
    fieldString key s = optMember key (decide (s ≠ [])) (.str s) := by
  by_cases h : s = [] <;> simp [fieldString, optMember, h]

theorem fieldInt_eq (key : String) (i : Int) :
    fieldInt key i = optMember key (decide (i ≠ 0)) (.num (.int i)) := by
  by_cases h : i = 0 <;> simp [fieldInt, optMember, h]

theorem fieldBoolPtr_eq (key : String) (b : Option Bool) :
    fieldBoolPtr key b = optMember key b.isSome (.bool (b.getD false)) := by
  cases b <;> simp [fieldBoolPtr, optMember]

theorem enumMember_eq (key : String) (s : GoString) :
    (if s = [] then [] else [(GoString.lit key, JSON.str s)])
      = optMember key (decide (s ≠ [])) (.str s) := by
  by_cases h : s = [] <;> simp [optMember, h]

theorem fieldFloat_ok (key : String) (f : Float64) (l : List (GoString × JSON))
    (h : fieldFloat key f = .ok l) :
    l = optMember key (!f.isZero) (.num (numOfFloat f)) := by
  unfold fieldFloat at h
  by_cases hz : f.isZero = true
  · simp only [hz, if_true] at h
    cases h
    simp [optMember, hz]
  · simp only [hz] at h
    unfold encodeFloat at h
    by_cases hf : f.isFinite = true
    · simp only [hf, if_true] at h
      cases h
      simp [optMember, hz]
    · simp [hf] at h

theorem fieldAny_ok (key : String) (a : Any) (l : List (GoString × JSON))
    (h : fieldAny key a = .ok l) : ∃ p v, l = optMember key p v := by
  unfold fieldAny at h
  split at h
  · cases h
    exact ⟨false, .null, rfl⟩
  · split at h
    · cases h
      exact ⟨true, _, rfl⟩
    · cases h

theorem encodeMatch_ok (m : Match) (j : JSON) (h : encodeMatch m = .ok j) :
    ∃ pq vq, j = .obj (optMember "query" pq vq
      ++ optMember "operator" (decide (m.Operator.val ≠ [])) (.str m.Operator.val)
      ++ optMember "boost" (!m.Boost.isZero) (.num (numOfFloat m.Boost))
      ++ optMember "fuzzy_transpositions" m.FuzzyTranspositions.isSome
          (.bool (m.FuzzyTranspositions.getD false))
      ++ optMember "fuzzy_rewrite" (decide (m.FuzzyRewrite ≠ [])) (.str m.FuzzyRewrite)
      ++ optMember "max_expansions" (decide (m.MaxExpansions ≠ 0)) (.num (.int m.MaxExpansions))
      ++ optMember "lenient" m.Lenient.isSome (.bool (m.Lenient.getD false))
      ++ optMember "zero_terms_query" (decide (m.ZeroTermsQuery.val ≠ []))
          (.str m.ZeroTermsQuery.val)
      ++ optMember "fuzziness" (decide (m.Fuzziness ≠ [])) (.str m.Fuzziness)
      ++ optMember "prefix_length" (decide (m.PrefixLength ≠ 0)) (.num (.int m.PrefixLength))
      ++ optMember "minimum_should_match" (decide (m.MinimumShouldMatch ≠ []))
          (.str m.MinimumShouldMatch)
      ++ []) := by
  unfold encodeMatch at h
  cases hq : fieldAny "query" m.Query with
  | error e => simp [hq, bind, Except.bind] at h
  | ok ql =>
    cases hb : fieldFloat "boost" m.Boost with
    | error e => simp [hq, hb, bind, Except.bind] at h
    | ok bl =>
      obtain ⟨pq, vq, rfl⟩ := fieldAny_ok _ _ _ hq
      have := fieldFloat_ok _ _ _ hb
      subst this
      simp only [hq, hb, bind, Except.bind, pure, Except.pure, Except.ok.injEq] at h
      refine ⟨pq, vq, ?_⟩
      rw [← h]
      simp only [fieldString_eq, fieldInt_eq, fieldBoolPtr_eq, enumMember_eq,
        MatchOperator.MarshalTree, ZeroTermsQuery.MarshalTree, List.append_assoc,
        List.append_nil]

theorem encodeTerm_ok (t : Term) (j : JSON) (h : encodeTerm t = .ok j) :
    j = .obj (optMember "value" true (.str t.Value)
      ++ optMember "boost" (!t.Boost.isZero) (.num (numOfFloat t.Boost))
      ++ optMember "case_sensitive" t.CaseSensitive.isSome (.bool (t.CaseSensitive.getD false))) := by
  unfold encodeTerm at h
  cases hb : fieldFloat "boost" t.Boost with
  | error e => simp [hb, bind, Except.bind] at h
  | ok bl =>
    have := fieldFloat_ok _ _ _ hb
    subst this
    simp only [hb, bind, Except.bind, pure, Except.pure, Except.ok.injEq] at h
    rw [← h]
    simp only [fieldBoolPtr_eq, optMember, if_true]

theorem encodeTerm_total (t : Term) (h : t.Boost.isFinite = true) :
    ∃ j, encodeTerm t = .ok j := by
  unfold encodeTerm fieldFloat encodeFloat
  by_cases hz : t.Boost.isZero = true
  · simp [hz, bind, Except.bind, pure, Except.pure]
  · simp [hz, h, bind, Except.bind, pure, Except.pure]

theorem encodeMatchAll_ok (ma : MatchAll) (j : JSON) (h : encodeMatchAll ma = .ok j) :
    j = .obj (optMember "boost" (!ma.Boost.isZero) (.num (numOfFloat ma.Boost))) := by
  unfold encodeMatchAll at h
  cases hb : fieldFloat "boost" ma.Boost with
  | error e => simp [hb, bind, Except.bind] at h
  | ok bl =>
    have := fieldFloat_ok _ _ _ hb
    subst this
    simp only [hb, bind, Except.bind, pure, Except.pure, Except.ok.injEq] at h
    rw [← h]

theorem encodeRange_ok (r : Range) (j : JSON) (h : encodeRange r = .ok j) :
    ∃ p1 v1 p2 v2 p3 v3 p4 v4, j = .obj (optMember "gt" p1 v1 ++ optMember "gte" p2 v2
      ++ optMember "lt" p3 v3 ++ optMember "lte" p4 v4
      ++ optMember "boost" (!r.Boost.isZero) (.num (numOfFloat r.Boost))
      ++ optMember "format" (decide (r.Format ≠ [])) (.str r.Format)
      ++ optMember "relation" (decide (r.Relation.val ≠ [])) (.str r.Relation.val)
      ++ optMember "time_zone" (decide (r.TimeZone ≠ [])) (.str r.TimeZone)) := by
  unfold encodeRange at h
  cases h1 : fieldAny "gt" r.GT with
  | error e => simp [h1, bind, Except.bind] at h
  | ok l1 =>
    cases h2 : fieldAny "gte" r.GTE with
    | error e => simp [h1, h2, bind, Except.bind] at h
    | ok l2 =>
      cases h3 : fieldAny "lt" r.LT with
      | error e => simp [h1, h2, h3, bind, Except.bind] at h
      | ok l3 =>
        cases h4 : fieldAny "lte" r.LTE with
        | error e => simp [h1, h2, h3, h4, bind, Except.bind] at h
        | ok l4 =>
          cases hb : fieldFloat "boost" r.Boost with
          | error e => simp [h1, h2, h3, h4, hb, bind, Except.bind] at h
          | ok bl =>
            obtain ⟨p1, v1, rfl⟩ := fieldAny_ok _ _ _ h1
            obtain ⟨p2, v2, rfl⟩ := fieldAny_ok _ _ _ h2
            obtain ⟨p3, v3, rfl⟩ := fieldAny_ok _ _ _ h3
            obtain ⟨p4, v4, rfl⟩ := fieldAny_ok _ _ _ h4
            have := fieldFloat_ok _ _ _ hb
            subst this
            simp only [h1, h2, h3, h4, hb, bind, Except.bind, pure, Except.pure,
              Except.ok.injEq] at h
            refine ⟨p1, v1, p2, v2, p3, v3, p4, v4, ?_⟩
            rw [← h]
            simp only [fieldString_eq, enumMember_eq, RangeRelation.MarshalTree]

theorem encodeSort_eq (s : SortSpec) :
    encodeSort s = .obj (optMember "order" (decide (s.Order.val ≠ [])) (.str s.Order.val)
      ++ optMember "type" (decide (s.Type_ ≠ [])) (.str s.Type_)
      ++ optMember "format" (decide (s.Format ≠ [])) (.str s.Format)
      ++ optMember "mode" (decide (s.Mode.val ≠ [])) (.str s.Mode.val)) := by
  simp only [encodeSort, fieldString_eq, enumMember_eq, SortOrder.MarshalTree,
    SortMode.MarshalTree]

theorem fieldQuery_ok (key : String) (q : Option Query) (l : List (GoString × JSON))
    (h : fieldQuery key q = .ok l) : ∃ p v, l = optMember key p v := by
  unfold fieldQuery at h
  split at h
  · cases h
    exact ⟨false, .null, rfl⟩
  · split at h
    · cases h
      exact ⟨true, _, rfl⟩
    · cases h

theorem fieldArray_eq (key : String) (n : Nat) (js : List JSON) :
    fieldArray key n js = optMember key (decide (n ≠ 0)) (.arr js) := by
  by_cases h : n = 0 <;> simp [fieldArray, optMember, h]

theorem encodeSearch_ok (s : Search) (j : JSON) (h : encodeSearch s = .ok j) :
    ∃ v1 p2 v2 p3 v3, j = .obj (optMember "size" (decide (s.Size ≠ 0)) (.num (.int s.Size))
      ++ optMember "sort" (decide (s.Sort_.length ≠ 0)) v1
      ++ optMember "query" p2 v2 ++ optMember "_source" p3 v3) := by
  unfold encodeSearch at h
  cases h1 : encodeSortList s.Sort_ with
  | error e => simp [h1, bind, Except.bind] at h
  | ok l1 =>
    cases h2 : fieldQuery "query" s.Query with
    | error e => simp [h1, h2, bind, Except.bind] at h
    | ok l2 =>
      cases h3 : fieldAny "_source" s.Source with
      | error e => simp [h1, h2, h3, bind, Except.bind] at h
      | ok l3 =>
        obtain ⟨p2, v2, rfl⟩ := fieldQuery_ok _ _ _ h2
        obtain ⟨p3, v3, rfl⟩ := fieldAny_ok _ _ _ h3
        simp only [h1, h2, h3, bind, Except.bind, pure, Except.pure, Except.ok.injEq] at h
        refine ⟨.arr l1, p2, v2, p3, v3, ?_⟩
        rw [← h]
        simp only [fieldInt_eq, fieldArray_eq]

theorem zeroOmitted_of_lookup (members : List (GoString × JSON)) (key : String)
    (zero : Prop) [Decidable zero] (v : JSON)
    (h : lookupEntry (GoString.lit key) members = if zero then none else some v) :
    ZeroOmitted (.obj members) key zero v := by
  constructor
  · intro hz
    simp [JSON.get?, h, hz]
  · intro hz
    simp [JSON.get?, h, hz]

/-- C9 (amended). Zero omission for Term, Range, MatchAll, Match, Sort and
Search: in every document that `json.Marshal` produces for such a value, each
string, numeric or enumerated field other than `Term.Value` has no key when it
is at its zero value (empty string, `0`, `0.0`) and has its wire key with the
encoded value otherwise; `Term.Value` is always written under `value`, also
when it is empty.  A Term or MatchAll encodes whenever its boost is finite. -/
theorem zero_omission (t : Term) (r : Range) (ma : MatchAll) (m : Match) (s : SortSpec)
    (se : Search) :
    (∀ j, encodeTerm t = .ok j →
      j.get? (GoString.lit "value") = some (.str t.Value)
      ∧ ZeroOmitted j "boost" (t.Boost.isZero = true) (.num (numOfFloat t.Boost)))
    ∧ (t.Boost.isFinite = true → ∃ j, encodeTerm t = .ok j)
    ∧ (∀ j, encodeRange r = .ok j →
      ZeroOmitted j "boost" (r.Boost.isZero = true) (.num (numOfFloat r.Boost))
      ∧ ZeroOmitted j "format" (r.Format = []) (.str r.Format)
      ∧ ZeroOmitted j "relation" (r.Relation.val = []) r.Relation.MarshalTree
      ∧ ZeroOmitted j "time_zone" (r.TimeZone = []) (.str r.TimeZone))
    ∧ (∀ j, encodeMatchAll ma = .ok j →
      ZeroOmitted j "boost" (ma.Boost.isZero = true) (.num (numOfFloat ma.Boost)))
    ∧ (∀ j, encodeMatch m = .ok j →
      ZeroOmitted j "operator" (m.Operator.val = []) m.Operator.MarshalTree
      ∧ ZeroOmitted j "boost" (m.Boost.isZero = true) (.num (numOfFloat m.Boost))
      ∧ ZeroOmitted j "fuzzy_rewrite" (m.FuzzyRewrite = []) (.str m.FuzzyRewrite)
      ∧ ZeroOmitted j "max_expansions" (m.MaxExpansions = 0) (.num (.int m.MaxExpansions))
      ∧ ZeroOmitted j "zero_terms_query" (m.ZeroTermsQuery.val = [])
          m.ZeroTermsQuery.MarshalTree
      ∧ ZeroOmitted j "fuzziness" (m.Fuzziness = []) (.str m.Fuzziness)
      ∧ ZeroOmitted j "prefix_length" (m.PrefixLength = 0) (.num (.int m.PrefixLength))
      ∧ ZeroOmitted j "minimum_should_match" (m.MinimumShouldMatch = [])
          (.str m.MinimumShouldMatch))
    ∧ (ZeroOmitted (encodeSort s) "order" (s.Order.val = []) s.Order.MarshalTree
      ∧ ZeroOmitted (encodeSort s) "type" (s.Type_ = []) (.str s.Type_)
      ∧ ZeroOmitted (encodeSort s) "format" (s.Format = []) (.str s.Format)
      ∧ ZeroOmitted (encodeSort s) "mode" (s.Mode.val = []) s.Mode.MarshalTree)
    ∧ (∀ j, encodeSearch se = .ok j →
      ZeroOmitted j "size" (se.Size = 0) (.num (.int se.Size))) := by
  refine ⟨?_, encodeTerm_total t, ?_, ?_, ?_, ?_, ?_⟩
  · intro j hj
    rw [encodeTerm_ok t j hj]
    refine ⟨?_, zeroOmitted_of_lookup _ _ _ _ ?_⟩
    · simp +decide [JSON.get?, List.append_assoc, lookupEntry_optMember]
    · by_cases hz : t.Boost.isZero = true <;>
        simp +decide [List.append_assoc, lookupEntry_optMember, lookupEntry_optMember_last, hz]
  · intro j hj
    obtain ⟨p1, v1, p2, v2, p3, v3, p4, v4, rfl⟩ := encodeRange_ok r j hj
    refine ⟨zeroOmitted_of_lookup _ _ _ _ ?_, zeroOmitted_of_lookup _ _ _ _ ?_,
      zeroOmitted_of_lookup _ _ _ _ ?_, zeroOmitted_of_lookup _ _ _ _ ?_⟩
    · by_cases hz : r.Boost.isZero = true <;>
        simp +decide [List.append_assoc, lookupEntry_optMember, lookupEntry_optMember_last, hz]
    · by_cases hz : r.Format = [] <;>
        simp +decide [List.append_assoc, lookupEntry_optMember, lookupEntry_optMember_last, hz]
    · by_cases hz : r.Relation.val = [] <;>
        simp +decide [List.append_assoc, lookupEntry_optMember, lookupEntry_optMember_last, hz,
          RangeRelation.MarshalTree]
    · by_cases hz : r.TimeZone = [] <;>
        simp +decide [List.append_assoc, lookupEntry_optMember, lookupEntry_optMember_last, hz]
  · intro j hj
    rw [encodeMatchAll_ok ma j hj]
    refine zeroOmitted_of_lookup _ _ _ _ ?_
    by_cases hz : ma.Boost.isZero = true <;>
      simp +decide [lookupEntry_optMember_last, hz]
  · intro j hj
    obtain ⟨pq, vq, rfl⟩ := encodeMatch_ok m j hj
    refine ⟨zeroOmitted_of_lookup _ _ _ _ ?_, zeroOmitted_of_lookup _ _ _ _ ?_,
      zeroOmitted_of_lookup _ _ _ _ ?_, zeroOmitted_of_lookup _ _ _ _ ?_,
      zeroOmitted_of_lookup _ _ _ _ ?_, zeroOmitted_of_lookup _ _ _ _ ?_,
      zeroOmitted_of_lookup _ _ _ _ ?_, zeroOmitted_of_lookup _ _ _ _ ?_⟩
    · by_cases hz : m.Operator.val = [] <;>
        simp +decide [List.append_assoc, lookupEntry_optMember, lookupEntry_optMember_last,
          lookupEntry, hz,
          MatchOperator.MarshalTree]
    · by_cases hz : m.Boost.isZero = true <;>
        simp +decide [List.append_assoc, lookupEntry_optMember, lookupEntry_optMember_last,
          lookupEntry, hz]
    · by_cases hz : m.FuzzyRewrite = [] <;>
        simp +decide [List.append_assoc, lookupEntry_optMember, lookupEntry_optMember_last,
          lookupEntry, hz]
    · by_cases hz : m.MaxExpansions = 0 <;>
        simp +decide [List.append_assoc, lookupEntry_optMember, lookupEntry_optMember_last,
          lookupEntry, hz]
    · by_cases hz : m.ZeroTermsQuery.val = [] <;>
        simp +decide [List.append_assoc, lookupEntry_optMember, lookupEntry_optMember_last,
          lookupEntry, hz,
          ZeroTermsQuery.MarshalTree]
    · by_cases hz : m.Fuzziness = [] <;>
        simp +decide [List.append_assoc, lookupEntry_optMember, lookupEntry_optMember_last,
          lookupEntry, hz]
    · by_cases hz : m.PrefixLength = 0 <;>
        simp +decide [List.append_assoc, lookupEntry_optMember, lookupEntry_optMember_last,
          lookupEntry, hz]
    · by_cases hz : m.MinimumShouldMatch = [] <;>
        simp +decide [List.append_assoc, lookupEntry_optMember, lookupEntry_optMember_last,
          lookupEntry, hz]
  · rw [encodeSort_eq s]
    refine ⟨zeroOmitted_of_lookup _ _ _ _ ?_, zeroOmitted_of_lookup _ _ _ _ ?_,
      zeroOmitted_of_lookup _ _ _ _ ?_, zeroOmitted_of_lookup _ _ _ _ ?_⟩
    · by_cases hz : s.Order.val = [] <;>
        simp +decide [List.append_assoc, lookupEntry_optMember, lookupEntry_optMember_last, hz,
          SortOrder.MarshalTree]
    · by_cases hz : s.Type_ = [] <;>
        simp +decide [List.append_assoc, lookupEntry_optMember, lookupEntry_optMember_last, hz]
    · by_cases hz : s.Format = [] <;>
        simp +decide [List.append_assoc, lookupEntry_optMember, lookupEntry_optMember_last, hz]
    · by_cases hz : s.Mode.val = [] <;>
        simp +decide [List.append_assoc, lookupEntry_optMember, lookupEntry_optMember_last, hz,
          SortMode.MarshalTree]
  · intro j hj
    obtain ⟨v1, p2, v2, p3, v3, rfl⟩ := encodeSearch_ok se j hj
    refine zeroOmitted_of_lookup _ _ _ _ ?_
    by_cases hz : se.Size = 0 <;>
      simp +decide [List.append_assoc, lookupEntry_optMember, lookupEntry_optMember_last, hz]

/-- C9 at a concrete input: a Term with value `x` and boost `1.5`. -/
theorem zero_omission_witness :
    encodeTerm { Value := GoString.lit "x", Boost := .finite false 3 (-1), CaseSensitive := none }
      = .ok (.obj [(GoString.lit "value", .str (GoString.lit "x")),
          (GoString.lit "boost", .num (.float (.finite false 3 (-1))))])
    ∧ ZeroOmitted (.obj [(GoString.lit "value", .str (GoString.lit "x")),
          (GoString.lit "boost", .num (.float (.finite false 3 (-1))))]) "boost"
        ((Float64.finite false 3 (-1)).isZero = true)
        (.num (numOfFloat (.finite false 3 (-1)))) :=
  ⟨rfl, ((zero_omission
      { Value := GoString.lit "x", Boost := .finite false 3 (-1), CaseSensitive := none }
      Range.zero MatchAll.zero Match.zero SortSpec.zero Search.zero).1 _ rfl).2⟩

/-- C9 as stated fails: a Term built with no value set holds the empty string
in `Value`, and its encoding has the key `value` all the same. -/
theorem zero_omission_counterexample :
    (NewTerm []).Value = []
    ∧ encodeTerm (NewTerm []) = .ok (.obj [(GoString.lit "value", .str [])])
    ∧ (JSON.obj [(GoString.lit "value", .str [])]).hasKey (GoString.lit "value")
    ∧ (∀ floatText, (JSON.obj [(GoString.lit "value", .str [])]).render floatText
        = GoString.lit "\x7b\"value\":\"\"\x7d") :=
  ⟨rfl, rfl, by decide, fun _ => rfl⟩

/-- C10. Tri-state booleans.  A freshly built Term has `CaseSensitive` unset
and `SetCaseSensitivity(v)` sets it to `v`, the last call winning; in every
document that `json.Marshal` produces for a Term the key `case_sensitive` is
absent when the field is unset and present with the value `v` when it is set
to `v`, so an explicit `false` is written and differs from never set.  The same
holds for Match with `SetFuzzyTransposition` / `fuzzy_transpositions` and
`SetLenient` / `lenient`. -/
theorem tri_state_booleans (t : Term) (m : Match) (v v' : Bool) :
    (NewTerm []).CaseSensitive = none
    ∧ (t.SetCaseSensitivity v).CaseSensitive = some v
    ∧ ((t.SetCaseSensitivity v').SetCaseSensitivity v).CaseSensitive = some v
    ∧ (∀ j, encodeTerm t = .ok j →
        j.get? (GoString.lit "case_sensitive") = t.CaseSensitive.map JSON.bool)
    ∧ (∀ j, encodeTerm (t.SetCaseSensitivity v) = .ok j →
        j.get? (GoString.lit "case_sensitive") = some (.bool v))
    ∧ (NewMatch []).FuzzyTranspositions = none
    ∧ (m.SetFuzzyTransposition v).FuzzyTranspositions = some v
    ∧ ((m.SetFuzzyTransposition v').SetFuzzyTransposition v).FuzzyTranspositions = some v
    ∧ (∀ j, encodeMatch m = .ok j →
        j.get? (GoString.lit "fuzzy_transpositions") = m.FuzzyTranspositions.map JSON.bool)
    ∧ (∀ j, encodeMatch (m.SetFuzzyTransposition v) = .ok j →
        j.get? (GoString.lit "fuzzy_transpositions") = some (.bool v))
    ∧ (NewMatch []).Lenient = none
    ∧ (m.SetLenient v).Lenient = some v
    ∧ ((m.SetLenient v').SetLenient v).Lenient = some v
    ∧ (∀ j, encodeMatch m = .ok j →
        j.get? (GoString.lit "lenient") = m.Lenient.map JSON.bool)
    ∧ (∀ j, encodeMatch (m.SetLenient v) = .ok j →
        j.get? (GoString.lit "lenient") = some (.bool v)) := by
  have hT : ∀ (t : Term) (j : JSON), encodeTerm t = .ok j →
      j.get? (GoString.lit "case_sensitive") = t.CaseSensitive.map JSON.bool := by
    intro t j hj
    rw [encodeTerm_ok t j hj]
    cases hc : t.CaseSensitive <;>
      simp +decide [JSON.get?, List.append_assoc, lookupEntry_optMember,
        lookupEntry_optMember_last]
  have hF : ∀ (m : Match) (j : JSON), encodeMatch m = .ok j →
      j.get? (GoString.lit "fuzzy_transpositions") = m.FuzzyTranspositions.map JSON.bool := by
    intro m j hj
    obtain ⟨pq, vq, rfl⟩ := encodeMatch_ok m j hj
    cases hc : m.FuzzyTranspositions <;>
      simp +decide [JSON.get?, List.append_assoc, lookupEntry_optMember,
        lookupEntry_optMember_last, lookupEntry]
  have hL : ∀ (m : Match) (j : JSON), encodeMatch m = .ok j →
      j.get? (GoString.lit "lenient") = m.Lenient.map JSON.bool := by
    intro m j hj
    obtain ⟨pq, vq, rfl⟩ := encodeMatch_ok m j hj
    cases hc : m.Lenient <;>
      simp +decide [JSON.get?, List.append_assoc, lookupEntry_optMember,
        lookupEntry_optMember_last, lookupEntry]
  refine ⟨rfl, rfl, rfl, hT t, ?_, rfl, rfl, rfl, hF m, ?_, rfl, rfl, rfl, hL m, ?_⟩
  · intro j hj
    rw [hT _ j hj]
    rfl
  · intro j hj
    rw [hF _ j hj]
    rfl
  · intro j hj
    rw [hL _ j hj]
    rfl

/-- C10 at a concrete input: an explicit `false` is written, a Term never
configured has no `case_sensitive` key. -/
theorem tri_state_booleans_witness :
    encodeTerm (Term.zero.SetCaseSensitivity false)
      = .ok (.obj [(GoString.lit "value", .str []),
          (GoString.lit "case_sensitive", .bool false)])
    ∧ JSON.get? (.obj [(GoString.lit "value", .str []),
          (GoString.lit "case_sensitive", .bool false)]) (GoString.lit "case_sensitive")
        = some (.bool false)
    ∧ encodeTerm Term.zero = .ok (.obj [(GoString.lit "value", .str [])])
    ∧ JSON.get? (.obj [(GoString.lit "value", .str [])]) (GoString.lit "case_sensitive")
        = Term.zero.CaseSensitive.map JSON.bool :=
  ⟨rfl, (tri_state_booleans Term.zero Match.zero false true).2.2.2.2.1 _ rfl,
   rfl, (tri_state_booleans Term.zero Match.zero false true).2.2.2.1 _ rfl⟩

/-! ## C5: the round trip through the encoding -/

theorem tokenString_valid (s : GoString) (hs : validUTF8 s = true) : tokenString s = .ok s := by
  obtain ⟨t, ht, hv⟩ := unquoteLoop_appendStringLoop s.length s (le_refl _)
    (appendStringLoop s.length s).length (le_refl _)
  have happ : appendString s = 0x22 :: (appendStringLoop s.length s ++ [0x22]) := by
    simp [appendString]
  unfold tokenString
  rw [happ, unquoteBytes_quoted, ht, hv hs]

theorem decodeString_str (s old : GoString) (hs : validUTF8 s = true) :
    decodeString (.str s) old = .ok s := by
  simp [decodeString, tokenString_valid s hs]

theorem decodeEnum_str (s old : GoString) (hs : validUTF8 s = true) :
    decodeEnum (.str s) old = .ok s := by
  simp [decodeEnum, unmarshalInto_appendString s old hs]

theorem decodeInt_int (i old : Int) (hi : IsInt64 i) : decodeInt (.num (.int i)) old = .ok i := by
  unfold IsInt64 at hi
  unfold decodeInt
  simp only []
  rw [if_pos hi]

theorem toExactInt?_bound (f : Float64) (i : Int) (h : f.toExactInt? = some i) :
    i.natAbs ≤ 2 ^ 53 ∧ (f.isZero = false → i ≠ 0) := by
  cases f with
  | inf n => simp [Float64.toExactInt?] at h
  | nan => simp [Float64.toExactInt?] at h
  | finite neg mant exp =>
    unfold Float64.toExactInt? at h
    by_cases hm : mant = 0
    · subst hm
      cases neg
      · simp at h
        subst h
        simp [Float64.isZero]
      · simp at h
    · simp only [hm, if_false] at h
      have key : ∀ v : Nat, v ≠ 0 → (if v ≤ 2 ^ 53 then
          some (if neg = true then -(v : Int) else (v : Int)) else none) = some i →
          i.natAbs ≤ 2 ^ 53 ∧ (Float64.isZero (.finite neg mant exp) = false → i ≠ 0) := by
        intro v hv0 hv
        by_cases hle : v ≤ 2 ^ 53
        · rw [if_pos hle] at hv
          cases neg
          · simp at hv
            subst hv
            exact ⟨by simpa using hle, fun _ => by exact_mod_cast hv0⟩
          · simp at hv
            subst hv
            refine ⟨by simpa using hle, fun _ => ?_⟩
            simp only [ne_eq, neg_eq_zero]
            exact_mod_cast hv0
        · rw [if_neg hle] at hv
          cases hv
      by_cases he : 0 ≤ exp
      · simp only [he, if_true] at h
        exact key _ (Nat.mul_ne_zero hm (by positivity)) h
      · simp only [he, if_false] at h
        by_cases hd : mant % 2 ^ (-exp).toNat = 0
        · simp only [hd, if_true] at h
          refine key _ ?_ h
          have hpos : 0 < 2 ^ (-exp).toNat := by positivity
          have hdvd : 2 ^ (-exp).toNat ∣ mant := Nat.dvd_of_mod_eq_zero hd
          intro h0
          have := Nat.eq_mul_of_div_eq_right hdvd h0
          simp at this
          exact hm this
        · simp [hd] at h

theorem toExactInt?_ofInt (i : Int) (hi : i.natAbs ≤ 2 ^ 53) :
    (Float64.finite (decide (i < 0)) i.natAbs 0).toExactInt? = some i := by
  unfold Float64.toExactInt?
  by_cases h0 : i.natAbs = 0
  · have : i = 0 := Int.natAbs_eq_zero.1 h0
    subst this
    simp
  · simp only [h0, if_false, le_refl, if_true, Int.toNat_zero, pow_zero, mul_one, hi]
    by_cases hneg : i < 0
    · simp only [hneg, decide_True, if_true]
      congr 1
      omega
    · simp only [hneg, decide_False]
      congr 1
      simp
      omega

theorem ofInt?_small (i : Int) (hi : i.natAbs ≤ 2 ^ 53) :
    Float64.ofInt? i = some (.finite (decide (i < 0)) i.natAbs 0) := by
  unfold Float64.ofInt?
  simp only []
  rw [if_pos hi]

/-- A float64 field that is written reads back as a float64 that is written
with the same token. -/
theorem decodeFloat_numOfFloat (f old : Float64) (hz : f.isZero = false)
    (hf : f.isFinite = true) :
    ∃ g, decodeFloat (.num (numOfFloat f)) old = .ok g ∧ g.isZero = false
      ∧ g.isFinite = true ∧ numOfFloat g = numOfFloat f := by
  unfold numOfFloat
  cases h : f.toExactInt? with
  | none => exact ⟨f, rfl, hz, hf, by simp [numOfFloat, h]⟩
  | some i =>
    obtain ⟨hb, hne⟩ := toExactInt?_bound f i h
    refine ⟨.finite (decide (i < 0)) i.natAbs 0, ?_, ?_, rfl, ?_⟩
    · simp [decodeFloat, decodeNumber, ofInt?_small i hb]
    · simp [Float64.isZero, hne hz]
    · simp [numOfFloat, toExactInt?_ofInt i hb]

theorem insertEntry_append_max {V : Type} (k : GoString) (v : V) (acc : List (GoString × V))
    (h : ∀ e ∈ acc, e.1 < k) : insertEntry k v acc = acc ++ [(k, v)] := by
  induction acc with
  | nil => rfl
  | cons hd tl ih =>
    obtain ⟨k', v'⟩ := hd
    have hlt : k' < k := h (k', v') (List.mem_cons_self _ _)
    have h1 : ¬ k = k' := fun he => by rw [he] at hlt; exact lt_irrefl _ hlt
    have h2 : ¬ k < k' := fun hk => lt_asymm hk hlt
    simp only [insertEntry, h1, h2, if_false, List.cons_append]
    rw [ih (fun e he => h e (List.mem_cons_of_mem _ he))]

/-- A `Sort` held in an `any` reads back as a `map[string]any`, which encodes
as the `Sort` did when the keys of the `Sort` are in order. -/
theorem sort_as_map (s : SortSpec) (hw : s.WF) (ho : s.KeysInOrder) :
    ∃ m', decodeAny (encodeSort s) = .ok (.map m')
      ∧ encodeAny (.map m') = .ok (encodeSort s) := by
  obtain ⟨w1, w2, w3, w4⟩ := hw
  have k1 := tokenString_valid (GoString.lit "order") (by decide)
  have k2 := tokenString_valid (GoString.lit "type") (by decide)
  have k3 := tokenString_valid (GoString.lit "format") (by decide)
  have k4 := tokenString_valid (GoString.lit "mode") (by decide)
  have v1 := tokenString_valid _ w1
  have v2 := tokenString_valid _ w2
  have v3 := tokenString_valid _ w3
  have v4 := tokenString_valid _ w4
  rw [encodeSort_eq]
  by_cases h1 : s.Order.val = [] <;> by_cases h2 : s.Type_ = [] <;>
    by_cases h3 : s.Format = [] <;> by_cases h4 : s.Mode.val = [] <;>
    first
    | (exfalso; rcases ho with ⟨a, b⟩ | ⟨a, b⟩ <;> contradiction)
    | (simp +decide [optMember, h1, h2, h3, h4, decodeAny, decodeAnyMembers, k1, k2, k3, k4, v1,
        v2, v3, v4, insertEntry, encodeAny, encodeAnyEntries])

theorem render_obj_head (ft : Float64 → List Byte) (k : GoString) (v : JSON)
    (rest : List (GoString × JSON)) :
    ∃ tail, JSON.render ft (.obj ((k, v) :: rest)) = 0x7B :: (appendString k ++ tail) := by
  cases rest with
  | nil => exact ⟨[0x3A] ++ JSON.render ft v ++ [0x7D], by simp [JSON.render, JSON.renderMembers]⟩
  | cons m rest =>
    exact ⟨[0x3A] ++ JSON.render ft v ++ [0x2C] ++ JSON.renderMembers ft (m :: rest) ++ [0x7D],
      by simp [JSON.render, JSON.renderMembers]⟩

theorem render_obj_ne (ft : Float64 → List Byte) (k1 k2 : GoString) (v1 v2 : JSON)
    (r1 r2 : List (GoString × JSON))
    (h : (appendString k1).take 2 ≠ (appendString k2).take 2)
    (h1 : 2 ≤ (appendString k1).length) (h2 : 2 ≤ (appendString k2).length) :
    JSON.render ft (.obj ((k1, v1) :: r1)) ≠ JSON.render ft (.obj ((k2, v2) :: r2)) := by
  obtain ⟨t1, e1⟩ := render_obj_head ft k1 v1 r1
  obtain ⟨t2, e2⟩ := render_obj_head ft k2 v2 r2
  rw [e1, e2]
  intro he
  have := congrArg (List.take 2) (List.cons.inj he).2
  rw [List.take_append_of_le_length h1, List.take_append_of_le_length h2] at this
  exact h this

/-- A `Sort` whose keys are not in order reads back as a map that encodes to
other bytes. -/
theorem sort_out_of_order (s : SortSpec) (hw : s.WF) (ho : ¬ s.KeysInOrder) :
    ∃ m' j', decodeAny (encodeSort s) = .ok (.map m') ∧ encodeAny (.map m') = .ok j'
      ∧ ∀ ft, j'.render ft ≠ (encodeSort s).render ft := by
  obtain ⟨w1, w2, w3, w4⟩ := hw
  have k1 := tokenString_valid (GoString.lit "order") (by decide)
  have k2 := tokenString_valid (GoString.lit "type") (by decide)
  have k3 := tokenString_valid (GoString.lit "format") (by decide)
  have k4 := tokenString_valid (GoString.lit "mode") (by decide)
  have v1 := tokenString_valid _ w1
  have v2 := tokenString_valid _ w2
  have v3 := tokenString_valid _ w3
  have v4 := tokenString_valid _ w4
  rw [encodeSort_eq]
  by_cases h1 : s.Order.val = [] <;> by_cases h2 : s.Type_ = [] <;>
    by_cases h3 : s.Format = [] <;> by_cases h4 : s.Mode.val = [] <;>
    first
    | (exfalso; apply ho; first | exact Or.inl ⟨h1, h2⟩ | exact Or.inr ⟨h3, h4⟩)
    | (simp +decide only [optMember, h1, h2, h3, h4, decodeAny, decodeAnyMembers, k1, k2, k3, k4,
        v1, v2, v3, v4, insertEntry, encodeAny, encodeAnyEntries, ne_eq, not_true_eq_false,
        not_false_eq_true, if_true, if_false, List.nil_append,
        List.cons_append, List.append_nil, Except.ok.injEq, Any.map.injEq, exists_and_left,
        exists_eq_left', ite_true, ite_false, reduceIte]
       intro ft
       exact render_obj_ne ft _ _ _ _ _ _ (by decide) (by decide) (by decide))

mutual
theorem plain_roundtrip : ∀ (a : Any), a.Plain → ∀ j, encodeAny a = .ok j →
    ∃ a', decodeAny j = .ok a' ∧ encodeAny a' = .ok j ∧ (a ≠ .nil → a' ≠ .nil)
  | .nil, _, j, h => by
    simp only [encodeAny, Except.ok.injEq] at h
    subst h
    exact ⟨.nil, rfl, rfl, fun hn => absurd rfl hn⟩
  | .bool b, _, j, h => by
    simp only [encodeAny, Except.ok.injEq] at h
    subst h
    exact ⟨.bool b, rfl, rfl, fun _ => by simp⟩
  | .int i, hp, j, h => by
    simp only [encodeAny, Except.ok.injEq] at h
    subst h
    simp only [Any.Plain] at hp
    refine ⟨.float (.finite (decide (i < 0)) i.natAbs 0), ?_, ?_, fun _ => by simp⟩
    · simp [decodeAny, decodeNumber, ofInt?_small i hp]
    · simp [encodeAny, encodeFloat, Float64.isFinite, numOfFloat, toExactInt?_ofInt i hp]
  | .float f, _, j, h => by
    simp only [encodeAny, encodeFloat] at h
    by_cases hf : f.isFinite = true
    · simp only [hf, if_true, Except.ok.injEq] at h
      subst h
      cases ht : f.toExactInt? with
      | none =>
        refine ⟨.float f, ?_, ?_, fun _ => by simp⟩
        · simp [decodeAny, decodeNumber, numOfFloat, ht]
        · simp [encodeAny, encodeFloat, hf]
      | some i =>
        obtain ⟨hb, _⟩ := toExactInt?_bound f i ht
        refine ⟨.float (.finite (decide (i < 0)) i.natAbs 0), ?_, ?_, fun _ => by simp⟩
        · simp [decodeAny, decodeNumber, numOfFloat, ht, ofInt?_small i hb]
        · simp [encodeAny, encodeFloat, Float64.isFinite, numOfFloat, ht,
            toExactInt?_ofInt i hb]
    · simp [hf] at h
  | .str s, hp, j, h => by
    simp only [encodeAny, Except.ok.injEq] at h
    subst h
    simp only [Any.Plain] at hp
    exact ⟨.str s, by simp [decodeAny, tokenString_valid s hp], rfl, fun _ => by simp⟩
  | .slice l, hp, j, h => by
    simp only [encodeAny] at h
    simp only [Any.Plain] at hp
    cases hl : encodeAnyList l with
    | error e => simp [hl] at h
    | ok js =>
      simp only [hl, Except.ok.injEq] at h
      subst h
      obtain ⟨l', hd, he⟩ := plainList_roundtrip l hp js hl
      exact ⟨.slice l', by simp [decodeAny, hd], by simp [encodeAny, he], fun _ => by simp⟩
  | .map m, hp, j, h => by
    simp only [encodeAny] at h
    simp only [Any.Plain] at hp
    cases hl : encodeAnyEntries m with
    | error e => simp [hl] at h
    | ok ms =>
      simp only [hl, Except.ok.injEq] at h
      subst h
      obtain ⟨m', hd, he⟩ := plainEntries_roundtrip m hp.2 ms hl
      have := hd [] (fun e he => by simp at he) hp.1
      exact ⟨.map m', by simp [decodeAny, this], by simp [encodeAny, he], fun _ => by simp⟩
  | .sort s, hp, j, h => by
    simp only [encodeAny, Except.ok.injEq] at h
    subst h
    simp only [Any.Plain] at hp
    obtain ⟨m', hd, he⟩ := sort_as_map s hp.1 hp.2
    exact ⟨.map m', hd, he, fun _ => by simp⟩
theorem plainList_roundtrip : ∀ (l : List Any), Any.PlainList l → ∀ js,
    encodeAnyList l = .ok js → ∃ l', decodeAnyList js = .ok l' ∧ encodeAnyList l' = .ok js
  | [], _, js, h => by
    simp only [encodeAnyList, Except.ok.injEq] at h
    subst h
    exact ⟨[], rfl, rfl⟩
  | a :: rest, hp, js, h => by
    simp only [Any.PlainList] at hp
    simp only [encodeAnyList] at h
    cases ha : encodeAny a with
    | error e => simp [ha] at h
    | ok j =>
      cases hr : encodeAnyList rest with
      | error e => simp [ha, hr] at h
      | ok jr =>
        simp only [ha, hr, Except.ok.injEq] at h
        subst h
        obtain ⟨a', hd, he, _⟩ := plain_roundtrip a hp.1 j ha
        obtain ⟨l', hd', he'⟩ := plainList_roundtrip rest hp.2 jr hr
        exact ⟨a' :: l', by simp [decodeAnyList, hd, hd'], by simp [encodeAnyList, he, he']⟩
theorem plainEntries_roundtrip : ∀ (m : List (GoString × Any)), Any.PlainEntries m → ∀ ms,
    encodeAnyEntries m = .ok ms →
    ∃ m', (∀ acc, (∀ e ∈ acc, KeyBelow e.1 m) → KeysAscending m →
        decodeAnyMembers ms acc = .ok (acc ++ m'))
      ∧ encodeAnyEntries m' = .ok ms
  | [], _, ms, h => by
    simp only [encodeAnyEntries, Except.ok.injEq] at h
    subst h
    exact ⟨[], fun acc _ _ => by simp [decodeAnyMembers], rfl⟩
  | (k, a) :: rest, hp, ms, h => by
    simp only [Any.PlainEntries] at hp
    simp only [encodeAnyEntries] at h
    cases ha : encodeAny a with
    | error e => simp [ha] at h
    | ok j =>
      cases hr : encodeAnyEntries rest with
      | error e => simp [ha, hr] at h
      | ok jr =>
        simp only [ha, hr, Except.ok.injEq] at h
        subst h
        obtain ⟨a', hd, he, _⟩ := plain_roundtrip a hp.2.1 j ha
        obtain ⟨m', hd', he'⟩ := plainEntries_roundtrip rest hp.2.2 jr hr
        refine ⟨(k, a') :: m', ?_, by simp [encodeAnyEntries, he, he']⟩
        intro acc hacc hasc
        have hins : insertEntry k a' acc = acc ++ [(k, a')] :=
          insertEntry_append_max k a' acc
            (fun e he => hacc e he (k, a) (List.mem_cons_self _ _))
        simp only [decodeAnyMembers, tokenString_valid k hp.1, hd, hins]
        rw [hd' (acc ++ [(k, a')]) ?_ hasc.2]
        · simp
        · intro e he
          rcases List.mem_append.1 he with he | he
          · exact fun x hx => hacc e he x (List.mem_cons_of_mem _ hx)
          · simp only [List.mem_singleton] at he
            subst he
            exact hasc.1
end

theorem decodeMembers_append {T : Type} (step : T → GoString → JSON → Except UnmarshalError T)
    (a b : List (GoString × JSON)) (t : T) :
    decodeMembers step (a ++ b) t
      = match decodeMembers step a t with
        | .ok t' => decodeMembers step b t'
        | .error e => .error e := by
  induction a generalizing t with
  | nil => rfl
  | cons hd tl ih =>
    obtain ⟨k, v⟩ := hd
    simp only [List.cons_append, decodeMembers]
    cases step t k v with
    | error e => rfl
    | ok t' => exact ih t'

/-- Decoding the member of one optional field: the field is set to `y`, which
is what the member decodes to when it is present and what the field already
holds when it is absent. -/
theorem decodeMembers_field {T F : Type}
    (step : T → GoString → JSON → Except UnmarshalError T) (key : String)
    (get : T → F) (set : T → F → T) (dec : JSON → F → Except UnmarshalError F)
    (hstep : ∀ t v, step t (GoString.lit key) v = (dec v (get t)).map (set t))
    (p : Bool) (v : JSON) (y : F) (hdec : p = true → ∀ old, dec v old = .ok y)
    (t0 : T) (hzero : p = false → set t0 y = t0) (rest : List (GoString × JSON)) :
    decodeMembers step (optMember key p v ++ rest) t0 = decodeMembers step rest (set t0 y) := by
  cases p
  · rw [hzero rfl]
    rfl
  · simp only [optMember, if_true, List.cons_append, List.nil_append, decodeMembers, hstep,
      hdec rfl]
    rfl

/-- What a `float64` field tagged `omitempty` reads back as. -/
theorem fieldFloat_reread (key : String) (f : Float64) (l : List (GoString × JSON))
    (h : fieldFloat key f = .ok l) :
    ∃ y, l = optMember key (!f.isZero) (.num (numOfFloat f))
      ∧ ((!f.isZero) = true → ∀ old, decodeFloat (.num (numOfFloat f)) old = .ok y)
      ∧ ((!f.isZero) = false → y = Float64.zero)
      ∧ fieldFloat key y = .ok l := by
  have hl := fieldFloat_ok key f l h
  by_cases hz : f.isZero = true
  · refine ⟨Float64.zero, hl, by simp [hz], fun _ => rfl, ?_⟩
    rw [hl, hz]
    rfl
  · have hz' : f.isZero = false := by simpa using hz
    have hf : f.isFinite = true := by
      unfold fieldFloat encodeFloat at h
      by_cases hf : f.isFinite = true
      · exact hf
      · simp [hz', hf] at h
    obtain ⟨g, hg, hgz, hgf, hgn⟩ := decodeFloat_numOfFloat f Float64.zero hz' hf
    refine ⟨g, hl, fun _ old => ?_, by simp [hz'], ?_⟩
    · obtain ⟨g', hg', _, _, _⟩ := decodeFloat_numOfFloat f old hz' hf
      have : decodeFloat (.num (numOfFloat f)) old
          = decodeFloat (.num (numOfFloat f)) Float64.zero := rfl
      rw [this, hg]
    · rw [hl]
      simp [fieldFloat, encodeFloat, hgz, hgf, hgn, optMember, hz']

theorem encodeAny_null (a : Any) (h : encodeAny a = .ok .null) : a = .nil := by
  cases a with
  | nil => rfl
  | bool b => simp [encodeAny] at h
  | int i => simp [encodeAny] at h
  | float f =>
    simp only [encodeAny, encodeFloat] at h
    split at h <;> simp at h
  | str s => simp [encodeAny] at h
  | slice l =>
    simp only [encodeAny] at h
    split at h <;> simp at h
  | map m =>
    simp only [encodeAny] at h
    split at h <;> simp at h
  | sort s => simp [encodeAny, encodeSort] at h

/-- What a field of type `any` tagged `omitempty` reads back as. -/
theorem fieldAny_reread (key : String) (a : Any) (hp : a.Plain) (l : List (GoString × JSON))
    (h : fieldAny key a = .ok l) :
    ∃ p v y, l = optMember key p v
      ∧ (p = true → ∀ old, decodeAnyField v old = .ok y)
      ∧ (p = false → y = Any.nil)
      ∧ fieldAny key y = .ok l := by
  by_cases hn : a = .nil
  · subst hn
    simp only [fieldAny, Except.ok.injEq] at h
    subst h
    exact ⟨false, .null, .nil, rfl, by simp, fun _ => rfl, rfl⟩
  · cases he : encodeAny a with
    | error e =>
      cases a <;> simp [fieldAny, he] at h hn
    | ok j =>
      have hl : l = [(GoString.lit key, j)] := by
        cases a <;> simp [fieldAny, he] at h hn <;> exact h.symm
      obtain ⟨a', hd, he', hne⟩ := plain_roundtrip a hp j he
      refine ⟨true, j, a', by simp [hl, optMember], fun _ _ => hd, by simp, ?_⟩
      have hn' := hne hn
      rw [hl]
      cases a' <;> simp [fieldAny, he'] at hn' ⊢

theorem optMember_string (s : GoString) (hs : validUTF8 s = true) :
    (decide (s ≠ []) = true → ∀ old, decodeString (.str s) old = .ok s)
    ∧ (decide (s ≠ []) = false → s = []) := by
  refine ⟨fun _ old => decodeString_str s old hs, fun h => ?_⟩
  simpa using h

theorem optMember_enum (s : GoString) (hs : validUTF8 s = true) :
    (decide (s ≠ []) = true → ∀ old, decodeEnum (.str s) old = .ok s)
    ∧ (decide (s ≠ []) = false → s = []) := by
  refine ⟨fun _ old => decodeEnum_str s old hs, fun h => ?_⟩
  simpa using h

theorem optMember_int (i : Int) (hi : IsInt64 i) :
    (decide (i ≠ 0) = true → ∀ old, decodeInt (.num (.int i)) old = .ok i)
    ∧ (decide (i ≠ 0) = false → i = 0) := by
  refine ⟨fun _ old => decodeInt_int i old hi, fun h => ?_⟩
  simpa using h

theorem optMember_boolPtr (b : Option Bool) :
    (b.isSome = true → ∀ old, decodeBoolPtr (.bool (b.getD false)) old = .ok b)
    ∧ (b.isSome = false → b = none) := by
  cases b <;> simp [decodeBoolPtr]

theorem fieldIndex_lit (names : List String) (key : String) (i : Nat)
    (hv : validUTF8 (GoString.lit key) = true)
    (hm : matchField names (GoString.lit key) = some i) :
    fieldIndex names (GoString.lit key) = .ok (some i) := by
  simp [fieldIndex, tokenString_valid _ hv, hm]

theorem fieldIndex_Range_gt :
    fieldIndex ["gt", "gte", "lt", "lte", "boost", "format", "relation", "time_zone"] (GoString.lit "gt") = .ok (some 0) :=
  fieldIndex_lit _ _ _ (by decide) (by decide)

theorem fieldIndex_Range_gte :
    fieldIndex ["gt", "gte", "lt", "lte", "boost", "format", "relation", "time_zone"] (GoString.lit "gte") = .ok (some 1) :=
  fieldIndex_lit _ _ _ (by decide) (by decide)

theorem fieldIndex_Range_lt :
    fieldIndex ["gt", "gte", "lt", "lte", "boost", "format", "relation", "time_zone"] (GoString.lit "lt") = .ok (some 2) :=
  fieldIndex_lit _ _ _ (by decide) (by decide)

theorem fieldIndex_Range_lte :
    fieldIndex ["gt", "gte", "lt", "lte", "boost", "format", "relation", "time_zone"] (GoString.lit "lte") = .ok (some 3) :=
  fieldIndex_lit _ _ _ (by decide) (by decide)

theorem fieldIndex_Range_boost :
    fieldIndex ["gt", "gte", "lt", "lte", "boost", "format", "relation", "time_zone"] (GoString.lit "boost") = .ok (some 4) :=
  fieldIndex_lit _ _ _ (by decide) (by decide)

theorem fieldIndex_Range_format :
    fieldIndex ["gt", "gte", "lt", "lte", "boost", "format", "relation", "time_zone"] (GoString.lit "format") = .ok (some 5) :=
  fieldIndex_lit _ _ _ (by decide) (by decide)

theorem fieldIndex_Range_relation :
    fieldIndex ["gt", "gte", "lt", "lte", "boost", "format", "relation", "time_zone"] (GoString.lit "relation") = .ok (some 6) :=
  fieldIndex_lit _ _ _ (by decide) (by decide)

theorem fieldIndex_Range_time_zone :
    fieldIndex ["gt", "gte", "lt", "lte", "boost", "format", "relation", "time_zone"] (GoString.lit "time_zone") = .ok (some 7) :=
  fieldIndex_lit _ _ _ (by decide) (by decide)

theorem fieldIndex_Sort_order :
    fieldIndex ["order", "type", "format", "mode"] (GoString.lit "order") = .ok (some 0) :=
  fieldIndex_lit _ _ _ (by decide) (by decide)

theorem fieldIndex_Sort_type :
    fieldIndex ["order", "type", "format", "mode"] (GoString.lit "type") = .ok (some 1) :=
  fieldIndex_lit _ _ _ (by decide) (by decide)

theorem fieldIndex_Sort_format :
    fieldIndex ["order", "type", "format", "mode"] (GoString.lit "format") = .ok (some 2) :=
  fieldIndex_lit _ _ _ (by decide) (by decide)

theorem fieldIndex_Sort_mode :
    fieldIndex ["order", "type", "format", "mode"] (GoString.lit "mode") = .ok (some 3) :=
  fieldIndex_lit _ _ _ (by decide) (by decide)

theorem fieldIndex_MatchAll_boost :
    fieldIndex ["boost"] (GoString.lit "boost") = .ok (some 0) :=
  fieldIndex_lit _ _ _ (by decide) (by decide)

theorem matchAll_roundtrip (ma : MatchAll) (j : JSON) (h : encodeMatchAll ma = .ok j) :
    ∃ y, decodeMatchAll j MatchAll.zero = .ok y ∧ encodeMatchAll y = .ok j := by
  have hj := encodeMatchAll_ok ma j h
  unfold encodeMatchAll at h
  cases hb : fieldFloat "boost" ma.Boost with
  | error e => simp [hb, bind, Except.bind] at h
  | ok bl =>
    obtain ⟨yb, hbl, hbd, hbz, hbe⟩ := fieldFloat_reread _ _ _ hb
    refine ⟨{ Boost := yb }, ?_, ?_⟩
    · rw [hj]
      simp only [decodeMatchAll, decodeStruct]
      rw [← List.append_nil (optMember "boost" _ _),
        decodeMembers_field decodeMatchAllMember "boost" (·.Boost) (fun _ x => { Boost := x })
          decodeFloat (fun _ _ => by
                    simp only [decodeMatchAllMember, fieldIndex_MatchAll_boost]) _ _ yb hbd _ (fun hp => by rw [hbz hp]; rfl)]
      rfl
    · rw [hj]
      simp only [encodeMatchAll, hbe, hbl, bind, Except.bind, pure, Except.pure]

theorem matchNone_roundtrip (mn : MatchNone) :
    decodeMatchNone (encodeMatchNone mn) MatchNone.zero = .ok MatchNone.zero
      ∧ encodeMatchNone MatchNone.zero = encodeMatchNone mn :=
  ⟨rfl, rfl⟩

theorem sort_roundtrip (s : SortSpec) (hw : s.WF) :
    decodeSort (encodeSort s) SortSpec.zero = .ok s := by
  obtain ⟨h1, h2, h3, h4⟩ := hw
  rw [encodeSort_eq]
  simp only [decodeSort, decodeStruct, List.append_assoc]
  rw [decodeMembers_field decodeSortMember "order" (·.Order.val)
      (fun t x => { t with Order := ⟨x⟩ }) decodeEnum (fun _ _ => by
                    simp only [decodeSortMember, fieldIndex_Sort_order]) _ _ s.Order.val
      (optMember_enum _ h1).1 _ (fun hp => by rw [(optMember_enum _ h1).2 hp]; rfl),
    decodeMembers_field decodeSortMember "type" (·.Type_)
      (fun t x => { t with Type_ := x }) decodeString (fun _ _ => by
                    simp only [decodeSortMember, fieldIndex_Sort_type]) _ _ s.Type_
      (optMember_string _ h2).1 _ (fun hp => by rw [(optMember_string _ h2).2 hp]; rfl),
    decodeMembers_field decodeSortMember "format" (·.Format)
      (fun t x => { t with Format := x }) decodeString (fun _ _ => by
                    simp only [decodeSortMember, fieldIndex_Sort_format]) _ _ s.Format
      (optMember_string _ h3).1 _ (fun hp => by rw [(optMember_string _ h3).2 hp]; rfl),
    ← List.append_nil (optMember "mode" _ _),
    decodeMembers_field decodeSortMember "mode" (·.Mode.val)
      (fun t x => { t with Mode := ⟨x⟩ }) decodeEnum (fun _ _ => by
                    simp only [decodeSortMember, fieldIndex_Sort_mode]) _ _ s.Mode.val
      (optMember_enum _ h4).1 _ (fun hp => by rw [(optMember_enum _ h4).2 hp]; rfl)]
  rfl

theorem decodeRangeMember_gt {f0 : Any} {f1 : Any} {f2 : Any} {f3 : Any} {f4 : Float64} {f5 : GoString} {f6 : RangeRelation} {f7 : GoString}
    (p : Bool) (v : JSON) (y : Any)
    (hdec : p = true → ∀ old, decodeAnyField v old = .ok y) (hzero : p = false → y = f0)
    (rest : List (GoString × JSON)) :
    decodeMembers decodeRangeMember (optMember "gt" p v ++ rest) (Range.mk f0 f1 f2 f3 f4 f5 f6 f7)
      = decodeMembers decodeRangeMember rest (Range.mk y f1 f2 f3 f4 f5 f6 f7) :=
  decodeMembers_field decodeRangeMember "gt" (·.GT)
    (fun t x => { t with GT := x }) decodeAnyField
    (fun _ _ => by simp only [decodeRangeMember, fieldIndex_Range_gt])
    p v y hdec _ (fun hp => by rw [hzero hp]) rest

theorem decodeRangeMember_gte {f0 : Any} {f1 : Any} {f2 : Any} {f3 : Any} {f4 : Float64} {f5 : GoString} {f6 : RangeRelation} {f7 : GoString}
    (p : Bool) (v : JSON) (y : Any)
    (hdec : p = true → ∀ old, decodeAnyField v old = .ok y) (hzero : p = false → y = f1)
    (rest : List (GoString × JSON)) :
    decodeMembers decodeRangeMember (optMember "gte" p v ++ rest) (Range.mk f0 f1 f2 f3 f4 f5 f6 f7)
      = decodeMembers decodeRangeMember rest (Range.mk f0 y f2 f3 f4 f5 f6 f7) :=
  decodeMembers_field decodeRangeMember "gte" (·.GTE)
    (fun t x => { t with GTE := x }) decodeAnyField
    (fun _ _ => by simp only [decodeRangeMember, fieldIndex_Range_gte])
    p v y hdec _ (fun hp => by rw [hzero hp]) rest

theorem decodeRangeMember_lt {f0 : Any} {f1 : Any} {f2 : Any} {f3 : Any} {f4 : Float64} {f5 : GoString} {f6 : RangeRelation} {f7 : GoString}
    (p : Bool) (v : JSON) (y : Any)
    (hdec : p = true → ∀ old, decodeAnyField v old = .ok y) (hzero : p = false → y = f2)
    (rest : List (GoString × JSON)) :
    decodeMembers decodeRangeMember (optMember "lt" p v ++ rest) (Range.mk f0 f1 f2 f3 f4 f5 f6 f7)
      = decodeMembers decodeRangeMember rest (Range.mk f0 f1 y f3 f4 f5 f6 f7) :=
  decodeMembers_field decodeRangeMember "lt" (·.LT)
    (fun t x => { t with LT := x }) decodeAnyField
    (fun _ _ => by simp only [decodeRangeMember, fieldIndex_Range_lt])
    p v y hdec _ (fun hp => by rw [hzero hp]) rest

theorem decodeRangeMember_lte {f0 : Any} {f1 : Any} {f2 : Any} {f3 : Any} {f4 : Float64} {f5 : GoString} {f6 : RangeRelation} {f7 : GoString}
    (p : Bool) (v : JSON) (y : Any)
    (hdec : p = true → ∀ old, decodeAnyField v old = .ok y) (hzero : p = false → y = f3)
    (rest : List (GoString × JSON)) :
    decodeMembers decodeRangeMember (optMember "lte" p v ++ rest) (Range.mk f0 f1 f2 f3 f4 f5 f6 f7)
      = decodeMembers decodeRangeMember rest (Range.mk f0 f1 f2 y f4 f5 f6 f7) :=
  decodeMembers_field decodeRangeMember "lte" (·.LTE)
    (fun t x => { t with LTE := x }) decodeAnyField
    (fun _ _ => by simp only [decodeRangeMember, fieldIndex_Range_lte])
    p v y hdec _ (fun hp => by rw [hzero hp]) rest

theorem decodeRangeMember_boost {f0 : Any} {f1 : Any} {f2 : Any} {f3 : Any} {f4 : Float64} {f5 : GoString} {f6 : RangeRelation} {f7 : GoString}
    (p : Bool) (v : JSON) (y : Float64)
    (hdec : p = true → ∀ old, decodeFloat v old = .ok y) (hzero : p = false → y = f4)
    (rest : List (GoString × JSON)) :
    decodeMembers decodeRangeMember (optMember "boost" p v ++ rest) (Range.mk f0 f1 f2 f3 f4 f5 f6 f7)
      = decodeMembers decodeRangeMember rest (Range.mk f0 f1 f2 f3 y f5 f6 f7) :=
  decodeMembers_field decodeRangeMember "boost" (·.Boost)
    (fun t x => { t with Boost := x }) decodeFloat
    (fun _ _ => by simp only [decodeRangeMember, fieldIndex_Range_boost])
    p v y hdec _ (fun hp => by rw [hzero hp]) rest

theorem decodeRangeMember_format {f0 : Any} {f1 : Any} {f2 : Any} {f3 : Any} {f4 : Float64} {f5 : GoString} {f6 : RangeRelation} {f7 : GoString}
    (p : Bool) (v : JSON) (y : GoString)
    (hdec : p = true → ∀ old, decodeString v old = .ok y) (hzero : p = false → y = f5)
    (rest : List (GoString × JSON)) :
    decodeMembers decodeRangeMember (optMember "format" p v ++ rest) (Range.mk f0 f1 f2 f3 f4 f5 f6 f7)
      = decodeMembers decodeRangeMember rest (Range.mk f0 f1 f2 f3 f4 y f6 f7) :=
  decodeMembers_field decodeRangeMember "format" (·.Format)
    (fun t x => { t with Format := x }) decodeString
    (fun _ _ => by simp only [decodeRangeMember, fieldIndex_Range_format])
    p v y hdec _ (fun hp => by rw [hzero hp]) rest

theorem decodeRangeMember_relation {f0 : Any} {f1 : Any} {f2 : Any} {f3 : Any} {f4 : Float64} {f5 : GoString} {f6 : RangeRelation} {f7 : GoString}
    (p : Bool) (v : JSON) (y : GoString)
    (hdec : p = true → ∀ old, decodeEnum v old = .ok y) (hzero : p = false → y = f6.val)
    (rest : List (GoString × JSON)) :
    decodeMembers decodeRangeMember (optMember "relation" p v ++ rest) (Range.mk f0 f1 f2 f3 f4 f5 f6 f7)
      = decodeMembers decodeRangeMember rest (Range.mk f0 f1 f2 f3 f4 f5 (⟨y⟩) f7) :=
  decodeMembers_field decodeRangeMember "relation" (·.Relation.val)
    (fun t x => { t with Relation := ⟨x⟩ }) decodeEnum
    (fun _ _ => by simp only [decodeRangeMember, fieldIndex_Range_relation])
    p v y hdec _ (fun hp => by rw [hzero hp]) rest

theorem decodeRangeMember_time_zone {f0 : Any} {f1 : Any} {f2 : Any} {f3 : Any} {f4 : Float64} {f5 : GoString} {f6 : RangeRelation} {f7 : GoString}
    (p : Bool) (v : JSON) (y : GoString)
    (hdec : p = true → ∀ old, decodeString v old = .ok y) (hzero : p = false → y = f7)
    (rest : List (GoString × JSON)) :
    decodeMembers decodeRangeMember (optMember "time_zone" p v ++ rest) (Range.mk f0 f1 f2 f3 f4 f5 f6 f7)
      = decodeMembers decodeRangeMember rest (Range.mk f0 f1 f2 f3 f4 f5 f6 y) :=
  decodeMembers_field decodeRangeMember "time_zone" (·.TimeZone)
    (fun t x => { t with TimeZone := x }) decodeString
    (fun _ _ => by simp only [decodeRangeMember, fieldIndex_Range_time_zone])
    p v y hdec _ (fun hp => by rw [hzero hp]) rest

theorem range_roundtrip (r : Range) (hw : r.WF) (j : JSON) (h : encodeRange r = .ok j) :
    ∃ y, decodeRange j Range.zero = .ok y ∧ encodeRange y = .ok j := by
  obtain ⟨w1, w2, w3, w4, w5, w6, w7⟩ := hw
  unfold encodeRange at h
  cases h1 : fieldAny "gt" r.GT with
  | error e => simp [h1, bind, Except.bind] at h
  | ok l1 =>
    cases h2 : fieldAny "gte" r.GTE with
    | error e => simp [h1, h2, bind, Except.bind] at h
    | ok l2 =>
      cases h3 : fieldAny "lt" r.LT with
      | error e => simp [h1, h2, h3, bind, Except.bind] at h
      | ok l3 =>
        cases h4 : fieldAny "lte" r.LTE with
        | error e => simp [h1, h2, h3, h4, bind, Except.bind] at h
        | ok l4 =>
          cases hb : fieldFloat "boost" r.Boost with
          | error e => simp [h1, h2, h3, h4, hb, bind, Except.bind] at h
          | ok bl =>
            obtain ⟨p1, v1, y1, e1, d1, z1, r1⟩ := fieldAny_reread _ _ w1 _ h1
            obtain ⟨p2, v2, y2, e2, d2, z2, r2⟩ := fieldAny_reread _ _ w2 _ h2
            obtain ⟨p3, v3, y3, e3, d3, z3, r3⟩ := fieldAny_reread _ _ w3 _ h3
            obtain ⟨p4, v4, y4, e4, d4, z4, r4⟩ := fieldAny_reread _ _ w4 _ h4
            obtain ⟨yb, hbl, hbd, hbz, hbe⟩ := fieldFloat_reread _ _ _ hb
            simp only [h1, h2, h3, h4, hb, bind, Except.bind, pure, Except.pure,
              Except.ok.injEq] at h
            refine ⟨Range.mk y1 y2 y3 y4 yb r.Format r.Relation r.TimeZone, ?_, ?_⟩
            · rw [← h, e1, e2, e3, e4, hbl]
              simp only [decodeRange, decodeStruct, List.append_assoc, fieldString_eq,
                enumMember_eq, RangeRelation.MarshalTree, Range.zero]
              rw [decodeRangeMember_gt _ _ y1 d1 z1, decodeRangeMember_gte _ _ y2 d2 z2,
                decodeRangeMember_lt _ _ y3 d3 z3, decodeRangeMember_lte _ _ y4 d4 z4,
                decodeRangeMember_boost _ _ yb hbd hbz,
                decodeRangeMember_format _ _ _ (optMember_string _ w5).1
                  (optMember_string _ w5).2,
                decodeRangeMember_relation _ _ _ (optMember_enum _ w6).1
                  (optMember_enum _ w6).2,
                ← List.append_nil (optMember "time_zone" _ _),
                decodeRangeMember_time_zone _ _ _ (optMember_string _ w7).1
                  (optMember_string _ w7).2]
              rfl
            · rw [← h]
              simp only [encodeRange, r1, r2, r3, r4, hbe, bind, Except.bind, pure, Except.pure]

theorem term_roundtrip (t : Term) (hw : t.WF) (j : JSON) (h : encodeTerm t = .ok j) :
    ∃ y, decodeTerm j Term.zero = .ok y ∧ encodeTerm y = .ok j := by
  have hj := encodeTerm_ok t j h
  unfold encodeTerm at h
  cases hb : fieldFloat "boost" t.Boost with
  | error e => simp [hb, bind, Except.bind] at h
  | ok bl =>
    obtain ⟨yb, hbl, hbd, hbz, hbe⟩ := fieldFloat_reread _ _ _ hb
    obtain ⟨hcd, hcz⟩ := optMember_boolPtr t.CaseSensitive
    refine ⟨{ Value := t.Value, Boost := yb, CaseSensitive := t.CaseSensitive }, ?_, ?_⟩
    · rw [hj]
      simp only [decodeTerm, decodeStruct, List.append_assoc]
      rw [decodeMembers_field decodeTermMember "value" (·.Value) (fun t x => { t with Value := x })
          decodeString (fun _ _ => rfl) true _ t.Value
          (fun _ old => decodeString_str t.Value old hw) _ (by simp),
        decodeMembers_field decodeTermMember "boost" (·.Boost) (fun t x => { t with Boost := x })
          decodeFloat (fun _ _ => rfl) _ _ yb hbd _ (fun hp => by rw [hbz hp]; rfl),
        ← List.append_nil (optMember "case_sensitive" _ _),
        decodeMembers_field decodeTermMember "case_sensitive" (·.CaseSensitive)
          (fun t x => { t with CaseSensitive := x })
          decodeBoolPtr (fun _ _ => rfl) _ _ t.CaseSensitive hcd _
          (fun hp => by rw [hcz hp]; rfl)]
      rfl
    · rw [hj]
      simp only [encodeTerm, hbe, hbl, bind, Except.bind, pure, Except.pure, fieldBoolPtr_eq,
        optMember, if_true]

theorem fieldIndex_Match_query :
    fieldIndex ["query", "operator", "boost", "fuzzy_transpositions", "fuzzy_rewrite", "max_expansions", "lenient", "zero_terms_query", "fuzziness", "prefix_length", "minimum_should_match"]
      (GoString.lit "query") = .ok (some 0) :=
  fieldIndex_lit _ _ _ (by decide) (by decide)

theorem fieldIndex_Match_operator :
    fieldIndex ["query", "operator", "boost", "fuzzy_transpositions", "fuzzy_rewrite", "max_expansions", "lenient", "zero_terms_query", "fuzziness", "prefix_length", "minimum_should_match"]
      (GoString.lit "operator") = .ok (some 1) :=
  fieldIndex_lit _ _ _ (by decide) (by decide)

theorem fieldIndex_Match_boost :
    fieldIndex ["query", "operator", "boost", "fuzzy_transpositions", "fuzzy_rewrite", "max_expansions", "lenient", "zero_terms_query", "fuzziness", "prefix_length", "minimum_should_match"]
      (GoString.lit "boost") = .ok (some 2) :=
  fieldIndex_lit _ _ _ (by decide) (by decide)

theorem fieldIndex_Match_fuzzy_transpositions :
    fieldIndex ["query", "operator", "boost", "fuzzy_transpositions", "fuzzy_rewrite", "max_expansions", "lenient", "zero_terms_query", "fuzziness", "prefix_length", "minimum_should_match"]
      (GoString.lit "fuzzy_transpositions") = .ok (some 3) :=
  fieldIndex_lit _ _ _ (by decide) (by decide)

theorem fieldIndex_Match_fuzzy_rewrite :
    fieldIndex ["query", "operator", "boost", "fuzzy_transpositions", "fuzzy_rewrite", "max_expansions", "lenient", "zero_terms_query", "fuzziness", "prefix_length", "minimum_should_match"]
      (GoString.lit "fuzzy_rewrite") = .ok (some 4) :=
  fieldIndex_lit _ _ _ (by decide) (by decide)

theorem fieldIndex_Match_max_expansions :
    fieldIndex ["query", "operator", "boost", "fuzzy_transpositions", "fuzzy_rewrite", "max_expansions", "lenient", "zero_terms_query", "fuzziness", "prefix_length", "minimum_should_match"]
      (GoString.lit "max_expansions") = .ok (some 5) :=
  fieldIndex_lit _ _ _ (by decide) (by decide)

theorem fieldIndex_Match_lenient :
    fieldIndex ["query", "operator", "boost", "fuzzy_transpositions", "fuzzy_rewrite", "max_expansions", "lenient", "zero_terms_query", "fuzziness", "prefix_length", "minimum_should_match"]
      (GoString.lit "lenient") = .ok (some 6) :=
  fieldIndex_lit _ _ _ (by decide) (by decide)

theorem fieldIndex_Match_zero_terms_query :
    fieldIndex ["query", "operator", "boost", "fuzzy_transpositions", "fuzzy_rewrite", "max_expansions", "lenient", "zero_terms_query", "fuzziness", "prefix_length", "minimum_should_match"]
      (GoString.lit "zero_terms_query") = .ok (some 7) :=
  fieldIndex_lit _ _ _ (by decide) (by decide)

theorem fieldIndex_Match_fuzziness :
    fieldIndex ["query", "operator", "boost", "fuzzy_transpositions", "fuzzy_rewrite", "max_expansions", "lenient", "zero_terms_query", "fuzziness", "prefix_length", "minimum_should_match"]
      (GoString.lit "fuzziness") = .ok (some 8) :=
  fieldIndex_lit _ _ _ (by decide) (by decide)

theorem fieldIndex_Match_prefix_length :
    fieldIndex ["query", "operator", "boost", "fuzzy_transpositions", "fuzzy_rewrite", "max_expansions", "lenient", "zero_terms_query", "fuzziness", "prefix_length", "minimum_should_match"]
      (GoString.lit "prefix_length") = .ok (some 9) :=
  fieldIndex_lit _ _ _ (by decide) (by decide)

theorem fieldIndex_Match_minimum_should_match :
    fieldIndex ["query", "operator", "boost", "fuzzy_transpositions", "fuzzy_rewrite", "max_expansions", "lenient", "zero_terms_query", "fuzziness", "prefix_length", "minimum_should_match"]
      (GoString.lit "minimum_should_match") = .ok (some 10) :=
  fieldIndex_lit _ _ _ (by decide) (by decide)

theorem decodeMatchMember_query {f0 : Any} {f1 : MatchOperator} {f2 : Float64} {f3 : Option Bool} {f4 : GoString} {f5 : Int} {f6 : Option Bool} {f7 : ES.ZeroTermsQuery} {f8 : GoString} {f9 : Int} {f10 : GoString}
    (p : Bool) (v : JSON) (y : Any)
    (hdec : p = true → ∀ old, decodeAnyField v old = .ok y) (hzero : p = false → y = f0)
    (rest : List (GoString × JSON)) :
    decodeMembers decodeMatchMember (optMember "query" p v ++ rest) (Match.mk f0 f1 f2 f3 f4 f5 f6 f7 f8 f9 f10)
      = decodeMembers decodeMatchMember rest (Match.mk y f1 f2 f3 f4 f5 f6 f7 f8 f9 f10) :=
  decodeMembers_field decodeMatchMember "query" (·.Query)
    (fun t x => { t with Query := x }) decodeAnyField
    (fun _ _ => by simp only [decodeMatchMember, fieldIndex_Match_query])
    p v y hdec _ (fun hp => by rw [hzero hp]) rest

theorem decodeMatchMember_operator {f0 : Any} {f1 : MatchOperator} {f2 : Float64} {f3 : Option Bool} {f4 : GoString} {f5 : Int} {f6 : Option Bool} {f7 : ES.ZeroTermsQuery} {f8 : GoString} {f9 : Int} {f10 : GoString}
    (p : Bool) (v : JSON) (y : GoString)
    (hdec : p = true → ∀ old, decodeEnum v old = .ok y) (hzero : p = false → y = f1.val)
    (rest : List (GoString × JSON)) :
    decodeMembers decodeMatchMember (optMember "operator" p v ++ rest) (Match.mk f0 f1 f2 f3 f4 f5 f6 f7 f8 f9 f10)
      = decodeMembers decodeMatchMember rest (Match.mk f0 (⟨y⟩) f2 f3 f4 f5 f6 f7 f8 f9 f10) :=
  decodeMembers_field decodeMatchMember "operator" (·.Operator.val)
    (fun t x => { t with Operator := ⟨x⟩ }) decodeEnum
    (fun _ _ => by simp only [decodeMatchMember, fieldIndex_Match_operator])
    p v y hdec _ (fun hp => by rw [hzero hp]) rest

theorem decodeMatchMember_boost {f0 : Any} {f1 : MatchOperator} {f2 : Float64} {f3 : Option Bool} {f4 : GoString} {f5 : Int} {f6 : Option Bool} {f7 : ES.ZeroTermsQuery} {f8 : GoString} {f9 : Int} {f10 : GoString}
    (p : Bool) (v : JSON) (y : Float64)
    (hdec : p = true → ∀ old, decodeFloat v old = .ok y) (hzero : p = false → y = f2)
    (rest : List (GoString × JSON)) :
    decodeMembers decodeMatchMember (optMember "boost" p v ++ rest) (Match.mk f0 f1 f2 f3 f4 f5 f6 f7 f8 f9 f10)
      = decodeMembers decodeMatchMember rest (Match.mk f0 f1 y f3 f4 f5 f6 f7 f8 f9 f10) :=
  decodeMembers_field decodeMatchMember "boost" (·.Boost)
    (fun t x => { t with Boost := x }) decodeFloat
    (fun _ _ => by simp only [decodeMatchMember, fieldIndex_Match_boost])
    p v y hdec _ (fun hp => by rw [hzero hp]) rest

theorem decodeMatchMember_fuzzy_transpositions {f0 : Any} {f1 : MatchOperator} {f2 : Float64} {f3 : Option Bool} {f4 : GoString} {f5 : Int} {f6 : Option Bool} {f7 : ES.ZeroTermsQuery} {f8 : GoString} {f9 : Int} {f10 : GoString}
    (p : Bool) (v : JSON) (y : Option Bool)
    (hdec : p = true → ∀ old, decodeBoolPtr v old = .ok y) (hzero : p = false → y = f3)
    (rest : List (GoString × JSON)) :
    decodeMembers decodeMatchMember (optMember "fuzzy_transpositions" p v ++ rest) (Match.mk f0 f1 f2 f3 f4 f5 f6 f7 f8 f9 f10)
      = decodeMembers decodeMatchMember rest (Match.mk f0 f1 f2 y f4 f5 f6 f7 f8 f9 f10) :=
  decodeMembers_field decodeMatchMember "fuzzy_transpositions" (·.FuzzyTranspositions)
    (fun t x => { t with FuzzyTranspositions := x }) decodeBoolPtr
    (fun _ _ => by simp only [decodeMatchMember, fieldIndex_Match_fuzzy_transpositions])
    p v y hdec _ (fun hp => by rw [hzero hp]) rest

theorem decodeMatchMember_fuzzy_rewrite {f0 : Any} {f1 : MatchOperator} {f2 : Float64} {f3 : Option Bool} {f4 : GoString} {f5 : Int} {f6 : Option Bool} {f7 : ES.ZeroTermsQuery} {f8 : GoString} {f9 : Int} {f10 : GoString}
    (p : Bool) (v : JSON) (y : GoString)
    (hdec : p = true → ∀ old, decodeString v old = .ok y) (hzero : p = false → y = f4)
    (rest : List (GoString × JSON)) :
    decodeMembers decodeMatchMember (optMember "fuzzy_rewrite" p v ++ rest) (Match.mk f0 f1 f2 f3 f4 f5 f6 f7 f8 f9 f10)
      = decodeMembers decodeMatchMember rest (Match.mk f0 f1 f2 f3 y f5 f6 f7 f8 f9 f10) :=
  decodeMembers_field decodeMatchMember "fuzzy_rewrite" (·.FuzzyRewrite)
    (fun t x => { t with FuzzyRewrite := x }) decodeString
    (fun _ _ => by simp only [decodeMatchMember, fieldIndex_Match_fuzzy_rewrite])
    p v y hdec _ (fun hp => by rw [hzero hp]) rest

theorem decodeMatchMember_max_expansions {f0 : Any} {f1 : MatchOperator} {f2 : Float64} {f3 : Option Bool} {f4 : GoString} {f5 : Int} {f6 : Option Bool} {f7 : ES.ZeroTermsQuery} {f8 : GoString} {f9 : Int} {f10 : GoString}
    (p : Bool) (v : JSON) (y : Int)
    (hdec : p = true → ∀ old, decodeInt v old = .ok y) (hzero : p = false → y = f5)
    (rest : List (GoString × JSON)) :
    decodeMembers decodeMatchMember (optMember "max_expansions" p v ++ rest) (Match.mk f0 f1 f2 f3 f4 f5 f6 f7 f8 f9 f10)
      = decodeMembers decodeMatchMember rest (Match.mk f0 f1 f2 f3 f4 y f6 f7 f8 f9 f10) :=
  decodeMembers_field decodeMatchMember "max_expansions" (·.MaxExpansions)
    (fun t x => { t with MaxExpansions := x }) decodeInt
    (fun _ _ => by simp only [decodeMatchMember, fieldIndex_Match_max_expansions])
    p v y hdec _ (fun hp => by rw [hzero hp]) rest

theorem decodeMatchMember_lenient {f0 : Any} {f1 : MatchOperator} {f2 : Float64} {f3 : Option Bool} {f4 : GoString} {f5 : Int} {f6 : Option Bool} {f7 : ES.ZeroTermsQuery} {f8 : GoString} {f9 : Int} {f10 : GoString}
    (p : Bool) (v : JSON) (y : Option Bool)
    (hdec : p = true → ∀ old, decodeBoolPtr v old = .ok y) (hzero : p = false → y = f6)
    (rest : List (GoString × JSON)) :
    decodeMembers decodeMatchMember (optMember "lenient" p v ++ rest) (Match.mk f0 f1 f2 f3 f4 f5 f6 f7 f8 f9 f10)
      = decodeMembers decodeMatchMember rest (Match.mk f0 f1 f2 f3 f4 f5 y f7 f8 f9 f10) :=
  decodeMembers_field decodeMatchMember "lenient" (·.Lenient)
    (fun t x => { t with Lenient := x }) decodeBoolPtr
    (fun _ _ => by simp only [decodeMatchMember, fieldIndex_Match_lenient])
    p v y hdec _ (fun hp => by rw [hzero hp]) rest

theorem decodeMatchMember_zero_terms_query {f0 : Any} {f1 : MatchOperator} {f2 : Float64} {f3 : Option Bool} {f4 : GoString} {f5 : Int} {f6 : Option Bool} {f7 : ES.ZeroTermsQuery} {f8 : GoString} {f9 : Int} {f10 : GoString}
    (p : Bool) (v : JSON) (y : GoString)
    (hdec : p = true → ∀ old, decodeEnum v old = .ok y) (hzero : p = false → y = f7.val)
    (rest : List (GoString × JSON)) :
    decodeMembers decodeMatchMember (optMember "zero_terms_query" p v ++ rest) (Match.mk f0 f1 f2 f3 f4 f5 f6 f7 f8 f9 f10)
      = decodeMembers decodeMatchMember rest (Match.mk f0 f1 f2 f3 f4 f5 f6 (⟨y⟩) f8 f9 f10) :=
  decodeMembers_field decodeMatchMember "zero_terms_query" (·.ZeroTermsQuery.val)
    (fun t x => { t with ZeroTermsQuery := ⟨x⟩ }) decodeEnum
    (fun _ _ => by simp only [decodeMatchMember, fieldIndex_Match_zero_terms_query])
    p v y hdec _ (fun hp => by rw [hzero hp]) rest

theorem decodeMatchMember_fuzziness {f0 : Any} {f1 : MatchOperator} {f2 : Float64} {f3 : Option Bool} {f4 : GoString} {f5 : Int} {f6 : Option Bool} {f7 : ES.ZeroTermsQuery} {f8 : GoString} {f9 : Int} {f10 : GoString}
    (p : Bool) (v : JSON) (y : GoString)
    (hdec : p = true → ∀ old, decodeString v old = .ok y) (hzero : p = false → y = f8)
    (rest : List (GoString × JSON)) :
    decodeMembers decodeMatchMember (optMember "fuzziness" p v ++ rest) (Match.mk f0 f1 f2 f3 f4 f5 f6 f7 f8 f9 f10)
      = decodeMembers decodeMatchMember rest (Match.mk f0 f1 f2 f3 f4 f5 f6 f7 y f9 f10) :=
  decodeMembers_field decodeMatchMember "fuzziness" (·.Fuzziness)
    (fun t x => { t with Fuzziness := x }) decodeString
    (fun _ _ => by simp only [decodeMatchMember, fieldIndex_Match_fuzziness])
    p v y hdec _ (fun hp => by rw [hzero hp]) rest

theorem decodeMatchMember_prefix_length {f0 : Any} {f1 : MatchOperator} {f2 : Float64} {f3 : Option Bool} {f4 : GoString} {f5 : Int} {f6 : Option Bool} {f7 : ES.ZeroTermsQuery} {f8 : GoString} {f9 : Int} {f10 : GoString}
    (p : Bool) (v : JSON) (y : Int)
    (hdec : p = true → ∀ old, decodeInt v old = .ok y) (hzero : p = false → y = f9)
    (rest : List (GoString × JSON)) :
    decodeMembers decodeMatchMember (optMember "prefix_length" p v ++ rest) (Match.mk f0 f1 f2 f3 f4 f5 f6 f7 f8 f9 f10)
      = decodeMembers decodeMatchMember rest (Match.mk f0 f1 f2 f3 f4 f5 f6 f7 f8 y f10) :=
  decodeMembers_field decodeMatchMember "prefix_length" (·.PrefixLength)
    (fun t x => { t with PrefixLength := x }) decodeInt
    (fun _ _ => by simp only [decodeMatchMember, fieldIndex_Match_prefix_length])
    p v y hdec _ (fun hp => by rw [hzero hp]) rest

theorem decodeMatchMember_minimum_should_match {f0 : Any} {f1 : MatchOperator} {f2 : Float64} {f3 : Option Bool} {f4 : GoString} {f5 : Int} {f6 : Option Bool} {f7 : ES.ZeroTermsQuery} {f8 : GoString} {f9 : Int} {f10 : GoString}
    (p : Bool) (v : JSON) (y : GoString)
    (hdec : p = true → ∀ old, decodeString v old = .ok y) (hzero : p = false → y = f10)
    (rest : List (GoString × JSON)) :
    decodeMembers decodeMatchMember (optMember "minimum_should_match" p v ++ rest) (Match.mk f0 f1 f2 f3 f4 f5 f6 f7 f8 f9 f10)
      = decodeMembers decodeMatchMember rest (Match.mk f0 f1 f2 f3 f4 f5 f6 f7 f8 f9 y) :=
  decodeMembers_field decodeMatchMember "minimum_should_match" (·.MinimumShouldMatch)
    (fun t x => { t with MinimumShouldMatch := x }) decodeString
    (fun _ _ => by simp only [decodeMatchMember, fieldIndex_Match_minimum_should_match])
    p v y hdec _ (fun hp => by rw [hzero hp]) rest

theorem match_roundtrip (m : Match) (hw : m.WF) (j : JSON) (h : encodeMatch m = .ok j) :
    ∃ y, decodeMatch j Match.zero = .ok y ∧ encodeMatch y = .ok j := by
  obtain ⟨wq, w1, w4, w5, w7, w8, w9, w10⟩ := hw
  unfold encodeMatch at h
  cases hq : fieldAny "query" m.Query with
  | error e => simp [hq, bind, Except.bind] at h
  | ok ql =>
    cases hb : fieldFloat "boost" m.Boost with
    | error e => simp [hq, hb, bind, Except.bind] at h
    | ok bl =>
      obtain ⟨pq, vq, yq, eq, dq, zq, rq⟩ := fieldAny_reread _ _ wq _ hq
      obtain ⟨yb, hbl, hbd, hbz, hbe⟩ := fieldFloat_reread _ _ _ hb
      simp only [hq, hb, bind, Except.bind, pure, Except.pure, Except.ok.injEq] at h
      refine ⟨Match.mk yq m.Operator yb m.FuzzyTranspositions m.FuzzyRewrite m.MaxExpansions
        m.Lenient m.ZeroTermsQuery m.Fuzziness m.PrefixLength m.MinimumShouldMatch, ?_, ?_⟩
      · rw [← h, eq, hbl]
        simp only [decodeMatch, decodeStruct, List.append_assoc, fieldString_eq, fieldInt_eq,
          fieldBoolPtr_eq, enumMember_eq, MatchOperator.MarshalTree,
          ZeroTermsQuery.MarshalTree, Match.zero]
        rw [decodeMatchMember_query _ _ yq dq zq,
          decodeMatchMember_operator _ _ _ (optMember_enum _ w1).1 (optMember_enum _ w1).2,
          decodeMatchMember_boost _ _ yb hbd hbz,
          decodeMatchMember_fuzzy_transpositions _ _ _ (optMember_boolPtr _).1
            (optMember_boolPtr _).2,
          decodeMatchMember_fuzzy_rewrite _ _ _ (optMember_string _ w4).1
            (optMember_string _ w4).2,
          decodeMatchMember_max_expansions _ _ _ (optMember_int _ w5).1 (optMember_int _ w5).2,
          decodeMatchMember_lenient _ _ _ (optMember_boolPtr _).1 (optMember_boolPtr _).2,
          decodeMatchMember_zero_terms_query _ _ _ (optMember_enum _ w7).1
            (optMember_enum _ w7).2,
          decodeMatchMember_fuzziness _ _ _ (optMember_string _ w8).1 (optMember_string _ w8).2,
          decodeMatchMember_prefix_length _ _ _ (optMember_int _ w9).1 (optMember_int _ w9).2,
          ← List.append_nil (optMember "minimum_should_match" _ _),
          decodeMatchMember_minimum_should_match _ _ _ (optMember_string _ w10).1
            (optMember_string _ w10).2]
        rfl
      · rw [← h]
        simp only [encodeMatch, rq, hbe, bind, Except.bind, pure, Except.pure]

/-- The entries of a map read back from their encoding: the decoder appends
them, in order, to a map whose keys all come before. -/
theorem entries_roundtrip {V : Type} (enc : V → Except MarshalError JSON)
    (dec : JSON → V → Except UnmarshalError V) (zero : V) (P : V → Prop)
    (hrt : ∀ v, P v → ∀ j, enc v = .ok j → ∃ y, dec j zero = .ok y ∧ enc y = .ok j) :
    ∀ (l : List (GoString × V)), EntriesWF P l → ∀ ms, encodeEntries enc l = .ok ms →
      ∃ l', l'.length = l.length ∧ encodeEntries enc l' = .ok ms
        ∧ ∀ acc : GoMap V, (∀ e ∈ acc.entries, KeyBelow e.1 l) → KeysAscending l →
          ∃ m', decodeMapMembers dec zero ms acc = .ok m' ∧ m'.entries = acc.entries ++ l'
  | [], _, ms, h => by
    simp only [encodeEntries, Except.ok.injEq] at h
    subst h
    exact ⟨[], rfl, rfl, fun acc _ _ => ⟨acc, rfl, by simp⟩⟩
  | (k, a) :: rest, hp, ms, h => by
    simp only [EntriesWF] at hp
    simp only [encodeEntries] at h
    cases ha : enc a with
    | error e => simp [ha] at h
    | ok j =>
      cases hr : encodeEntries enc rest with
      | error e => simp [ha, hr] at h
      | ok jr =>
        simp only [ha, hr, Except.ok.injEq] at h
        subst h
        obtain ⟨a', hd, he⟩ := hrt a hp.2.1 j ha
        obtain ⟨l', hlen, he', hd'⟩ := entries_roundtrip enc dec zero P hrt rest hp.2.2 jr hr
        refine ⟨(k, a') :: l', by simp [hlen], by simp [encodeEntries, he, he'], ?_⟩
        intro acc hacc hasc
        have hins : insertEntry k a' acc.entries = acc.entries ++ [(k, a')] :=
          insertEntry_append_max k a' acc.entries
            (fun e he => hacc e he (k, a) (List.mem_cons_self _ _))
        obtain ⟨m', hm, hme⟩ := hd' (acc.set k a') (by
          intro e he
          simp only [GoMap.set, hins] at he
          rcases List.mem_append.1 he with he | he
          · exact fun x hx => hacc e he x (List.mem_cons_of_mem _ hx)
          · simp only [List.mem_singleton] at he
            subst he
            exact hasc.1) hasc.2
        refine ⟨m', ?_, ?_⟩
        · simp only [decodeMapMembers, tokenString_valid k hp.1, hd, hm]
        · rw [hme]
          simp only [GoMap.set, hins, List.append_assoc, List.singleton_append]

/-- What a map field tagged `omitempty` reads back as, into a nil map. -/
theorem fieldMap_reread {V : Type} (enc : V → Except MarshalError JSON)
    (dec : JSON → V → Except UnmarshalError V) (zero : V) (P : V → Prop)
    (hrt : ∀ v, P v → ∀ j, enc v = .ok j → ∃ y, dec j zero = .ok y ∧ enc y = .ok j)
    (key : String) (m : Option (GoMap V)) (hw : MapWF P m) (l : List (GoString × JSON))
    (h : fieldMap enc key m = .ok l) :
    ∃ p v y, l = optMember key p v
      ∧ (p = true → decodeMap dec zero v none = .ok y)
      ∧ (p = false → y = none)
      ∧ fieldMap enc key y = .ok l := by
  cases m with
  | none =>
    simp only [fieldMap, Except.ok.injEq] at h
    subst h
    exact ⟨false, .null, none, rfl, by simp, fun _ => rfl, rfl⟩
  | some m =>
    simp only [fieldMap] at h
    by_cases h0 : m.len = 0
    · simp only [h0, if_true, Except.ok.injEq] at h
      subst h
      exact ⟨false, .null, none, rfl, by simp, fun _ => rfl, rfl⟩
    · simp only [h0, if_false] at h
      cases he : encodeEntries enc m.entries with
      | error e => simp [he] at h
      | ok ms =>
        simp only [he, Except.ok.injEq] at h
        subst h
        obtain ⟨l', hlen, he', hd⟩ := entries_roundtrip enc dec zero P hrt m.entries hw ms he
        obtain ⟨m', hm, hme⟩ := hd GoMap.empty (fun e he => by simp [GoMap.empty] at he)
          m.ascending
        have hme' : m'.entries = l' := by simpa [GoMap.empty] using hme
        refine ⟨true, .obj ms, some m', rfl, fun _ => ?_, by simp, ?_⟩
        · simp only [decodeMap, allocated, hm]
        · have hl0 : ¬ m'.len = 0 := by
            simp only [GoMap.len, hme', hlen]
            exact h0
          simp only [fieldMap, hl0, if_false, hme', he']

theorem fieldMatchAll_reread (key : String) (ma : Option MatchAll)
    (l : List (GoString × JSON)) (h : fieldMatchAll key ma = .ok l) :
    ∃ p v y, l = optMember key p v
      ∧ (p = true → decodePtr decodeMatchAll MatchAll.zero v none = .ok y)
      ∧ (p = false → y = none)
      ∧ fieldMatchAll key y = .ok l := by
  cases ma with
  | none =>
    simp only [fieldMatchAll, Except.ok.injEq] at h
    subst h
    exact ⟨false, .null, none, rfl, by simp, fun _ => rfl, rfl⟩
  | some ma =>
    simp only [fieldMatchAll] at h
    cases he : encodeMatchAll ma with
    | error e => simp [he] at h
    | ok j =>
      simp only [he, Except.ok.injEq] at h
      subst h
      obtain ⟨y, hd, hy⟩ := matchAll_roundtrip ma j he
      have hj := encodeMatchAll_ok ma j he
      refine ⟨true, j, some y, rfl, fun _ => ?_, by simp, ?_⟩
      · obtain ⟨ms, hms⟩ : ∃ ms, j = .obj ms := ⟨_, hj⟩
        subst hms
        simp only [decodePtr, Option.getD, hd]
      · simp only [fieldMatchAll, hy]

theorem fieldMatchNone_reread (key : String) (mn : Option MatchNone) :
    ∃ p v y, fieldMatchNone key mn = optMember key p v
      ∧ (p = true → decodePtr decodeMatchNone MatchNone.zero v none = .ok y)
      ∧ (p = false → y = none)
      ∧ fieldMatchNone key y = fieldMatchNone key mn := by
  cases mn with
  | none => exact ⟨false, .null, none, rfl, by simp, fun _ => rfl, rfl⟩
  | some mn => exact ⟨true, encodeMatchNone mn, some MatchNone.zero, rfl, fun _ => rfl, by simp, rfl⟩

theorem fieldIndex_Query_match_all :
    fieldIndex ["match_all", "match_none", "bool", "term", "match"]
      (GoString.lit "match_all") = .ok (some 0) :=
  fieldIndex_lit _ _ _ (by decide) (by decide)

theorem fieldIndex_Query_match_none :
    fieldIndex ["match_all", "match_none", "bool", "term", "match"]
      (GoString.lit "match_none") = .ok (some 1) :=
  fieldIndex_lit _ _ _ (by decide) (by decide)

theorem fieldIndex_Query_bool :
    fieldIndex ["match_all", "match_none", "bool", "term", "match"]
      (GoString.lit "bool") = .ok (some 2) :=
  fieldIndex_lit _ _ _ (by decide) (by decide)

theorem fieldIndex_Query_term :
    fieldIndex ["match_all", "match_none", "bool", "term", "match"]
      (GoString.lit "term") = .ok (some 3) :=
  fieldIndex_lit _ _ _ (by decide) (by decide)

theorem fieldIndex_Query_match :
    fieldIndex ["match_all", "match_none", "bool", "term", "match"]
      (GoString.lit "match") = .ok (some 4) :=
  fieldIndex_lit _ _ _ (by decide) (by decide)

theorem fieldIndex_Bool_must :
    fieldIndex ["must", "must_not", "should", "filter"]
      (GoString.lit "must") = .ok (some 0) :=
  fieldIndex_lit _ _ _ (by decide) (by decide)

theorem fieldIndex_Bool_must_not :
    fieldIndex ["must", "must_not", "should", "filter"]
      (GoString.lit "must_not") = .ok (some 1) :=
  fieldIndex_lit _ _ _ (by decide) (by decide)

theorem fieldIndex_Bool_should :
    fieldIndex ["must", "must_not", "should", "filter"]
      (GoString.lit "should") = .ok (some 2) :=
  fieldIndex_lit _ _ _ (by decide) (by decide)

theorem fieldIndex_Bool_filter :
    fieldIndex ["must", "must_not", "should", "filter"]
      (GoString.lit "filter") = .ok (some 3) :=
  fieldIndex_lit _ _ _ (by decide) (by decide)

theorem fieldIndex_Search_size :
    fieldIndex ["size", "sort", "query", "_source"]
      (GoString.lit "size") = .ok (some 0) :=
  fieldIndex_lit _ _ _ (by decide) (by decide)

theorem fieldIndex_Search_sort :
    fieldIndex ["size", "sort", "query", "_source"]
      (GoString.lit "sort") = .ok (some 1) :=
  fieldIndex_lit _ _ _ (by decide) (by decide)

theorem fieldIndex_Search_query :
    fieldIndex ["size", "sort", "query", "_source"]
      (GoString.lit "query") = .ok (some 2) :=
  fieldIndex_lit _ _ _ (by decide) (by decide)

theorem fieldIndex_Search__source :
    fieldIndex ["size", "sort", "query", "_source"]
      (GoString.lit "_source") = .ok (some 3) :=
  fieldIndex_lit _ _ _ (by decide) (by decide)

theorem decodeQueryMembers_match_all {f0 : Option MatchAll} {f1 : Option MatchNone} {f2 : Option BoolQuery} {f3 : Option (GoMap Term)} {f4 : Option (GoMap Match)}
    (p : Bool) (v : JSON) (y : Option MatchAll)
    (hdec : p = true → decodePtr decodeMatchAll MatchAll.zero v f0 = .ok y) (hzero : p = false → y = f0)
    (rest : List (GoString × JSON)) :
    decodeQueryMembers (optMember "match_all" p v ++ rest) (.mk f0 f1 f2 f3 f4)
      = decodeQueryMembers rest (.mk y f1 f2 f3 f4) := by
  cases p
  · rw [hzero rfl]
    rfl
  · simp only [optMember, if_true, List.cons_append, List.nil_append, decodeQueryMembers,
      fieldIndex_Query_match_all, Query.MatchAll, Query.MatchNone, Query.Bool, Query.Term, Query.Match,
      Query.SetMatchAll, Query.SetMatchNone, Query.SetBool, hdec rfl]
    rfl

theorem decodeQueryMembers_match_none {f0 : Option MatchAll} {f1 : Option MatchNone} {f2 : Option BoolQuery} {f3 : Option (GoMap Term)} {f4 : Option (GoMap Match)}
    (p : Bool) (v : JSON) (y : Option MatchNone)
    (hdec : p = true → decodePtr decodeMatchNone MatchNone.zero v f1 = .ok y) (hzero : p = false → y = f1)
    (rest : List (GoString × JSON)) :
    decodeQueryMembers (optMember "match_none" p v ++ rest) (.mk f0 f1 f2 f3 f4)
      = decodeQueryMembers rest (.mk f0 y f2 f3 f4) := by
  cases p
  · rw [hzero rfl]
    rfl
  · simp only [optMember, if_true, List.cons_append, List.nil_append, decodeQueryMembers,
      fieldIndex_Query_match_none, Query.MatchAll, Query.MatchNone, Query.Bool, Query.Term, Query.Match,
      Query.SetMatchAll, Query.SetMatchNone, Query.SetBool, hdec rfl]
    rfl

theorem decodeQueryMembers_bool {f0 : Option MatchAll} {f1 : Option MatchNone} {f2 : Option BoolQuery} {f3 : Option (GoMap Term)} {f4 : Option (GoMap Match)}
    (p : Bool) (v : JSON) (y : Option BoolQuery)
    (hdec : p = true → decodeBoolPtrQuery v f2 = .ok y) (hzero : p = false → y = f2)
    (rest : List (GoString × JSON)) :
    decodeQueryMembers (optMember "bool" p v ++ rest) (.mk f0 f1 f2 f3 f4)
      = decodeQueryMembers rest (.mk f0 f1 y f3 f4) := by
  cases p
  · rw [hzero rfl]
    rfl
  · simp only [optMember, if_true, List.cons_append, List.nil_append, decodeQueryMembers,
      fieldIndex_Query_bool, Query.MatchAll, Query.MatchNone, Query.Bool, Query.Term, Query.Match,
      Query.SetMatchAll, Query.SetMatchNone, Query.SetBool, hdec rfl]
    rfl

theorem decodeQueryMembers_term {f0 : Option MatchAll} {f1 : Option MatchNone} {f2 : Option BoolQuery} {f3 : Option (GoMap Term)} {f4 : Option (GoMap Match)}
    (p : Bool) (v : JSON) (y : Option (GoMap Term))
    (hdec : p = true → decodeMap decodeTerm Term.zero v f3 = .ok y) (hzero : p = false → y = f3)
    (rest : List (GoString × JSON)) :
    decodeQueryMembers (optMember "term" p v ++ rest) (.mk f0 f1 f2 f3 f4)
      = decodeQueryMembers rest (.mk f0 f1 f2 y f4) := by
  cases p
  · rw [hzero rfl]
    rfl
  · simp only [optMember, if_true, List.cons_append, List.nil_append, decodeQueryMembers,
      fieldIndex_Query_term, Query.MatchAll, Query.MatchNone, Query.Bool, Query.Term, Query.Match,
      Query.SetMatchAll, Query.SetMatchNone, Query.SetBool, hdec rfl]
    rfl

theorem decodeQueryMembers_match {f0 : Option MatchAll} {f1 : Option MatchNone} {f2 : Option BoolQuery} {f3 : Option (GoMap Term)} {f4 : Option (GoMap Match)}
    (p : Bool) (v : JSON) (y : Option (GoMap Match))
    (hdec : p = true → decodeMap decodeMatch Match.zero v f4 = .ok y) (hzero : p = false → y = f4)
    (rest : List (GoString × JSON)) :
    decodeQueryMembers (optMember "match" p v ++ rest) (.mk f0 f1 f2 f3 f4)
      = decodeQueryMembers rest (.mk f0 f1 f2 f3 y) := by
  cases p
  · rw [hzero rfl]
    rfl
  · simp only [optMember, if_true, List.cons_append, List.nil_append, decodeQueryMembers,
      fieldIndex_Query_match, Query.MatchAll, Query.MatchNone, Query.Bool, Query.Term, Query.Match,
      Query.SetMatchAll, Query.SetMatchNone, Query.SetBool, hdec rfl]
    rfl

theorem decodeBoolMembers_must {f0 : List (Option Query)} {f1 : List (Option Query)} {f2 : List (Option Query)} {f3 : Option Query}
    (p : Bool) (v : JSON) (y : List (Option Query))
    (hdec : p = true → decodeQuerySlice v f0 = .ok y) (hzero : p = false → y = f0)
    (rest : List (GoString × JSON)) :
    decodeBoolMembers (optMember "must" p v ++ rest) (.mk f0 f1 f2 f3)
      = decodeBoolMembers rest (.mk y f1 f2 f3) := by
  cases p
  · rw [hzero rfl]
    rfl
  · simp only [optMember, if_true, List.cons_append, List.nil_append, decodeBoolMembers,
      fieldIndex_Bool_must, BoolQuery.Must, BoolQuery.MustNot, BoolQuery.Should, BoolQuery.Filter,
      BoolQuery.SetFilter, hdec rfl]
    rfl

theorem decodeBoolMembers_must_not {f0 : List (Option Query)} {f1 : List (Option Query)} {f2 : List (Option Query)} {f3 : Option Query}
    (p : Bool) (v : JSON) (y : List (Option Query))
    (hdec : p = true → decodeQuerySlice v f1 = .ok y) (hzero : p = false → y = f1)
    (rest : List (GoString × JSON)) :
    decodeBoolMembers (optMember "must_not" p v ++ rest) (.mk f0 f1 f2 f3)
      = decodeBoolMembers rest (.mk f0 y f2 f3) := by
  cases p
  · rw [hzero rfl]
    rfl
  · simp only [optMember, if_true, List.cons_append, List.nil_append, decodeBoolMembers,
      fieldIndex_Bool_must_not, BoolQuery.Must, BoolQuery.MustNot, BoolQuery.Should, BoolQuery.Filter,
      BoolQuery.SetFilter, hdec rfl]
    rfl

theorem decodeBoolMembers_should {f0 : List (Option Query)} {f1 : List (Option Query)} {f2 : List (Option Query)} {f3 : Option Query}
    (p : Bool) (v : JSON) (y : List (Option Query))
    (hdec : p = true → decodeQuerySlice v f2 = .ok y) (hzero : p = false → y = f2)
    (rest : List (GoString × JSON)) :
    decodeBoolMembers (optMember "should" p v ++ rest) (.mk f0 f1 f2 f3)
      = decodeBoolMembers rest (.mk f0 f1 y f3) := by
  cases p
  · rw [hzero rfl]
    rfl
  · simp only [optMember, if_true, List.cons_append, List.nil_append, decodeBoolMembers,
      fieldIndex_Bool_should, BoolQuery.Must, BoolQuery.MustNot, BoolQuery.Should, BoolQuery.Filter,
      BoolQuery.SetFilter, hdec rfl]
    rfl

theorem decodeBoolMembers_filter {f0 : List (Option Query)} {f1 : List (Option Query)} {f2 : List (Option Query)} {f3 : Option Query}
    (p : Bool) (v : JSON) (y : Option Query)
    (hdec : p = true → decodeQueryPtr v f3 = .ok y) (hzero : p = false → y = f3)
    (rest : List (GoString × JSON)) :
    decodeBoolMembers (optMember "filter" p v ++ rest) (.mk f0 f1 f2 f3)
      = decodeBoolMembers rest (.mk f0 f1 f2 y) := by
  cases p
  · rw [hzero rfl]
    rfl
  · simp only [optMember, if_true, List.cons_append, List.nil_append, decodeBoolMembers,
      fieldIndex_Bool_filter, BoolQuery.Must, BoolQuery.MustNot, BoolQuery.Should, BoolQuery.Filter,
      BoolQuery.SetFilter, hdec rfl]
    rfl

theorem length_zero_of_decide {α : Type} (l l' : List α) (hn : l'.length = l.length)
    (h : decide (l.length ≠ 0) = false) : l' = [] := by
  have h0 : l.length = 0 := by simpa using h
  exact List.length_eq_zero.1 (hn.trans h0)

mutual
theorem query_roundtrip : ∀ (q : Query), q.WF → ∀ j, encodeQuery q = .ok j →
    ∃ ms q', j = .obj ms ∧ decodeQueryMembers ms Query.zero = .ok q' ∧ encodeQuery q' = .ok j
  | .mk ma mn b t m, hw, j, h => by
    simp only [Query.WF] at hw
    obtain ⟨wb, wt, wm⟩ := hw
    simp only [encodeQuery] at h
    cases h1 : fieldMatchAll "match_all" ma with
    | error e => simp [h1] at h
    | ok l1 =>
      cases h3 : encodeBoolPtr b with
      | error e => simp [h1, h3] at h
      | ok l3 =>
        cases h4 : fieldMap encodeTerm "term" t with
        | error e => simp [h1, h3, h4] at h
        | ok l4 =>
          cases h5 : fieldMap encodeMatch "match" m with
          | error e => simp [h1, h3, h4, h5] at h
          | ok l5 =>
            simp only [h1, h3, h4, h5, Except.ok.injEq] at h
            obtain ⟨p1, v1, y1, e1, d1, z1, r1⟩ := fieldMatchAll_reread _ _ _ h1
            obtain ⟨p2, v2, y2, e2, d2, z2, r2⟩ := fieldMatchNone_reread "match_none" mn
            obtain ⟨p3, v3, y3, e3, d3, z3, r3⟩ := boolPtr_roundtrip b wb l3 h3
            obtain ⟨p4, v4, y4, e4, d4, z4, r4⟩ := fieldMap_reread encodeTerm decodeTerm
              Term.zero Term.WF term_roundtrip "term" t wt l4 h4
            obtain ⟨p5, v5, y5, e5, d5, z5, r5⟩ := fieldMap_reread encodeMatch decodeMatch
              Match.zero Match.WF match_roundtrip "match" m wm l5 h5
            refine ⟨_, .mk y1 y2 y3 y4 y5, h.symm, ?_, ?_⟩
            · rw [e1, e2, e3, e4, e5]
              simp only [List.append_assoc, Query.zero]
              rw [decodeQueryMembers_match_all _ _ y1 d1 z1,
                decodeQueryMembers_match_none _ _ y2 d2 z2,
                decodeQueryMembers_bool _ _ y3 d3 z3,
                decodeQueryMembers_term _ _ y4 d4 z4,
                ← List.append_nil (optMember "match" _ _),
                decodeQueryMembers_match _ _ y5 d5 z5]
              rfl
            · rw [← h]
              simp only [encodeQuery, r1, r2, r3, r4, r5]
theorem boolPtr_roundtrip : ∀ (b : Option BoolQuery), BoolQuery.WFOpt b → ∀ l,
    encodeBoolPtr b = .ok l →
    ∃ p v y, l = optMember "bool" p v
      ∧ (p = true → decodeBoolPtrQuery v none = .ok y)
      ∧ (p = false → y = none)
      ∧ encodeBoolPtr y = .ok l
  | none, _, l, h => by
    simp only [encodeBoolPtr, Except.ok.injEq] at h
    subst h
    exact ⟨false, .null, none, rfl, by simp, fun _ => rfl, rfl⟩
  | some b, hw, l, h => by
    simp only [BoolQuery.WFOpt] at hw
    simp only [encodeBoolPtr] at h
    cases he : encodeBool b with
    | error e => simp [he] at h
    | ok j =>
      simp only [he, Except.ok.injEq] at h
      subst h
      obtain ⟨ms, b', hj, hd, hy⟩ := bool_roundtrip b hw j he
      subst hj
      refine ⟨true, .obj ms, some b', rfl, fun _ => ?_, by simp, ?_⟩
      · simp only [decodeBoolPtrQuery, Option.getD, hd]
      · simp only [encodeBoolPtr, hy]
theorem bool_roundtrip : ∀ (b : BoolQuery), b.WF → ∀ j, encodeBool b = .ok j →
    ∃ ms b', j = .obj ms ∧ decodeBoolMembers ms BoolQuery.zero = .ok b'
      ∧ encodeBool b' = .ok j
  | .mk must mustNot should filter, hw, j, h => by
    simp only [BoolQuery.WF] at hw
    obtain ⟨w1, w2, w3, w4⟩ := hw
    simp only [encodeBool] at h
    cases h1 : encodeQueryList must with
    | error e => simp [h1] at h
    | ok l1 =>
      cases h2 : encodeQueryList mustNot with
      | error e => simp [h1, h2] at h
      | ok l2 =>
        cases h3 : encodeQueryList should with
        | error e => simp [h1, h2, h3] at h
        | ok l3 =>
          cases h4 : encodeFilter filter with
          | error e => simp [h1, h2, h3, h4] at h
          | ok l4 =>
            simp only [h1, h2, h3, h4, Except.ok.injEq] at h
            obtain ⟨y1, n1, d1, r1⟩ := queryList_roundtrip must w1 l1 h1
            obtain ⟨y2, n2, d2, r2⟩ := queryList_roundtrip mustNot w2 l2 h2
            obtain ⟨y3, n3, d3, r3⟩ := queryList_roundtrip should w3 l3 h3
            obtain ⟨p4, v4, y4, e4, d4, z4, r4⟩ := filter_roundtrip filter w4 l4 h4
            refine ⟨_, .mk y1 y2 y3 y4, h.symm, ?_, ?_⟩
            · rw [e4]
              simp only [List.append_assoc, BoolQuery.zero, fieldArray_eq]
              rw [decodeBoolMembers_must _ _ y1 (fun _ => d1)
                  (length_zero_of_decide must y1 n1),
                decodeBoolMembers_must_not _ _ y2 (fun _ => d2)
                  (length_zero_of_decide mustNot y2 n2),
                decodeBoolMembers_should _ _ y3 (fun _ => d3)
                  (length_zero_of_decide should y3 n3),
                ← List.append_nil (optMember "filter" _ _),
                decodeBoolMembers_filter _ _ y4 d4 z4]
              rfl
            · rw [← h]
              simp only [encodeBool, r1, r2, r3, r4, n1, n2, n3]
theorem filter_roundtrip : ∀ (q : Option Query), Query.WFOpt q → ∀ l,
    encodeFilter q = .ok l →
    ∃ p v y, l = optMember "filter" p v
      ∧ (p = true → decodeQueryPtr v none = .ok y)
      ∧ (p = false → y = none)
      ∧ encodeFilter y = .ok l
  | none, _, l, h => by
    simp only [encodeFilter, Except.ok.injEq] at h
    subst h
    exact ⟨false, .null, none, rfl, by simp, fun _ => rfl, rfl⟩
  | some q, hw, l, h => by
    simp only [Query.WFOpt] at hw
    simp only [encodeFilter] at h
    cases he : encodeQuery q with
    | error e => simp [he] at h
    | ok j =>
      simp only [he, Except.ok.injEq] at h
      subst h
      obtain ⟨ms, q', hj, hd, hy⟩ := query_roundtrip q hw j he
      subst hj
      refine ⟨true, .obj ms, some q', rfl, fun _ => ?_, by simp, ?_⟩
      · simp only [decodeQueryPtr, Option.getD, hd]
      · simp only [encodeFilter, hy]
theorem queryList_roundtrip : ∀ (l : List (Option Query)), Query.WFList l → ∀ js,
    encodeQueryList l = .ok js →
    ∃ l', l'.length = l.length ∧ decodeQuerySlice (.arr js) [] = .ok l'
      ∧ encodeQueryList l' = .ok js
  | [], _, js, h => by
    simp only [encodeQueryList, Except.ok.injEq] at h
    subst h
    exact ⟨[], rfl, rfl, rfl⟩
  | none :: rest, hw, js, h => by
    simp only [Query.WFList] at hw
    simp only [encodeQueryList] at h
    cases hr : encodeQueryList rest with
    | error e => simp [hr] at h
    | ok jr =>
      simp only [hr, Except.ok.injEq] at h
      subst h
      obtain ⟨l', hn, hd, hy⟩ := queryList_roundtrip rest hw.2 jr hr
      simp only [decodeQuerySlice] at hd
      refine ⟨none :: l', by simp [hn], ?_, ?_⟩
      · simp only [decodeQuerySlice, decodeQueryElems, decodeQueryPtr, List.tail_nil, hd]
      · simp only [encodeQueryList, hy]
  | some q :: rest, hw, js, h => by
    simp only [Query.WFList, Query.WFOpt] at hw
    simp only [encodeQueryList] at h
    cases hq : encodeQuery q with
    | error e => simp [hq] at h
    | ok j =>
      cases hr : encodeQueryList rest with
      | error e => simp [hq, hr] at h
      | ok jr =>
        simp only [hq, hr, Except.ok.injEq] at h
        subst h
        obtain ⟨ms, q', hj, hdq, hyq⟩ := query_roundtrip q hw.1 j hq
        subst hj
        obtain ⟨l', hn, hd, hy⟩ := queryList_roundtrip rest hw.2 jr hr
        simp only [decodeQuerySlice] at hd
        refine ⟨some q' :: l', by simp [hn], ?_, ?_⟩
        · simp only [decodeQuerySlice, decodeQueryElems, decodeQueryPtr, List.head?_nil,
            Option.join, Option.getD, Option.bind, List.tail_nil, hdq, hd]
        · simp only [encodeQueryList, hyq, hy]
end

/-- The step of `decodeMembers_field` when the decoder of the field depends on
what the field holds. -/
theorem decodeMembers_field_at {T F : Type}
    (step : T → GoString → JSON → Except UnmarshalError T) (key : String)
    (get : T → F) (set : T → F → T) (dec : JSON → F → Except UnmarshalError F)
    (hstep : ∀ t v, step t (GoString.lit key) v = (dec v (get t)).map (set t))
    (p : Bool) (v : JSON) (y : F) (t0 : T) (hdec : p = true → dec v (get t0) = .ok y)
    (hzero : p = false → set t0 y = t0) (rest : List (GoString × JSON)) :
    decodeMembers step (optMember key p v ++ rest) t0 = decodeMembers step rest (set t0 y) := by
  cases p
  · rw [hzero rfl]
    rfl
  · simp only [optMember, if_true, List.cons_append, List.nil_append, decodeMembers, hstep,
      hdec rfl]
    rfl

theorem decodeSearchMember_size {f0 : Int} {f1 : List (Option (List (GoString × Any)))}
    {f2 : Option Query} {f3 : Any} (p : Bool) (v : JSON) (y : Int)
    (hdec : p = true → decodeInt v f0 = .ok y) (hzero : p = false → y = f0)
    (rest : List (GoString × JSON)) :
    decodeMembers decodeSearchMember (optMember "size" p v ++ rest) (Search.mk f0 f1 f2 f3)
      = decodeMembers decodeSearchMember rest (Search.mk y f1 f2 f3) :=
  decodeMembers_field_at decodeSearchMember "size" (·.Size)
    (fun t x => { t with Size := x }) decodeInt
    (fun _ _ => by simp only [decodeSearchMember, fieldIndex_Search_size])
    p v y _ hdec (fun hp => by rw [hzero hp]) rest

theorem decodeSearchMember_sort {f0 : Int} {f1 : List (Option (List (GoString × Any)))}
    {f2 : Option Query} {f3 : Any} (p : Bool) (v : JSON)
    (y : List (Option (List (GoString × Any))))
    (hdec : p = true → decodeSortSlice v f1 = .ok y) (hzero : p = false → y = f1)
    (rest : List (GoString × JSON)) :
    decodeMembers decodeSearchMember (optMember "sort" p v ++ rest) (Search.mk f0 f1 f2 f3)
      = decodeMembers decodeSearchMember rest (Search.mk f0 y f2 f3) :=
  decodeMembers_field_at decodeSearchMember "sort" (·.Sort_)
    (fun t x => { t with Sort_ := x }) decodeSortSlice
    (fun _ _ => by simp only [decodeSearchMember, fieldIndex_Search_sort])
    p v y _ hdec (fun hp => by rw [hzero hp]) rest

theorem decodeSearchMember_query {f0 : Int} {f1 : List (Option (List (GoString × Any)))}
    {f2 : Option Query} {f3 : Any} (p : Bool) (v : JSON) (y : Option Query)
    (hdec : p = true → decodeQueryPtr v f2 = .ok y) (hzero : p = false → y = f2)
    (rest : List (GoString × JSON)) :
    decodeMembers decodeSearchMember (optMember "query" p v ++ rest) (Search.mk f0 f1 f2 f3)
      = decodeMembers decodeSearchMember rest (Search.mk f0 f1 y f3) :=
  decodeMembers_field_at decodeSearchMember "query" (·.Query)
    (fun t x => { t with Query := x }) decodeQueryPtr
    (fun _ _ => by simp only [decodeSearchMember, fieldIndex_Search_query])
    p v y _ hdec (fun hp => by rw [hzero hp]) rest

theorem decodeSearchMember_source {f0 : Int} {f1 : List (Option (List (GoString × Any)))}
    {f2 : Option Query} {f3 : Any} (p : Bool) (v : JSON) (y : Any)
    (hdec : p = true → decodeAnyField v f3 = .ok y) (hzero : p = false → y = f3)
    (rest : List (GoString × JSON)) :
    decodeMembers decodeSearchMember (optMember "_source" p v ++ rest) (Search.mk f0 f1 f2 f3)
      = decodeMembers decodeSearchMember rest (Search.mk f0 f1 f2 y) :=
  decodeMembers_field_at decodeSearchMember "_source" (·.Source)
    (fun t x => { t with Source := x }) decodeAnyField
    (fun _ _ => by simp only [decodeSearchMember, fieldIndex_Search__source])
    p v y _ hdec (fun hp => by rw [hzero hp]) rest

theorem sortEntry_roundtrip (m : Option (List (GoString × Any))) (hw : SortEntryWF m)
    (j : JSON) (h : encodeSortEntry m = .ok j) :
    ∃ m', decodeSortEntry j none = .ok m' ∧ encodeSortEntry m' = .ok j := by
  cases m with
  | none =>
    simp only [encodeSortEntry, Except.ok.injEq] at h
    subst h
    exact ⟨none, rfl, rfl⟩
  | some m =>
    simp only [SortEntryWF] at hw
    simp only [encodeSortEntry] at h
    cases he : encodeAnyEntries m with
    | error e => simp [he] at h
    | ok ms =>
      simp only [he, Except.ok.injEq] at h
      subst h
      obtain ⟨m', hd, hy⟩ := plainEntries_roundtrip m hw.2 ms he
      have hd0 := hd [] (fun e he => by simp at he) hw.1
      refine ⟨some m', ?_, ?_⟩
      · simp only [decodeSortEntry, Option.getD, hd0, List.nil_append]
      · simp only [encodeSortEntry, hy]

theorem sortList_roundtrip : ∀ (l : List (Option (List (GoString × Any)))), SortListWF l →
    ∀ js, encodeSortList l = .ok js →
    ∃ l', l'.length = l.length ∧ decodeSortSlice (.arr js) [] = .ok l'
      ∧ encodeSortList l' = .ok js
  | [], _, js, h => by
    simp only [encodeSortList, Except.ok.injEq] at h
    subst h
    exact ⟨[], rfl, rfl, rfl⟩
  | m :: rest, hw, js, h => by
    simp only [SortListWF] at hw
    simp only [encodeSortList, bind, Except.bind, pure, Except.pure] at h
    cases hm : encodeSortEntry m with
    | error e => simp [hm] at h
    | ok j =>
      cases hr : encodeSortList rest with
      | error e => simp [hm, hr] at h
      | ok jr =>
        simp only [hm, hr, Except.ok.injEq] at h
        subst h
        obtain ⟨m', hdm, hym⟩ := sortEntry_roundtrip m hw.1 j hm
        obtain ⟨l', hn, hd, hy⟩ := sortList_roundtrip rest hw.2 jr hr
        simp only [decodeSortSlice] at hd
        refine ⟨m' :: l', by simp [hn], ?_, ?_⟩
        · simp only [decodeSortSlice, decodeSortElems, List.head?_nil, Option.join,
            Option.bind, List.tail_nil, hdm, hd]
        · simp only [encodeSortList, bind, Except.bind, pure, Except.pure, hym, hy]

theorem fieldQuery_reread (key : String) (q : Option Query) (hw : Query.WFOpt q)
    (l : List (GoString × JSON)) (h : fieldQuery key q = .ok l) :
    ∃ p v y, l = optMember key p v
      ∧ (p = true → decodeQueryPtr v none = .ok y)
      ∧ (p = false → y = none)
      ∧ fieldQuery key y = .ok l := by
  cases q with
  | none =>
    simp only [fieldQuery, Except.ok.injEq] at h
    subst h
    exact ⟨false, .null, none, rfl, by simp, fun _ => rfl, rfl⟩
  | some q =>
    simp only [Query.WFOpt] at hw
    simp only [fieldQuery] at h
    cases he : encodeQuery q with
    | error e => simp [he] at h
    | ok j =>
      simp only [he, Except.ok.injEq] at h
      subst h
      obtain ⟨ms, q', hj, hd, hy⟩ := query_roundtrip q hw j he
      subst hj
      refine ⟨true, .obj ms, some q', rfl, fun _ => ?_, by simp, ?_⟩
      · simp only [decodeQueryPtr, Option.getD, hd]
      · simp only [fieldQuery, hy]

theorem search_roundtrip (s : Search) (hw : s.WF) (j : JSON) (h : encodeSearch s = .ok j) :
    ∃ y, decodeSearch j Search.zero = .ok y ∧ encodeSearch y = .ok j := by
  obtain ⟨w0, w1, w2, w3⟩ := hw
  unfold encodeSearch at h
  cases h1 : encodeSortList s.Sort_ with
  | error e => simp [h1, bind, Except.bind] at h
  | ok l1 =>
    cases h2 : fieldQuery "query" s.Query with
    | error e => simp [h1, h2, bind, Except.bind] at h
    | ok l2 =>
      cases h3 : fieldAny "_source" s.Source with
      | error e => simp [h1, h2, h3, bind, Except.bind] at h
      | ok l3 =>
        simp only [h1, h2, h3, bind, Except.bind, pure, Except.pure, Except.ok.injEq] at h
        obtain ⟨y1, n1, d1, r1⟩ := sortList_roundtrip s.Sort_ w1 l1 h1
        obtain ⟨p2, v2, y2, e2, d2, z2, r2⟩ := fieldQuery_reread _ _ w2 _ h2
        obtain ⟨p3, v3, y3, e3, d3, z3, r3⟩ := fieldAny_reread _ _ w3 _ h3
        refine ⟨Search.mk s.Size y1 y2 y3, ?_, ?_⟩
        · rw [← h, e2, e3]
          simp only [decodeSearch, decodeStruct, List.append_assoc, fieldInt_eq, fieldArray_eq,
            Search.zero]
          rw [decodeSearchMember_size _ _ _ ((optMember_int _ w0).1 · 0) (optMember_int _ w0).2,
            decodeSearchMember_sort _ _ y1 (fun _ => d1)
              (length_zero_of_decide s.Sort_ y1 n1),
            decodeSearchMember_query _ _ y2 d2 z2,
            ← List.append_nil (optMember "_source" _ _),
            decodeSearchMember_source _ _ y3 (d3 · .nil) z3]
          rfl
        · rw [← h]
          simp only [encodeSearch, r1, r2, r3, n1, bind, Except.bind, pure, Except.pure]

/-! ## The encoder writes valid JSON

The bytes of a document whose numbers are finite and which nests at most
10000 deep pass `checkValid`; every document an encoder returns has finite
numbers. -/

theorem Scanner.run_concat (s : Scanner) (a b : List Byte) :
    s.run (a ++ b) = (s.run a).run b := by
  simp [Scanner.run, List.foldl_append]

theorem Scanner.run_cons (s : Scanner) (c : Byte) (b : List Byte) :
    s.run (c :: b) = (s.next c).run b := rfl

theorem Scanner.run_nil (s : Scanner) : s.run [] = s := rfl

theorem num_next (st st' : NumState) (c : Byte) (h : st.next c = some st') (hs : st ≠ .start)
    (e : Bool) (ps : List ParseState) :
    Scanner.next ⟨st.step, e, ps⟩ c = ⟨st'.step, e, ps⟩ := by
  cases st <;> simp only [NumState.next] at h
  · exact absurd rfl hs
  all_goals
    split_ifs at h <;> cases h <;>
      simp_all [Scanner.next, NumState.step, Scanner.state0, Scanner.stateESign, Scanner.fail]

theorem num_run (st st' : NumState) (hs : st ≠ .start) (e : Bool) (ps : List ParseState) :
    ∀ (bs : List Byte), NumState.run st bs = some st' →
      Scanner.run ⟨st.step, e, ps⟩ bs = ⟨st'.step, e, ps⟩ := by
  intro bs
  induction bs generalizing st with
  | nil =>
    intro h
    simp only [NumState.run, Option.some.injEq] at h
    subst h
    rfl
  | cons c rest ih =>
    intro h
    simp only [NumState.run] at h
    cases hn : st.next c with
    | none => rw [hn] at h; cases h
    | some st1 =>
      rw [hn] at h
      have hne : st1 ≠ .start := by
        intro he
        subst he
        cases st <;> simp only [NumState.next] at hn <;> split_ifs at hn <;> cases hn
      rw [Scanner.run_cons, num_next st st1 c hn hs e ps]
      exact ih st1 hne h

theorem digit_ne (c : Byte) (h : 0x31 ≤ c.val ∧ c.val ≤ 0x39) :
    c ≠ 32 ∧ c ≠ 9 ∧ c ≠ 13 ∧ c ≠ 10 ∧ c ≠ 123 ∧ c ≠ 91 ∧ c ≠ 93 ∧ c ≠ 34 ∧ c ≠ 116
      ∧ c ≠ 102 ∧ c ≠ 110 := by
  refine ⟨?_, ?_, ?_, ?_, ?_, ?_, ?_, ?_, ?_, ?_, ?_⟩ <;>
    · rintro rfl
      exact absurd h (by decide)

theorem num_first (st' : NumState) (c : Byte) (h : NumState.next .start c = some st')
    (step0 : ScanStep) (h0 : step0.starts = true) (e : Bool) (ps : List ParseState) :
    Scanner.next ⟨step0, e, ps⟩ c = ⟨st'.step, e, ps⟩ ∧ st' ≠ .start := by
  simp only [NumState.next] at h
  cases step0 <;> simp only [ScanStep.starts] at h0 <;> try cases h0
  all_goals
    split_ifs at h with h1 h2 h3 <;> cases h
    · subst h1
      exact ⟨rfl, by decide⟩
    · subst h2
      exact ⟨rfl, by decide⟩
    · obtain ⟨a1, a2, a3, a4, a5, a6, a7, a8, a9, a10, a11⟩ := digit_ne c h3
      refine ⟨?_, by decide⟩
      simp [Scanner.next, NumState.step, Scanner.stateBeginValue, isSpace, a1, a2, a3, a4, a5,
        a6, a7, a8, a9, a10, a11, h1, h2, h3]

/-- A number is scanned to a state in which it may end, and leaves the parse
stack as it was. -/
theorem scan_number (bs : List Byte) (h : isNumberText bs = true) (step0 : ScanStep)
    (h0 : step0.starts = true) (e : Bool) (ps : List ParseState) :
    ∃ st, st.ended = true ∧ Scanner.run ⟨step0, e, ps⟩ bs = ⟨st, e, ps⟩ := by
  unfold isNumberText at h
  cases bs with
  | nil => simp [NumState.run, NumState.final] at h
  | cons c rest =>
    simp only [NumState.run] at h
    cases hn : NumState.next .start c with
    | none => rw [hn] at h; cases h
    | some st1 =>
      rw [hn] at h
      dsimp only at h
      obtain ⟨h1, hne⟩ := num_first st1 c hn step0 h0 e ps
      cases hr : NumState.run st1 rest with
      | none => rw [hr] at h; cases h
      | some st2 =>
        rw [hr] at h
        simp only at h
        refine ⟨st2.step, ?_, ?_⟩
        · cases st2 <;> first | rfl | cases h
        · rw [Scanner.run_cons, h1]
          exact num_run st1 st2 hne e ps rest hr

/-- A string token is scanned to the state `endValue`. -/
theorem scan_string (s : GoString) (step0 : ScanStep)
    (h0 : step0 = .beginValue ∨ step0 = .beginValueOrEmpty ∨ step0 = .beginString
      ∨ step0 = .beginStringOrEmpty) (e : Bool) (ps : List ParseState) :
    Scanner.run ⟨step0, e, ps⟩ (appendString s) = ⟨.endValue, e, ps⟩ := by
  have hq : Scanner.next ⟨step0, e, ps⟩ 0x22 = inStr e ps := by
    rcases h0 with h | h | h | h <;> subst h <;> rfl
  unfold appendString
  rw [Scanner.run_concat, Scanner.run_concat]
  have h1 : Scanner.run ⟨step0, e, ps⟩ [0x22] = inStr e ps := hq
  rw [h1]
  have h2 : Scanner.run (inStr e ps) (appendStringLoop s.length s) = inStr e ps :=
    scan_appendStringLoop e ps s.length s (le_refl _)
  rw [h2]
  rfl

theorem scan_literal (step0 : ScanStep) (h0 : step0.starts = true) (e : Bool)
    (ps : List ParseState) :
    Scanner.run ⟨step0, e, ps⟩ [0x6E, 0x75, 0x6C, 0x6C] = ⟨.endValue, e, ps⟩
    ∧ Scanner.run ⟨step0, e, ps⟩ [0x74, 0x72, 0x75, 0x65] = ⟨.endValue, e, ps⟩
    ∧ Scanner.run ⟨step0, e, ps⟩ [0x66, 0x61, 0x6C, 0x73, 0x65] = ⟨.endValue, e, ps⟩ := by
  cases step0 <;> simp only [ScanStep.starts] at h0 <;> first | exact ⟨rfl, rfl, rfl⟩ | cases h0

/-- After a value, a comma in an array starts the next element. -/
theorem next_comma_array (st : ScanStep) (h : st.ended = true) (e : Bool)
    (ps : List ParseState) :
    Scanner.next ⟨st, e, .arrayValue :: ps⟩ 0x2C = ⟨.beginValue, e, .arrayValue :: ps⟩ := by
  cases st <;> simp only [ScanStep.ended] at h <;> first | rfl | cases h

/-- After a value, a comma in an object starts the next key. -/
theorem next_comma_object (st : ScanStep) (h : st.ended = true) (e : Bool)
    (ps : List ParseState) :
    Scanner.next ⟨st, e, .objectValue :: ps⟩ 0x2C = ⟨.beginString, e, .objectKey :: ps⟩ := by
  cases st <;> simp only [ScanStep.ended] at h <;> first | rfl | cases h

/-- After a key, the colon starts the value. -/
theorem next_colon (e : Bool) (ps : List ParseState) :
    Scanner.next ⟨.endValue, e, .objectKey :: ps⟩ 0x3A = ⟨.beginValue, e, .objectValue :: ps⟩ :=
  rfl

/-- The closing bracket of a nested array or object. -/
theorem next_close_nested (st : ScanStep) (h : st.ended = true) (e : Bool) (p : ParseState)
    (ps : List ParseState) :
    Scanner.next ⟨st, e, .arrayValue :: p :: ps⟩ 0x5D = ⟨.endValue, e, p :: ps⟩
    ∧ Scanner.next ⟨st, e, .objectValue :: p :: ps⟩ 0x7D = ⟨.endValue, e, p :: ps⟩ := by
  cases st <;> simp only [ScanStep.ended] at h <;> first | exact ⟨rfl, rfl⟩ | cases h

/-- The closing bracket of the outermost array or object. -/
theorem next_close_top (st : ScanStep) (h : st.ended = true) (e : Bool) :
    Scanner.next ⟨st, e, [.arrayValue]⟩ 0x5D = ⟨.endTop, true, []⟩
    ∧ Scanner.next ⟨st, e, [.objectValue]⟩ 0x7D = ⟨.endTop, true, []⟩ := by
  cases st <;> simp only [ScanStep.ended] at h <;> first | exact ⟨rfl, rfl⟩ | cases h

/-- The brackets of an empty array and of an empty object. -/
theorem next_empty (e : Bool) (ps : List ParseState) :
    Scanner.next ⟨.beginValueOrEmpty, e, .arrayValue :: ps⟩ 0x5D
        = Scanner.pop ⟨.beginValueOrEmpty, e, .arrayValue :: ps⟩
    ∧ Scanner.next ⟨.beginStringOrEmpty, e, .objectKey :: ps⟩ 0x7D
        = Scanner.pop ⟨.beginStringOrEmpty, e, .objectValue :: ps⟩ :=
  ⟨rfl, rfl⟩

/-- The opening bracket of an array and of an object, within the nesting
limit. -/
theorem next_open (step0 : ScanStep) (h0 : step0.starts = true) (e : Bool)
    (ps : List ParseState) (hd : ps.length + 1 ≤ 10000) :
    Scanner.next ⟨step0, e, ps⟩ 0x5B = ⟨.beginValueOrEmpty, e, .arrayValue :: ps⟩
    ∧ Scanner.next ⟨step0, e, ps⟩ 0x7B = ⟨.beginStringOrEmpty, e, .objectKey :: ps⟩ := by
  cases step0 <;> simp only [ScanStep.starts] at h0 <;> try cases h0
  all_goals
    simp +decide [Scanner.next, Scanner.stateBeginValue, Scanner.push, isSpace, hd]

theorem isDigit_of_nonzero (c : Byte) (h : 0x31 ≤ c.val ∧ c.val ≤ 0x39) : isDigit c = true := by
  simp only [isDigit, Bool.and_eq_true, decide_eq_true_eq]
  omega

theorem run_digits (st : NumState) (hst : st = .int ∨ st = .frac ∨ st = .exp) :
    ∀ (bs : List Byte), (∀ b ∈ bs, isDigit b = true) → NumState.run st bs = some st := by
  intro bs
  induction bs with
  | nil => intro _; rfl
  | cons b rest ih =>
    intro h
    have hb := h b (List.mem_cons_self _ _)
    have hr := ih (fun x hx => h x (List.mem_cons_of_mem _ hx))
    rcases hst with rfl | rfl | rfl <;> simp only [NumState.run, NumState.next, hb, if_true, hr]

theorem digitChar_byte (k : Nat) (h : k < 10) :
    isDigit (digitByte (Nat.digitChar k)) = true
    ∧ (0 < k → 0x31 ≤ (digitByte (Nat.digitChar k)).val ∧ (digitByte (Nat.digitChar k)).val ≤ 0x39)
    ∧ (k = 0 → digitByte (Nat.digitChar k) = 0x30) := by
  interval_cases k <;> exact ⟨by decide, by decide, by decide⟩

theorem toDigitsCore_shape : ∀ (fuel n : Nat) (ds : List Char), n < fuel →
    ∃ pre, Nat.toDigitsCore 10 fuel n ds = pre ++ ds
      ∧ (n = 0 → pre.map digitByte = [0x30])
      ∧ (0 < n → ∃ c rest, pre.map digitByte = c :: rest ∧ (0x31 ≤ c.val ∧ c.val ≤ 0x39)
          ∧ ∀ b ∈ rest, isDigit b = true) := by
  intro fuel
  induction fuel with
  | zero => intro n ds h; omega
  | succ fuel ih =>
    intro n ds h
    have hk := digitChar_byte (n % 10) (Nat.mod_lt _ (by decide))
    simp only [Nat.toDigitsCore]
    by_cases h0 : n / 10 = 0
    · simp only [h0, if_true]
      have hlt : n < 10 := by omega
      refine ⟨[Nat.digitChar (n % 10)], rfl, ?_, ?_⟩
      · intro hn
        simp only [List.map_cons, List.map_nil]
        rw [hk.2.2 (by omega)]
      · intro hn
        exact ⟨_, [], rfl, hk.2.1 (by omega), fun b hb => by simp at hb⟩
    · simp only [h0, if_false]
      obtain ⟨pre, hp, _, hpos⟩ := ih (n / 10) (Nat.digitChar (n % 10) :: ds) (by omega)
      obtain ⟨c, rest, hc, hr1, hr2⟩ := hpos (by omega)
      refine ⟨pre ++ [Nat.digitChar (n % 10)], by simp [hp], fun hn => by omega, fun _ => ?_⟩
      refine ⟨c, rest ++ [digitByte (Nat.digitChar (n % 10))], by simp [hc], hr1, ?_⟩
      intro b hb
      rcases List.mem_append.1 hb with hb | hb
      · exact hr2 b hb
      · simp only [List.mem_singleton] at hb
        subst hb
        exact hk.1

theorem natDigits_shape (n : Nat) :
    (n = 0 → natDigits n = [0x30])
    ∧ (0 < n → ∃ c rest, natDigits n = c :: rest ∧ (0x31 ≤ c.val ∧ c.val ≤ 0x39)
        ∧ ∀ b ∈ rest, isDigit b = true) := by
  obtain ⟨pre, hp, h0, h1⟩ := toDigitsCore_shape (n + 1) n [] (by omega)
  have : natDigits n = pre.map digitByte := by
    simp only [natDigits, Nat.toDigits, hp, List.append_nil]
    rfl
  rw [this]
  exact ⟨h0, h1⟩

theorem natDigits_run (n : Nat) :
    ∃ st, st.final = true ∧ NumState.run .start (natDigits n) = some st
      ∧ NumState.run .minus (natDigits n) = some st := by
  rcases Nat.eq_zero_or_pos n with h | h
  · rw [(natDigits_shape n).1 h]
    exact ⟨.zero, rfl, rfl, rfl⟩
  · obtain ⟨c, rest, hc, hr1, hr2⟩ := (natDigits_shape n).2 h
    obtain ⟨a1, a2, a3, a4, a5, a6, a7, a8, a9, a10, a11⟩ := digit_ne c hr1
    have hm : c ≠ 0x2D := by
      rintro rfl
      exact absurd hr1 (by decide)
    have hz : c ≠ 0x30 := by
      rintro rfl
      exact absurd hr1 (by decide)
    rw [hc]
    refine ⟨.int, rfl, ?_, ?_⟩ <;>
      simp only [NumState.run, NumState.next, hm, hz, if_false, hr1, and_self, if_true,
        run_digits .int (Or.inl rfl) rest hr2]

/-- The decimal text of an integer is a JSON number. -/
theorem isNumberText_intText (i : Int) : isNumberText (intText i) = true := by
  unfold intText isNumberText
  split_ifs with h
  · obtain ⟨st, hs, _, hr⟩ := natDigits_run (-i).toNat
    simp only [NumState.run, NumState.next, if_true, hr, hs]
  · obtain ⟨st, hs, hr, _⟩ := natDigits_run i.toNat
    simp only [hr, hs]

theorem afterValue_closed (e : Bool) (ps : List ParseState) :
    Scanner.AfterValue e ps (Scanner.closed e ps) := by
  cases ps with
  | nil => exact Or.inr ⟨rfl, rfl⟩
  | cons p rest => exact Or.inl ⟨.endValue, rfl, rfl⟩

theorem afterValue_nested (e : Bool) (p : ParseState) (ps : List ParseState) (s : Scanner)
    (h : Scanner.AfterValue e (p :: ps) s) : ∃ st, st.ended = true ∧ s = ⟨st, e, p :: ps⟩ := by
  rcases h with h | ⟨h, _⟩
  · exact h
  · cases h

theorem next_close (st : ScanStep) (h : st.ended = true) (e : Bool) (ps : List ParseState) :
    Scanner.next ⟨st, e, .arrayValue :: ps⟩ 0x5D = Scanner.closed e ps
    ∧ Scanner.next ⟨st, e, .objectValue :: ps⟩ 0x7D = Scanner.closed e ps := by
  cases ps with
  | nil => exact next_close_top st h e
  | cons p rest => exact next_close_nested st h e p rest

theorem next_empty_closed (e : Bool) (ps : List ParseState) :
    Scanner.next ⟨.beginValueOrEmpty, e, .arrayValue :: ps⟩ 0x5D = Scanner.closed e ps
    ∧ Scanner.next ⟨.beginStringOrEmpty, e, .objectKey :: ps⟩ 0x7D = Scanner.closed e ps := by
  cases ps with
  | nil => exact ⟨rfl, rfl⟩
  | cons p rest => exact ⟨rfl, rfl⟩

theorem render_arr_cons (ft : Float64 → List Byte) (j : JSON) (rest : List JSON) :
    JSON.render ft (.arr (j :: rest))
      = 0x5B :: (JSON.renderElems ft (j :: rest) ++ [0x5D]) := by
  simp [JSON.render]

theorem render_obj_cons (ft : Float64 → List Byte) (m : GoString × JSON)
    (rest : List (GoString × JSON)) :
    JSON.render ft (.obj (m :: rest))
      = 0x7B :: (JSON.renderMembers ft (m :: rest) ++ [0x7D]) := by
  simp [JSON.render]

mutual
theorem scan_value (ft : Float64 → List Byte) (hft : NumberTexts ft) :
    ∀ (j : JSON), j.Finite → ∀ (step0 : ScanStep), step0.starts = true →
      ∀ (e : Bool) (ps : List ParseState), ps.length + j.depth ≤ 10000 →
        Scanner.AfterValue e ps (Scanner.run ⟨step0, e, ps⟩ (j.render ft))
  | .null, _, step0, h0, e, ps, _ => by
    simp only [JSON.render]
    rw [(scan_literal step0 h0 e ps).1]
    exact Or.inl ⟨.endValue, rfl, rfl⟩
  | .bool true, _, step0, h0, e, ps, _ => by
    simp only [JSON.render]
    rw [(scan_literal step0 h0 e ps).2.1]
    exact Or.inl ⟨.endValue, rfl, rfl⟩
  | .bool false, _, step0, h0, e, ps, _ => by
    simp only [JSON.render]
    rw [(scan_literal step0 h0 e ps).2.2]
    exact Or.inl ⟨.endValue, rfl, rfl⟩
  | .num (.int i), _, step0, h0, e, ps, _ => by
    simp only [JSON.render]
    obtain ⟨st, hs, hr⟩ := scan_number (intText i) (isNumberText_intText i) step0 h0 e ps
    exact Or.inl ⟨st, hs, hr⟩
  | .num (.float f), hf, step0, h0, e, ps, _ => by
    simp only [JSON.render]
    simp only [JSON.Finite] at hf
    obtain ⟨st, hs, hr⟩ := scan_number (ft f) (hft f hf) step0 h0 e ps
    exact Or.inl ⟨st, hs, hr⟩
  | .str s, _, step0, h0, e, ps, _ => by
    simp only [JSON.render]
    rw [scan_string s step0 (by
      cases step0 <;> first | exact Or.inl rfl | exact Or.inr (Or.inl rfl) | cases h0) e ps]
    exact Or.inl ⟨.endValue, rfl, rfl⟩
  | .arr [], _, step0, h0, e, ps, hd => by
    simp only [JSON.depth, JSON.depthElems] at hd
    have : JSON.render ft (.arr []) = [0x5B, 0x5D] := by simp [JSON.render, JSON.renderElems]
    rw [this, Scanner.run_cons, (next_open step0 h0 e ps (by omega)).1, Scanner.run_cons,
      (next_empty_closed e ps).1, Scanner.run_nil]
    exact afterValue_closed e ps
  | .arr (j :: rest), hf, step0, h0, e, ps, hd => by
    simp only [JSON.depth] at hd
    simp only [JSON.Finite] at hf
    rw [render_arr_cons, Scanner.run_cons, (next_open step0 h0 e ps (by omega)).1,
      Scanner.run_concat]
    obtain ⟨st, hs, hr⟩ := scan_elems ft hft (j :: rest) hf (by simp) .beginValueOrEmpty rfl e ps
      (by omega)
    rw [hr, Scanner.run_cons, (next_close st hs e ps).1, Scanner.run_nil]
    exact afterValue_closed e ps
  | .obj [], _, step0, h0, e, ps, hd => by
    simp only [JSON.depth, JSON.depthMembers] at hd
    have : JSON.render ft (.obj []) = [0x7B, 0x7D] := by simp [JSON.render, JSON.renderMembers]
    rw [this, Scanner.run_cons, (next_open step0 h0 e ps (by omega)).2, Scanner.run_cons,
      (next_empty_closed e ps).2, Scanner.run_nil]
    exact afterValue_closed e ps
  | .obj (m :: rest), hf, step0, h0, e, ps, hd => by
    simp only [JSON.depth] at hd
    simp only [JSON.Finite] at hf
    rw [render_obj_cons, Scanner.run_cons, (next_open step0 h0 e ps (by omega)).2,
      Scanner.run_concat]
    obtain ⟨st, hs, hr⟩ := scan_members ft hft (m :: rest) hf (by simp) .beginStringOrEmpty
      (Or.inr rfl) e ps (by omega)
    rw [hr, Scanner.run_cons, (next_close st hs e ps).2, Scanner.run_nil]
    exact afterValue_closed e ps
theorem scan_elems (ft : Float64 → List Byte) (hft : NumberTexts ft) :
    ∀ (l : List JSON), JSON.FiniteElems l → l ≠ [] → ∀ (step0 : ScanStep),
      step0.starts = true → ∀ (e : Bool) (ps : List ParseState),
        ps.length + 1 + JSON.depthElems l ≤ 10000 →
        ∃ st, st.ended = true ∧ Scanner.run ⟨step0, e, .arrayValue :: ps⟩
          (JSON.renderElems ft l) = ⟨st, e, .arrayValue :: ps⟩
  | [], _, hne, _, _, _, _, _ => absurd rfl hne
  | [j], hf, _, step0, h0, e, ps, hd => by
    simp only [JSON.depthElems] at hd
    simp only [JSON.FiniteElems] at hf
    simp only [JSON.renderElems]
    exact afterValue_nested e _ ps _
      (scan_value ft hft j hf.1 step0 h0 e (.arrayValue :: ps)
        (by simp only [List.length_cons]; omega))
  | j :: k :: rest, hf, _, step0, h0, e, ps, hd => by
    simp only [JSON.depthElems] at hd
    simp only [JSON.FiniteElems] at hf
    simp only [JSON.renderElems]
    obtain ⟨st, hs, hr⟩ := afterValue_nested e _ ps _
      (scan_value ft hft j hf.1 step0 h0 e (.arrayValue :: ps)
        (by simp only [List.length_cons]; omega))
    rw [Scanner.run_concat, Scanner.run_concat, hr, Scanner.run_cons, Scanner.run_nil,
      next_comma_array st hs e ps]
    exact scan_elems ft hft (k :: rest) hf.2 (by simp) .beginValue rfl e ps
      (by simp only [JSON.depthElems]; omega)
theorem scan_members (ft : Float64 → List Byte) (hft : NumberTexts ft) :
    ∀ (l : List (GoString × JSON)), JSON.FiniteMembers l → l ≠ [] → ∀ (step0 : ScanStep),
      step0 = .beginString ∨ step0 = .beginStringOrEmpty → ∀ (e : Bool) (ps : List ParseState),
        ps.length + 1 + JSON.depthMembers l ≤ 10000 →
        ∃ st, st.ended = true ∧ Scanner.run ⟨step0, e, .objectKey :: ps⟩
          (JSON.renderMembers ft l) = ⟨st, e, .objectValue :: ps⟩
  | [], _, hne, _, _, _, _, _ => absurd rfl hne
  | [(k, j)], hf, _, step0, h0, e, ps, hd => by
    simp only [JSON.depthMembers] at hd
    simp only [JSON.FiniteMembers] at hf
    simp only [JSON.renderMembers]
    rw [Scanner.run_concat, Scanner.run_concat,
      scan_string k step0 (Or.inr (Or.inr h0)) e (.objectKey :: ps), Scanner.run_cons,
      Scanner.run_nil, next_colon]
    exact afterValue_nested e _ ps _
      (scan_value ft hft j hf.1 .beginValue rfl e (.objectValue :: ps)
        (by simp only [List.length_cons]; omega))
  | (k, j) :: m :: rest, hf, _, step0, h0, e, ps, hd => by
    simp only [JSON.depthMembers] at hd
    simp only [JSON.FiniteMembers] at hf
    simp only [JSON.renderMembers]
    obtain ⟨st, hs, hr⟩ := afterValue_nested e _ ps _
      (scan_value ft hft j hf.1 .beginValue rfl e (.objectValue :: ps)
        (by simp only [List.length_cons]; omega))
    simp only [Scanner.run_concat, Scanner.run_cons, Scanner.run_nil,
      scan_string k step0 (Or.inr (Or.inr h0)) e (.objectKey :: ps), next_colon, hr,
      next_comma_object st hs e ps]
    exact scan_members ft hft (m :: rest) hf.2 (by simp) .beginString (Or.inl rfl) e ps
      (by simp only [JSON.depthMembers]; omega)
end

theorem eof_afterValue (e : Bool) (s : Scanner) (h : Scanner.AfterValue e [] s) :
    s.eof = true := by
  rcases h with ⟨st, hs, rfl⟩ | ⟨_, rfl⟩
  · cases st <;> simp only [ScanStep.ended] at hs <;> cases e <;> first | rfl | cases hs
  · rfl

/-- The encoder's bytes pass the validity scan of `json.Unmarshal`: a document
with finite numbers that nests at most 10000 deep is valid JSON. -/
theorem checkValid_render (ft : Float64 → List Byte) (hft : NumberTexts ft) (j : JSON)
    (hf : j.Finite) (hd : j.depth ≤ 10000) : checkValid (j.render ft) = true := by
  have := scan_value ft hft j hf .beginValue rfl false [] (by simpa using hd)
  exact eof_afterValue false _ this

theorem finiteMembers_append (a b : List (GoString × JSON)) :
    JSON.FiniteMembers (a ++ b) ↔ JSON.FiniteMembers a ∧ JSON.FiniteMembers b := by
  induction a with
  | nil => simp [JSON.FiniteMembers]
  | cons m rest ih =>
    obtain ⟨k, j⟩ := m
    simp [JSON.FiniteMembers, ih, and_assoc]

theorem finiteMembers_single (k : GoString) (j : JSON) :
    JSON.FiniteMembers [(k, j)] ↔ j.Finite := by
  simp [JSON.FiniteMembers]

theorem finite_numOfFloat (f : Float64) (h : f.isFinite = true) :
    (JSON.num (numOfFloat f)).Finite := by
  unfold numOfFloat
  cases f.toExactInt? <;> simp [JSON.Finite, h]

theorem finite_encodeFloat (f : Float64) (j : JSON) (h : encodeFloat f = .ok j) : j.Finite := by
  unfold encodeFloat at h
  by_cases hf : f.isFinite = true
  · simp only [hf, if_true, Except.ok.injEq] at h
    subst h
    exact finite_numOfFloat f hf
  · simp [hf] at h

theorem finite_fieldFloat (key : String) (f : Float64) (l : List (GoString × JSON))
    (h : fieldFloat key f = .ok l) : JSON.FiniteMembers l := by
  unfold fieldFloat at h
  by_cases hz : f.isZero = true
  · simp only [hz, if_true, Except.ok.injEq] at h
    subst h
    trivial
  · simp only [hz] at h
    cases he : encodeFloat f with
    | error e => simp [he] at h
    | ok j =>
      simp only [he, Bool.false_eq_true, if_false, Except.ok.injEq] at h
      subst h
      exact (finiteMembers_single _ _).2 (finite_encodeFloat f j he)

theorem finite_fieldString (key : String) (s : GoString) :
    JSON.FiniteMembers (fieldString key s) := by
  unfold fieldString
  split_ifs <;> simp [JSON.FiniteMembers, JSON.Finite]

theorem finite_fieldInt (key : String) (i : Int) : JSON.FiniteMembers (fieldInt key i) := by
  unfold fieldInt
  split_ifs <;> simp [JSON.FiniteMembers, JSON.Finite]

theorem finite_fieldBoolPtr (key : String) (b : Option Bool) :
    JSON.FiniteMembers (fieldBoolPtr key b) := by
  cases b <;> simp [fieldBoolPtr, JSON.FiniteMembers, JSON.Finite]

theorem finite_enumMember (k s : GoString) :
    JSON.FiniteMembers (if s = [] then [] else [(k, JSON.str s)]) := by
  split_ifs <;> simp [JSON.FiniteMembers, JSON.Finite]

theorem finite_encodeSort (s : SortSpec) : (encodeSort s).Finite := by
  simp only [encodeSort, JSON.Finite, finiteMembers_append, SortOrder.MarshalTree,
    SortMode.MarshalTree]
  exact ⟨⟨⟨finite_enumMember _ _, finite_fieldString _ _⟩, finite_fieldString _ _⟩,
    finite_enumMember _ _⟩

mutual
theorem finite_encodeAny : ∀ (a : Any) (j : JSON), encodeAny a = .ok j → j.Finite
  | .nil, j, h => by
    simp only [encodeAny, Except.ok.injEq] at h
    subst h
    trivial
  | .bool b, j, h => by
    simp only [encodeAny, Except.ok.injEq] at h
    subst h
    trivial
  | .int i, j, h => by
    simp only [encodeAny, Except.ok.injEq] at h
    subst h
    trivial
  | .float f, j, h => by
    simp only [encodeAny] at h
    exact finite_encodeFloat f j h
  | .str s, j, h => by
    simp only [encodeAny, Except.ok.injEq] at h
    subst h
    trivial
  | .slice l, j, h => by
    simp only [encodeAny] at h
    cases hl : encodeAnyList l with
    | error e => simp [hl] at h
    | ok js =>
      simp only [hl, Except.ok.injEq] at h
      subst h
      simp only [JSON.Finite]
      exact finite_encodeAnyList l js hl
  | .map m, j, h => by
    simp only [encodeAny] at h
    cases hl : encodeAnyEntries m with
    | error e => simp [hl] at h
    | ok ms =>
      simp only [hl, Except.ok.injEq] at h
      subst h
      simp only [JSON.Finite]
      exact finite_encodeAnyEntries m ms hl
  | .sort s, j, h => by
    simp only [encodeAny, Except.ok.injEq] at h
    subst h
    exact finite_encodeSort s
theorem finite_encodeAnyList : ∀ (l : List Any) (js : List JSON),
    encodeAnyList l = .ok js → JSON.FiniteElems js
  | [], js, h => by
    simp only [encodeAnyList, Except.ok.injEq] at h
    subst h
    trivial
  | a :: rest, js, h => by
    simp only [encodeAnyList] at h
    cases ha : encodeAny a with
    | error e => simp [ha] at h
    | ok j =>
      cases hr : encodeAnyList rest with
      | error e => simp [ha, hr] at h
      | ok jr =>
        simp only [ha, hr, Except.ok.injEq] at h
        subst h
        exact ⟨finite_encodeAny a j ha, finite_encodeAnyList rest jr hr⟩
theorem finite_encodeAnyEntries : ∀ (m : List (GoString × Any)) (ms : List (GoString × JSON)),
    encodeAnyEntries m = .ok ms → JSON.FiniteMembers ms
  | [], ms, h => by
    simp only [encodeAnyEntries, Except.ok.injEq] at h
    subst h
    trivial
  | (k, a) :: rest, ms, h => by
    simp only [encodeAnyEntries] at h
    cases ha : encodeAny a with
    | error e => simp [ha] at h
    | ok j =>
      cases hr : encodeAnyEntries rest with
      | error e => simp [ha, hr] at h
      | ok jr =>
        simp only [ha, hr, Except.ok.injEq] at h
        subst h
        exact ⟨finite_encodeAny a j ha, finite_encodeAnyEntries rest jr hr⟩
end

theorem finite_fieldAny (key : String) (a : Any) (l : List (GoString × JSON))
    (h : fieldAny key a = .ok l) : JSON.FiniteMembers l := by
  unfold fieldAny at h
  split at h
  · cases h
    trivial
  · cases he : encodeAny a with
    | error e => simp [he] at h
    | ok j =>
      simp only [he, Except.ok.injEq] at h
      subst h
      exact (finiteMembers_single _ _).2 (finite_encodeAny a j he)

theorem finite_encodeTerm (t : Term) (j : JSON) (h : encodeTerm t = .ok j) : j.Finite := by
  unfold encodeTerm at h
  cases hb : fieldFloat "boost" t.Boost with
  | error e => simp [hb, bind, Except.bind] at h
  | ok bl =>
    simp only [hb, bind, Except.bind, pure, Except.pure, Except.ok.injEq] at h
    subst h
    simp only [JSON.Finite, finiteMembers_append]
    exact ⟨⟨(finiteMembers_single _ _).2 trivial, finite_fieldFloat _ _ _ hb⟩,
      finite_fieldBoolPtr _ _⟩

theorem finite_encodeMatchAll (ma : MatchAll) (j : JSON) (h : encodeMatchAll ma = .ok j) :
    j.Finite := by
  unfold encodeMatchAll at h
  cases hb : fieldFloat "boost" ma.Boost with
  | error e => simp [hb, bind, Except.bind] at h
  | ok bl =>
    simp only [hb, bind, Except.bind, pure, Except.pure, Except.ok.injEq] at h
    subst h
    simp only [JSON.Finite]
    exact finite_fieldFloat _ _ _ hb

theorem finite_encodeRange (r : Range) (j : JSON) (h : encodeRange r = .ok j) : j.Finite := by
  unfold encodeRange at h
  cases h1 : fieldAny "gt" r.GT with
  | error e => simp [h1, bind, Except.bind] at h
  | ok l1 =>
    cases h2 : fieldAny "gte" r.GTE with
    | error e => simp [h1, h2, bind, Except.bind] at h
    | ok l2 =>
      cases h3 : fieldAny "lt" r.LT with
      | error e => simp [h1, h2, h3, bind, Except.bind] at h
      | ok l3 =>
        cases h4 : fieldAny "lte" r.LTE with
        | error e => simp [h1, h2, h3, h4, bind, Except.bind] at h
        | ok l4 =>
          cases h5 : fieldFloat "boost" r.Boost with
          | error e => simp [h1, h2, h3, h4, h5, bind, Except.bind] at h
          | ok l5 =>
            simp only [h1, h2, h3, h4, h5, bind, Except.bind, pure, Except.pure,
              Except.ok.injEq] at h
            subst h
            simp only [JSON.Finite, finiteMembers_append, RangeRelation.MarshalTree]
            exact ⟨⟨⟨⟨⟨⟨⟨finite_fieldAny _ _ _ h1, finite_fieldAny _ _ _ h2⟩,
              finite_fieldAny _ _ _ h3⟩, finite_fieldAny _ _ _ h4⟩,
              finite_fieldFloat _ _ _ h5⟩, finite_fieldString _ _⟩, finite_enumMember _ _⟩,
              finite_fieldString _ _⟩

theorem finite_encodeMatch (m : Match) (j : JSON) (h : encodeMatch m = .ok j) : j.Finite := by
  unfold encodeMatch at h
  cases h1 : fieldAny "query" m.Query with
  | error e => simp [h1, bind, Except.bind] at h
  | ok l1 =>
    cases h2 : fieldFloat "boost" m.Boost with
    | error e => simp [h1, h2, bind, Except.bind] at h
    | ok l2 =>
      simp only [h1, h2, bind, Except.bind, pure, Except.pure, Except.ok.injEq] at h
      subst h
      simp only [JSON.Finite, finiteMembers_append, MatchOperator.MarshalTree,
        ZeroTermsQuery.MarshalTree]
      exact ⟨⟨⟨⟨⟨⟨⟨⟨⟨⟨finite_fieldAny _ _ _ h1, finite_enumMember _ _⟩,
        finite_fieldFloat _ _ _ h2⟩, finite_fieldBoolPtr _ _⟩, finite_fieldString _ _⟩,
        finite_fieldInt _ _⟩, finite_fieldBoolPtr _ _⟩, finite_enumMember _ _⟩,
        finite_fieldString _ _⟩, finite_fieldInt _ _⟩, finite_fieldString _ _⟩

theorem finite_encodeEntries {V : Type} (enc : V → Except MarshalError JSON)
    (henc : ∀ x j, enc x = .ok j → j.Finite) :
    ∀ (l : List (GoString × V)) (ms : List (GoString × JSON)),
      encodeEntries enc l = .ok ms → JSON.FiniteMembers ms
  | [], ms, h => by
    simp only [encodeEntries, Except.ok.injEq] at h
    subst h
    trivial
  | (k, x) :: rest, ms, h => by
    simp only [encodeEntries] at h
    cases hx : enc x with
    | error e => simp [hx] at h
    | ok j =>
      cases hr : encodeEntries enc rest with
      | error e => simp [hx, hr] at h
      | ok jr =>
        simp only [hx, hr, Except.ok.injEq] at h
        subst h
        exact ⟨henc x j hx, finite_encodeEntries enc henc rest jr hr⟩

theorem finite_fieldMap {V : Type} (enc : V → Except MarshalError JSON)
    (henc : ∀ x j, enc x = .ok j → j.Finite) (key : String) (m : Option (GoMap V))
    (l : List (GoString × JSON)) (h : fieldMap enc key m = .ok l) : JSON.FiniteMembers l := by
  cases m with
  | none =>
    simp only [fieldMap, Except.ok.injEq] at h
    subst h
    trivial
  | some m =>
    simp only [fieldMap] at h
    by_cases h0 : m.len = 0
    · simp only [h0, if_true, Except.ok.injEq] at h
      subst h
      trivial
    · simp only [h0, if_false] at h
      cases he : encodeEntries enc m.entries with
      | error e => simp [he] at h
      | ok ms =>
        simp only [he, Except.ok.injEq] at h
        subst h
        refine (finiteMembers_single _ _).2 ?_
        simp only [JSON.Finite]
        exact finite_encodeEntries enc henc _ _ he

theorem finite_fieldMatchAll (key : String) (ma : Option MatchAll)
    (l : List (GoString × JSON)) (h : fieldMatchAll key ma = .ok l) :
    JSON.FiniteMembers l := by
  cases ma with
  | none =>
    simp only [fieldMatchAll, Except.ok.injEq] at h
    subst h
    trivial
  | some ma =>
    simp only [fieldMatchAll] at h
    cases he : encodeMatchAll ma with
    | error e => simp [he] at h
    | ok j =>
      simp only [he, Except.ok.injEq] at h
      subst h
      exact (finiteMembers_single _ _).2 (finite_encodeMatchAll ma j he)

theorem finite_fieldMatchNone (key : String) (mn : Option MatchNone) :
    JSON.FiniteMembers (fieldMatchNone key mn) := by
  cases mn <;> simp [fieldMatchNone, encodeMatchNone, JSON.FiniteMembers, JSON.Finite]

theorem finite_fieldArray (key : String) (n : Nat) (js : List JSON)
    (h : JSON.FiniteElems js) : JSON.FiniteMembers (fieldArray key n js) := by
  unfold fieldArray
  split_ifs
  · trivial
  · exact (finiteMembers_single _ _).2 (by simpa only [JSON.Finite] using h)

mutual
theorem finite_encodeQuery : ∀ (q : Query) (j : JSON), encodeQuery q = .ok j → j.Finite
  | .mk ma mn b t m, j, h => by
    simp only [encodeQuery] at h
    cases h1 : fieldMatchAll "match_all" ma with
    | error e => simp [h1] at h
    | ok l1 =>
      cases h3 : encodeBoolPtr b with
      | error e => simp [h1, h3] at h
      | ok l3 =>
        cases h4 : fieldMap encodeTerm "term" t with
        | error e => simp [h1, h3, h4] at h
        | ok l4 =>
          cases h5 : fieldMap encodeMatch "match" m with
          | error e => simp [h1, h3, h4, h5] at h
          | ok l5 =>
            simp only [h1, h3, h4, h5, Except.ok.injEq] at h
            subst h
            simp only [JSON.Finite, finiteMembers_append]
            exact ⟨⟨⟨⟨finite_fieldMatchAll _ _ _ h1, finite_fieldMatchNone _ _⟩,
              finite_encodeBoolPtr b l3 h3⟩,
              finite_fieldMap encodeTerm finite_encodeTerm _ _ _ h4⟩,
              finite_fieldMap encodeMatch finite_encodeMatch _ _ _ h5⟩
theorem finite_encodeBoolPtr : ∀ (b : Option BoolQuery) (l : List (GoString × JSON)),
    encodeBoolPtr b = .ok l → JSON.FiniteMembers l
  | none, l, h => by
    simp only [encodeBoolPtr, Except.ok.injEq] at h
    subst h
    trivial
  | some b, l, h => by
    simp only [encodeBoolPtr] at h
    cases he : encodeBool b with
    | error e => simp [he] at h
    | ok j =>
      simp only [he, Except.ok.injEq] at h
      subst h
      exact (finiteMembers_single _ _).2 (finite_encodeBool b j he)
theorem finite_encodeBool : ∀ (b : BoolQuery) (j : JSON), encodeBool b = .ok j → j.Finite
  | .mk must mustNot should filter, j, h => by
    simp only [encodeBool] at h
    cases h1 : encodeQueryList must with
    | error e => simp [h1] at h
    | ok l1 =>
      cases h2 : encodeQueryList mustNot with
      | error e => simp [h1, h2] at h
      | ok l2 =>
        cases h3 : encodeQueryList should with
        | error e => simp [h1, h2, h3] at h
        | ok l3 =>
          cases h4 : encodeFilter filter with
          | error e => simp [h1, h2, h3, h4] at h
          | ok l4 =>
            simp only [h1, h2, h3, h4, Except.ok.injEq] at h
            subst h
            simp only [JSON.Finite, finiteMembers_append]
            exact ⟨⟨⟨finite_fieldArray _ _ _ (finite_encodeQueryList must l1 h1),
              finite_fieldArray _ _ _ (finite_encodeQueryList mustNot l2 h2)⟩,
              finite_fieldArray _ _ _ (finite_encodeQueryList should l3 h3)⟩,
              finite_encodeFilter filter l4 h4⟩
theorem finite_encodeFilter : ∀ (q : Option Query) (l : List (GoString × JSON)),
    encodeFilter q = .ok l → JSON.FiniteMembers l
  | none, l, h => by
    simp only [encodeFilter, Except.ok.injEq] at h
    subst h
    trivial
  | some q, l, h => by
    simp only [encodeFilter] at h
    cases he : encodeQuery q with
    | error e => simp [he] at h
    | ok j =>
      simp only [he, Except.ok.injEq] at h
      subst h
      exact (finiteMembers_single _ _).2 (finite_encodeQuery q j he)
theorem finite_encodeQueryList : ∀ (l : List (Option Query)) (js : List JSON),
    encodeQueryList l = .ok js → JSON.FiniteElems js
  | [], js, h => by
    simp only [encodeQueryList, Except.ok.injEq] at h
    subst h
    trivial
  | none :: rest, js, h => by
    simp only [encodeQueryList] at h
    cases hr : encodeQueryList rest with
    | error e => simp [hr] at h
    | ok jr =>
      simp only [hr, Except.ok.injEq] at h
      subst h
      exact ⟨trivial, finite_encodeQueryList rest jr hr⟩
  | some q :: rest, js, h => by
    simp only [encodeQueryList] at h
    cases hq : encodeQuery q with
    | error e => simp [hq] at h
    | ok j =>
      cases hr : encodeQueryList rest with
      | error e => simp [hq, hr] at h
      | ok jr =>
        simp only [hq, hr, Except.ok.injEq] at h
        subst h
        exact ⟨finite_encodeQuery q j hq, finite_encodeQueryList rest jr hr⟩
end

theorem finite_encodeSortList : ∀ (l : List (Option (List (GoString × Any)))) (js : List JSON),
    encodeSortList l = .ok js → JSON.FiniteElems js
  | [], js, h => by
    simp only [encodeSortList, Except.ok.injEq] at h
    subst h
    trivial
  | st :: rest, js, h => by
    simp only [encodeSortList] at h
    cases h1 : encodeSortEntry st with
    | error e => simp [h1, bind, Except.bind] at h
    | ok j =>
      cases h2 : encodeSortList rest with
      | error e => simp [h1, h2, bind, Except.bind] at h
      | ok jr =>
        simp only [h1, h2, bind, Except.bind, pure, Except.pure, Except.ok.injEq] at h
        subst h
        refine ⟨?_, finite_encodeSortList rest jr h2⟩
        cases st with
        | none =>
          simp only [encodeSortEntry, Except.ok.injEq] at h1
          subst h1
          trivial
        | some m =>
          simp only [encodeSortEntry] at h1
          cases he : encodeAnyEntries m with
          | error e => simp [he] at h1
          | ok ms =>
            simp only [he, Except.ok.injEq] at h1
            subst h1
            simp only [JSON.Finite]
            exact finite_encodeAnyEntries m ms he

theorem finite_fieldQuery (key : String) (q : Option Query) (l : List (GoString × JSON))
    (h : fieldQuery key q = .ok l) : JSON.FiniteMembers l := by
  cases q with
  | none =>
    simp only [fieldQuery, Except.ok.injEq] at h
    subst h
    trivial
  | some q =>
    simp only [fieldQuery] at h
    cases he : encodeQuery q with
    | error e => simp [he] at h
    | ok j =>
      simp only [he, Except.ok.injEq] at h
      subst h
      exact (finiteMembers_single _ _).2 (finite_encodeQuery q j he)

theorem finite_encodeSearch (s : Search) (j : JSON) (h : encodeSearch s = .ok j) :
    j.Finite := by
  unfold encodeSearch at h
  cases h1 : encodeSortList s.Sort_ with
  | error e => simp [h1, bind, Except.bind] at h
  | ok l1 =>
    cases h2 : fieldQuery "query" s.Query with
    | error e => simp [h1, h2, bind, Except.bind] at h
    | ok l2 =>
      cases h3 : fieldAny "_source" s.Source with
      | error e => simp [h1, h2, h3, bind, Except.bind] at h
      | ok l3 =>
        simp only [h1, h2, h3, bind, Except.bind, pure, Except.pure, Except.ok.injEq] at h
        subst h
        simp only [JSON.Finite, finiteMembers_append]
        exact ⟨⟨⟨finite_fieldInt _ _, finite_fieldArray _ _ _ (finite_encodeSortList _ _ h1)⟩,
          finite_fieldQuery _ _ _ h2⟩, finite_fieldAny _ _ _ h3⟩

theorem unmarshal_valid {T : Type} (ft : Float64 → List Byte) (hft : NumberTexts ft)
    (dec : JSON → T → Except UnmarshalError T) (j : JSON) (v : T) (hf : j.Finite)
    (hd : j.depth ≤ 10000) : Unmarshal ft dec j v = dec j v := by
  unfold Unmarshal
  rw [checkValid_render ft hft j hf hd]
  rfl

theorem depthMembers_append (a b : List (GoString × JSON)) :
    JSON.depthMembers (a ++ b) = max (JSON.depthMembers a) (JSON.depthMembers b) := by
  induction a with
  | nil => simp [JSON.depthMembers]
  | cons m rest ih =>
    obtain ⟨k, j⟩ := m
    simp [JSON.depthMembers, ih, max_assoc]

theorem depthMembers_optMember (key : String) (p : Bool) (v : JSON) (h : v.depth = 0) :
    JSON.depthMembers (optMember key p v) = 0 := by
  cases p <;> simp [optMember, JSON.depthMembers, h]

theorem depth_encodeTerm (t : Term) (j : JSON) (h : encodeTerm t = .ok j) : j.depth = 1 := by
  rw [encodeTerm_ok t j h]
  simp [JSON.depth, depthMembers_append, depthMembers_optMember]

theorem depth_encodeMatchAll (ma : MatchAll) (j : JSON) (h : encodeMatchAll ma = .ok j) :
    j.depth = 1 := by
  rw [encodeMatchAll_ok ma j h]
  simp [JSON.depth, depthMembers_optMember]

theorem depth_encodeSort (s : SortSpec) : (encodeSort s).depth = 1 := by
  simp [encodeSort, fieldString_eq, enumMember_eq, SortOrder.MarshalTree, SortMode.MarshalTree,
    JSON.depth, depthMembers_append, depthMembers_optMember]

theorem run_error (s : Scanner) (hs : s.step = .error) :
    ∀ (bs : List Byte), (Scanner.run s bs).step = .error := by
  intro bs
  induction bs generalizing s with
  | nil => exact hs
  | cons c rest ih =>
    rw [Scanner.run_cons]
    apply ih
    obtain ⟨st, e, ps⟩ := s
    simp only at hs
    subst hs
    rfl

theorem run_brackets : ∀ (k : Nat) (step0 : ScanStep), step0.starts = true →
    ∀ (e : Bool) (ps : List ParseState), ps.length ≤ 10000 → 10000 < ps.length + k →
      ∀ (post : List Byte),
        (Scanner.run ⟨step0, e, ps⟩ (List.replicate k 0x5B ++ post)).step = .error := by
  intro k
  induction k with
  | zero => intro _ _ _ ps h1 h2; omega
  | succ k ih =>
    intro step0 h0 e ps h1 h2 post
    rw [List.replicate_succ, List.cons_append, Scanner.run_cons]
    by_cases hl : ps.length + 1 ≤ 10000
    · rw [(next_open step0 h0 e ps hl).1]
      exact ih .beginValueOrEmpty rfl e (.arrayValue :: ps) (by simpa using hl)
        (by simp only [List.length_cons]; omega) post
    · apply run_error
      cases step0 <;> first
        | exact absurd h0 (by decide)
        | simp +decide [Scanner.next, Scanner.stateBeginValue, Scanner.push, isSpace, hl]

theorem render_deepArr (ft : Float64 → List Byte) : ∀ (n : Nat),
    (deepArr n).render ft = List.replicate (n + 1) 0x5B ++ List.replicate (n + 1) 0x5D
  | 0 => by simp [deepArr, JSON.render, JSON.renderElems]
  | n + 1 => by
    have ih := render_deepArr ft n
    simp only [deepArr, JSON.render, JSON.renderElems, ih]
    rw [List.replicate_succ (n := n + 1), List.replicate_succ' (n := n + 1) (a := (0x5D : Byte))]
    simp

theorem encodeAny_deepSlice : ∀ (n : Nat), encodeAny (deepSlice n) = .ok (deepArr n)
  | 0 => by simp [deepSlice, deepArr, encodeAny, encodeAnyList]
  | n + 1 => by
    have ih := encodeAny_deepSlice n
    simp [deepSlice, deepArr, encodeAny, encodeAnyList, ih]

theorem plain_deepSlice : ∀ (n : Nat), (deepSlice n).Plain
  | 0 => by simp [deepSlice, Any.Plain, Any.PlainList]
  | n + 1 => by
    have ih := plain_deepSlice n
    simp [deepSlice, Any.Plain, Any.PlainList, ih]

theorem encodeMatch_deep (n : Nat) :
    encodeMatch ((NewMatch []).SetQuery (deepSlice n))
      = .ok (.obj [(GoString.lit "query", deepArr n)]) := by
  have h : fieldAny "query" (deepSlice n) = .ok [(GoString.lit "query", deepArr n)] := by
    have := encodeAny_deepSlice n
    cases n <;> simp only [deepSlice] at this ⊢ <;> simp only [fieldAny, this]
  simp +decide [encodeMatch, NewMatch, applyOpts, Match.SetQuery, Match.zero, h, bind, Except.bind,
    pure, Except.pure, fieldFloat, fieldBoolPtr, fieldString, fieldInt, Float64.zero,
    Float64.isZero]

theorem render_deepObj (ft : Float64 → List Byte) (n : Nat) :
    JSON.render ft (.obj [(GoString.lit "query", deepArr n)])
      = GoString.lit "\x7b\"query\":" ++ (List.replicate (n + 1) 0x5B
          ++ (List.replicate (n + 1) 0x5D ++ [0x7D])) := by
  have h : appendString (GoString.lit "query") = GoString.lit "\"query\"" := by decide
  simp only [JSON.render, JSON.renderMembers, render_deepArr, h]
  simp only [List.append_assoc]
  rfl

theorem checkValid_deep (ft : Float64 → List Byte) :
    checkValid (JSON.render ft (.obj [(GoString.lit "query", deepArr 9999)])) = false := by
  have hs : (Scanner.run Scanner.reset (JSON.render ft (.obj [(GoString.lit "query",
      deepArr 9999)]))).step = .error := by
    rw [render_deepObj, Scanner.run_concat]
    have h1 : Scanner.run Scanner.reset (GoString.lit "\x7b\"query\":")
        = ⟨.beginValue, false, [.objectValue]⟩ := rfl
    rw [h1]
    exact run_brackets (9999 + 1) .beginValue rfl false [.objectValue] (by decide)
      (by decide) _
  unfold checkValid Scanner.eof
  change (if (Scanner.run Scanner.reset _).step = .error then _ else _) = _
  rw [if_pos hs]

theorem log2_big : Nat.log2 9007199254740993 = 53 := by
  have h1 : Nat.log2 9007199254740993 < 54 := (Nat.log2_lt (by decide)).2 (by norm_num)
  have h2 : 53 ≤ Nat.log2 9007199254740993 := (Nat.le_log2 (by decide)).2 (by norm_num)
  omega

theorem ofInt_big :
    Float64.ofInt? 9007199254740993 = some (.finite false 4503599627370496 1) := by
  have h0 : (9007199254740993 : Int).natAbs = 9007199254740993 := rfl
  have hk : Nat.log2 9007199254740993 + 1 - 53 = 1 := by rw [log2_big]
  unfold Float64.ofInt?
  simp only [h0, hk]
  norm_num

set_option maxRecDepth 100000 in
theorem big_render : ∀ ft : Float64 → List Byte,
    JSON.render ft (.obj [(GoString.lit "query", .num (.int 9007199254740993))])
      = GoString.lit "\x7b\"query\":9007199254740993\x7d" := fun _ => rfl

theorem decodeNumber_big : decodeNumber (.int 9007199254740993)
    = .ok (.finite false 4503599627370496 1) := by
  rw [decodeNumber.eq_1, ofInt_big]

theorem decodeAny_big : decodeAny (.num (.int 9007199254740993))
    = .ok (.float (.finite false 4503599627370496 1)) := by
  rw [decodeAny, decodeNumber_big]

theorem decodeMatchMember_big :
    decodeMatchMember Match.zero (GoString.lit "query") (.num (.int 9007199254740993))
      = .ok ((NewMatch []).SetQuery (.float (.finite false 4503599627370496 1))) := by
  unfold decodeMatchMember
  rw [fieldIndex_Match_query]
  unfold decodeAnyField
  rw [decodeAny_big]
  rfl

theorem bigInt_reread :
    decodeMatch (.obj [(GoString.lit "query", .num (.int 9007199254740993))]) Match.zero
      = .ok ((NewMatch []).SetQuery (.float (.finite false 4503599627370496 1))) := by
  show decodeMembers decodeMatchMember
    [(GoString.lit "query", .num (.int 9007199254740993))] Match.zero = _
  rw [decodeMembers, decodeMatchMember_big]
  rfl

/-! ## C5: the round trip -/

/-- C5 (as amended). For a value of `Term`, `Range`, `MatchAll`, `MatchNone`,
`Match`, `Bool`, `Query`, `Sort` or `Search` that `json.Marshal` encodes, that
is well-formed (its strings, map keys included, are well-formed UTF-8, its
`int` fields are 64-bit, and its untyped fields hold only nil, booleans,
integers of magnitude at most `2^53`, float64 values, strings, slices,
key-ascending maps of such values, and `Sort` values whose set fields are
written in ascending key order) and whose document nests at most 10000 deep,
`json.Unmarshal` of the document into a fresh value succeeds and encoding the
decoded value gives the same document tree, hence the same bytes.  The
documents of `Term`, `MatchAll`, `MatchNone` and `Sort` nest one deep, so the
bound on the depth holds of them.  `floatText` is the text `strconv` prints
for a float64; for a finite float64 it is a JSON number. -/
theorem roundtrip_wellformed (floatText : Float64 → List Byte)
    (hft : NumberTexts floatText) :
    (∀ t : Term, t.WF → ∀ j, encodeTerm t = .ok j →
        ∃ y, Unmarshal floatText decodeTerm j Term.zero = .ok y ∧ encodeTerm y = .ok j)
    ∧ (∀ r : Range, r.WF → ∀ j, encodeRange r = .ok j → j.depth ≤ 10000 →
        ∃ y, Unmarshal floatText decodeRange j Range.zero = .ok y ∧ encodeRange y = .ok j)
    ∧ (∀ ma : MatchAll, ∀ j, encodeMatchAll ma = .ok j →
        ∃ y, Unmarshal floatText decodeMatchAll j MatchAll.zero = .ok y
          ∧ encodeMatchAll y = .ok j)
    ∧ (∀ mn : MatchNone,
        ∃ y, Unmarshal floatText decodeMatchNone (encodeMatchNone mn) MatchNone.zero = .ok y
          ∧ encodeMatchNone y = encodeMatchNone mn)
    ∧ (∀ m : Match, m.WF → ∀ j, encodeMatch m = .ok j → j.depth ≤ 10000 →
        ∃ y, Unmarshal floatText decodeMatch j Match.zero = .ok y ∧ encodeMatch y = .ok j)
    ∧ (∀ b : BoolQuery, b.WF → ∀ j, encodeBool b = .ok j → j.depth ≤ 10000 →
        ∃ y, Unmarshal floatText decodeBool j BoolQuery.zero = .ok y ∧ encodeBool y = .ok j)
    ∧ (∀ q : Query, q.WF → ∀ j, encodeQuery q = .ok j → j.depth ≤ 10000 →
        ∃ y, Unmarshal floatText decodeQuery j Query.zero = .ok y ∧ encodeQuery y = .ok j)
    ∧ (∀ s : SortSpec, s.WF →
        ∃ y, Unmarshal floatText decodeSort (encodeSort s) SortSpec.zero = .ok y
          ∧ encodeSort y = encodeSort s)
    ∧ (∀ s : Search, s.WF → ∀ j, encodeSearch s = .ok j → j.depth ≤ 10000 →
        ∃ y, Unmarshal floatText decodeSearch j Search.zero = .ok y
          ∧ encodeSearch y = .ok j) := by
  refine ⟨?_, ?_, ?_, ?_, ?_, ?_, ?_, ?_, ?_⟩
  · intro t hw j h
    rw [unmarshal_valid floatText hft _ j _ (finite_encodeTerm t j h)
      (by rw [depth_encodeTerm t j h]; decide)]
    exact term_roundtrip t hw j h
  · intro r hw j h hd
    rw [unmarshal_valid floatText hft _ j _ (finite_encodeRange r j h) hd]
    exact range_roundtrip r hw j h
  · intro ma j h
    rw [unmarshal_valid floatText hft _ j _ (finite_encodeMatchAll ma j h)
      (by rw [depth_encodeMatchAll ma j h]; decide)]
    exact matchAll_roundtrip ma j h
  · intro mn
    rw [unmarshal_valid floatText hft _ _ _ (by simp [encodeMatchNone, JSON.Finite,
      JSON.FiniteMembers]) (by simp [encodeMatchNone, JSON.depth, JSON.depthMembers])]
    exact ⟨MatchNone.zero, (matchNone_roundtrip mn).1, (matchNone_roundtrip mn).2⟩
  · intro m hw j h hd
    rw [unmarshal_valid floatText hft _ j _ (finite_encodeMatch m j h) hd]
    exact match_roundtrip m hw j h
  · intro b hw j h hd
    rw [unmarshal_valid floatText hft _ j _ (finite_encodeBool b j h) hd]
    obtain ⟨ms, b', hj, hdec, hy⟩ := bool_roundtrip b hw j h
    subst hj
    exact ⟨b', by simpa only [decodeBool] using hdec, hy⟩
  · intro q hw j h hd
    rw [unmarshal_valid floatText hft _ j _ (finite_encodeQuery q j h) hd]
    obtain ⟨ms, q', hj, hdec, hy⟩ := query_roundtrip q hw j h
    subst hj
    exact ⟨q', by simpa only [decodeQuery] using hdec, hy⟩
  · intro s hw
    rw [unmarshal_valid floatText hft _ _ _ (finite_encodeSort s)
      (by rw [depth_encodeSort s]; decide)]
    exact ⟨s, sort_roundtrip s hw, rfl⟩
  · intro s hw j h hd
    rw [unmarshal_valid floatText hft _ j _ (finite_encodeSearch s j h) hd]
    exact search_roundtrip s hw j h

theorem isInt64_small (i : Int) (h : i.natAbs ≤ 2 ^ 53) : IsInt64 i := by
  have h1 : (i.natAbs : Int) ≤ 2 ^ 53 := by exact_mod_cast h
  have h2 : (2 : Int) ^ 53 < 2 ^ 63 := by norm_num
  constructor <;> omega

theorem plainSearch_wf : plainSearch.WF := by
  refine ⟨isInt64_small 5 (by decide), ⟨⟨⟨?_, trivial⟩, by decide,
    (by decide : validUTF8 (GoString.lit "asc") = true), trivial⟩, trivial⟩, ?_, trivial⟩
  · intro e he
    simp at he
  · refine ⟨trivial, trivial, ?_⟩
    exact ⟨by decide, ⟨(by decide : (7 : Int).natAbs ≤ 2 ^ 53), by decide, by decide,
      isInt64_small 0 (by decide), by decide, by decide, isInt64_small 0 (by decide),
      by decide⟩, trivial⟩

theorem deepMatch_wf : deepMatch.WF := by
  refine ⟨plain_deepSlice 9999, by decide, by decide, isInt64_small 0 (by decide), by decide,
    by decide, isInt64_small 0 (by decide), by decide⟩

set_option maxRecDepth 100000 in
/-- C5 at a concrete input: the search `plainSearch`, whose document is
`{"size":5,"sort":[{"date":"asc"}],"query":{"match":{"title":{"query":7,"operator":"AND"}}}}`.
The document holds no float64, so the text function does not matter; the one
used here prints `0`. -/
theorem roundtrip_wellformed_witness :
    NumberTexts (fun _ => [0x30])
      ∧ plainSearch.WF
      ∧ (∀ floatText, (encodeSearch plainSearch).map (JSON.render floatText) = .ok (GoString.lit
          "\x7b\"size\":5,\"sort\":[\x7b\"date\":\"asc\"\x7d],\"query\":\x7b\"match\":\x7b\"title\":\x7b\"query\":7,\"operator\":\"AND\"\x7d\x7d\x7d\x7d"))
      ∧ ∃ y, Unmarshal (fun _ => [0x30]) decodeSearch (.obj [(GoString.lit "size", .num (.int 5)),
            (GoString.lit "sort", .arr [.obj [(GoString.lit "date", .str (GoString.lit "asc"))]]),
            (GoString.lit "query", .obj [(GoString.lit "match", .obj [(GoString.lit "title",
              .obj [(GoString.lit "query", .num (.int 7)),
                (GoString.lit "operator", .str (GoString.lit "AND"))])])])]) Search.zero = .ok y
          ∧ encodeSearch y = encodeSearch plainSearch :=
  ⟨fun _ _ => rfl, plainSearch_wf, fun _ => rfl,
    (roundtrip_wellformed (fun _ => [0x30]) (fun _ _ => rfl)).2.2.2.2.2.2.2.2 plainSearch
      plainSearch_wf _ rfl (by decide)⟩

set_option maxRecDepth 100000 in
/-- C5 (as stated) fails, in three ways.

The search built by
`NewSearch().AddSort(map[string]any{"date": NewsSort().SetOrder(SortOrderAsc).SetMode(SortModeMin)})`
encodes as `{"sort":[{"date":{"order":"asc","mode":"min"}}]}`; decoding that
into a fresh `Search` succeeds, and encoding the decoded value gives
`{"sort":[{"date":{"mode":"min","order":"asc"}}]}`, a different document.

The Match built by `NewMatch().SetQuery(9007199254740993)` encodes as
`{"query":9007199254740993}`; decoding stores the nearest float64 in the
untyped field, and encoding the decoded value gives
`{"query":9007199254740992}`.

The Match `deepMatch`, whose query is 10000 nested slices, is well-formed and
encodes, to a document nested 10001 deep; `json.Unmarshal` refuses that
document with a syntax error. -/
theorem roundtrip_counterexample :
    (∃ j y j', encodeSearch sortedSearch = .ok j
      ∧ (∀ floatText, Unmarshal floatText decodeSearch j Search.zero = .ok y)
      ∧ encodeSearch y = .ok j'
      ∧ (∀ floatText, j.render floatText = GoString.lit
          "\x7b\"sort\":[\x7b\"date\":\x7b\"order\":\"asc\",\"mode\":\"min\"\x7d\x7d]\x7d")
      ∧ (∀ floatText, j'.render floatText = GoString.lit
          "\x7b\"sort\":[\x7b\"date\":\x7b\"mode\":\"min\",\"order\":\"asc\"\x7d\x7d]\x7d")
      ∧ ∀ floatText, j.render floatText ≠ j'.render floatText)
    ∧ (∃ j y j', encodeMatch bigIntMatch = .ok j
      ∧ (∀ floatText, Unmarshal floatText decodeMatch j Match.zero = .ok y)
      ∧ encodeMatch y = .ok j'
      ∧ (∀ floatText, j.render floatText = GoString.lit "\x7b\"query\":9007199254740993\x7d")
      ∧ (∀ floatText, j'.render floatText = GoString.lit "\x7b\"query\":9007199254740992\x7d"))
    ∧ (deepMatch.WF ∧ ∃ j, encodeMatch deepMatch = .ok j
      ∧ ∀ floatText, Unmarshal floatText decodeMatch j Match.zero = .error .syntaxError) := by
  refine ⟨?_, ?_, ?_⟩
  · refine ⟨.obj [(GoString.lit "sort", .arr [.obj [(GoString.lit "date",
        .obj [(GoString.lit "order", .str (GoString.lit "asc")),
          (GoString.lit "mode", .str (GoString.lit "min"))])]])],
      ⟨0, [some [(GoString.lit "date", .map [(GoString.lit "mode", .str (GoString.lit "min")),
        (GoString.lit "order", .str (GoString.lit "asc"))])]], none, .nil⟩,
      .obj [(GoString.lit "sort", .arr [.obj [(GoString.lit "date",
        .obj [(GoString.lit "mode", .str (GoString.lit "min")),
          (GoString.lit "order", .str (GoString.lit "asc"))])]])],
      rfl, fun _ => rfl, rfl, fun _ => rfl, fun _ => rfl, fun floatText => ?_⟩
    have h1 : ∀ ff, JSON.render ff (.obj [(GoString.lit "sort", .arr [.obj [(GoString.lit "date",
        .obj [(GoString.lit "order", .str (GoString.lit "asc")),
          (GoString.lit "mode", .str (GoString.lit "min"))])]])]) = GoString.lit
            "\x7b\"sort\":[\x7b\"date\":\x7b\"order\":\"asc\",\"mode\":\"min\"\x7d\x7d]\x7d" :=
      fun _ => rfl
    have h2 : ∀ ff, JSON.render ff (.obj [(GoString.lit "sort", .arr [.obj [(GoString.lit "date",
        .obj [(GoString.lit "mode", .str (GoString.lit "min")),
          (GoString.lit "order", .str (GoString.lit "asc"))])]])]) = GoString.lit
            "\x7b\"sort\":[\x7b\"date\":\x7b\"mode\":\"min\",\"order\":\"asc\"\x7d\x7d]\x7d" :=
      fun _ => rfl
    rw [h1, h2]
    decide
  · refine ⟨.obj [(GoString.lit "query", .num (.int 9007199254740993))],
      (NewMatch []).SetQuery (.float (.finite false 4503599627370496 1)),
      .obj [(GoString.lit "query", .num (.int 9007199254740992))],
      rfl, fun floatText => ?_, rfl, big_render, fun _ => rfl⟩
    unfold Unmarshal
    rw [big_render floatText, bigInt_reread]
    rfl
  · refine ⟨deepMatch_wf, _, encodeMatch_deep 9999, fun floatText => ?_⟩
    unfold Unmarshal
    rw [checkValid_deep floatText]
    rfl

/-! ## Keys and lookups -/

theorem mem_entryKeys_iff {V : Type} (k : GoString) (l : List (GoString × V)) :
    k ∈ entryKeys l ↔ (lookupEntry k l).isSome = true := by
  induction l with
  | nil => simp [entryKeys, lookupEntry]
  | cons hd tl ih =>
    obtain ⟨k', v'⟩ := hd
    by_cases h : k = k'
    · simp [entryKeys, lookupEntry, h]
    · simp only [entryKeys, List.map_cons, List.mem_cons, h, false_or, lookupEntry, if_false]
      exact ih

theorem hasKey_obj_iff (members : List (GoString × JSON)) (k : GoString) :
    (JSON.obj members).hasKey k ↔ (lookupEntry k members).isSome = true :=
  mem_entryKeys_iff k members

theorem keysAscending_nodup {V : Type} (l : List (GoString × V)) (h : KeysAscending l) :
    (entryKeys l).Nodup := by
  induction l with
  | nil => exact List.nodup_nil
  | cons hd tl ih =>
    obtain ⟨hb, ht⟩ := h
    refine List.nodup_cons.2 ⟨?_, ih ht⟩
    intro hmem
    obtain ⟨e, he, hk⟩ := List.mem_map.1 hmem
    have := hb e he
    rw [hk] at this
    exact lt_irrefl _ this

theorem lookupEntry_none_of_keyBelow {V : Type} (k : GoString) (l : List (GoString × V))
    (h : KeyBelow k l) : lookupEntry k l = none := by
  have h0 : ¬ k ∈ entryKeys l := by
    intro hmem
    obtain ⟨e, he, hk⟩ := List.mem_map.1 hmem
    have := h e he
    rw [hk] at this
    exact lt_irrefl _ this
  rw [mem_entryKeys_iff] at h0
  cases hl : lookupEntry k l with
  | none => rfl
  | some v => simp [hl] at h0

/-- Two key-ascending entry lists that answer every lookup alike are equal. -/
theorem entries_ext_lookup {V : Type} : ∀ (l1 l2 : List (GoString × V)),
    KeysAscending l1 → KeysAscending l2 →
    (∀ k, lookupEntry k l1 = lookupEntry k l2) → l1 = l2
  | [], [], _, _, _ => rfl
  | [], (k, v) :: tl, _, _, h => by
    have := h k
    simp [lookupEntry] at this
  | (k, v) :: tl, [], _, _, h => by
    have := h k
    simp [lookupEntry] at this
  | (k1, v1) :: t1, (k2, v2) :: t2, h1, h2, h => by
    have hk : k1 = k2 := by
      rcases lt_trichotomy k1 k2 with hlt | heq | hgt
      · exfalso
        have hb : KeyBelow k1 ((k2, v2) :: t2) := by
          intro e he
          rcases List.mem_cons.1 he with rfl | he
          · exact hlt
          · exact lt_trans hlt (h2.1 e he)
        have h0 := lookupEntry_none_of_keyBelow k1 _ hb
        rw [← h k1] at h0
        simp [lookupEntry] at h0
      · exact heq
      · exfalso
        have hb : KeyBelow k2 ((k1, v1) :: t1) := by
          intro e he
          rcases List.mem_cons.1 he with rfl | he
          · exact hgt
          · exact lt_trans hgt (h1.1 e he)
        have h0 := lookupEntry_none_of_keyBelow k2 _ hb
        rw [h k2] at h0
        simp [lookupEntry] at h0
    subst hk
    have hv : v1 = v2 := by
      have := h k1
      simpa [lookupEntry] using this
    subst hv
    have ht : t1 = t2 := by
      apply entries_ext_lookup t1 t2 h1.2 h2.2
      intro k
      by_cases hkk : k = k1
      · subst hkk
        rw [lookupEntry_none_of_keyBelow k t1 h1.1, lookupEntry_none_of_keyBelow k t2 h2.1]
      · have := h k
        simpa [lookupEntry, hkk] using this
    rw [ht]

theorem GoMap.ext_get? {V : Type} (m1 m2 : GoMap V) (h : ∀ k, m1.get? k = m2.get? k) :
    m1 = m2 :=
  GoMap.ext_entries _ _ (entries_ext_lookup _ _ m1.ascending m2.ascending h)

/-- The number of entries of a map whose keys are exactly those of a
duplicate-free list. -/
theorem GoMap.len_of_keys {V : Type} (m : GoMap V) (ks : List GoString) (hn : ks.Nodup)
    (h : ∀ k, (m.get? k).isSome = true ↔ k ∈ ks) : m.len = ks.length := by
  have hp : (entryKeys m.entries).Perm ks := by
    rw [List.perm_ext_iff_of_nodup (keysAscending_nodup _ m.ascending) hn]
    intro k
    rw [mem_entryKeys_iff]
    exact h k
  have := hp.length_eq
  simpa [entryKeys, GoMap.len] using this

/-! ## Builders -/

theorem applyOpts_nil {T : Type} (zero : T) : applyOpts zero [] = zero := rfl

theorem applyOpts_append {T : Type} (zero : T) (opts : List (T → T)) (f : T → T) :
    applyOpts zero (opts ++ [f]) = f (applyOpts zero opts) := by
  simp [applyOpts, List.foldl_append]

/-! ## C14: the builders -/

/-- C14. Every builder is a total function of its list of configuration
functions: with no function it returns the zero-valued record, and with the
functions `f1, ..., fn, f` it returns `f` applied to what it returns for
`f1, ..., fn`; so the result is the zero-valued record with `f1`, then `f2`,
..., then `fn` applied to it, in list order (the left fold of application
over the list, from the zero-valued record). -/
theorem builders_apply_in_order :
    (NewBool [] = BoolQuery.zero
      ∧ (∀ opts f, NewBool (opts ++ [f]) = f (NewBool opts))
      ∧ ∀ opts, NewBool opts = opts.foldl (fun x f => f x) BoolQuery.zero)
    ∧ (NewTerm [] = Term.zero
      ∧ (∀ opts f, NewTerm (opts ++ [f]) = f (NewTerm opts))
      ∧ ∀ opts, NewTerm opts = opts.foldl (fun x f => f x) Term.zero)
    ∧ (NewRange [] = Range.zero
      ∧ (∀ opts f, NewRange (opts ++ [f]) = f (NewRange opts))
      ∧ ∀ opts, NewRange opts = opts.foldl (fun x f => f x) Range.zero)
    ∧ (NewMatchAll [] = MatchAll.zero
      ∧ (∀ opts f, NewMatchAll (opts ++ [f]) = f (NewMatchAll opts))
      ∧ ∀ opts, NewMatchAll opts = opts.foldl (fun x f => f x) MatchAll.zero)
    ∧ (NewMatchNone [] = MatchNone.zero
      ∧ (∀ opts f, NewMatchNone (opts ++ [f]) = f (NewMatchNone opts))
      ∧ ∀ opts, NewMatchNone opts = opts.foldl (fun x f => f x) MatchNone.zero)
    ∧ (NewMatch [] = Match.zero
      ∧ (∀ opts f, NewMatch (opts ++ [f]) = f (NewMatch opts))
      ∧ ∀ opts, NewMatch opts = opts.foldl (fun x f => f x) Match.zero)
    ∧ (NewQuery [] = Query.zero
      ∧ (∀ opts f, NewQuery (opts ++ [f]) = f (NewQuery opts))
      ∧ ∀ opts, NewQuery opts = opts.foldl (fun x f => f x) Query.zero)
    ∧ (NewsSort [] = SortSpec.zero
      ∧ (∀ opts f, NewsSort (opts ++ [f]) = f (NewsSort opts))
      ∧ ∀ opts, NewsSort opts = opts.foldl (fun x f => f x) SortSpec.zero)
    ∧ (NewSearch [] = Search.zero
      ∧ (∀ opts f, NewSearch (opts ++ [f]) = f (NewSearch opts))
      ∧ ∀ opts, NewSearch opts = opts.foldl (fun x f => f x) Search.zero) :=
  ⟨⟨rfl, applyOpts_append _, fun _ => rfl⟩,
   ⟨rfl, applyOpts_append _, fun _ => rfl⟩,
   ⟨rfl, applyOpts_append _, fun _ => rfl⟩,
   ⟨rfl, applyOpts_append _, fun _ => rfl⟩,
   ⟨rfl, applyOpts_append _, fun _ => rfl⟩,
   ⟨rfl, applyOpts_append _, fun _ => rfl⟩,
   ⟨rfl, applyOpts_append _, fun _ => rfl⟩,
   ⟨rfl, applyOpts_append _, fun _ => rfl⟩,
   ⟨rfl, applyOpts_append _, fun _ => rfl⟩⟩

/-! ## C15: the setters of `Search` -/

/-- C15. For every Search `s`: `SetSize(n)` makes `Size` equal to `n`,
`SetQuery(q)` makes `Query` equal to `q`, `SetSource(sc)` makes `Source` equal
to `sc`, each leaving the three other fields as they were; `AddSort(m)` makes
`Sort` the previous sequence followed by `m` (one element longer, `m` last,
every previous element at its index) and leaves `Size`, `Query` and `Source`
as they were. -/
theorem search_setters_frame (s : Search) (n : Int) (q : Option Query) (sc : Any)
    (m : Option (List (GoString × Any))) :
    ((s.SetSize n).Size = n ∧ (s.SetSize n).Sort_ = s.Sort_
        ∧ (s.SetSize n).Query = s.Query ∧ (s.SetSize n).Source = s.Source)
    ∧ ((s.SetQuery q).Query = q ∧ (s.SetQuery q).Size = s.Size
        ∧ (s.SetQuery q).Sort_ = s.Sort_ ∧ (s.SetQuery q).Source = s.Source)
    ∧ ((s.SetSource sc).Source = sc ∧ (s.SetSource sc).Size = s.Size
        ∧ (s.SetSource sc).Sort_ = s.Sort_ ∧ (s.SetSource sc).Query = s.Query)
    ∧ ((s.AddSort m).Sort_ = s.Sort_ ++ [m]
        ∧ (s.AddSort m).Sort_.length = s.Sort_.length + 1
        ∧ (s.AddSort m).Sort_.getLast? = some m
        ∧ (∀ i, i < s.Sort_.length → (s.AddSort m).Sort_[i]? = s.Sort_[i]?)
        ∧ (s.AddSort m).Size = s.Size ∧ (s.AddSort m).Query = s.Query
        ∧ (s.AddSort m).Source = s.Source) := by
  refine ⟨⟨rfl, rfl, rfl, rfl⟩, ⟨rfl, rfl, rfl, rfl⟩, ⟨rfl, rfl, rfl, rfl⟩,
    rfl, ?_, ?_, ?_, rfl, rfl, rfl⟩
  · simp [Search.AddSort]
  · simp [Search.AddSort]
  · intro i hi
    simp [Search.AddSort, List.getElem?_append_left hi]

/-! ## C20: the sequences of `Bool` only grow -/

/-- C20. For every Bool `b` and query pointer `q` (nil, or one the sequence
already holds, included): `AddMust(q)` makes `Must` the previous sequence
followed by `q`, so it is one element longer and the previous sequence is a
prefix of it, and leaves `MustNot`, `Should` and `Filter` as they were;
likewise `AddMustNot` for `MustNot` and `AddShould` for `Should`. -/
theorem bool_add_appends (b : BoolQuery) (q : Option Query) :
    ((b.AddMust q).Must = b.Must ++ [q]
        ∧ (b.AddMust q).Must.length = b.Must.length + 1
        ∧ b.Must <+: (b.AddMust q).Must
        ∧ (b.AddMust q).MustNot = b.MustNot ∧ (b.AddMust q).Should = b.Should
        ∧ (b.AddMust q).Filter = b.Filter)
    ∧ ((b.AddMustNot q).MustNot = b.MustNot ++ [q]
        ∧ (b.AddMustNot q).MustNot.length = b.MustNot.length + 1
        ∧ b.MustNot <+: (b.AddMustNot q).MustNot
        ∧ (b.AddMustNot q).Must = b.Must ∧ (b.AddMustNot q).Should = b.Should
        ∧ (b.AddMustNot q).Filter = b.Filter)
    ∧ ((b.AddShould q).Should = b.Should ++ [q]
        ∧ (b.AddShould q).Should.length = b.Should.length + 1
        ∧ b.Should <+: (b.AddShould q).Should
        ∧ (b.AddShould q).Must = b.Must ∧ (b.AddShould q).MustNot = b.MustNot
        ∧ (b.AddShould q).Filter = b.Filter) := by
  obtain ⟨must, mustNot, should, filter⟩ := b
  refine ⟨⟨rfl, ?_, ?_, rfl, rfl, rfl⟩, ⟨rfl, ?_, ?_, rfl, rfl, rfl⟩,
    ⟨rfl, ?_, ?_, rfl, rfl, rfl⟩⟩ <;>
  simp [BoolQuery.AddMust, BoolQuery.AddMustNot, BoolQuery.AddShould, BoolQuery.Must,
    BoolQuery.MustNot, BoolQuery.Should]

/-! ## C18: what the keyed setters leave alone -/

/-- C18. For every Query `q`, field `f`, Term `t` and Match `m`: `SetTerm(f,
t)` leaves `MatchAll`, `MatchNone`, `Bool` and the Match collection as they
were; afterwards the Term collection is allocated, holds `t` for `f`, and
holds for every other field what it held before (nothing, when it held
nothing or was nil).  `SetMatch(f, m)` does the same with the roles of the
two collections exchanged. -/
theorem keyed_setters_frame (q : Query) (f : GoString) (t : Term) (m : Match) :
    ((q.SetTerm f t).MatchAll = q.MatchAll ∧ (q.SetTerm f t).MatchNone = q.MatchNone
        ∧ (q.SetTerm f t).Bool = q.Bool ∧ (q.SetTerm f t).Match = q.Match
        ∧ ∃ tm, (q.SetTerm f t).Term = some tm ∧ tm.get? f = some t
          ∧ ∀ g, g ≠ f → tm.get? g = (allocated q.Term).get? g)
    ∧ ((q.SetMatch f m).MatchAll = q.MatchAll ∧ (q.SetMatch f m).MatchNone = q.MatchNone
        ∧ (q.SetMatch f m).Bool = q.Bool ∧ (q.SetMatch f m).Term = q.Term
        ∧ ∃ mm, (q.SetMatch f m).Match = some mm ∧ mm.get? f = some m
          ∧ ∀ g, g ≠ f → mm.get? g = (allocated q.Match).get? g) := by
  obtain ⟨qa, qn, qb, qt, qm⟩ := q
  exact ⟨⟨rfl, rfl, rfl, rfl, _, rfl, GoMap.get?_set_same _ _ _,
      fun g hg => GoMap.get?_set_other _ _ _ _ hg⟩,
    ⟨rfl, rfl, rfl, rfl, _, rfl, GoMap.get?_set_same _ _ _,
      fun g hg => GoMap.get?_set_other _ _ _ _ hg⟩⟩

/-- C18 at a concrete input: a query holding a Term for `a` and a Match for
`a`; `SetTerm("b", ...)` and `SetMatch("b", ...)` leave the entries of `a`. -/
theorem keyed_setters_frame_witness :
    GoString.lit "a" ≠ GoString.lit "b"
    ∧ (∃ tm, ((((NewQuery []).SetTerm (GoString.lit "a") (Term.zero.SetValue (GoString.lit "x"))
          ).SetMatch (GoString.lit "a") Match.zero).SetTerm (GoString.lit "b") Term.zero).Term
            = some tm
        ∧ tm.get? (GoString.lit "a") = some (Term.zero.SetValue (GoString.lit "x"))) := by
  have h := (keyed_setters_frame (((NewQuery []).SetTerm (GoString.lit "a")
    (Term.zero.SetValue (GoString.lit "x"))).SetMatch (GoString.lit "a") Match.zero)
    (GoString.lit "b") Term.zero Match.zero).1.2.2.2.2
  obtain ⟨tm, h1, _, h3⟩ := h
  exact ⟨by decide, tm, h1, by rw [h3 _ (by decide)]; rfl⟩

/-! ## C16: the algebra of the plain setters -/

set_option maxRecDepth 100000 in
/-- C16. On `Term`, `Range`, `MatchAll`, `Match`, `Sort`, on the fields `Size`,
`Query` and `Source` of `Search`, on the slots `MatchAll`, `MatchNone` and
`Bool` of `Query` and on the filter of `Bool`: a setter called with `v1` and
then with `v2` leaves the record that one call with `v2` leaves, and two
setters of different fields commute.  One block per record: first the
overwrite law of each setter, then the commutation law of each pair. -/
theorem setters_overwrite_and_commute :
    ((∀ (t : Term) (v1 v2 : GoString), (t.SetValue v1).SetValue v2 = t.SetValue v2)
      ∧ (∀ (t : Term) (v1 v2 : Float64), (t.SetBoost v1).SetBoost v2 = t.SetBoost v2)
      ∧ (∀ (t : Term) (v1 v2 : Bool), (t.SetCaseSensitivity v1).SetCaseSensitivity v2 = t.SetCaseSensitivity v2)
      ∧ (∀ (t : Term) (v : GoString) (w : Float64),
        (t.SetValue v).SetBoost w = (t.SetBoost w).SetValue v)
      ∧ (∀ (t : Term) (v : GoString) (w : Bool),
        (t.SetValue v).SetCaseSensitivity w = (t.SetCaseSensitivity w).SetValue v)
      ∧ (∀ (t : Term) (v : Float64) (w : Bool),
        (t.SetBoost v).SetCaseSensitivity w = (t.SetCaseSensitivity w).SetBoost v))
    ∧
    ((∀ (r : Range) (v1 v2 : Any), (r.SetGT v1).SetGT v2 = r.SetGT v2)
      ∧ (∀ (r : Range) (v1 v2 : Any), (r.SetGTE v1).SetGTE v2 = r.SetGTE v2)
      ∧ (∀ (r : Range) (v1 v2 : Any), (r.SetLT v1).SetLT v2 = r.SetLT v2)
      ∧ (∀ (r : Range) (v1 v2 : Any), (r.SetLTE v1).SetLTE v2 = r.SetLTE v2)
      ∧ (∀ (r : Range) (v1 v2 : Float64), (r.SetBoost v1).SetBoost v2 = r.SetBoost v2)
      ∧ (∀ (r : Range) (v1 v2 : GoString), (r.SetFormat v1).SetFormat v2 = r.SetFormat v2)
      ∧ (∀ (r : Range) (v1 v2 : RangeRelation), (r.SetRelation v1).SetRelation v2 = r.SetRelation v2)
      ∧ (∀ (r : Range) (v1 v2 : GoString), (r.SetTimeZone v1).SetTimeZone v2 = r.SetTimeZone v2)
      ∧ (∀ (r : Range) (v : Any) (w : Any),
        (r.SetGT v).SetGTE w = (r.SetGTE w).SetGT v)
      ∧ (∀ (r : Range) (v : Any) (w : Any),
        (r.SetGT v).SetLT w = (r.SetLT w).SetGT v)
      ∧ (∀ (r : Range) (v : Any) (w : Any),
        (r.SetGT v).SetLTE w = (r.SetLTE w).SetGT v)
      ∧ (∀ (r : Range) (v : Any) (w : Float64),
        (r.SetGT v).SetBoost w = (r.SetBoost w).SetGT v)
      ∧ (∀ (r : Range) (v : Any) (w : GoString),
        (r.SetGT v).SetFormat w = (r.SetFormat w).SetGT v)
      ∧ (∀ (r : Range) (v : Any) (w : RangeRelation),
        (r.SetGT v).SetRelation w = (r.SetRelation w).SetGT v)
      ∧ (∀ (r : Range) (v : Any) (w : GoString),
        (r.SetGT v).SetTimeZone w = (r.SetTimeZone w).SetGT v)
      ∧ (∀ (r : Range) (v : Any) (w : Any),
        (r.SetGTE v).SetLT w = (r.SetLT w).SetGTE v)
      ∧ (∀ (r : Range) (v : Any) (w : Any),
        (r.SetGTE v).SetLTE w = (r.SetLTE w).SetGTE v)
      ∧ (∀ (r : Range) (v : Any) (w : Float64),
        (r.SetGTE v).SetBoost w = (r.SetBoost w).SetGTE v)
      ∧ (∀ (r : Range) (v : Any) (w : GoString),
        (r.SetGTE v).SetFormat w = (r.SetFormat w).SetGTE v)
      ∧ (∀ (r : Range) (v : Any) (w : RangeRelation),
        (r.SetGTE v).SetRelation w = (r.SetRelation w).SetGTE v)
      ∧ (∀ (r : Range) (v : Any) (w : GoString),
        (r.SetGTE v).SetTimeZone w = (r.SetTimeZone w).SetGTE v)
      ∧ (∀ (r : Range) (v : Any) (w : Any),
        (r.SetLT v).SetLTE w = (r.SetLTE w).SetLT v)
      ∧ (∀ (r : Range) (v : Any) (w : Float64),
        (r.SetLT v).SetBoost w = (r.SetBoost w).SetLT v)
      ∧ (∀ (r : Range) (v : Any) (w : GoString),
        (r.SetLT v).SetFormat w = (r.SetFormat w).SetLT v)
      ∧ (∀ (r : Range) (v : Any) (w : RangeRelation),
        (r.SetLT v).SetRelation w = (r.SetRelation w).SetLT v)
      ∧ (∀ (r : Range) (v : Any) (w : GoString),
        (r.SetLT v).SetTimeZone w = (r.SetTimeZone w).SetLT v)
      ∧ (∀ (r : Range) (v : Any) (w : Float64),
        (r.SetLTE v).SetBoost w = (r.SetBoost w).SetLTE v)
      ∧ (∀ (r : Range) (v : Any) (w : GoString),
        (r.SetLTE v).SetFormat w = (r.SetFormat w).SetLTE v)
      ∧ (∀ (r : Range) (v : Any) (w : RangeRelation),
        (r.SetLTE v).SetRelation w = (r.SetRelation w).SetLTE v)
      ∧ (∀ (r : Range) (v : Any) (w : GoString),
        (r.SetLTE v).SetTimeZone w = (r.SetTimeZone w).SetLTE v)
      ∧ (∀ (r : Range) (v : Float64) (w : GoString),
        (r.SetBoost v).SetFormat w = (r.SetFormat w).SetBoost v)
      ∧ (∀ (r : Range) (v : Float64) (w : RangeRelation),
        (r.SetBoost v).SetRelation w = (r.SetRelation w).SetBoost v)
      ∧ (∀ (r : Range) (v : Float64) (w : GoString),
        (r.SetBoost v).SetTimeZone w = (r.SetTimeZone w).SetBoost v)
      ∧ (∀ (r : Range) (v : GoString) (w : RangeRelation),
        (r.SetFormat v).SetRelation w = (r.SetRelation w).SetFormat v)
      ∧ (∀ (r : Range) (v : GoString) (w : GoString),
        (r.SetFormat v).SetTimeZone w = (r.SetTimeZone w).SetFormat v)
      ∧ (∀ (r : Range) (v : RangeRelation) (w : GoString),
        (r.SetRelation v).SetTimeZone w = (r.SetTimeZone w).SetRelation v))
    ∧
    ((∀ (ma : MatchAll) (v1 v2 : Float64), (ma.SetBoost v1).SetBoost v2 = ma.SetBoost v2))
    ∧
    ((∀ (m : Match) (v1 v2 : Any), (m.SetQuery v1).SetQuery v2 = m.SetQuery v2)
      ∧ (∀ (m : Match) (v1 v2 : MatchOperator), (m.SetOperator v1).SetOperator v2 = m.SetOperator v2)
      ∧ (∀ (m : Match) (v1 v2 : Float64), (m.SetBoost v1).SetBoost v2 = m.SetBoost v2)
      ∧ (∀ (m : Match) (v1 v2 : Bool), (m.SetFuzzyTransposition v1).SetFuzzyTransposition v2 = m.SetFuzzyTransposition v2)
      ∧ (∀ (m : Match) (v1 v2 : GoString), (m.SetFuzzyRewrite v1).SetFuzzyRewrite v2 = m.SetFuzzyRewrite v2)
      ∧ (∀ (m : Match) (v1 v2 : Int), (m.SetMaxExpansions v1).SetMaxExpansions v2 = m.SetMaxExpansions v2)
      ∧ (∀ (m : Match) (v1 v2 : Bool), (m.SetLenient v1).SetLenient v2 = m.SetLenient v2)
      ∧ (∀ (m : Match) (v1 v2 : ZeroTermsQuery), (m.SetZeroTermsQuery v1).SetZeroTermsQuery v2 = m.SetZeroTermsQuery v2)
      ∧ (∀ (m : Match) (v1 v2 : GoString), (m.SetFuzziness v1).SetFuzziness v2 = m.SetFuzziness v2)
      ∧ (∀ (m : Match) (v1 v2 : Int), (m.SetPrefixLength v1).SetPrefixLength v2 = m.SetPrefixLength v2)
      ∧ (∀ (m : Match) (v1 v2 : GoString), (m.SetMinimumShouldMatch v1).SetMinimumShouldMatch v2 = m.SetMinimumShouldMatch v2)
      ∧ (∀ (m : Match) (v : Any) (w : MatchOperator),
        (m.SetQuery v).SetOperator w = (m.SetOperator w).SetQuery v)
      ∧ (∀ (m : Match) (v : Any) (w : Float64),
        (m.SetQuery v).SetBoost w = (m.SetBoost w).SetQuery v)
      ∧ (∀ (m : Match) (v : Any) (w : Bool),
        (m.SetQuery v).SetFuzzyTransposition w = (m.SetFuzzyTransposition w).SetQuery v)
      ∧ (∀ (m : Match) (v : Any) (w : GoString),
        (m.SetQuery v).SetFuzzyRewrite w = (m.SetFuzzyRewrite w).SetQuery v)
      ∧ (∀ (m : Match) (v : Any) (w : Int),
        (m.SetQuery v).SetMaxExpansions w = (m.SetMaxExpansions w).SetQuery v)
      ∧ (∀ (m : Match) (v : Any) (w : Bool),
        (m.SetQuery v).SetLenient w = (m.SetLenient w).SetQuery v)
      ∧ (∀ (m : Match) (v : Any) (w : ZeroTermsQuery),
        (m.SetQuery v).SetZeroTermsQuery w = (m.SetZeroTermsQuery w).SetQuery v)
      ∧ (∀ (m : Match) (v : Any) (w : GoString),
        (m.SetQuery v).SetFuzziness w = (m.SetFuzziness w).SetQuery v)
      ∧ (∀ (m : Match) (v : Any) (w : Int),
        (m.SetQuery v).SetPrefixLength w = (m.SetPrefixLength w).SetQuery v)
      ∧ (∀ (m : Match) (v : Any) (w : GoString),
        (m.SetQuery v).SetMinimumShouldMatch w = (m.SetMinimumShouldMatch w).SetQuery v)
      ∧ (∀ (m : Match) (v : MatchOperator) (w : Float64),
        (m.SetOperator v).SetBoost w = (m.SetBoost w).SetOperator v)
      ∧ (∀ (m : Match) (v : MatchOperator) (w : Bool),
        (m.SetOperator v).SetFuzzyTransposition w = (m.SetFuzzyTransposition w).SetOperator v)
      ∧ (∀ (m : Match) (v : MatchOperator) (w : GoString),
        (m.SetOperator v).SetFuzzyRewrite w = (m.SetFuzzyRewrite w).SetOperator v)
      ∧ (∀ (m : Match) (v : MatchOperator) (w : Int),
        (m.SetOperator v).SetMaxExpansions w = (m.SetMaxExpansions w).SetOperator v)
      ∧ (∀ (m : Match) (v : MatchOperator) (w : Bool),
        (m.SetOperator v).SetLenient w = (m.SetLenient w).SetOperator v)
      ∧ (∀ (m : Match) (v : MatchOperator) (w : ZeroTermsQuery),
        (m.SetOperator v).SetZeroTermsQuery w = (m.SetZeroTermsQuery w).SetOperator v)
      ∧ (∀ (m : Match) (v : MatchOperator) (w : GoString),
        (m.SetOperator v).SetFuzziness w = (m.SetFuzziness w).SetOperator v)
      ∧ (∀ (m : Match) (v : MatchOperator) (w : Int),
        (m.SetOperator v).SetPrefixLength w = (m.SetPrefixLength w).SetOperator v)
      ∧ (∀ (m : Match) (v : MatchOperator) (w : GoString),
        (m.SetOperator v).SetMinimumShouldMatch w = (m.SetMinimumShouldMatch w).SetOperator v)
      ∧ (∀ (m : Match) (v : Float64) (w : Bool),
        (m.SetBoost v).SetFuzzyTransposition w = (m.SetFuzzyTransposition w).SetBoost v)
      ∧ (∀ (m : Match) (v : Float64) (w : GoString),
        (m.SetBoost v).SetFuzzyRewrite w = (m.SetFuzzyRewrite w).SetBoost v)
      ∧ (∀ (m : Match) (v : Float64) (w : Int),
        (m.SetBoost v).SetMaxExpansions w = (m.SetMaxExpansions w).SetBoost v)
      ∧ (∀ (m : Match) (v : Float64) (w : Bool),
        (m.SetBoost v).SetLenient w = (m.SetLenient w).SetBoost v)
      ∧ (∀ (m : Match) (v : Float64) (w : ZeroTermsQuery),
        (m.SetBoost v).SetZeroTermsQuery w = (m.SetZeroTermsQuery w).SetBoost v)
      ∧ (∀ (m : Match) (v : Float64) (w : GoString),
        (m.SetBoost v).SetFuzziness w = (m.SetFuzziness w).SetBoost v)
      ∧ (∀ (m : Match) (v : Float64) (w : Int),
        (m.SetBoost v).SetPrefixLength w = (m.SetPrefixLength w).SetBoost v)
      ∧ (∀ (m : Match) (v : Float64) (w : GoString),
        (m.SetBoost v).SetMinimumShouldMatch w = (m.SetMinimumShouldMatch w).SetBoost v)
      ∧ (∀ (m : Match) (v : Bool) (w : GoString),
        (m.SetFuzzyTransposition v).SetFuzzyRewrite w = (m.SetFuzzyRewrite w).SetFuzzyTransposition v)
      ∧ (∀ (m : Match) (v : Bool) (w : Int),
        (m.SetFuzzyTransposition v).SetMaxExpansions w = (m.SetMaxExpansions w).SetFuzzyTransposition v)
      ∧ (∀ (m : Match) (v : Bool) (w : Bool),
        (m.SetFuzzyTransposition v).SetLenient w = (m.SetLenient w).SetFuzzyTransposition v)
      ∧ (∀ (m : Match) (v : Bool) (w : ZeroTermsQuery),
        (m.SetFuzzyTransposition v).SetZeroTermsQuery w = (m.SetZeroTermsQuery w).SetFuzzyTransposition v)
      ∧ (∀ (m : Match) (v : Bool) (w : GoString),
        (m.SetFuzzyTransposition v).SetFuzziness w = (m.SetFuzziness w).SetFuzzyTransposition v)
      ∧ (∀ (m : Match) (v : Bool) (w : Int),
        (m.SetFuzzyTransposition v).SetPrefixLength w = (m.SetPrefixLength w).SetFuzzyTransposition v)
      ∧ (∀ (m : Match) (v : Bool) (w : GoString),
        (m.SetFuzzyTransposition v).SetMinimumShouldMatch w = (m.SetMinimumShouldMatch w).SetFuzzyTransposition v)
      ∧ (∀ (m : Match) (v : GoString) (w : Int),
        (m.SetFuzzyRewrite v).SetMaxExpansions w = (m.SetMaxExpansions w).SetFuzzyRewrite v)
      ∧ (∀ (m : Match) (v : GoString) (w : Bool),
        (m.SetFuzzyRewrite v).SetLenient w = (m.SetLenient w).SetFuzzyRewrite v)
      ∧ (∀ (m : Match) (v : GoString) (w : ZeroTermsQuery),
        (m.SetFuzzyRewrite v).SetZeroTermsQuery w = (m.SetZeroTermsQuery w).SetFuzzyRewrite v)
      ∧ (∀ (m : Match) (v : GoString) (w : GoString),
        (m.SetFuzzyRewrite v).SetFuzziness w = (m.SetFuzziness w).SetFuzzyRewrite v)
      ∧ (∀ (m : Match) (v : GoString) (w : Int),
        (m.SetFuzzyRewrite v).SetPrefixLength w = (m.SetPrefixLength w).SetFuzzyRewrite v)
      ∧ (∀ (m : Match) (v : GoString) (w : GoString),
        (m.SetFuzzyRewrite v).SetMinimumShouldMatch w = (m.SetMinimumShouldMatch w).SetFuzzyRewrite v)
      ∧ (∀ (m : Match) (v : Int) (w : Bool),
        (m.SetMaxExpansions v).SetLenient w = (m.SetLenient w).SetMaxExpansions v)
      ∧ (∀ (m : Match) (v : Int) (w : ZeroTermsQuery),
        (m.SetMaxExpansions v).SetZeroTermsQuery w = (m.SetZeroTermsQuery w).SetMaxExpansions v)
      ∧ (∀ (m : Match) (v : Int) (w : GoString),
        (m.SetMaxExpansions v).SetFuzziness w = (m.SetFuzziness w).SetMaxExpansions v)
      ∧ (∀ (m : Match) (v : Int) (w : Int),
        (m.SetMaxExpansions v).SetPrefixLength w = (m.SetPrefixLength w).SetMaxExpansions v)
      ∧ (∀ (m : Match) (v : Int) (w : GoString),
        (m.SetMaxExpansions v).SetMinimumShouldMatch w = (m.SetMinimumShouldMatch w).SetMaxExpansions v)
      ∧ (∀ (m : Match) (v : Bool) (w : ZeroTermsQuery),
        (m.SetLenient v).SetZeroTermsQuery w = (m.SetZeroTermsQuery w).SetLenient v)
      ∧ (∀ (m : Match) (v : Bool) (w : GoString),
        (m.SetLenient v).SetFuzziness w = (m.SetFuzziness w).SetLenient v)
      ∧ (∀ (m : Match) (v : Bool) (w : Int),
        (m.SetLenient v).SetPrefixLength w = (m.SetPrefixLength w).SetLenient v)
      ∧ (∀ (m : Match) (v : Bool) (w : GoString),
        (m.SetLenient v).SetMinimumShouldMatch w = (m.SetMinimumShouldMatch w).SetLenient v)
      ∧ (∀ (m : Match) (v : ZeroTermsQuery) (w : GoString),
        (m.SetZeroTermsQuery v).SetFuzziness w = (m.SetFuzziness w).SetZeroTermsQuery v)
      ∧ (∀ (m : Match) (v : ZeroTermsQuery) (w : Int),
        (m.SetZeroTermsQuery v).SetPrefixLength w = (m.SetPrefixLength w).SetZeroTermsQuery v)
      ∧ (∀ (m : Match) (v : ZeroTermsQuery) (w : GoString),
        (m.SetZeroTermsQuery v).SetMinimumShouldMatch w = (m.SetMinimumShouldMatch w).SetZeroTermsQuery v)
      ∧ (∀ (m : Match) (v : GoString) (w : Int),
        (m.SetFuzziness v).SetPrefixLength w = (m.SetPrefixLength w).SetFuzziness v)
      ∧ (∀ (m : Match) (v : GoString) (w : GoString),
        (m.SetFuzziness v).SetMinimumShouldMatch w = (m.SetMinimumShouldMatch w).SetFuzziness v)
      ∧ (∀ (m : Match) (v : Int) (w : GoString),
        (m.SetPrefixLength v).SetMinimumShouldMatch w = (m.SetMinimumShouldMatch w).SetPrefixLength v))
    ∧
    ((∀ (s : SortSpec) (v1 v2 : SortOrder), (s.SetOrder v1).SetOrder v2 = s.SetOrder v2)
      ∧ (∀ (s : SortSpec) (v1 v2 : GoString), (s.SetType v1).SetType v2 = s.SetType v2)
      ∧ (∀ (s : SortSpec) (v1 v2 : GoString), (s.SetFormat v1).SetFormat v2 = s.SetFormat v2)
      ∧ (∀ (s : SortSpec) (v1 v2 : SortMode), (s.SetMode v1).SetMode v2 = s.SetMode v2)
      ∧ (∀ (s : SortSpec) (v : SortOrder) (w : GoString),
        (s.SetOrder v).SetType w = (s.SetType w).SetOrder v)
      ∧ (∀ (s : SortSpec) (v : SortOrder) (w : GoString),
        (s.SetOrder v).SetFormat w = (s.SetFormat w).SetOrder v)
      ∧ (∀ (s : SortSpec) (v : SortOrder) (w : SortMode),
        (s.SetOrder v).SetMode w = (s.SetMode w).SetOrder v)
      ∧ (∀ (s : SortSpec) (v : GoString) (w : GoString),
        (s.SetType v).SetFormat w = (s.SetFormat w).SetType v)
      ∧ (∀ (s : SortSpec) (v : GoString) (w : SortMode),
        (s.SetType v).SetMode w = (s.SetMode w).SetType v)
      ∧ (∀ (s : SortSpec) (v : GoString) (w : SortMode),
        (s.SetFormat v).SetMode w = (s.SetMode w).SetFormat v))
    ∧
    ((∀ (s : Search) (v1 v2 : Int), (s.SetSize v1).SetSize v2 = s.SetSize v2)
      ∧ (∀ (s : Search) (v1 v2 : Option Query), (s.SetQuery v1).SetQuery v2 = s.SetQuery v2)
      ∧ (∀ (s : Search) (v1 v2 : Any), (s.SetSource v1).SetSource v2 = s.SetSource v2)
      ∧ (∀ (s : Search) (v : Int) (w : Option Query),
        (s.SetSize v).SetQuery w = (s.SetQuery w).SetSize v)
      ∧ (∀ (s : Search) (v : Int) (w : Any),
        (s.SetSize v).SetSource w = (s.SetSource w).SetSize v)
      ∧ (∀ (s : Search) (v : Option Query) (w : Any),
        (s.SetQuery v).SetSource w = (s.SetSource w).SetQuery v))
    ∧
    ((∀ (q : Query) (v1 v2 : Option MatchAll), (q.SetMatchAll v1).SetMatchAll v2 = q.SetMatchAll v2)
      ∧ (∀ (q : Query) (v1 v2 : Option MatchNone), (q.SetMatchNone v1).SetMatchNone v2 = q.SetMatchNone v2)
      ∧ (∀ (q : Query) (v1 v2 : Option BoolQuery), (q.SetBool v1).SetBool v2 = q.SetBool v2)
      ∧ (∀ (q : Query) (v : Option MatchAll) (w : Option MatchNone),
        (q.SetMatchAll v).SetMatchNone w = (q.SetMatchNone w).SetMatchAll v)
      ∧ (∀ (q : Query) (v : Option MatchAll) (w : Option BoolQuery),
        (q.SetMatchAll v).SetBool w = (q.SetBool w).SetMatchAll v)
      ∧ (∀ (q : Query) (v : Option MatchNone) (w : Option BoolQuery),
        (q.SetMatchNone v).SetBool w = (q.SetBool w).SetMatchNone v))
    ∧
    ((∀ (b : BoolQuery) (v1 v2 : Option Query), (b.SetFilter v1).SetFilter v2 = b.SetFilter v2)) := by
  repeat' constructor
  all_goals intros; rfl

/-! ## The members of an encoded `Query` and `Bool` -/

/-- The encodings of the entries of a map: the same keys in the same order,
each with the encoding of its value. -/
theorem encodeEntries_keys {V : Type} (enc : V → Except MarshalError JSON) :
    ∀ (l : List (GoString × V)) (ms : List (GoString × JSON)),
      encodeEntries enc l = .ok ms →
      entryKeys ms = entryKeys l
        ∧ ∀ k v, lookupEntry k l = some v → ∃ j, enc v = .ok j ∧ lookupEntry k ms = some j
  | [], ms, h => by
    simp only [encodeEntries, Except.ok.injEq] at h
    subst h
    exact ⟨rfl, fun k v hk => by simp [lookupEntry] at hk⟩
  | (k0, x) :: rest, ms, h => by
    simp only [encodeEntries] at h
    cases hx : enc x with
    | error e => simp [hx] at h
    | ok j =>
      cases hr : encodeEntries enc rest with
      | error e => simp [hx, hr] at h
      | ok jr =>
        simp only [hx, hr, Except.ok.injEq] at h
        subst h
        obtain ⟨hk, hl⟩ := encodeEntries_keys enc rest jr hr
        refine ⟨by simp only [entryKeys, List.map_cons] at hk ⊢; rw [hk], ?_⟩
        intro k v hkv
        by_cases hkk : k = k0
        · subst hkk
          simp only [lookupEntry, if_true, Option.some.injEq] at hkv
          subst hkv
          exact ⟨j, hx, by simp [lookupEntry]⟩
        · simp only [lookupEntry, hkk, if_false] at hkv
          obtain ⟨j', hj', hl'⟩ := hl k v hkv
          exact ⟨j', hj', by simp [lookupEntry, hkk, hl']⟩

/-- What a map field tagged `omitempty` contributes: nothing for a nil or
empty map, otherwise one member holding the object of the encoded entries. -/
theorem fieldMap_ok {V : Type} (enc : V → Except MarshalError JSON) (key : String)
    (m : Option (GoMap V)) (l : List (GoString × JSON)) (h : fieldMap enc key m = .ok l) :
    ∃ v, l = optMember key (decide ((allocated m).len ≠ 0)) v
      ∧ ∀ tm, m = some tm → tm.len ≠ 0 →
          ∃ ms, v = .obj ms ∧ encodeEntries enc tm.entries = .ok ms := by
  cases m with
  | none =>
    simp only [fieldMap, Except.ok.injEq] at h
    subst h
    exact ⟨.null, rfl, fun tm htm => by cases htm⟩
  | some m =>
    simp only [fieldMap] at h
    by_cases h0 : m.len = 0
    · simp only [h0, if_true, Except.ok.injEq] at h
      subst h
      refine ⟨.null, by simp [optMember, allocated, h0], fun tm htm hne => ?_⟩
      cases htm
      exact absurd h0 hne
    · simp only [h0, if_false] at h
      cases he : encodeEntries enc m.entries with
      | error e => simp [he] at h
      | ok ms =>
        simp only [he, Except.ok.injEq] at h
        subst h
        refine ⟨.obj ms, by simp [optMember, allocated, h0], fun tm htm _ => ?_⟩
        cases htm
        exact ⟨ms, rfl, he⟩

theorem fieldMatchAll_ok (key : String) (ma : Option MatchAll) (l : List (GoString × JSON))
    (h : fieldMatchAll key ma = .ok l) : ∃ v, l = optMember key ma.isSome v := by
  cases ma with
  | none =>
    simp only [fieldMatchAll, Except.ok.injEq] at h
    subst h
    exact ⟨.null, rfl⟩
  | some ma =>
    simp only [fieldMatchAll] at h
    cases he : encodeMatchAll ma with
    | error e => simp [he] at h
    | ok j =>
      simp only [he, Except.ok.injEq] at h
      subst h
      exact ⟨j, rfl⟩

theorem fieldMatchNone_eq (key : String) (mn : Option MatchNone) :
    fieldMatchNone key mn = optMember key mn.isSome (.obj []) := by
  cases mn <;> rfl

theorem encodeBoolPtr_ok (b : Option BoolQuery) (l : List (GoString × JSON))
    (h : encodeBoolPtr b = .ok l) : ∃ v, l = optMember "bool" b.isSome v := by
  cases b with
  | none =>
    simp only [encodeBoolPtr, Except.ok.injEq] at h
    subst h
    exact ⟨.null, rfl⟩
  | some b =>
    simp only [encodeBoolPtr] at h
    cases he : encodeBool b with
    | error e => simp [he] at h
    | ok j =>
      simp only [he, Except.ok.injEq] at h
      subst h
      exact ⟨j, rfl⟩

theorem encodeFilter_ok (q : Option Query) (l : List (GoString × JSON))
    (h : encodeFilter q = .ok l) : ∃ v, l = optMember "filter" q.isSome v := by
  cases q with
  | none =>
    simp only [encodeFilter, Except.ok.injEq] at h
    subst h
    exact ⟨.null, rfl⟩
  | some q =>
    simp only [encodeFilter] at h
    cases he : encodeQuery q with
    | error e => simp [he] at h
    | ok j =>
      simp only [he, Except.ok.injEq] at h
      subst h
      exact ⟨j, rfl⟩

/-- The members of an encoded `Query`, slot by slot. -/
theorem encodeQuery_ok (q : Query) (j : JSON) (h : encodeQuery q = .ok j) :
    ∃ v1 v3 v4 v5, j = .obj (optMember "match_all" q.MatchAll.isSome v1
        ++ optMember "match_none" q.MatchNone.isSome (.obj [])
        ++ optMember "bool" q.Bool.isSome v3
        ++ optMember "term" (decide ((allocated q.Term).len ≠ 0)) v4
        ++ optMember "match" (decide ((allocated q.Match).len ≠ 0)) v5)
      ∧ (∀ tm, q.Term = some tm → tm.len ≠ 0 →
          ∃ ms, v4 = .obj ms ∧ encodeEntries encodeTerm tm.entries = .ok ms)
      ∧ (∀ mm, q.Match = some mm → mm.len ≠ 0 →
          ∃ ms, v5 = .obj ms ∧ encodeEntries encodeMatch mm.entries = .ok ms) := by
  obtain ⟨ma, mn, b, t, m⟩ := q
  simp only [encodeQuery] at h
  cases h1 : fieldMatchAll "match_all" ma with
  | error e => simp [h1] at h
  | ok l1 =>
    cases h3 : encodeBoolPtr b with
    | error e => simp [h1, h3] at h
    | ok l3 =>
      cases h4 : fieldMap encodeTerm "term" t with
      | error e => simp [h1, h3, h4] at h
      | ok l4 =>
        cases h5 : fieldMap encodeMatch "match" m with
        | error e => simp [h1, h3, h4, h5] at h
        | ok l5 =>
          simp only [h1, h3, h4, h5, Except.ok.injEq] at h
          obtain ⟨v1, e1⟩ := fieldMatchAll_ok _ _ _ h1
          obtain ⟨v3, e3⟩ := encodeBoolPtr_ok _ _ h3
          obtain ⟨v4, e4, d4⟩ := fieldMap_ok _ _ _ _ h4
          obtain ⟨v5, e5, d5⟩ := fieldMap_ok _ _ _ _ h5
          refine ⟨v1, v3, v4, v5, ?_, d4, d5⟩
          rw [← h, e1, e3, e4, e5, fieldMatchNone_eq]
          rfl

/-- The members of an encoded `Bool`, field by field. -/
theorem encodeBool_members (b : BoolQuery) (j : JSON) (h : encodeBool b = .ok j) :
    ∃ v1 v2 v3 v4, j = .obj (optMember "must" (decide (b.Must.length ≠ 0)) v1
        ++ optMember "must_not" (decide (b.MustNot.length ≠ 0)) v2
        ++ optMember "should" (decide (b.Should.length ≠ 0)) v3
        ++ optMember "filter" b.Filter.isSome v4) := by
  obtain ⟨must, mustNot, should, filter⟩ := b
  obtain ⟨jm, jn, js, jf, -, -, -, h4, hj⟩ := encodeBool_ok must mustNot should filter j h
  obtain ⟨v4, e4⟩ := encodeFilter_ok _ _ h4
  refine ⟨.arr jm, .arr jn, .arr js, v4, ?_⟩
  rw [hj, e4, fieldArray_eq, fieldArray_eq, fieldArray_eq]
  rfl

/-! ## C12: empty collections are omitted -/

/-- The tokens `json.Marshal` writes for two well-formed strings are equal
only when the strings are. -/
theorem appendString_inj (s1 s2 : GoString) (h1 : validUTF8 s1 = true)
    (h2 : validUTF8 s2 = true) (h : appendString s1 = appendString s2) : s1 = s2 := by
  have e1 := tokenString_valid s1 h1
  have e2 := tokenString_valid s2 h2
  unfold tokenString at e1 e2
  rw [h, e2] at e1
  exact (Except.ok.inj e1).symm

/-- The keys written for well-formed field names are pairwise distinct and
read back as the field names. -/
theorem written_keys (ks : List GoString) (hn : ks.Nodup)
    (hv : ∀ f ∈ ks, validUTF8 f = true) :
    (ks.map appendString).Nodup ∧ ∀ f ∈ ks, tokenString f = .ok f :=
  ⟨List.Nodup.map_on (fun x hx y hy h => appendString_inj x y (hv x hx) (hv y hy) h) hn,
    fun f hf => tokenString_valid f (hv f hf)⟩

/-- C12 (amended). (1) A Bool whose three sequences are empty and whose filter is unset
encodes, to an object with none of the keys `must`, `must_not`, `should`,
`filter`; more generally, in every encoded Bool each of these keys is present
exactly when its sequence is non-empty (its filter set).  (2) In every encoded
Query the key `term` is present exactly when the Term collection has an entry
(a nil collection and an allocated empty one both have none), and likewise
`match`.  (3) When the Term collection has entries, the member `term` is an
object with one member per field name of the collection, in ascending order of
the names, and the member of a field name holds the encoding of the Term
stored for it; when the field names are well-formed UTF-8, the keys written
for them (`appendString` of each name, as `JSON.renderMembers` writes it) are
pairwise distinct and each reads back as its field name.  Likewise for
`match`. -/
theorem empty_collections_omitted :
    (∀ b : BoolQuery, b.Must = [] → b.MustNot = [] → b.Should = [] → b.Filter = none →
        ∃ j, encodeBool b = .ok j ∧ ¬ j.hasKey (GoString.lit "must")
          ∧ ¬ j.hasKey (GoString.lit "must_not") ∧ ¬ j.hasKey (GoString.lit "should")
          ∧ ¬ j.hasKey (GoString.lit "filter"))
    ∧ (∀ (b : BoolQuery) (j : JSON), encodeBool b = .ok j →
        (j.hasKey (GoString.lit "must") ↔ b.Must ≠ [])
          ∧ (j.hasKey (GoString.lit "must_not") ↔ b.MustNot ≠ [])
          ∧ (j.hasKey (GoString.lit "should") ↔ b.Should ≠ [])
          ∧ (j.hasKey (GoString.lit "filter") ↔ b.Filter ≠ none))
    ∧ (∀ (q : Query) (j : JSON), encodeQuery q = .ok j →
        (j.hasKey (GoString.lit "term") ↔ (allocated q.Term).len ≠ 0)
          ∧ (j.hasKey (GoString.lit "match") ↔ (allocated q.Match).len ≠ 0))
    ∧ (∀ (q : Query) (j : JSON) (tm : GoMap Term), encodeQuery q = .ok j →
        q.Term = some tm → tm.len ≠ 0 →
        ∃ ms, j.get? (GoString.lit "term") = some (.obj ms)
          ∧ entryKeys ms = entryKeys tm.entries ∧ (entryKeys ms).Nodup
          ∧ (∀ f t, tm.get? f = some t →
              ∃ jt, encodeTerm t = .ok jt ∧ lookupEntry f ms = some jt)
          ∧ ((∀ f ∈ entryKeys tm.entries, validUTF8 f = true) →
              ((entryKeys ms).map appendString).Nodup
                ∧ ∀ f ∈ entryKeys ms, tokenString f = .ok f))
    ∧ (∀ (q : Query) (j : JSON) (mm : GoMap Match), encodeQuery q = .ok j →
        q.Match = some mm → mm.len ≠ 0 →
        ∃ ms, j.get? (GoString.lit "match") = some (.obj ms)
          ∧ entryKeys ms = entryKeys mm.entries ∧ (entryKeys ms).Nodup
          ∧ (∀ f m, mm.get? f = some m →
              ∃ jm, encodeMatch m = .ok jm ∧ lookupEntry f ms = some jm)
          ∧ ((∀ f ∈ entryKeys mm.entries, validUTF8 f = true) →
              ((entryKeys ms).map appendString).Nodup
                ∧ ∀ f ∈ entryKeys ms, tokenString f = .ok f)) := by
  refine ⟨?_, ?_, ?_, ?_, ?_⟩
  · intro b h1 h2 h3 h4
    obtain ⟨must, mustNot, should, filter⟩ := b
    simp only [BoolQuery.Must, BoolQuery.MustNot, BoolQuery.Should, BoolQuery.Filter] at h1 h2 h3 h4
    subst h1 h2 h3 h4
    exact ⟨.obj [], rfl, by decide, by decide, by decide, by decide⟩
  · intro b j h
    obtain ⟨v1, v2, v3, v4, hj⟩ := encodeBool_members b j h
    subst hj
    simp only [hasKey_obj_iff, List.append_assoc, lookupEntry_optMember,
      lookupEntry_optMember_last]
    refine ⟨?_, ?_, ?_, ?_⟩
    · simp +decide [List.length_eq_zero]
    · simp +decide [List.length_eq_zero]
    · simp +decide [List.length_eq_zero]
    · cases b.Filter <;> simp +decide
  · intro q j h
    obtain ⟨v1, v3, v4, v5, hj, -, -⟩ := encodeQuery_ok q j h
    subst hj
    simp only [hasKey_obj_iff, List.append_assoc, lookupEntry_optMember,
      lookupEntry_optMember_last]
    refine ⟨?_, ?_⟩
    · simp +decide
    · simp +decide
  · intro q j tm h ht hne
    obtain ⟨v1, v3, v4, v5, hj, d4, -⟩ := encodeQuery_ok q j h
    obtain ⟨ms, hv, he⟩ := d4 tm ht hne
    obtain ⟨hk, hl⟩ := encodeEntries_keys encodeTerm tm.entries ms he
    subst hj hv
    have hnd : (entryKeys ms).Nodup := by
      rw [hk]
      exact keysAscending_nodup _ tm.ascending
    refine ⟨ms, ?_, hk, hnd, fun f t hf => hl f t hf,
      fun hv => written_keys _ hnd (by rw [hk]; exact hv)⟩
    · have hp : decide ((allocated q.Term).len ≠ 0) = true := by
        simp [ht, allocated, hne]
      simp only [JSON.get?, List.append_assoc, lookupEntry_optMember,
        lookupEntry_optMember_last, hp]
      simp +decide
  · intro q j mm h ht hne
    obtain ⟨v1, v3, v4, v5, hj, -, d5⟩ := encodeQuery_ok q j h
    obtain ⟨ms, hv, he⟩ := d5 mm ht hne
    obtain ⟨hk, hl⟩ := encodeEntries_keys encodeMatch mm.entries ms he
    subst hj hv
    have hnd : (entryKeys ms).Nodup := by
      rw [hk]
      exact keysAscending_nodup _ mm.ascending
    refine ⟨ms, ?_, hk, hnd, fun f t hf => hl f t hf,
      fun hv => written_keys _ hnd (by rw [hk]; exact hv)⟩
    · have hp : decide ((allocated q.Match).len ≠ 0) = true := by
        simp [ht, allocated, hne]
      simp only [JSON.get?, List.append_assoc, lookupEntry_optMember,
        lookupEntry_optMember_last, hp]
      simp +decide

/-- C12 at a concrete input: the query `twoTermQuery` encodes as
`{"term":{"a":{"value":"x"},"b":{"value":"y"}}}`. -/
theorem empty_collections_omitted_witness :
    encodeQuery twoTermQuery = .ok (.obj [(GoString.lit "term", .obj [
        (GoString.lit "a", .obj [(GoString.lit "value", .str (GoString.lit "x"))]),
        (GoString.lit "b", .obj [(GoString.lit "value", .str (GoString.lit "y"))])])])
    ∧ twoTermQuery.Term = some ((GoMap.empty.set (GoString.lit "b")
        (Term.zero.SetValue (GoString.lit "y"))).set (GoString.lit "a")
        (Term.zero.SetValue (GoString.lit "x")))
    ∧ ((GoMap.empty.set (GoString.lit "b") (Term.zero.SetValue (GoString.lit "y"))).set
        (GoString.lit "a") (Term.zero.SetValue (GoString.lit "x"))).len ≠ 0
    ∧ ∃ ms, (JSON.obj [(GoString.lit "term", .obj [
        (GoString.lit "a", .obj [(GoString.lit "value", .str (GoString.lit "x"))]),
        (GoString.lit "b", .obj [(GoString.lit "value", .str (GoString.lit "y"))])])]).get?
          (GoString.lit "term") = some (.obj ms)
      ∧ entryKeys ms = [GoString.lit "a", GoString.lit "b"] := by
  obtain ⟨ms, h1, h2, -, -⟩ := empty_collections_omitted.2.2.2.1 twoTermQuery _
    ((GoMap.empty.set (GoString.lit "b") (Term.zero.SetValue (GoString.lit "y"))).set
      (GoString.lit "a") (Term.zero.SetValue (GoString.lit "x"))) rfl rfl (by decide)
  exact ⟨rfl, rfl, by decide, ms, h1, by rw [h2]; decide⟩

/-- C12 as stated fails.  The query `clashQuery` holds a Term for the field
name of the one byte `0xFE` and a Term for the field name of the one byte
`0xFF`: two field names, neither well-formed UTF-8.  `json.Marshal` writes
both keys as `"\ufffd"`, so the object written for `term` has the same key
twice and no key that tells the two fields apart. -/
theorem empty_collections_omitted_counterexample :
    ([0xFE] : GoString) ≠ [0xFF]
    ∧ appendString [0xFE] = appendString [0xFF]
    ∧ ∃ doc, encodeQuery clashQuery = .ok doc
      ∧ ∀ floatText, doc.render floatText = GoString.lit
          "\x7b\"term\":\x7b\"\\ufffd\":\x7b\"value\":\"x\"\x7d,\"\\ufffd\":\x7b\"value\":\"y\"\x7d\x7d\x7d" :=
  ⟨by decide, by decide,
    .obj [(GoString.lit "term", .obj [
      ([0xFE], .obj [(GoString.lit "value", .str (GoString.lit "x"))]),
      ([0xFF], .obj [(GoString.lit "value", .str (GoString.lit "y"))])])],
    rfl, fun _ => rfl⟩

/-! ## C17: the slots of a `Query` are independent -/

/-- C17. For every Query `q`, MatchAll `ma` and Bool `b`: after
`q.SetMatchAll(&ma).SetBool(&b)` the slot `MatchAll` holds `ma` and the slot
`Bool` holds `b`, and every document encoded from that query has both the key
`match_all` and the key `bool`.  Each of the five setters leaves the four
slots it does not name as they were, and in every encoded Query the keys
`match_all`, `match_none` and `bool` are present exactly when their slots are
set. -/
theorem query_slots_independent (q : Query) (ma : MatchAll) (b : BoolQuery) :
    ((q.SetMatchAll (some ma)).SetBool (some b)).MatchAll = some ma
    ∧ ((q.SetMatchAll (some ma)).SetBool (some b)).Bool = some b
    ∧ (∀ j, encodeQuery ((q.SetMatchAll (some ma)).SetBool (some b)) = .ok j →
        j.hasKey (GoString.lit "match_all") ∧ j.hasKey (GoString.lit "bool"))
    ∧ (∀ (x : Query) (p : Option MatchAll), (x.SetMatchAll p).MatchNone = x.MatchNone
        ∧ (x.SetMatchAll p).Bool = x.Bool ∧ (x.SetMatchAll p).Term = x.Term
        ∧ (x.SetMatchAll p).Match = x.Match)
    ∧ (∀ (x : Query) (p : Option MatchNone), (x.SetMatchNone p).MatchAll = x.MatchAll
        ∧ (x.SetMatchNone p).Bool = x.Bool ∧ (x.SetMatchNone p).Term = x.Term
        ∧ (x.SetMatchNone p).Match = x.Match)
    ∧ (∀ (x : Query) (p : Option BoolQuery), (x.SetBool p).MatchAll = x.MatchAll
        ∧ (x.SetBool p).MatchNone = x.MatchNone ∧ (x.SetBool p).Term = x.Term
        ∧ (x.SetBool p).Match = x.Match)
    ∧ (∀ (x : Query) (f : GoString) (t : Term), (x.SetTerm f t).MatchAll = x.MatchAll
        ∧ (x.SetTerm f t).MatchNone = x.MatchNone ∧ (x.SetTerm f t).Bool = x.Bool
        ∧ (x.SetTerm f t).Match = x.Match)
    ∧ (∀ (x : Query) (f : GoString) (m : Match), (x.SetMatch f m).MatchAll = x.MatchAll
        ∧ (x.SetMatch f m).MatchNone = x.MatchNone ∧ (x.SetMatch f m).Bool = x.Bool
        ∧ (x.SetMatch f m).Term = x.Term)
    ∧ (∀ (x : Query) (j : JSON), encodeQuery x = .ok j →
        (j.hasKey (GoString.lit "match_all") ↔ x.MatchAll ≠ none)
        ∧ (j.hasKey (GoString.lit "match_none") ↔ x.MatchNone ≠ none)
        ∧ (j.hasKey (GoString.lit "bool") ↔ x.Bool ≠ none)) := by
  have key : ∀ (x : Query) (j : JSON), encodeQuery x = .ok j →
      (j.hasKey (GoString.lit "match_all") ↔ x.MatchAll ≠ none)
      ∧ (j.hasKey (GoString.lit "match_none") ↔ x.MatchNone ≠ none)
      ∧ (j.hasKey (GoString.lit "bool") ↔ x.Bool ≠ none) := by
    intro x j h
    obtain ⟨v1, v3, v4, v5, hj, -, -⟩ := encodeQuery_ok x j h
    subst hj
    simp only [hasKey_obj_iff, List.append_assoc, lookupEntry_optMember,
      lookupEntry_optMember_last]
    refine ⟨?_, ?_, ?_⟩
    · cases x.MatchAll <;> simp +decide
    · cases x.MatchNone <;> cases x.MatchAll <;> simp +decide
    · cases x.Bool <;> cases x.MatchNone <;> cases x.MatchAll <;> simp +decide
  refine ⟨rfl, rfl, ?_, fun _ _ => ⟨rfl, rfl, rfl, rfl⟩, fun _ _ => ⟨rfl, rfl, rfl, rfl⟩,
    fun _ _ => ⟨rfl, rfl, rfl, rfl⟩, fun _ _ _ => ⟨rfl, rfl, rfl, rfl⟩,
    fun _ _ _ => ⟨rfl, rfl, rfl, rfl⟩, key⟩
  intro j h
  obtain ⟨k1, -, k3⟩ := key _ j h
  exact ⟨k1.2 (by simp [Query.SetBool, Query.SetMatchAll, Query.MatchAll]),
    k3.2 (by simp [Query.SetBool, Query.Bool])⟩

/-- C17 at a concrete input: an empty query given an empty MatchAll and an
empty Bool encodes as `{"match_all":{},"bool":{}}`. -/
theorem query_slots_independent_witness :
    encodeQuery (((NewQuery []).SetMatchAll (some MatchAll.zero)).SetBool (some BoolQuery.zero))
        = .ok (.obj [(GoString.lit "match_all", .obj []), (GoString.lit "bool", .obj [])])
    ∧ (JSON.obj [(GoString.lit "match_all", .obj []),
          (GoString.lit "bool", .obj [])]).hasKey (GoString.lit "match_all")
    ∧ (JSON.obj [(GoString.lit "match_all", .obj []),
          (GoString.lit "bool", .obj [])]).hasKey (GoString.lit "bool") :=
  ⟨rfl, (query_slots_independent (NewQuery []) MatchAll.zero BoolQuery.zero).2.2.1 _ rfl⟩

/-! ## C13: the wire values of the declared constants -/

/-- C13 on the code. Every declared constant is written as the quoted text of
its declaration: `INTERSECTS`, `CONTAINS`, `WITHIN`; `OR`, `AND`; `all`;
`asc`, `desc`; `min`, `max`, `sum`, `avg`, `median`.  `ZeroTermsQueryNone` is
declared as `None`, so it is written as `"None"` and not as `"none"`, and a
Match given `ZeroTermsQueryNone` encodes as `{"zero_terms_query":"None"}`. -/
theorem enum_constants_wire :
    RangeRelationIntersects.MarshalJSON = .ok (GoString.lit "\"INTERSECTS\"")
    ∧ RangeRelationContains.MarshalJSON = .ok (GoString.lit "\"CONTAINS\"")
    ∧ RangeRelationWithin.MarshalJSON = .ok (GoString.lit "\"WITHIN\"")
    ∧ MatchOperatorOr.MarshalJSON = .ok (GoString.lit "\"OR\"")
    ∧ MatchOperatorAnd.MarshalJSON = .ok (GoString.lit "\"AND\"")
    ∧ ZeroTermsQueryAll.MarshalJSON = .ok (GoString.lit "\"all\"")
    ∧ SortOrderAsc.MarshalJSON = .ok (GoString.lit "\"asc\"")
    ∧ SortOrderDesc.MarshalJSON = .ok (GoString.lit "\"desc\"")
    ∧ SortModeMin.MarshalJSON = .ok (GoString.lit "\"min\"")
    ∧ SortModeMax.MarshalJSON = .ok (GoString.lit "\"max\"")
    ∧ SortModeSum.MarshalJSON = .ok (GoString.lit "\"sum\"")
    ∧ SortModeAvg.MarshalJSON = .ok (GoString.lit "\"avg\"")
    ∧ SortModeMedian.MarshalJSON = .ok (GoString.lit "\"median\"")
    ∧ ZeroTermsQueryNone.MarshalJSON = .ok (GoString.lit "\"None\"")
    ∧ ZeroTermsQueryNone.MarshalJSON ≠ .ok (GoString.lit "\"none\"")
    ∧ (∀ floatText, (encodeMatch ((NewMatch []).SetZeroTermsQuery ZeroTermsQueryNone)).map
        (JSON.render floatText) = .ok (GoString.lit "\x7b\"zero_terms_query\":\"None\"\x7d")) := by
  refine ⟨rfl, rfl, rfl, rfl, rfl, rfl, rfl, rfl, rfl, rfl, rfl, rfl, rfl, rfl, ?_,
    fun _ => rfl⟩
  intro h
  have h' := Except.ok.inj h
  revert h'
  decide

/-! ## Sequences of `SetTerm` calls -/

theorem GoMap.set_comm {V : Type} (m : GoMap V) (k1 k2 : GoString) (a b : V) (h : k1 ≠ k2) :
    (m.set k1 a).set k2 b = (m.set k2 b).set k1 a := by
  apply GoMap.ext_get?
  intro k
  by_cases h1 : k = k1
  · subst h1
    rw [GoMap.get?_set_other _ _ _ _ h, GoMap.get?_set_same, GoMap.get?_set_same]
  · by_cases h2 : k = k2
    · subst h2
      rw [GoMap.get?_set_same, GoMap.get?_set_other _ _ _ _ h1, GoMap.get?_set_same]
    · rw [GoMap.get?_set_other _ _ _ _ h2, GoMap.get?_set_other _ _ _ _ h1,
        GoMap.get?_set_other _ _ _ _ h1, GoMap.get?_set_other _ _ _ _ h2]

theorem GoMap.setAll_append {V : Type} (m : GoMap V) (l1 l2 : List (GoString × V)) :
    m.setAll (l1 ++ l2) = (m.setAll l1).setAll l2 := by
  simp [GoMap.setAll, List.foldl_append]

/-- A field no call names keeps what the map held for it. -/
theorem GoMap.get?_setAll_other {V : Type} (calls : List (GoString × V)) :
    ∀ (m : GoMap V) (f : GoString), f ∉ calls.map Prod.fst → (m.setAll calls).get? f = m.get? f := by
  induction calls with
  | nil => intro m f _; rfl
  | cons c rest ih =>
    intro m f hf
    simp only [List.map_cons, List.mem_cons, not_or] at hf
    have := ih (m.set c.1 c.2) f hf.2
    simp only [GoMap.setAll, List.foldl_cons] at this ⊢
    rw [this, GoMap.get?_set_other _ _ _ _ hf.1]

/-- A field holds the Term of the last call that named it. -/
theorem GoMap.get?_setAll_last {V : Type} (m : GoMap V) (pre post : List (GoString × V))
    (f : GoString) (v : V) (hf : f ∉ post.map Prod.fst) :
    (m.setAll (pre ++ (f, v) :: post)).get? f = some v := by
  rw [GoMap.setAll_append]
  have : (m.setAll pre).setAll ((f, v) :: post) = ((m.setAll pre).set f v).setAll post := rfl
  rw [this, GoMap.get?_setAll_other post _ f hf, GoMap.get?_set_same]

/-- The last call that names a field. -/
theorem exists_last_call {V : Type} (calls : List (GoString × V)) (f : GoString)
    (h : f ∈ calls.map Prod.fst) :
    ∃ pre v post, calls = pre ++ (f, v) :: post ∧ f ∉ post.map Prod.fst := by
  induction calls with
  | nil => simp at h
  | cons c rest ih =>
    by_cases hr : f ∈ rest.map Prod.fst
    · obtain ⟨pre, v, post, he, hp⟩ := ih hr
      exact ⟨c :: pre, v, post, by rw [he]; rfl, hp⟩
    · simp only [List.map_cons, List.mem_cons] at h
      rcases h with h | h
      · refine ⟨[], c.2, rest, ?_, hr⟩
        rw [h]
        rfl
      · exact absurd h hr

theorem GoMap.isSome_get?_setAll {V : Type} (m : GoMap V) (hm : m.len = 0)
    (calls : List (GoString × V)) (f : GoString) :
    ((m.setAll calls).get? f).isSome = true ↔ f ∈ calls.map Prod.fst := by
  have hnone : m.get? f = none := by
    have he : m.entries = [] := List.length_eq_zero.1 hm
    simp [GoMap.get?, he, lookupEntry]
  constructor
  · intro h
    by_contra hf
    rw [GoMap.get?_setAll_other calls m f hf, hnone] at h
    simp at h
  · intro h
    obtain ⟨pre, v, post, he, hp⟩ := exists_last_call calls f h
    rw [he, GoMap.get?_setAll_last m pre post f v hp]
    rfl

theorem GoMap.len_setAll {V : Type} (m : GoMap V) (hm : m.len = 0)
    (calls : List (GoString × V)) :
    (m.setAll calls).len = (calls.map Prod.fst).dedup.length := by
  apply GoMap.len_of_keys _ _ (List.nodup_dedup _)
  intro k
  rw [GoMap.isSome_get?_setAll m hm, List.mem_dedup]

theorem GoMap.setAll_perm {V : Type} (m : GoMap V) (calls calls' : List (GoString × V))
    (hp : calls.Perm calls') (hn : (calls.map Prod.fst).Nodup) :
    m.setAll calls = m.setAll calls' := by
  apply List.Perm.foldl_eq' hp
  intro x hx y hy z
  by_cases hxy : x.1 = y.1
  · have : x = y := List.inj_on_of_nodup_map hn hx hy hxy
    rw [this]
  · exact GoMap.set_comm z x.1 y.1 x.2 y.2 hxy

/-- The Term collection after a sequence of `SetTerm` calls, read as a map (a
nil collection as the empty one), and the slots the calls leave alone. -/
theorem Query.SetTerms_spec (calls : List (GoString × ES.Term)) : ∀ (q : Query),
    allocated (q.SetTerms calls).Term = (allocated q.Term).setAll calls
      ∧ (q.SetTerms calls).MatchAll = q.MatchAll
      ∧ (q.SetTerms calls).MatchNone = q.MatchNone
      ∧ (q.SetTerms calls).Bool = q.Bool ∧ (q.SetTerms calls).Match = q.Match
      ∧ (calls ≠ [] → (q.SetTerms calls).Term ≠ none) := by
  induction calls with
  | nil => intro q; exact ⟨rfl, rfl, rfl, rfl, rfl, fun h => absurd rfl h⟩
  | cons c rest ih =>
    intro q
    obtain ⟨h1, h2, h3, h4, h5, h6⟩ := ih (q.SetTerm c.1 c.2)
    have hs : q.SetTerms (c :: rest) = (q.SetTerm c.1 c.2).SetTerms rest := rfl
    rw [hs]
    refine ⟨h1, h2, h3, h4, h5, fun _ => ?_⟩
    by_cases hr : rest = []
    · subst hr
      simp [Query.SetTerms, Query.SetTerm, Query.Term]
    · exact h6 hr

/-- A Query is determined by its five slots. -/
theorem Query.ext_slots (q1 q2 : Query) (h1 : q1.MatchAll = q2.MatchAll)
    (h2 : q1.MatchNone = q2.MatchNone) (h3 : q1.Bool = q2.Bool) (h4 : q1.Term = q2.Term)
    (h5 : q1.Match = q2.Match) : q1 = q2 := by
  obtain ⟨a1, b1, c1, d1, e1⟩ := q1
  obtain ⟨a2, b2, c2, d2, e2⟩ := q2
  simp only [Query.MatchAll, Query.MatchNone, Query.Bool, Query.Term, Query.Match] at *
  subst h1 h2 h3 h4 h5
  rfl

/-! ## C19: the sequential core of the keyed collection -/

/-- C19. For every Query whose Term collection has no entry (nil, or
allocated and empty) and every list of `SetTerm` calls made on it one after
the other: the Term collection then has as many entries as the list has
distinct field names; a field holds the Term of the last call that named it,
and a field no call named holds nothing; and when the field names of the
calls are pairwise distinct, every permutation of the list leaves the same
Query. -/
theorem setTerm_sequence (q : Query) (hq : (allocated q.Term).len = 0)
    (calls : List (GoString × Term)) :
    (allocated (q.SetTerms calls).Term).len = (calls.map Prod.fst).dedup.length
    ∧ (∀ pre f t post, calls = pre ++ (f, t) :: post → f ∉ post.map Prod.fst →
        (allocated (q.SetTerms calls).Term).get? f = some t)
    ∧ (∀ f, f ∉ calls.map Prod.fst → (allocated (q.SetTerms calls).Term).get? f = none)
    ∧ (∀ calls', calls.Perm calls' → (calls.map Prod.fst).Nodup →
        q.SetTerms calls' = q.SetTerms calls) := by
  obtain ⟨hs, -⟩ := Query.SetTerms_spec calls q
  refine ⟨?_, ?_, ?_, ?_⟩
  · rw [hs]
    exact GoMap.len_setAll _ hq calls
  · intro pre f t post he hp
    rw [hs, he]
    exact GoMap.get?_setAll_last _ pre post f t hp
  · intro f hf
    rw [hs, GoMap.get?_setAll_other calls _ f hf]
    have he : (allocated q.Term).entries = [] := List.length_eq_zero.1 hq
    simp [GoMap.get?, he, lookupEntry]
  · intro calls' hp hn
    obtain ⟨hs', a1, a2, a3, a4, a5⟩ := Query.SetTerms_spec calls' q
    obtain ⟨-, b1, b2, b3, b4, b5⟩ := Query.SetTerms_spec calls q
    apply Query.ext_slots
    · rw [a1, b1]
    · rw [a2, b2]
    · rw [a3, b3]
    · by_cases hc : calls = []
      · subst hc
        have : calls' = [] := List.Perm.eq_nil hp.symm
        subst this
        rfl
      · have hc' : calls' ≠ [] := fun h => hc (List.Perm.eq_nil (h ▸ hp))
        have e1 := a5 hc'
        have e2 := b5 hc
        have hm : allocated (q.SetTerms calls').Term = allocated (q.SetTerms calls).Term := by
          rw [hs', hs]
          exact (GoMap.setAll_perm _ calls calls' hp hn).symm
        cases ht' : (q.SetTerms calls').Term with
        | none => exact absurd ht' e1
        | some m' =>
          cases ht : (q.SetTerms calls).Term with
          | none => exact absurd ht e2
          | some m =>
            rw [ht', ht] at hm
            simp only [allocated] at hm
            rw [hm]
    · rw [a4, b4]

/-- C19 at a concrete input: the calls `threeCalls` on a fresh Query leave two
entries, and `a` holds the Term of the third call. -/
theorem setTerm_sequence_witness :
    (allocated (NewQuery []).Term).len = 0
    ∧ (allocated ((NewQuery []).SetTerms threeCalls).Term).len = 2
    ∧ GoString.lit "a" ∉ ([] : List (GoString × Term)).map Prod.fst
    ∧ (allocated ((NewQuery []).SetTerms threeCalls).Term).get? (GoString.lit "a")
        = some (Term.zero.SetValue (GoString.lit "z")) :=
  ⟨rfl, (setTerm_sequence (NewQuery []) rfl threeCalls).1.trans (by decide), by simp,
    (setTerm_sequence (NewQuery []) rfl threeCalls).2.1
      [(GoString.lit "a", Term.zero.SetValue (GoString.lit "x")),
       (GoString.lit "b", Term.zero.SetValue (GoString.lit "y"))]
      (GoString.lit "a") (Term.zero.SetValue (GoString.lit "z")) [] rfl (by simp)⟩

/-! ## Concurrent callers of `SetTerm` -/

/-- A goroutine running alone executes `SetTerm` as the sequential setter. -/
theorem run_alone (q : Query) (f : GoString) (t : Term) :
    run [(f, t)] [0, 0, 0, 0, 0] (start q 1)
      = ⟨⟨false, q.SetTerm f t, false⟩, [Pc.returned]⟩ := by
  obtain ⟨a, b, c, d, e⟩ := q
  cases d <;> rfl

theorem inv_start (q : Query) (calls : List (GoString × Term)) :
    Inv q calls (start q calls.length) := by
  have hpc : ∀ (i : Nat) (pc : Pc), (start q calls.length).pcs[i]? = some pc →
      pc = Pc.atLock := by
    intro i pc h
    simp only [start, List.getElem?_replicate] at h
    split_ifs at h
    exact (Option.some.inj h).symm
  refine ⟨by simp [start], rfl, ⟨rfl, rfl, rfl, rfl⟩, ?_, ?_, ?_, ?_, ?_, ?_⟩
  · intro i j pi pj hi _ hin _
    rw [hpc i pi hi] at hin
    cases hin
  · constructor
    · intro h
      cases h
    · rintro ⟨i, pc, hi, hin⟩
      rw [hpc i pc hi] at hin
      cases hin
  · intro i hi
    cases hpc i _ hi
  · intro i pc hi h
    rw [hpc i pc hi] at h
    rcases h with h | h | h <;> cases h
  · intro i pc c hi _ hs
    rw [hpc i pc hi] at hs
    cases hs
  · intro k _
    rfl

theorem fields_inj (calls : List (GoString × Term)) (hd : (calls.map Prod.fst).Nodup)
    (i j : Nat) (ci cj : GoString × Term) (hi : calls[i]? = some ci) (hj : calls[j]? = some cj)
    (h : ci.1 = cj.1) : i = j := by
  have hlt : i < (calls.map Prod.fst).length := by
    have := (List.getElem?_eq_some_iff.1 hi).1
    simpa using this
  apply List.getElem?_inj hlt hd
  simp [List.getElem?_map, hi, hj, h]

/-- Where the goroutines stand after goroutine `i` has moved to `pc'`. -/
theorem getElem?_set_pc (pcs : List Pc) (i j : Nat) (pc pc' p : Pc) (hi : pcs[i]? = some pc)
    (h : (pcs.set i pc')[j]? = some p) : (j = i ∧ p = pc') ∨ (j ≠ i ∧ pcs[j]? = some p) := by
  have hlt := (List.getElem?_eq_some_iff.1 hi).1
  rw [List.getElem?_set] at h
  by_cases hij : i = j
  · subst hij
    simp only [if_true, hlt] at h
    exact Or.inl ⟨rfl, (Option.some.inj h).symm⟩
  · simp only [hij, if_false] at h
    exact Or.inr ⟨fun e => hij e.symm, h⟩

theorem getElem?_set_self_pc (pcs : List Pc) (i : Nat) (pc pc' : Pc) (hi : pcs[i]? = some pc) :
    (pcs.set i pc')[i]? = some pc' := by
  have hlt := (List.getElem?_eq_some_iff.1 hi).1
  simp [List.getElem?_set, hlt]

/-- The mutex after a goroutine has moved: still at most one goroutine holds
it, and it is locked exactly when one does. -/
theorem lock_move {q : Query} {calls : List (GoString × Term)} {r : Run} (h : Inv q calls r)
    {i : Nat} {pc : Pc} (hi : r.pcs[i]? = some pc) (pc' : Pc) (locked' : Bool)
    (hin : pc'.inside = true → pc.inside = true ∨ r.shared.locked = false)
    (hl : locked' = true ↔ (pc'.inside = true ∨ (r.shared.locked = true ∧ pc.inside = false))) :
    (∀ (a b : Nat) (pa pb : Pc), (r.pcs.set i pc')[a]? = some pa →
        (r.pcs.set i pc')[b]? = some pb → pa.inside = true → pb.inside = true → a = b)
    ∧ (locked' = true ↔ ∃ (j : Nat) (p : Pc), (r.pcs.set i pc')[j]? = some p ∧ p.inside = true) := by
  have old : ∀ (j : Nat) (p : Pc), r.pcs[j]? = some p → p.inside = true → j ≠ i →
      pc'.inside = true → False := by
    intro j p hj hp hne hpc'
    rcases hin hpc' with h1 | h1
    · exact hne (h.excl j i p pc hj hi hp h1)
    · have := h.held.2 ⟨j, p, hj, hp⟩
      rw [h1] at this
      cases this
  constructor
  · intro a b pa pb ha hb hpa hpb
    rcases getElem?_set_pc _ _ _ _ _ _ hi ha with ⟨ea, epa⟩ | ⟨na, ha'⟩
    · rcases getElem?_set_pc _ _ _ _ _ _ hi hb with ⟨eb, epb⟩ | ⟨nb, hb'⟩
      · rw [ea, eb]
      · subst epa
        exact (old b pb hb' hpb nb hpa).elim
    · rcases getElem?_set_pc _ _ _ _ _ _ hi hb with ⟨eb, epb⟩ | ⟨nb, hb'⟩
      · subst epb
        exact (old a pa ha' hpa na hpb).elim
      · exact h.excl a b pa pb ha' hb' hpa hpb
  · rw [hl]
    constructor
    · rintro (h1 | ⟨h1, h2⟩)
      · exact ⟨i, pc', getElem?_set_self_pc _ _ _ _ hi, h1⟩
      · obtain ⟨j, p, hj, hp⟩ := h.held.1 h1
        have hne : i ≠ j := by
          intro e
          subst e
          rw [hi] at hj
          cases hj
          rw [h2] at hp
          cases hp
        exact ⟨j, p, by rw [List.getElem?_set_ne hne]; exact hj, hp⟩
    · rintro ⟨j, p, hj, hp⟩
      rcases getElem?_set_pc _ _ _ _ _ _ hi hj with ⟨_, ep⟩ | ⟨nj, hj'⟩
      · subst ep
        exact Or.inl hp
      · refine Or.inr ⟨h.held.2 ⟨j, p, hj', hp⟩, ?_⟩
        cases hpi : pc.inside with
        | false => rfl
        | true => exact (nj (h.excl j i p pc hj' hi hp hpi)).elim

/-- The invariant after a goroutine has moved without writing to the
record. -/
theorem inv_move {q : Query} {calls : List (GoString × Term)} {r : Run} (h : Inv q calls r)
    {i : Nat} {pc : Pc} (hi : r.pcs[i]? = some pc) (pc' : Pc) (locked' : Bool)
    (hin : pc'.inside = true → pc.inside = true ∨ r.shared.locked = false)
    (hl : locked' = true ↔ (pc'.inside = true ∨ (r.shared.locked = true ∧ pc.inside = false)))
    (hst : pc'.stored = pc.stored)
    (hnil : pc' = Pc.atAlloc true → r.shared.query.Term = none)
    (hal : pc' = Pc.atAlloc false ∨ pc' = Pc.atStore → r.shared.query.Term ≠ none) :
    Inv q calls ⟨⟨locked', r.shared.query, false⟩, r.pcs.set i pc'⟩ := by
  obtain ⟨hex, hheld⟩ := lock_move h hi pc' locked' hin hl
  refine ⟨by simpa using h.len, rfl, h.slots, hex, hheld, ?_, ?_, ?_, ?_⟩
  · intro j hj
    rcases getElem?_set_pc _ _ _ _ _ _ hi hj with ⟨_, ep⟩ | ⟨_, hj'⟩
    · exact hnil ep.symm
    · exact h.sawNil j hj'
  · intro j p hj hp
    rcases getElem?_set_pc _ _ _ _ _ _ hi hj with ⟨_, ep⟩ | ⟨_, hj'⟩
    · subst ep
      rcases hp with hp | hp | hp
      · exact hal (Or.inl hp)
      · exact hal (Or.inr hp)
      · exact h.alloc i pc hi (Or.inr (Or.inr (hst ▸ hp)))
    · exact h.alloc j p hj' hp
  · intro j p c hj hc hp
    rcases getElem?_set_pc _ _ _ _ _ _ hi hj with ⟨ej, ep⟩ | ⟨_, hj'⟩
    · subst ej ep
      exact h.kept j pc c hi hc (hst ▸ hp)
    · exact h.kept j p c hj' hc hp
  · intro k hk
    apply h.fresh k
    intro j p c hj hc hck
    by_cases hji : j = i
    · subst hji
      rw [hi] at hj
      cases hj
      rw [← hst]
      exact hk j pc' c (getElem?_set_self_pc _ _ _ _ hi) hc hck
    · exact hk j p c (by rw [List.getElem?_set_ne (fun e => hji e.symm)]; exact hj) hc hck

/-- The invariant after the goroutine that saw a nil map has allocated it. -/
theorem inv_allocate {q : Query} {calls : List (GoString × Term)} {r : Run}
    (h : Inv q calls r) {i : Nat} (hi : r.pcs[i]? = some (Pc.atAlloc true)) :
    Inv q calls ⟨⟨r.shared.locked, r.shared.query.withTerm (some GoMap.empty), false⟩,
      r.pcs.set i Pc.atStore⟩ := by
  have hlocked : r.shared.locked = true := h.held.2 ⟨i, _, hi, rfl⟩
  have hnone : r.shared.query.Term = none := h.sawNil i hi
  obtain ⟨hex, hheld⟩ := lock_move h hi Pc.atStore r.shared.locked (fun _ => Or.inl rfl)
    (by simp [Pc.inside, hlocked])
  obtain ⟨s1, s2, s3, s4⟩ := h.slots
  refine ⟨by simpa using h.len, rfl, ⟨s1, s2, s3, s4⟩, hex, hheld, ?_, ?_, ?_, ?_⟩
  · intro j hj
    rcases getElem?_set_pc _ _ _ _ _ _ hi hj with ⟨_, ep⟩ | ⟨nj, hj'⟩
    · cases ep
    · exact (nj (h.excl j i _ _ hj' hi rfl rfl)).elim
  · intro j p _ _
    simp [Query.withTerm, Query.Term]
  · intro j p c hj _ hp
    rcases getElem?_set_pc _ _ _ _ _ _ hi hj with ⟨_, ep⟩ | ⟨_, hj'⟩
    · subst ep
      cases hp
    · exact absurd hnone (h.alloc j p hj' (Or.inr (Or.inr hp)))
  · intro k hk
    have hold := h.fresh k (by
      intro j p c hj hc hck
      by_cases hji : j = i
      · subst hji
        rw [hi] at hj
        cases hj
        rfl
      · exact hk j p c (by rw [List.getElem?_set_ne (fun e => hji e.symm)]; exact hj) hc hck)
    rw [hnone] at hold
    exact hold

/-- The invariant after a goroutine has made its assignment. -/
theorem inv_store {q : Query} {calls : List (GoString × Term)}
    (hd : (calls.map Prod.fst).Nodup) {r : Run} (h : Inv q calls r) {i : Nat}
    {c : GoString × Term} (hi : r.pcs[i]? = some Pc.atStore) (hc : calls[i]? = some c)
    (m : GoMap Term) (hm : r.shared.query.Term = some m) :
    Inv q calls ⟨⟨r.shared.locked, r.shared.query.withTerm (some (m.set c.1 c.2)), false⟩,
      r.pcs.set i Pc.atUnlock⟩ := by
  have hlocked : r.shared.locked = true := h.held.2 ⟨i, _, hi, rfl⟩
  obtain ⟨hex, hheld⟩ := lock_move h hi Pc.atUnlock r.shared.locked (fun _ => Or.inl rfl)
    (by simp [Pc.inside, hlocked])
  obtain ⟨s1, s2, s3, s4⟩ := h.slots
  have hnew : allocated (r.shared.query.withTerm (some (m.set c.1 c.2))).Term = m.set c.1 c.2 :=
    rfl
  have hold : allocated r.shared.query.Term = m := by rw [hm]; rfl
  refine ⟨by simpa using h.len, rfl, ⟨s1, s2, s3, s4⟩, hex, hheld, ?_, ?_, ?_, ?_⟩
  · intro j hj
    rcases getElem?_set_pc _ _ _ _ _ _ hi hj with ⟨_, ep⟩ | ⟨nj, hj'⟩
    · cases ep
    · exact (nj (h.excl j i _ _ hj' hi rfl rfl)).elim
  · intro j p _ _
    simp [Query.withTerm, Query.Term]
  · intro j p cj hj hcj hp
    show (allocated (r.shared.query.withTerm (some (m.set c.1 c.2))).Term).get? cj.1 = some cj.2
    rw [hnew]
    rcases getElem?_set_pc _ _ _ _ _ _ hi hj with ⟨ej, _⟩ | ⟨nj, hj'⟩
    · subst ej
      rw [hc] at hcj
      cases hcj
      exact GoMap.get?_set_same _ _ _
    · have hne : cj.1 ≠ c.1 := fun e => nj (fields_inj calls hd j i cj c hcj hc e)
      rw [GoMap.get?_set_other _ _ _ _ hne, ← hold]
      exact h.kept j p cj hj' hcj hp
  · intro k hk
    show (allocated (r.shared.query.withTerm (some (m.set c.1 c.2))).Term).get? k = _
    rw [hnew]
    have hne : k ≠ c.1 := by
      intro e
      have := hk i Pc.atUnlock c (getElem?_set_self_pc _ _ _ _ hi) hc e.symm
      cases this
    rw [GoMap.get?_set_other _ _ _ _ hne, ← hold]
    apply h.fresh k
    intro j p cj hj hcj hck
    by_cases hji : j = i
    · subst hji
      rw [hi] at hj
      cases hj
      rfl
    · exact hk j p cj (by rw [List.getElem?_set_ne (fun e => hji e.symm)]; exact hj) hcj hck

/-- Every statement of every goroutine keeps the invariant. -/
theorem inv_step {q : Query} {calls : List (GoString × Term)}
    (hd : (calls.map Prod.fst).Nodup) {r : Run} (h : Inv q calls r) (i : Nat) :
    Inv q calls (step calls i r) := by
  unfold step
  rw [h.noPanic]
  simp only [Bool.false_eq_true, if_false]
  cases hc : calls[i]? with
  | none => exact h
  | some c =>
    cases hi : r.pcs[i]? with
    | none => exact h
    | some pc =>
      have hnp := h.noPanic
      obtain ⟨⟨locked, query, panicked⟩, pcs⟩ := r
      simp only at hnp hi
      subst hnp
      cases pc with
      | atLock =>
        cases hl : locked with
        | true =>
          subst hl
          exact inv_move h hi Pc.atLock true (fun x => by cases x) (by simp [Pc.inside]) rfl
            (fun x => by cases x) (fun x => by rcases x with x | x <;> cases x)
        | false =>
          subst hl
          exact inv_move h hi Pc.atTest true (fun _ => Or.inr rfl) (by simp [Pc.inside]) rfl
            (fun x => by cases x) (fun x => by rcases x with x | x <;> cases x)
      | atTest =>
        have hlocked : locked = true := h.held.2 ⟨i, _, hi, rfl⟩
        subst hlocked
        cases ht : query.Term with
        | none =>
          have := inv_move h hi (Pc.atAlloc true) true (fun _ => Or.inl rfl)
            (by simp [Pc.inside]) rfl (fun _ => ht) (fun x => by rcases x with x | x <;> cases x)
          simpa [stepSetTerm, ht] using this
        | some m =>
          have := inv_move h hi (Pc.atAlloc false) true (fun _ => Or.inl rfl)
            (by simp [Pc.inside]) rfl (fun x => by cases x)
            (fun _ => by simp [ht])
          simpa [stepSetTerm, ht] using this
      | atAlloc sawNil =>
        have hlocked : locked = true := h.held.2 ⟨i, _, hi, rfl⟩
        subst hlocked
        cases sawNil with
        | true => exact inv_allocate h hi
        | false =>
          exact inv_move h hi Pc.atStore true (fun _ => Or.inl rfl) (by simp [Pc.inside]) rfl
            (fun x => by cases x) (fun _ => h.alloc i _ hi (Or.inl rfl))
      | atStore =>
        have hlocked : locked = true := h.held.2 ⟨i, _, hi, rfl⟩
        subst hlocked
        cases ht : query.Term with
        | none => exact absurd ht (h.alloc i _ hi (Or.inr (Or.inl rfl)))
        | some m =>
          have := inv_store hd h hi hc m ht
          simpa [stepSetTerm, ht] using this
      | atUnlock =>
        exact inv_move h hi Pc.returned false (fun x => by cases x) (by simp [Pc.inside]) rfl
          (fun x => by cases x) (fun x => by rcases x with x | x <;> cases x)
      | returned =>
        have := inv_move h hi Pc.returned locked (fun x => by cases x) (by simp [Pc.inside]) rfl
          (fun x => by cases x) (fun x => by rcases x with x | x <;> cases x)
        exact this

/-- The invariant holds at every moment of every interleaving. -/
theorem inv_run {q : Query} {calls : List (GoString × Term)}
    (hd : (calls.map Prod.fst).Nodup) (sched : List Nat) :
    ∀ r, Inv q calls r → Inv q calls (run calls sched r) := by
  induction sched with
  | nil => exact fun r h => h
  | cons i rest ih => exact fun r h => ih _ (inv_step hd h i)

theorem run_append (calls : List (GoString × Term)) (s1 s2 : List Nat) (r : Run) :
    run calls (s1 ++ s2) r = run calls s2 (run calls s1 r) := by
  simp [run, List.foldl_append]

theorem run_no_calls (sched : List Nat) (r : Run) : run [] sched r = r := by
  induction sched with
  | nil => rfl
  | cons i rest ih =>
    have : step [] i r = r := by
      unfold step
      split_ifs <;> rfl
    simp only [run, List.foldl_cons, this] at ih ⊢
    exact ih

theorem remaining_set : ∀ (pcs : List Pc) (i : Nat) (pc pc' : Pc), pcs[i]? = some pc →
    ((pcs.set i pc').map Pc.remaining).sum + pc.remaining
      = (pcs.map Pc.remaining).sum + pc'.remaining
  | [], i, pc, pc', h => by simp at h
  | p :: rest, 0, pc, pc', h => by
    simp only [List.getElem?_cons_zero, Option.some.injEq] at h
    subst h
    simp only [List.set_cons_zero, List.map_cons, List.sum_cons]
    omega
  | p :: rest, i + 1, pc, pc', h => by
    simp only [List.getElem?_cons_succ] at h
    have := remaining_set rest i pc pc' h
    simp only [List.set_cons_succ, List.map_cons, List.sum_cons]
    omega

/-- While a goroutine has not returned, some goroutine can execute a
statement: the one that holds the mutex, or any one when the mutex is free. -/
theorem progress {q : Query} {calls : List (GoString × Term)} {r : Run} (h : Inv q calls r)
    (hf : ¬ r.finished) : ∃ i, (step calls i r).remaining < r.remaining := by
  have key : ∀ (i : Nat) (pc : Pc) (c : GoString × Term), r.pcs[i]? = some pc →
      calls[i]? = some c →
      (stepSetTerm c.1 c.2 pc r.shared).1.remaining < pc.remaining →
      (step calls i r).remaining < r.remaining := by
    intro i pc c hi hc hlt
    have hs : step calls i r
        = ⟨(stepSetTerm c.1 c.2 pc r.shared).2, r.pcs.set i (stepSetTerm c.1 c.2 pc r.shared).1⟩ := by
      unfold step
      rw [h.noPanic]
      simp only [Bool.false_eq_true, if_false, hc, hi]
    rw [hs]
    have := remaining_set r.pcs i pc (stepSetTerm c.1 c.2 pc r.shared).1 hi
    simp only [Run.remaining]
    omega
  have hcall : ∀ (i : Nat) (pc : Pc), r.pcs[i]? = some pc → ∃ c, calls[i]? = some c := by
    intro i pc hi
    have hlt := (List.getElem?_eq_some_iff.1 hi).1
    rw [h.len] at hlt
    exact ⟨calls[i], List.getElem?_eq_getElem hlt⟩
  cases hl : r.shared.locked with
  | true =>
    obtain ⟨i, pc, hi, hin⟩ := h.held.1 hl
    obtain ⟨c, hc⟩ := hcall i pc hi
    refine ⟨i, key i pc c hi hc ?_⟩
    cases pc with
    | atLock => cases hin
    | returned => cases hin
    | atTest => simp [stepSetTerm, Pc.remaining]
    | atAlloc b => simp [stepSetTerm, Pc.remaining]
    | atUnlock => simp [stepSetTerm, Pc.remaining]
    | atStore =>
      cases ht : r.shared.query.Term with
      | none => exact absurd ht (h.alloc i _ hi (Or.inr (Or.inl rfl)))
      | some m => simp [stepSetTerm, ht, Pc.remaining]
  | false =>
    simp only [Run.finished, not_forall] at hf
    obtain ⟨pc, hmem, hne⟩ := hf
    obtain ⟨i, hi⟩ := List.mem_iff_getElem?.1 hmem
    obtain ⟨c, hc⟩ := hcall i pc hi
    refine ⟨i, key i pc c hi hc ?_⟩
    have hout : pc.inside = false := by
      cases hin : pc.inside with
      | false => rfl
      | true =>
        have := h.held.2 ⟨i, pc, hi, hin⟩
        rw [hl] at this
        cases this
    cases pc with
    | atLock => simp [stepSetTerm, hl, Pc.remaining]
    | returned => exact absurd rfl hne
    | atTest => cases hout
    | atAlloc b => cases hout
    | atUnlock => cases hout
    | atStore => cases hout

theorem finished_of_remaining_zero (r : Run) (h : r.remaining = 0) : r.finished := by
  intro pc hpc
  have h0 : pc.remaining = 0 := by
    have := List.sum_eq_zero_iff.1 h (pc.remaining) (List.mem_map.2 ⟨pc, hpc, rfl⟩)
    exact this
  cases pc <;> first | rfl | cases h0

/-- Every moment of an execution can be continued until every goroutine has
returned. -/
theorem completes {q : Query} {calls : List (GoString × Term)}
    (hd : (calls.map Prod.fst).Nodup) :
    ∀ (n : Nat) (r : Run), Inv q calls r → r.remaining ≤ n →
      ∃ more, (run calls more r).finished
  | 0, r, _, hn => ⟨[], finished_of_remaining_zero r (Nat.le_zero.1 hn)⟩
  | n + 1, r, h, hn => by
    by_cases hf : r.finished
    · exact ⟨[], hf⟩
    · obtain ⟨i, hi⟩ := progress h hf
      obtain ⟨more, hm⟩ := completes hd n (step calls i r) (inv_step hd h i) (by omega)
      exact ⟨i :: more, hm⟩

/-- What the Term collection holds once every goroutine has returned. -/
theorem finished_lookup {q : Query} {calls : List (GoString × Term)} {r : Run}
    (h : Inv q calls r) (hf : r.finished) :
    (∀ c ∈ calls, (allocated r.shared.query.Term).get? c.1 = some c.2)
    ∧ (∀ k, k ∉ calls.map Prod.fst →
        (allocated r.shared.query.Term).get? k = (allocated q.Term).get? k) := by
  constructor
  · intro c hc
    obtain ⟨i, hi⟩ := List.mem_iff_getElem?.1 hc
    have hlt : i < r.pcs.length := by
      rw [h.len]
      exact (List.getElem?_eq_some_iff.1 hi).1
    have hpc : r.pcs[i]? = some Pc.returned := by
      rw [List.getElem?_eq_getElem hlt, hf _ (List.getElem_mem hlt)]
    exact h.kept i _ c hpc hi rfl
  · intro k hk
    apply h.fresh k
    intro i pc c _ hc hck
    exact absurd (List.mem_map.2 ⟨c, List.getElem?_mem hc, hck⟩) hk

/-! ## C11: concurrent callers of `SetTerm` lose no update -/

/-- C11. Let `n` goroutines call `SetTerm` once each on the same Query, with
pairwise distinct field names.  Executions are the interleavings of the
statements of the callers, `Lock` blocking while another caller holds the
mutex.  Then (1) no interleaving panics; (2) at the end of every interleaving
in which all callers have returned, the mutex is free, the Query is the one
the same calls leave when made one after the other, its Term collection is
allocated when there was a caller, holds for each caller's field name the
Term that caller passed and for every other field name what it held at the
start, and has exactly `n` entries when it had none at the start (nil, or
allocated and empty); (3) every interleaving can be continued until all
callers have returned. -/
theorem concurrent_setTerm (q : Query) (calls : List (GoString × Term))
    (hd : (calls.map Prod.fst).Nodup) :
    (∀ sched, (run calls sched (start q calls.length)).shared.panicked = false)
    ∧ (∀ sched, (run calls sched (start q calls.length)).finished →
        (run calls sched (start q calls.length)).shared.locked = false
        ∧ (run calls sched (start q calls.length)).shared.query = q.SetTerms calls
        ∧ (calls ≠ [] → (run calls sched (start q calls.length)).shared.query.Term ≠ none)
        ∧ (∀ c ∈ calls,
            (allocated (run calls sched (start q calls.length)).shared.query.Term).get? c.1
              = some c.2)
        ∧ (∀ k, k ∉ calls.map Prod.fst →
            (allocated (run calls sched (start q calls.length)).shared.query.Term).get? k
              = (allocated q.Term).get? k)
        ∧ ((allocated q.Term).len = 0 →
            (allocated (run calls sched (start q calls.length)).shared.query.Term).len
              = calls.length))
    ∧ (∀ sched, ∃ more, (run calls (sched ++ more) (start q calls.length)).finished) := by
  have hinv : ∀ sched, Inv q calls (run calls sched (start q calls.length)) :=
    fun sched => inv_run hd sched _ (inv_start q calls)
  refine ⟨fun sched => (hinv sched).noPanic, ?_, ?_⟩
  · intro sched hf
    have h := hinv sched
    obtain ⟨hkept, hfresh⟩ := finished_lookup h hf
    have hterm : calls ≠ [] → (run calls sched (start q calls.length)).shared.query.Term ≠ none := by
      intro hne
      obtain ⟨c, rest, hcr⟩ := List.exists_cons_of_ne_nil hne
      have hlt : 0 < (run calls sched (start q calls.length)).pcs.length := by
        rw [h.len, hcr]
        simp
      have hpc : (run calls sched (start q calls.length)).pcs[0]? = some Pc.returned := by
        rw [List.getElem?_eq_getElem hlt, hf _ (List.getElem_mem hlt)]
      exact h.alloc 0 _ hpc (Or.inr (Or.inr rfl))
    have hmap : allocated (run calls sched (start q calls.length)).shared.query.Term
        = (allocated q.Term).setAll calls := by
      apply GoMap.ext_get?
      intro k
      by_cases hk : k ∈ calls.map Prod.fst
      · obtain ⟨pre, v, post, he, hp⟩ := exists_last_call calls k hk
        have hmem : (k, v) ∈ calls := by
          rw [he]
          simp
        rw [hkept (k, v) hmem]
        conv_rhs => rw [he]
        exact (GoMap.get?_setAll_last _ pre post k v hp).symm
      · rw [hfresh k hk, GoMap.get?_setAll_other calls _ k hk]
    obtain ⟨hs, b1, b2, b3, b4, b5⟩ := Query.SetTerms_spec calls q
    refine ⟨?_, ?_, hterm, hkept, hfresh, ?_⟩
    · cases hl : (run calls sched (start q calls.length)).shared.locked with
      | false => rfl
      | true =>
        obtain ⟨i, pc, hi, hin⟩ := h.held.1 hl
        rw [hf pc (List.getElem?_mem hi)] at hin
        cases hin
    · obtain ⟨s1, s2, s3, s4⟩ := h.slots
      apply Query.ext_slots
      · rw [s1, b1]
      · rw [s2, b2]
      · rw [s3, b3]
      · by_cases hc : calls = []
        · subst hc
          rw [run_no_calls]
          rfl
        · have e1 := hterm hc
          have e2 := b5 hc
          rw [← hs] at hmap
          cases ht' : (run calls sched (start q calls.length)).shared.query.Term with
          | none => exact absurd ht' e1
          | some m' =>
            cases ht : (q.SetTerms calls).Term with
            | none => exact absurd ht e2
            | some m =>
              rw [ht', ht] at hmap
              simp only [allocated] at hmap
              rw [hmap]
      · rw [s4, b4]
    · intro hq
      have := GoMap.len_of_keys
        (allocated (run calls sched (start q calls.length)).shared.query.Term)
        (calls.map Prod.fst) hd (by
          intro k
          rw [hmap]
          exact GoMap.isSome_get?_setAll _ hq calls k)
      simpa using this
  · intro sched
    obtain ⟨more, hm⟩ := completes hd _ _ (hinv sched) (le_refl _)
    exact ⟨more, by rw [run_append]; exact hm⟩

/-- C11 at a concrete input: the two callers `twoCallers` on a fresh Query,
the second taking the mutex first, the first trying in between. -/
theorem concurrent_setTerm_witness :
    (twoCallers.map Prod.fst).Nodup
    ∧ (run twoCallers [1, 0, 1, 1, 0, 1, 1, 0, 0, 0, 0, 0] (start (NewQuery []) 2)).finished
    ∧ (allocated (NewQuery []).Term).len = 0
    ∧ (allocated (run twoCallers [1, 0, 1, 1, 0, 1, 1, 0, 0, 0, 0, 0]
        (start (NewQuery []) 2)).shared.query.Term).len = 2 :=
  ⟨by decide, by decide, rfl,
    ((concurrent_setTerm (NewQuery []) twoCallers (by decide)).2.1
      [1, 0, 1, 1, 0, 1, 1, 0, 0, 0, 0, 0] (by decide)).2.2.2.2.2 rfl⟩

end ES
